import Mathlib


/-! The dank library: regex → NFA → DFA pipeline and the ranking encoder.

A shallow embedding of `src/dank/nfa.cpp`, `src/dank/dfa.cpp` (Thompson construction,
ε-closure, powerset construction, reversal, Brzozowski pipeline) and of the ranking
engine declared in `src/dank/_dank/include/encoder.h`.

Conventions of the embedding

* `unsigned char` is `Fin 256`; `size_t` indices are `Nat`.
* `std::set<size_t>` is a strictly ascending `List Nat`, `std::map<unsigned char, V>` a list of
  pairs with strictly ascending keys; `std::vector` is a `List`.
* A failed `assert` and an out-of-range container access (undefined behaviour in C++) are
  `Err.abort`.
* Loops and recursion are bounded by a `fuel` argument; running out of it is `Err.fuel`, which
  is kept apart from `Err.abort`.
-/

namespace Dank

/-- The two ways an embedded routine can stop without a result. -/
inductive Err where
  | abort
  | fuel
  deriving DecidableEq, Repr

abbrev Byte := Fin 256

/-! ## Containers -/

/-- Ordered insertion, `std::set<size_t>::insert`. -/
def setInsert (x : Nat) : List Nat → List Nat
  | [] => [x]
  | y :: ys =>
    if x < y then x :: y :: ys
    else if x = y then y :: ys
    else y :: setInsert x ys

/-- Range insertion `s.insert(first, last)`: the elements are inserted one by one. -/
def setInsertAll (xs : List Nat) (s : List Nat) : List Nat :=
  xs.foldl (fun acc x => setInsert x acc) s

/-- Lookup `std::map::find`. -/
def mapFind {α : Type} (c : Byte) : List (Byte × α) → Option α
  | [] => none
  | (k, v) :: r => if k = c then some v else mapFind c r

/-- The effect of `m[c] = f(m[c])`, where `operator[]` default-constructs a missing entry
(`f none` is the update applied to the default value). Keys stay ascending. -/
def mapUpsert {α : Type} (c : Byte) (f : Option α → α) : List (Byte × α) → List (Byte × α)
  | [] => [(c, f none)]
  | (k, v) :: r =>
    if c < k then (c, f none) :: (k, v) :: r
    else if c = k then (k, f (some v)) :: r
    else (k, v) :: mapUpsert c f r

/-! ## Automata (`nfa.hpp`, `dfa.h`) -/

structure NFA.State where
  final : Bool
  trans : List (Byte × List Nat)
  deriving DecidableEq, Repr

structure NFA where
  init : List Nat
  pool : List NFA.State
  deriving DecidableEq, Repr

structure DFA.State where
  final : Bool
  trans : List (Byte × Nat)
  deriving DecidableEq, Repr

structure DFA where
  init : Nat
  pool : List DFA.State
  deriving DecidableEq, Repr

/-- Value-initialised `NFA::State()`. -/
def NFA.State.new : NFA.State := { final := false, trans := [] }

/-- Value-initialised `DFA::State()`. -/
def DFA.State.new : DFA.State := { final := false, trans := [] }

/-- `NFA::insert`: `assert(s < pool.size()); pool[s].trans[c].insert(t);` -/
def NFA.insert (nfa : NFA) (s : Nat) (c : Byte) (t : Nat) : Except Err NFA :=
  match nfa.pool[s]? with
  | none => .error .abort
  | some st =>
    .ok { nfa with
          pool := nfa.pool.set s
            { st with trans := mapUpsert c (fun o => setInsert t (o.getD [])) st.trans } }

/-- The assignment `st.trans[c] = t` on a DFA state. -/
def DFA.State.setEdge (st : DFA.State) (c : Byte) (t : Nat) : DFA.State :=
  { st with trans := mapUpsert c (fun _ => t) st.trans }

/-- `DFA::insert`: both assertions, then `pool[s].trans[c] = t`. -/
def DFA.insert (dfa : DFA) (s : Nat) (c : Byte) (t : Nat) : Except Err DFA :=
  match dfa.pool[s]? with
  | none => .error .abort
  | some st =>
    match mapFind c st.trans with
    | some _ => .error .abort
    | none => .ok { dfa with pool := dfa.pool.set s (st.setEdge c t) }

/-- The inner `for` of `get_closure`: every ε-successor not yet in `req` is inserted into `req`
and pushed on the queue. -/
def closureVisit : List Nat → List Nat × List Nat → List Nat × List Nat
  | [], st => st
  | i :: is, (req, q) =>
    if i ∈ req then closureVisit is (req, q)
    else closureVisit is (setInsert i req, q ++ [i])

/-- The `while (q.size())` loop of `NFA::get_closure`. -/
def NFA.closureLoop (nfa : NFA) : Nat → List Nat → List Nat → Except Err (List Nat)
  | _, [], req => .ok req
  | 0, _ :: _, _ => .error .fuel
  | fuel + 1, u :: q, req =>
    match nfa.pool[u]? with
    | none => .error .abort
    | some st =>
      match mapFind 0 st.trans with
      | none => NFA.closureLoop nfa fuel q req
      | some x =>
        let r := closureVisit x (req, q)
        NFA.closureLoop nfa fuel r.2 r.1

/-- `NFA::get_closure`: the queue starts with the members of `req` in ascending order. -/
def NFA.get_closure (nfa : NFA) (fuel : Nat) (req : List Nat) : Except Err (List Nat) :=
  nfa.closureLoop fuel req req

/-- The early-exit scan `for (j : S) if (nfa.pool[j].final) { …final = 1; break; }`. The
program reads `nfa.pool[j]` without a bounds check; for `j` outside the pool the read has no
defined result and the embedding stops there. -/
def NFA.anyFinal (nfa : NFA) : List Nat → Except Err Bool
  | [] => .ok false
  | j :: js =>
    match nfa.pool[j]? with
    | none => .error .abort
    | some st => if st.final then .ok true else NFA.anyFinal nfa js

/-- The body `_[j->first].insert(j->second.begin(), j->second.end())` run over the entries of
one state's map from `upper_bound(0)` on, i.e. over all entries with a key above 0. -/
def collectTrans (entries : List (Byte × List Nat)) (acc : List (Byte × List Nat)) :
    List (Byte × List Nat) :=
  (entries.filter (fun e => 0 < e.1)).foldl
    (fun a e => mapUpsert e.1 (fun o => setInsertAll e.2 (o.getD [])) a) acc

/-- The first double loop of an iteration of `determinize`: builds the map `_`. -/
def NFA.collect (nfa : NFA) : List Nat → List (Byte × List Nat) →
    Except Err (List (Byte × List Nat))
  | [], acc => .ok acc
  | i :: is, acc =>
    match nfa.pool[i]? with
    | none => .error .abort
    | some st => NFA.collect nfa is (collectTrans st.trans acc)

/-- Lookup in `map<set<size_t>, size_t>`; only `find`, `operator[]` on keys are used, so the
map is kept as an association list in insertion order. -/
def subsetFind (s : List Nat) : List (List Nat × Nat) → Option Nat
  | [] => none
  | (k, v) :: r => if k = s then some v else subsetFind s r

/-- The local state of `NFA::determinize`. -/
structure DetState where
  dfa : DFA
  m : List (List Nat × Nat)
  q : List (List Nat)
  inQ : List Bool
  deriving DecidableEq, Repr

/-- One pass of the second `for` of `determinize`, over the entries of `_` in key order. -/
def NFA.detEdges (nfa : NFA) (fuel : Nat) (u1 : Nat) :
    List (Byte × List Nat) → DetState → Except Err DetState
  | [], st => .ok st
  | (c, s) :: rest, st => do
    let s ← nfa.get_closure fuel s
    match subsetFind s st.m with
    | none =>
      let v1 := st.dfa.pool.length
      let dfa := { st.dfa with pool := st.dfa.pool ++ [DFA.State.new] }
      let dfa ← dfa.insert u1 c v1
      let fin ← nfa.anyFinal s
      -- `dfa.pool.back().final = 1;`
      let dfa := if fin then { dfa with pool := dfa.pool.set v1 { final := true, trans := (dfa.pool.getD v1 DFA.State.new).trans } } else dfa
      NFA.detEdges nfa fuel u1 rest
        { dfa := dfa, m := st.m ++ [(s, v1)], q := st.q ++ [s], inQ := st.inQ ++ [true] }
    | some v =>
      let dfa ← st.dfa.insert u1 c v
      NFA.detEdges nfa fuel u1 rest { st with dfa := dfa }

/-- The `while (q.size())` loop of `NFA::determinize`. -/
def NFA.detLoop (nfa : NFA) : Nat → DetState → Except Err DFA
  | fuel, st =>
    match st.q with
    | [] => .ok st.dfa
    | u0 :: q =>
      match fuel with
      | 0 => .error .fuel
      | fuel + 1 => do
        -- `size_t u1 = m[u0];` (`operator[]` would insert a zero entry for a missing key)
        let (u1, m) := match subsetFind u0 st.m with
          | some i => (i, st.m)
          | none => (0, st.m ++ [(u0, 0)])
        -- `inQ[u1] = 0;`
        if u1 < st.inQ.length then
          let inQ := st.inQ.set u1 false
          let collected ← nfa.collect u0 []
          let st ← nfa.detEdges fuel u1 collected { dfa := st.dfa, m := m, q := q, inQ := inQ }
          NFA.detLoop nfa fuel st
        else .error .abort

/-- `NFA::determinize` (powerset construction). -/
def NFA.determinize (nfa : NFA) (fuel : Nat) : Except Err DFA := do
  let fin ← nfa.anyFinal nfa.init
  let dfa : DFA := { init := 0, pool := [{ DFA.State.new with final := fin }] }
  nfa.detLoop fuel { dfa := dfa, m := [(nfa.init, 0)], q := [nfa.init], inQ := [true] }

/-- `DFA::reverse`, inner loop over one state's transitions: `nfa.insert(j->second, j->first, i)`. -/
def reverseEdges (i : Nat) : List (Byte × Nat) → NFA → Except Err NFA
  | [], nfa => .ok nfa
  | (c, t) :: rest, nfa => do
    let nfa ← nfa.insert t c i
    reverseEdges i rest nfa

/-- `DFA::reverse`, outer loop `for (i = 0; i < dfa.pool.size(); i++)`; `states` is the part of
the pool from index `i` on. -/
def reverseLoop : Nat → List DFA.State → NFA → Except Err NFA
  | _, [], nfa => .ok nfa
  | i, st :: rest, nfa => do
    let nfa ← reverseEdges i st.trans nfa
    let nfa := if st.final then { nfa with init := setInsert i nfa.init } else nfa
    reverseLoop (i + 1) rest nfa

/-- `DFA::reverse`. -/
def DFA.reverse (dfa : DFA) : Except Err NFA := do
  let nfa : NFA := { init := [], pool := List.replicate dfa.pool.length NFA.State.new }
  let nfa ← reverseLoop 0 dfa.pool nfa
  -- `nfa.pool[dfa.init].final = 1;`
  match nfa.pool[dfa.init]? with
  | none => .error .abort
  | some st => .ok { nfa with pool := nfa.pool.set dfa.init { st with final := true } }

/-! ## Thompson construction (`NFA::from_regex`, `NFA::_from_regex`) -/

/-- The byte `'\\'`. -/
def BSLASH : Byte := 92
/-- The byte `'('`. -/
def LPAREN : Byte := 40
/-- The byte `')'`. -/
def RPAREN : Byte := 41
/-- The byte `'|'`. -/
def PIPE : Byte := 124
/-- The byte `'?'`. -/
def QMARK : Byte := 63
/-- The byte `'*'`. -/
def STAR : Byte := 42
/-- The byte `'+'`. -/
def PLUS : Byte := 43

/-- The scanning loop `for (I i = lo; i != hi; ++i) switch (*i) { … }` of `_from_regex`,
followed by `assert(_ == 0)`. The pattern `p` is the whole buffer, positions are indices into
it; `depth` is the counter `_`, `opt` and `conc` are the iterators `option` and
`concatenation`. Reading outside the buffer aborts. -/
def scanLoop (p : List Byte) (hi : Nat) : Nat → Nat → Nat → Nat → Nat → Except Err (Nat × Nat)
  | fuel, i, depth, opt, conc =>
    if i = hi then
      if depth = 0 then .ok (opt, conc) else .error .abort
    else
      match fuel with
      | 0 => .error .fuel
      | fuel + 1 =>
        match p[i]? with
        | none => .error .abort
        | some ch =>
          if ch = BSLASH then
            scanLoop p hi fuel (i + 2) depth opt (if depth = 0 then i else conc)
          else if ch = LPAREN then
            scanLoop p hi fuel (i + 1) (depth + 1) opt (if depth = 0 then i else conc)
          else if ch = RPAREN then
            if depth = 0 then .error .abort
            else scanLoop p hi fuel (i + 1) (depth - 1) opt conc
          else if ch = PIPE then
            scanLoop p hi fuel (i + 1) depth (if depth = 0 then i else opt) conc
          else if ch = QMARK ∨ ch = STAR ∨ ch = PLUS then
            scanLoop p hi fuel (i + 1) depth opt conc
          else
            scanLoop p hi fuel (i + 1) depth opt (if depth = 0 then i else conc)

/-- Two `nfa.pool.push_back(NFA::State())`. -/
def NFA.push2 (nfa : NFA) : NFA :=
  { nfa with pool := nfa.pool ++ [NFA.State.new, NFA.State.new] }

/-- The branch of `_from_regex` that is taken for the range `[lo, hi)`. -/
inductive Shape where
  | single (ch : Byte)
  | escaped (c : Byte)
  | alt (option : Nat)
  | cat (concatenation : Nat)
  | opt
  | star
  | plus
  | paren
  deriving DecidableEq, Repr

/-- The test `hi - lo == 2 && *lo == '\\'`; when it holds the escaped byte `*(lo + 1)` is
returned. -/
def escapedAt (p : List Byte) (lo hi : Nat) : Except Err (Option Byte) :=
  if hi = lo + 2 then
    match p[lo]? with
    | none => .error .abort
    | some ch =>
      if ch = BSLASH then
        match p[lo + 1]? with
        | none => .error .abort
        | some c => .ok (some c)
      else .ok none
  else .ok none

/-- The tests at the end of `_from_regex`, on `*(hi - 1)` and `*lo`, once neither a top-level
`|` nor a concatenation point was found; the last one is
`assert(*lo == '(' && *(hi - 1) == ')')`. -/
def classifyPostfix (p : List Byte) (lo hi : Nat) : Except Err Shape :=
  match (if hi = 0 then none else p[hi - 1]?) with
  | none => .error .abort
  | some last =>
    if last = QMARK then .ok .opt
    else if last = STAR then .ok .star
    else if last = PLUS then .ok .plus
    else
      match p[lo]? with
      | none => .error .abort
      | some first =>
        if first = LPAREN ∧ last = RPAREN then .ok .paren else .error .abort

/-- The control flow of `_from_regex` up to the choice of the branch: the two base cases, the
scan, then `option != lo`, `concatenation != lo` and the tests on the last byte. -/
def classify (p : List Byte) (fuel lo hi : Nat) : Except Err Shape :=
  if hi = lo + 1 then
    match p[lo]? with
    | none => .error .abort
    | some ch => .ok (.single ch)
  else
    match escapedAt p lo hi with
    | .error e => .error e
    | .ok (some c) => .ok (.escaped c)
    | .ok none =>
      match scanLoop p hi fuel lo 0 lo lo with
      | .error e => .error e
      | .ok (option, concatenation) =>
        if option ≠ lo then .ok (.alt option)
        else if concatenation ≠ lo then .ok (.cat concatenation)
        else classifyPostfix p lo hi

/-- The body of the branch `option != lo`; `recur` is the recursive call `_from_regex`. -/
def thompsonAlt (recur : NFA → Nat → Nat → Nat → Nat → Except Err NFA)
    (nfa : NFA) (s t lo option hi : Nat) : Except Err NFA := do
  let i0 := nfa.pool.length
  let i1 := nfa.pool.length + 1
  let nfa := nfa.push2
  let nfa ← nfa.insert s 0 i0
  let nfa ← nfa.insert i1 0 t
  let nfa ← recur nfa i0 i1 lo option
  let i0 := nfa.pool.length
  let i1 := nfa.pool.length + 1
  let nfa := nfa.push2
  let nfa ← nfa.insert s 0 i0
  let nfa ← nfa.insert i1 0 t
  recur nfa i0 i1 (option + 1) hi

/-- The body of the branch `concatenation != lo`. -/
def thompsonCat (recur : NFA → Nat → Nat → Nat → Nat → Except Err NFA)
    (nfa : NFA) (s t lo concatenation hi : Nat) : Except Err NFA := do
  let i0 := nfa.pool.length
  let i1 := nfa.pool.length + 1
  let nfa := nfa.push2
  let nfa ← nfa.insert i0 0 i1
  let nfa ← recur nfa s i0 lo concatenation
  recur nfa i1 t concatenation hi

/-- The body of the branch `*(hi - 1) == '?'`. -/
def thompsonOpt (recur : NFA → Nat → Nat → Nat → Nat → Except Err NFA)
    (nfa : NFA) (s t lo hi : Nat) : Except Err NFA := do
  let i0 := nfa.pool.length
  let i1 := nfa.pool.length + 1
  let nfa := nfa.push2
  let nfa ← nfa.insert s 0 i0
  let nfa ← nfa.insert s 0 t
  let nfa ← nfa.insert i1 0 t
  recur nfa i0 i1 lo (hi - 1)

/-- The body of the branch `*(hi - 1) == '*'`. -/
def thompsonStar (recur : NFA → Nat → Nat → Nat → Nat → Except Err NFA)
    (nfa : NFA) (s t lo hi : Nat) : Except Err NFA := do
  let i0 := nfa.pool.length
  let i1 := nfa.pool.length + 1
  let nfa := nfa.push2
  let nfa ← nfa.insert s 0 i0
  let nfa ← nfa.insert s 0 t
  let nfa ← nfa.insert i1 0 i0
  let nfa ← nfa.insert i1 0 t
  recur nfa i0 i1 lo (hi - 1)

/-- The body of the branch `*(hi - 1) == '+'`: one copy of the operand, then a starred
copy. -/
def thompsonPlus (recur : NFA → Nat → Nat → Nat → Nat → Except Err NFA)
    (nfa : NFA) (s t lo hi : Nat) : Except Err NFA := do
  let i0 := nfa.pool.length
  let i1 := nfa.pool.length + 1
  let nfa := nfa.push2
  let nfa ← nfa.insert i0 0 i1
  let nfa ← recur nfa s i0 lo (hi - 1)
  -- `s = i1;` then the body of the star branch
  thompsonStar recur nfa i1 t lo hi

/-- `NFA::_from_regex(s, t, lo, hi)` on the buffer `p`. -/
def NFA.fromRegexAux (p : List Byte) : Nat → NFA → Nat → Nat → Nat → Nat → Except Err NFA
  | 0, _, _, _, _, _ => .error .fuel
  | fuel + 1, nfa, s, t, lo, hi =>
    match classify p fuel lo hi with
    | .error e => .error e
    | .ok (.single ch) => nfa.insert s ch t
    | .ok (.escaped c) => nfa.insert s c t
    | .ok (.alt option) => thompsonAlt (NFA.fromRegexAux p fuel) nfa s t lo option hi
    | .ok (.cat concatenation) =>
      thompsonCat (NFA.fromRegexAux p fuel) nfa s t lo concatenation hi
    | .ok .opt => thompsonOpt (NFA.fromRegexAux p fuel) nfa s t lo hi
    | .ok .star => thompsonStar (NFA.fromRegexAux p fuel) nfa s t lo hi
    | .ok .plus => thompsonPlus (NFA.fromRegexAux p fuel) nfa s t lo hi
    | .ok .paren => NFA.fromRegexAux p fuel nfa s t (lo + 1) (hi - 1)

/-- `NFA::from_regex(lo, hi)` called on the whole pattern `p`. -/
def NFA.from_regex (fuel : Nat) (p : List Byte) : Except Err NFA := do
  let nfa : NFA := { init := [0], pool := [NFA.State.new, { NFA.State.new with final := true }] }
  let nfa ← NFA.fromRegexAux p fuel nfa 0 1 0 p.length
  let init ← nfa.get_closure fuel nfa.init
  .ok { nfa with init := init }

/-- The composition `determinize(reverse(determinize(reverse(D))))`, the minimizer of the
specification, built from the embedded `reverse` and `determinize`. -/
def DFA.minimize (D : DFA) (fuel : Nat) : Except Err DFA := do
  let n1 ← D.reverse
  let d1 ← n1.determinize fuel
  let n2 ← d1.reverse
  n2.determinize fuel

/-- `DFA::from_regex` (Brzozowski's algorithm). -/
def DFA.from_regex (fuel : Nat) (regex : List Byte) : Except Err DFA := do
  let n0 ← NFA.from_regex fuel regex
  let d0 ← n0.determinize fuel
  let n1 ← d0.reverse
  let d1 ← n1.determinize fuel
  let n2 ← d1.reverse
  n2.determinize fuel

/-! ## The FST text (`DFA::to_fst`) -/

/-- The inner `for` of `to_fst` over the map of state `i`, in key order: each entry `c ↦ t`
writes `i << "\t" << t << "\t" << (int)c << "\t" << (int)c << endl` to the stream `ss`. -/
def fstEdges (i : Nat) : List (Byte × Nat) → String → String
  | [], ss => ss
  | (c, t) :: rest, ss =>
    fstEdges i rest
      (ss ++ toString i ++ "\t" ++ toString t ++ "\t" ++ toString c.val ++ "\t" ++
        toString c.val ++ "\n")

/-- The outer `for (i = 0; i < pool.size(); i++)` of `to_fst`; `states` is the part of the pool
from index `i` on. After the records of state `i` comes `ss << i << endl` when it is final. -/
def fstLoop : Nat → List DFA.State → String → String
  | _, [], ss => ss
  | i, st :: rest, ss =>
    let ss := fstEdges i st.trans ss
    let ss := if st.final then ss ++ toString i ++ "\n" else ss
    fstLoop (i + 1) rest ss

/-- `DFA::to_fst`: the text written to the string stream. -/
def DFA.to_fst (D : DFA) : String :=
  fstLoop 0 D.pool ""

/-! ## The ranking encoder (`encoder.h`)

Only the declarations of `DFAEncoder` are among the sources; its member functions are modelled
from sections 3, 4.5 and 6.2 of the specification. Big integers are `Nat`. -/

/-- Modelled from the spec: the records of an FST text (section 6.2), the input of the
`DFAEncoder` constructor, whose body is missing: transition records `src dst in out` with
`in = out` (kept once, as the label) and final markers. -/
structure Fst where
  arcs : List (Nat × Nat × Byte)
  finals : List Nat
  deriving DecidableEq, Repr

/-- Modelled from the spec: the state of a `DFAEncoder` (constructor body missing): the parsed
automaton and the fixed slice `n`. -/
structure Encoder where
  fst : Fst
  n : Nat
  deriving DecidableEq, Repr

/-- Ordered insertion of a byte into a strictly ascending list. -/
def byteInsert (x : Byte) : List Byte → List Byte
  | [] => [x]
  | y :: ys =>
    if x < y then x :: y :: ys
    else if x = y then y :: ys
    else y :: byteInsert x ys

/-- Modelled from the spec: the alphabet Σ of section 4.5.1 step 2 (constructor body missing),
the sorted distinct input labels; `sigma[k]` is the symbol of index `k`. -/
def Encoder.sigma (e : Encoder) : List Byte :=
  e.fst.arcs.foldl (fun acc a => byteInsert a.2.2 acc) []

/-- Modelled from the spec: the partial transition function δ of section 3 (constructor body
missing), read off the transition records. -/
def Encoder.delta (e : Encoder) (q : Nat) (c : Byte) : Option Nat :=
  (e.fst.arcs.find? (fun a => a.1 = q ∧ a.2.2 = c)).map (fun a => a.2.1)

/-- Modelled from the spec: the final set F of section 3 (constructor body missing). -/
def Encoder.isFinal (e : Encoder) (q : Nat) : Bool :=
  decide (q ∈ e.fst.finals)

/-- Modelled from the spec: the states discovered by reference, section 4.5.1 step 1
(constructor body missing). -/
def Encoder.states (e : Encoder) : List Nat :=
  e.fst.arcs.map (fun a => a.1) ++ e.fst.arcs.map (fun a => a.2.1) ++ e.fst.finals

/-- Modelled from the spec: the start state of section 4.5.1 step 3 (constructor body
missing): state 0 if present, else the smallest state that appears as a source. -/
def Encoder.start (e : Encoder) : Nat :=
  if 0 ∈ e.states then 0
  else (e.fst.arcs.map (fun a => a.1)).foldl min ((e.fst.arcs.map (fun a => a.1)).headD 0)

/-- Modelled from the spec: the run of the encoder automaton along a word. -/
def Encoder.run (e : Encoder) : Nat → List Byte → Option Nat
  | q, [] => some q
  | q, c :: w =>
    match e.delta q c with
    | none => none
    | some q1 => Encoder.run e q1 w

/-- Modelled from the spec: the word labels a path from `q` ending in a final state. -/
def Encoder.acceptsFrom (e : Encoder) (q : Nat) (w : List Byte) : Bool :=
  match e.run q w with
  | none => false
  | some q1 => e.isFinal q1

/-- Modelled from the spec: the word is accepted by the automaton of the encoder. -/
def Encoder.accepts (e : Encoder) (w : List Byte) : Bool :=
  e.acceptsFrom e.start w

/-- Modelled from the spec: the counting table of section 3 (`_buildTable` is missing),
`T[q][0] = 1` iff `q` is final and `T[q][i] = Σ_{c ∈ Σ, δ(q,c) defined} T[δ(q,c)][i-1]`. -/
def Encoder.T (e : Encoder) : Nat → Nat → Nat
  | q, 0 => if e.isFinal q then 1 else 0
  | q, i + 1 =>
    (e.sigma.map (fun c =>
      match e.delta q c with
      | none => 0
      | some q1 => Encoder.T e q1 i)).sum

/-- Modelled from the spec: `num_words(a, b) = Σ_{i=a..b} T[q₀][i]`
(`getNumWordsInLanguage` is declared only). -/
def Encoder.getNumWordsInLanguage (e : Encoder) (a b : Nat) : Nat :=
  ((List.range (b + 1 - a)).map (fun k => e.T e.start (a + k))).sum

/-- Modelled from the spec: the cached `|L_n| = Σ_{i=0..n} T[q₀][i]`. -/
def Encoder.numWords (e : Encoder) : Nat :=
  e.getNumWordsInLanguage 0 e.n

/-- Modelled from the spec: the offset `Σ_{ℓ<L} T[q₀][ℓ]` of the strings shorter than `L`
(sections 4.5.2 and 4.5.3). -/
def Encoder.shorter (e : Encoder) (L : Nat) : Nat :=
  ((List.range L).map (fun l => e.T e.start l)).sum

/-- Modelled from the spec: validation, section 4.5.1 step 4 (`_validate` is missing). -/
structure Encoder.Valid (e : Encoder) : Prop where
  states_ne : e.states ≠ []
  sigma_ne : e.sigma ≠ []
  functional : ∀ a ∈ e.fst.arcs, ∀ b ∈ e.fst.arcs, a.1 = b.1 → a.2.2 = b.2.2 → a = b
  reachable : ∀ f ∈ e.fst.finals, ∃ w, e.run e.start w = some f
  nonempty : 0 < e.numWords

/-- Modelled from the spec: step 1 of `unrank` (section 4.5.2, body missing): the smallest
length `L`, among `L, …, L + steps`, with `i` below the cumulative count, and `i` reduced by
the counts of the shorter lengths. -/
def Encoder.chooseLength (e : Encoder) : Nat → Nat → Nat → Option (Nat × Nat)
  | steps, L, i =>
    if i < e.T e.start L then some (L, i)
    else
      match steps with
      | 0 => none
      | steps + 1 => Encoder.chooseLength e steps (L + 1) (i - e.T e.start L)

/-- Modelled from the spec: the inner loop of step 2 of `unrank` over the symbols in index
order: the first symbol `c` with `i < T[δ(q,c)][remaining-1]`, subtracting the counts of the
symbols passed over. -/
def Encoder.pick (e : Encoder) (q rem : Nat) : List Byte → Nat → Option (Byte × Nat × Nat)
  | [], _ => none
  | c :: cs, i =>
    match e.delta q c with
    | none => Encoder.pick e q rem cs i
    | some q1 =>
      if i < e.T q1 rem then some (c, q1, i)
      else Encoder.pick e q rem cs (i - e.T q1 rem)

/-- Modelled from the spec: steps 2 and 3 of `unrank`: walk `remaining` steps; at the end `q`
must be final and `i` must be 0. -/
def Encoder.unrankWalk (e : Encoder) : Nat → Nat → Nat → Option (List Byte)
  | 0, q, i => if e.isFinal q ∧ i = 0 then some [] else none
  | rem + 1, q, i =>
    match e.pick q rem e.sigma i with
    | none => none
    | some (c, q1, i1) => (Encoder.unrankWalk e rem q1 i1).map (fun w => c :: w)

/-- Modelled from the spec: `unrank` of section 4.5.2 (body missing); `none` is the error
outcome (`RankOutOfRange`, or a corrupt table). -/
def Encoder.unrank (e : Encoder) (i : Nat) : Option (List Byte) :=
  match e.chooseLength e.n 0 i with
  | none => none
  | some (L, i1) => e.unrankWalk L e.start i1

/-- Modelled from the spec: step 2 of `rank` (section 4.5.3, body missing): for each position
add `T[δ(q,c)][remaining-1]` for every symbol `c` of index below the index of the byte read,
then follow the byte. -/
def Encoder.rankWalk (e : Encoder) : Nat → List Byte → Option Nat
  | q, [] => if e.isFinal q then some 0 else none
  | q, b :: w =>
    if b ∈ e.sigma then
      match e.delta q b with
      | none => none
      | some q1 =>
        (Encoder.rankWalk e q1 w).map (fun r =>
          ((e.sigma.take (e.sigma.indexOf b)).map (fun c =>
            match e.delta q c with
            | none => 0
            | some q2 => e.T q2 w.length)).sum + r)
    else none

/-- Modelled from the spec: `rank` of section 4.5.3 (body missing); `none` is the error
outcome (`NotInLanguage`: not accepted or longer than `n`). -/
def Encoder.rank (e : Encoder) (w : List Byte) : Option Nat :=
  if w.length ≤ e.n then
    (e.rankWalk e.start w).map (fun r => e.shorter w.length + r)
  else none

/-- The words of length `i` that lead from `q` to a final state, symbol by symbol in index
order. -/
def Encoder.words (e : Encoder) : Nat → Nat → List (List Byte)
  | q, 0 => if e.isFinal q then [[]] else []
  | q, i + 1 =>
    e.sigma.flatMap (fun c =>
      match e.delta q c with
      | none => []
      | some q1 => (Encoder.words e q1 i).map (fun w => c :: w))

/-- The accepted words of the lengths `L, …, L + k - 1`, shorter first. -/
def Encoder.slice (e : Encoder) (L k : Nat) : List (List Byte) :=
  (List.range k).flatMap (fun j => e.words e.start (L + j))

/-- The language `L_n` in canonical order. -/
def Encoder.langList (e : Encoder) : List (List Byte) :=
  e.slice 0 (e.n + 1)

/-- The canonical order on words: shorter first, then lexicographic by byte value. -/
def Precedes (w w' : List Byte) : Prop :=
  w.length < w'.length ∨ (w.length = w'.length ∧ List.Lex (· < ·) w w')

/-! ## Semantics of automata -/

/-- The target set `pool[u].trans[c]` (empty when the state or the key is missing). -/
def NFA.succ (N : NFA) (u : Nat) (c : Byte) : List Nat :=
  match N.pool[u]? with
  | none => []
  | some st => (mapFind c st.trans).getD []

/-- State `f` exists and is final. -/
def NFA.isFinal (N : NFA) (f : Nat) : Bool :=
  match N.pool[f]? with
  | none => false
  | some st => st.final

/-- Paths of an NFA: byte-0 transitions are ε-moves, every other label consumes that byte. -/
inductive NFA.Path (N : NFA) : Nat → List Byte → Nat → Prop
  | nil (u : Nat) : NFA.Path N u [] u
  | eps {u v w : Nat} {x : List Byte} : v ∈ N.succ u 0 → NFA.Path N v x w → NFA.Path N u x w
  | sym {u v w : Nat} {c : Byte} {x : List Byte} :
      c ≠ 0 → v ∈ N.succ u c → NFA.Path N v x w → NFA.Path N u (c :: x) w

/-- The NFA accepts `w`: some path from an initial state to a final state spells `w`. -/
def NFA.Accepts (N : NFA) (w : List Byte) : Prop :=
  ∃ i ∈ N.init, ∃ f, N.Path i w f ∧ N.isFinal f = true

/-- The transition function of a DFA, `pool[q].trans.find(c)`. -/
def DFA.step (D : DFA) (q : Nat) (c : Byte) : Option Nat :=
  match D.pool[q]? with
  | none => none
  | some st => mapFind c st.trans

/-- The run of a DFA from state `q` along `w`, when it exists. -/
def DFA.run (D : DFA) : Nat → List Byte → Option Nat
  | q, [] => some q
  | q, c :: w =>
    match D.step q c with
    | none => none
    | some q1 => DFA.run D q1 w

/-- State `q` exists and is final. -/
def DFA.isFinal (D : DFA) (q : Nat) : Bool :=
  match D.pool[q]? with
  | none => false
  | some st => st.final

/-- The run from state `q` along `w` exists and ends in a final state. -/
def DFA.acceptsFrom (D : DFA) (q : Nat) (w : List Byte) : Bool :=
  match D.run q w with
  | none => false
  | some q1 => D.isFinal q1

/-- The DFA accepts `w`: the run from `init` along `trans` exists and ends in a final state. -/
def DFA.accepts (D : DFA) (w : List Byte) : Bool :=
  D.acceptsFrom D.init w

/-! ## The FST text as the specification describes it (section 6.2) -/

/-- A line of an FST text: a transition record or a final marker. -/
inductive FstLine where
  | arc (src dst : Nat) (label : Byte)
  | final (state : Nat)
  deriving DecidableEq, Repr

/-- The text of a line, following the specification: `src<TAB>dst<TAB>in<TAB>out<LF>` in decimal
with `in = out` for a transition record, `state<LF>` for a final marker. -/
def FstLine.text : FstLine → String
  | .arc s t c =>
    toString s ++ "\t" ++ toString t ++ "\t" ++ toString c.val ++ "\t" ++ toString c.val ++ "\n"
  | .final s => toString s ++ "\n"

/-- The concatenation of the texts of a list of lines. -/
def fstText (ls : List FstLine) : String :=
  ls.foldr (fun l s => l.text ++ s) ""

/-- The lines of state `i`, following the specification: one transition record for each byte
`c`, in increasing byte order, on which the state has a transition, then the final marker when
the state is final. -/
def DFA.stateLines (D : DFA) (i : Nat) : List FstLine :=
  (List.finRange 256).filterMap (fun c => (D.step i c).map (fun t => FstLine.arc i t c)) ++
    (if D.isFinal i then [FstLine.final i] else [])

/-- The lines of the FST text of a DFA, following the specification: the lines of the states
in increasing index order. -/
def DFA.fstLines (D : DFA) : List FstLine :=
  (List.range D.pool.length).flatMap D.stateLines

/-- Modelled from the spec: the records that the `DFAEncoder` constructor (body missing) reads
from an FST text, section 6.2: the transition records and the final markers of its lines. -/
def Fst.ofLines (ls : List FstLine) : Fst :=
  { arcs := ls.filterMap (fun l => match l with
      | .arc s t c => some (s, t, c)
      | .final _ => none)
    finals := ls.filterMap (fun l => match l with
      | .arc _ _ _ => none
      | .final s => some s) }

/-- The lines that the loops of `to_fst` write for the states `states`, numbered from `i`:
the entries of each map in list order, then the final marker. -/
def poolLines : Nat → List DFA.State → List FstLine
  | _, [] => []
  | i, st :: rest =>
    (st.trans.map (fun e => FstLine.arc i e.2 e.1) ++
      (if st.final then [FstLine.final i] else [])) ++ poolLines (i + 1) rest

/-! ## Well-formedness of automata values -/

/-- Keys of a `std::map` are strictly ascending. -/
def keysSorted {α : Type} (m : List (Byte × α)) : Prop :=
  (m.map Prod.fst).Pairwise (· < ·)

instance {α : Type} (m : List (Byte × α)) : Decidable (keysSorted m) := by
  unfold keysSorted; infer_instance

/-- Elements of a `std::set` are strictly ascending. -/
def setSorted (s : List Nat) : Prop := s.Pairwise (· < ·)

instance (s : List Nat) : Decidable (setSorted s) := by
  unfold setSorted; infer_instance

/-- The container invariants of an `NFA` value: every map and every set is strictly ascending. -/
def NFA.WF (N : NFA) : Prop :=
  setSorted N.init ∧
  ∀ st ∈ N.pool, keysSorted st.trans ∧ ∀ e ∈ st.trans, setSorted e.2

instance (N : NFA) : Decidable N.WF := by
  unfold NFA.WF; infer_instance

/-- The container invariants of a `DFA` value. -/
def DFA.WF (D : DFA) : Prop :=
  ∀ st ∈ D.pool, keysSorted st.trans

instance (D : DFA) : Decidable D.WF := by
  unfold DFA.WF; infer_instance

/-- Every transition target of the NFA is a valid pool index. -/
def NFA.targetsValid (N : NFA) : Prop :=
  ∀ st ∈ N.pool, ∀ e ∈ st.trans, ∀ v ∈ e.2, v < N.pool.length

instance (N : NFA) : Decidable N.targetsValid := by
  unfold NFA.targetsValid; infer_instance

/-- Every initial state of the NFA is a valid pool index. -/
def NFA.initValid (N : NFA) : Prop :=
  ∀ i ∈ N.init, i < N.pool.length

instance (N : NFA) : Decidable N.initValid := by
  unfold NFA.initValid; infer_instance

/-- The initial set is closed under ε-moves. -/
def NFA.initClosed (N : NFA) : Prop :=
  ∀ u ∈ N.init, ∀ v ∈ N.succ u 0, v ∈ N.init

instance (N : NFA) : Decidable N.initClosed := by
  unfold NFA.initClosed; infer_instance

/-- The initial state and every transition target of the DFA are valid pool indices. -/
def DFA.valid (D : DFA) : Prop :=
  D.init < D.pool.length ∧ ∀ st ∈ D.pool, ∀ e ∈ st.trans, e.2 < D.pool.length

instance (D : DFA) : Decidable D.valid := by
  unfold DFA.valid; infer_instance

/-- No transition of the DFA is labelled with byte 0. -/
def DFA.noZero (D : DFA) : Prop :=
  ∀ st ∈ D.pool, ∀ e ∈ st.trans, e.1 ≠ 0

instance (D : DFA) : Decidable D.noZero := by
  unfold DFA.noZero; infer_instance

/-- State `v` is reachable from `u` by zero or more ε-moves (byte-0 transitions). -/
def NFA.EpsReach (N : NFA) : Nat → Nat → Prop :=
  Relation.ReflTransGen (fun u v => v ∈ N.succ u 0)

/-- Number of indices below `n` that are not yet in `req` (termination measure of the closure
loop). -/
def missing (n : Nat) (req : List Nat) : Nat :=
  ((Finset.range n).filter (fun i => i ∉ req)).card

/-- State `u` exists and its map has an entry for byte `c`. -/
def NFA.HasKey (N : NFA) (u : Nat) (c : Byte) : Prop :=
  ∃ st, N.pool[u]? = some st ∧ (mapFind c st.trans).isSome = true

/-- The set `T` is the ε-closure of the `c`-successors of the set `S`. -/
def NFA.IsStep (N : NFA) (S : List Nat) (c : Byte) (T : List Nat) : Prop :=
  ∀ y, y ∈ T ↔ ∃ u ∈ S, ∃ v ∈ N.succ u c, N.EpsReach v y

/-- Element `y` belongs to the set stored under key `c`. -/
def memAt (a : List (Byte × List Nat)) (c : Byte) (y : Nat) : Prop :=
  ∃ X, mapFind c a = some X ∧ y ∈ X

/-- The container invariants of the pool of an NFA, and no stored target set is empty. -/
def NFA.poolWF (N : NFA) : Prop :=
  ∀ st ∈ N.pool, keysSorted st.trans ∧ ∀ e ∈ st.trans, setSorted e.2 ∧ e.2 ≠ []

/-- The invariant of `DFA::reverse` after the transitions in `E` (source, byte, target) have
been mirrored into the NFA under construction. -/
structure RevInv (n : Nat) (nfa : NFA) (E : Nat → Byte → Nat → Prop) : Prop where
  len : nfa.pool.length = n
  wf : nfa.poolWF
  nofinal : ∀ st ∈ nfa.pool, st.final = false
  edges : ∀ t c u, u ∈ nfa.succ t c ↔ E u c t
  targets : ∀ t c u, E u c t → u < n

/-- The NFA `N` is the mirror image of the DFA `D`: same states, every transition turned
around, the final states of `D` initial and the initial state of `D` the only final state. -/
structure IsReverse (D : DFA) (N : NFA) : Prop where
  len : N.pool.length = D.pool.length
  wf : N.poolWF
  initSorted : setSorted N.init
  init : ∀ x, x ∈ N.init ↔ D.isFinal x = true
  final : ∀ f, N.isFinal f = true ↔ f = D.init
  edges : ∀ t c u, u ∈ N.succ t c ↔ D.step u c = some t

/-- The invariant of `NFA::determinize` that holds at every point of the construction:
`m` numbers pairwise different subsets in creation order (the initial set first, every other
one ε-closed), the pool has one DFA state
per subset with the right final flag, every transition present so far leads to the subset
it should, and the states are numbered in the order of discovery (`bfs`: a transition into a
state is preceded, in the order of insertion, by one into every earlier state but 0). -/
structure DetBase (N : NFA) (st : DetState) : Prop where
  init0 : st.dfa.init = 0
  len_pool : st.dfa.pool.length = st.m.length
  len_inQ : st.inQ.length = st.m.length
  vals : st.m.map Prod.snd = List.range st.m.length
  first : st.m[0]? = some (N.init, 0)
  nodup : (st.m.map Prod.fst).Nodup
  subs : ∀ S ∈ st.m.map Prod.fst, setSorted S ∧ (∀ u ∈ S, u < N.pool.length) ∧
    (S = N.init ∨ ∀ u ∈ S, ∀ v ∈ N.succ u 0, v ∈ S)
  final : ∀ (i : Nat) (S : List Nat) (ds : DFA.State), st.m[i]? = some (S, i) → st.dfa.pool[i]? = some ds →
    (ds.final = true ↔ ∃ u ∈ S, N.isFinal u = true)
  sortedT : ∀ (i : Nat) (ds : DFA.State), st.dfa.pool[i]? = some ds → keysSorted ds.trans
  trans : ∀ (i : Nat) (S : List Nat) (ds : DFA.State) (c : Byte) (j : Nat), st.m[i]? = some (S, i) → st.dfa.pool[i]? = some ds →
    mapFind c ds.trans = some j →
    0 < c ∧ (∃ u ∈ S, N.HasKey u c) ∧ ∃ T, st.m[j]? = some (T, j) ∧ N.IsStep S c T
  pred : ∀ i, 0 < i → i < st.m.length →
    ∃ p < i, ∃ (ds : DFA.State) (c : Byte), st.dfa.pool[p]? = some ds ∧ mapFind c ds.trans = some i
  bfs : ∀ (j j' i' : Nat) (ds' : DFA.State) (c' : Byte), 0 < j → j < j' →
    st.dfa.pool[i']? = some ds' → mapFind c' ds'.trans = some j' →
    ∃ (i : Nat) (ds : DFA.State) (c : Byte), st.dfa.pool[i]? = some ds ∧
      mapFind c ds.trans = some j ∧ (i < i' ∨ (i = i' ∧ c < c'))

/-- The invariant while the transitions of state `k` (subset `Sk`) are being inserted: states
below `k` are complete, states above `k` have no transitions yet, and state `k` has exactly the
keys described by `K`. -/
structure DetMid (N : NFA) (st : DetState) (k : Nat) (Sk : List Nat) (K : Byte → Prop)
    extends DetBase N st : Prop where
  cur : st.m[k]? = some (Sk, k)
  queue : st.q = (st.m.drop (k + 1)).map Prod.fst
  complete : ∀ (i : Nat) (S : List Nat) (ds : DFA.State) (c : Byte), i < k → st.m[i]? = some (S, i) → st.dfa.pool[i]? = some ds →
    0 < c → (∃ u ∈ S, N.HasKey u c) → (mapFind c ds.trans).isSome = true
  pending : ∀ (i : Nat) (ds : DFA.State), k < i → st.dfa.pool[i]? = some ds → ds.trans = []
  keys : ∀ (ds : DFA.State), st.dfa.pool[k]? = some ds → ∀ c, (mapFind c ds.trans).isSome = true ↔ K c

/-- The invariant at the head of the `while` loop of `determinize`, `k` states done. -/
structure DetInv (N : NFA) (st : DetState) (k : Nat) extends DetBase N st : Prop where
  hk : k ≤ st.m.length
  queue : st.q = (st.m.drop k).map Prod.fst
  complete : ∀ (i : Nat) (S : List Nat) (ds : DFA.State) (c : Byte), i < k → st.m[i]? = some (S, i) → st.dfa.pool[i]? = some ds →
    0 < c → (∃ u ∈ S, N.HasKey u c) → (mapFind c ds.trans).isSome = true
  pending : ∀ (i : Nat) (ds : DFA.State), k ≤ i → st.dfa.pool[i]? = some ds → ds.trans = []

/-! ## Patterns of the grammar of section 4.1 -/

/-- Parse trees of the pattern grammar
`alt ::= cat | alt '|' cat`, `cat ::= post | cat post`, `post ::= atom | post ('?'|'*'|'+')`,
`atom ::= byte | '\\' byte | '(' alt ')'`. -/
inductive Regex where
  | atom (c : Byte)
  | esc (c : Byte)
  | group (r : Regex)
  | opt (r : Regex)
  | star (r : Regex)
  | plus (r : Regex)
  | cat (a b : Regex)
  | alt (a b : Regex)
  deriving DecidableEq, Repr

/-- The pattern string of a parse tree. -/
def Regex.print : Regex → List Byte
  | .atom c => [c]
  | .esc c => [BSLASH, c]
  | .group r => LPAREN :: (r.print ++ [RPAREN])
  | .opt r => r.print ++ [QMARK]
  | .star r => r.print ++ [STAR]
  | .plus r => r.print ++ [PLUS]
  | .cat a b => a.print ++ b.print
  | .alt a b => a.print ++ PIPE :: b.print

/-- The metacharacters `\ ( ) | ? * +`. -/
def isMeta (c : Byte) : Bool :=
  c = BSLASH ∨ c = LPAREN ∨ c = RPAREN ∨ c = PIPE ∨ c = QMARK ∨ c = STAR ∨ c = PLUS

/-- Precedence level of the root of a parse tree: 0 alternation, 1 concatenation, 2 postfix
operator, 3 atom. -/
def Regex.level : Regex → Nat
  | .atom _ => 3
  | .esc _ => 3
  | .group _ => 3
  | .opt _ => 2
  | .star _ => 2
  | .plus _ => 2
  | .cat _ _ => 1
  | .alt _ _ => 0

/-- The tree is a derivation of the grammar: atoms are non-metacharacter bytes or escaped
bytes, all in 1..255; postfix operators bind tighter than concatenation, which binds tighter
than alternation. -/
def Regex.WellFormed : Regex → Prop
  | .atom c => c ≠ 0 ∧ isMeta c = false
  | .esc c => c ≠ 0
  | .group r => r.WellFormed
  | .opt r => r.WellFormed ∧ 2 ≤ r.level
  | .star r => r.WellFormed ∧ 2 ≤ r.level
  | .plus r => r.WellFormed ∧ 2 ≤ r.level
  | .cat a b => a.WellFormed ∧ b.WellFormed ∧ 1 ≤ a.level ∧ 2 ≤ b.level
  | .alt a b => a.WellFormed ∧ b.WellFormed ∧ 1 ≤ b.level

instance Regex.decWellFormed : (r : Regex) → Decidable r.WellFormed
  | .atom c => by unfold Regex.WellFormed; infer_instance
  | .esc c => by unfold Regex.WellFormed; infer_instance
  | .group r => by unfold Regex.WellFormed; exact Regex.decWellFormed r
  | .opt r => by
    unfold Regex.WellFormed
    exact @instDecidableAnd _ _ (Regex.decWellFormed r) _
  | .star r => by
    unfold Regex.WellFormed
    exact @instDecidableAnd _ _ (Regex.decWellFormed r) _
  | .plus r => by
    unfold Regex.WellFormed
    exact @instDecidableAnd _ _ (Regex.decWellFormed r) _
  | .cat a b => by
    unfold Regex.WellFormed
    exact @instDecidableAnd _ _ (Regex.decWellFormed a)
      (@instDecidableAnd _ _ (Regex.decWellFormed b) _)
  | .alt a b => by
    unfold Regex.WellFormed
    exact @instDecidableAnd _ _ (Regex.decWellFormed a)
      (@instDecidableAnd _ _ (Regex.decWellFormed b) _)

/-- The tree is a derivation of the grammar over all 256 byte values: as `WellFormed`, with
the byte 0 allowed as an atom and as an escaped byte. The scan of `_from_regex` tests a byte
against the seven metacharacters only. -/
def Regex.Shaped : Regex → Prop
  | .atom c => isMeta c = false
  | .esc _ => True
  | .group r => r.Shaped
  | .opt r => r.Shaped ∧ 2 ≤ r.level
  | .star r => r.Shaped ∧ 2 ≤ r.level
  | .plus r => r.Shaped ∧ 2 ≤ r.level
  | .cat a b => a.Shaped ∧ b.Shaped ∧ 1 ≤ a.level ∧ 2 ≤ b.level
  | .alt a b => a.Shaped ∧ b.Shaped ∧ 1 ≤ b.level

instance Regex.decShaped : (r : Regex) → Decidable r.Shaped
  | .atom c => by unfold Regex.Shaped; infer_instance
  | .esc c => by unfold Regex.Shaped; infer_instance
  | .group r => by unfold Regex.Shaped; exact Regex.decShaped r
  | .opt r => by
    unfold Regex.Shaped
    exact @instDecidableAnd _ _ (Regex.decShaped r) _
  | .star r => by
    unfold Regex.Shaped
    exact @instDecidableAnd _ _ (Regex.decShaped r) _
  | .plus r => by
    unfold Regex.Shaped
    exact @instDecidableAnd _ _ (Regex.decShaped r) _
  | .cat a b => by
    unfold Regex.Shaped
    exact @instDecidableAnd _ _ (Regex.decShaped a)
      (@instDecidableAnd _ _ (Regex.decShaped b) _)
  | .alt a b => by
    unfold Regex.Shaped
    exact @instDecidableAnd _ _ (Regex.decShaped a)
      (@instDecidableAnd _ _ (Regex.decShaped b) _)

/-- The trees that `_from_regex` reads without failing: as `Shaped`, and a postfix operator
byte `?`, `*` or `+` may stand as an atom at a place where it has no operand, the head of the
pattern, of a group or of an alternative (`lead = true` there). The scan skips such a byte and
the base case for a range of one byte takes it as a literal. -/
def Regex.Lax : Bool → Regex → Prop
  | lead, .atom c => isMeta c = false ∨ (lead = true ∧ (c = QMARK ∨ c = STAR ∨ c = PLUS))
  | _, .esc _ => True
  | _, .group r => Regex.Lax true r
  | lead, .opt r => Regex.Lax lead r ∧ 2 ≤ r.level
  | lead, .star r => Regex.Lax lead r ∧ 2 ≤ r.level
  | lead, .plus r => Regex.Lax lead r ∧ 2 ≤ r.level
  | lead, .cat a b => Regex.Lax lead a ∧ Regex.Lax false b ∧ 1 ≤ a.level ∧ 2 ≤ b.level
  | _, .alt a b => Regex.Lax true a ∧ Regex.Lax true b ∧ 1 ≤ b.level

instance Regex.decLax : (lead : Bool) → (r : Regex) → Decidable (Regex.Lax lead r)
  | lead, .atom c => by unfold Regex.Lax; infer_instance
  | _, .esc c => by unfold Regex.Lax; infer_instance
  | _, .group r => by unfold Regex.Lax; exact Regex.decLax true r
  | lead, .opt r => by
    unfold Regex.Lax
    exact @instDecidableAnd _ _ (Regex.decLax lead r) _
  | lead, .star r => by
    unfold Regex.Lax
    exact @instDecidableAnd _ _ (Regex.decLax lead r) _
  | lead, .plus r => by
    unfold Regex.Lax
    exact @instDecidableAnd _ _ (Regex.decLax lead r) _
  | lead, .cat a b => by
    unfold Regex.Lax
    exact @instDecidableAnd _ _ (Regex.decLax lead a)
      (@instDecidableAnd _ _ (Regex.decLax false b) _)
  | _, .alt a b => by
    unfold Regex.Lax
    exact @instDecidableAnd _ _ (Regex.decLax true a)
      (@instDecidableAnd _ _ (Regex.decLax true b) _)

/-- The regular language denoted by a pattern. -/
def Regex.lang : Regex → Language Byte
  | .atom c => {[c]}
  | .esc c => {[c]}
  | .group r => r.lang
  | .opt r => r.lang + 1
  | .star r => KStar.kstar r.lang
  | .plus r => r.lang * KStar.kstar r.lang
  | .cat a b => a.lang * b.lang
  | .alt a b => a.lang + b.lang

/-- The language of a pattern in which an atom or escaped byte of value 0 denotes the empty
string: the automaton labels ε-moves with the byte 0. -/
def Regex.langNul : Regex → Language Byte
  | .atom c => if c = 0 then 1 else {[c]}
  | .esc c => if c = 0 then 1 else {[c]}
  | .group r => r.langNul
  | .opt r => r.langNul + 1
  | .star r => KStar.kstar r.langNul
  | .plus r => r.langNul * KStar.kstar r.langNul
  | .cat a b => a.langNul * b.langNul
  | .alt a b => a.langNul + b.langNul

/-- The pattern ends in a backslash that is not itself escaped, a backslash escaping exactly
the byte that follows it. -/
def endsInEscape : List Byte → Bool
  | [] => false
  | c :: rest =>
    if c = BSLASH then
      match rest with
      | [] => true
      | _ :: rest2 => endsInEscape rest2
    else endsInEscape rest

/-- The bytes of `x` stand in the buffer `p` from position `i` on. -/
def Seg (p : List Byte) (i : Nat) (x : List Byte) : Prop :=
  ∃ pre suf, p = pre ++ x ++ suf ∧ pre.length = i

/-- Scanning the segment `x` from position `i` takes the state `(d, o, c)` of the scanning
loop (depth, `option`, `concatenation`) to `(d1, o1, c1)`, using at most `|x|` units of
fuel. -/
def ScanStep (p : List Byte) (hi : Nat) (x : List Byte) (i d o c d1 o1 c1 : Nat) : Prop :=
  ∀ fuel, ∃ k, k ≤ x.length ∧
    scanLoop p hi (fuel + k) i d o c = scanLoop p hi fuel (i + x.length) d1 o1 c1

/-- Paths of an NFA with their number of transitions. -/
inductive NFA.PathN (N : NFA) : Nat → Nat → List Byte → Nat → Prop
  | nil (u : Nat) : NFA.PathN N 0 u [] u
  | eps {n u v w : Nat} {x : List Byte} :
      v ∈ N.succ u 0 → NFA.PathN N n v x w → NFA.PathN N (n + 1) u x w
  | sym {n u v w : Nat} {c : Byte} {x : List Byte} :
      c ≠ 0 → v ∈ N.succ u c → NFA.PathN N n v x w → NFA.PathN N (n + 1) u (c :: x) w

/-- The pool of the NFA is well formed and every transition target is a valid index. -/
structure NFA.Good (N : NFA) : Prop where
  wf : N.poolWF
  targets : ∀ u c v, v ∈ N.succ u c → v < N.pool.length

/-- The NFA `N1` extends `N`: it is well formed, has at least the states of `N`, the same
initial set and the same final states. -/
structure NFA.Grow (N N1 : NFA) : Prop where
  good : N1.Good
  len : N.pool.length ≤ N1.pool.length
  init : N1.init = N.init
  final : ∀ u, N1.isFinal u = N.isFinal u

/-- The states that belong to the fragment built between `N` and `N1` with entry `s`: the
entry and the states added. -/
def NFA.Inner (N N1 : NFA) (s u : Nat) : Prop :=
  u = s ∨ (N.pool.length ≤ u ∧ u < N1.pool.length)

/-- What a call of `_from_regex(s, t, …)` for a pattern with language `L` adds to the
automaton `N`, giving `N1`: old states other than `s` keep their transitions, every word of
`L` labels a path from `s` to `t`, and in every automaton that agrees with `N1` on the
fragment, a path from `s` that leaves the fragment first spells a word of `L` up to `t`. -/
structure Frag (L : Language Byte) (N N1 : NFA) (s t : Nat) : Prop where
  grow : N.Grow N1
  frame : ∀ u, u < N.pool.length → u ≠ s → ∀ c v, v ∈ N1.succ u c ↔ v ∈ N.succ u c
  sound : ∀ x, x ∈ L → N1.Path s x t
  complete : ∀ (G : NFA), (∀ u, N.Inner N1 s u → ∀ c v, v ∈ G.succ u c ↔ v ∈ N1.succ u c) →
    ∀ n w f, G.PathN n s w f → ¬ N.Inner N1 s f →
      ∃ x y m, w = x ++ y ∧ x ∈ L ∧ G.PathN m t y f ∧ m < n

/-- What a call of `_from_regex(s, t, …)` expects: a well-formed automaton, two different
valid states, and no transition leaving `s` yet. -/
structure Pre (N : NFA) (s t : Nat) : Prop where
  good : N.Good
  hs : s < N.pool.length
  ht : t < N.pool.length
  hne : s ≠ t
  fresh : ∀ c, N.succ s c = []

/-- The automaton `N1` is `N` with two more states and the transitions `E` added. -/
structure Wired (N N1 : NFA) (E : Nat → Byte → Nat → Prop) : Prop where
  grow : N.Grow N1
  len : N1.pool.length = N.pool.length + 2
  edges : ∀ u c v, v ∈ N1.succ u c ↔ (v ∈ N.succ u c ∨ E u c v)

/-- The recursive call `recur`, run with at least `F` units of fuel on the part `[lo, hi)` of
the buffer, builds a fragment for the language `L` that does not depend on the fuel. -/
def RecurFrag (recur : Nat → NFA → Nat → Nat → Nat → Nat → Except Err NFA) (F : Nat)
    (L : Language Byte) (lo hi : Nat) : Prop :=
  ∀ nfa s t, Pre nfa s t →
    ∃ nfa1, Frag L nfa nfa1 s t ∧ ∀ fuel, F ≤ fuel → recur fuel nfa s t lo hi = .ok nfa1

/-- The NFA `N1` extends `N` and keeps every transition of `N`. -/
structure NFA.Ext (N N1 : NFA) : Prop where
  grow : N.Grow N1
  edges : ∀ u c v, v ∈ N.succ u c → v ∈ N1.succ u c

/-- The recursive call `recur` of `_from_regex`, whenever it returns, has only added states
and transitions and has connected `s` to `t` by some path. -/
def RecurConn (recur : NFA → Nat → Nat → Nat → Nat → Except Err NFA) : Prop :=
  ∀ (nfa : NFA) (s t lo hi : Nat) (nfa1 : NFA), recur nfa s t lo hi = .ok nfa1 →
    nfa.Good → s < nfa.pool.length → t < nfa.pool.length →
    nfa.Ext nfa1 ∧ ∃ w, nfa1.Path s w t

/-- The property of the recursive call that the branch bodies of `_from_regex` rely on: a
result is a well-formed extension of the automaton it started from. -/
def RecurGrows (recur : NFA → Nat → Nat → Nat → Nat → Except Err NFA) : Prop :=
  ∀ (nfa : NFA) (s t lo hi : Nat) (nfa' : NFA), recur nfa s t lo hi = .ok nfa' →
    nfa.Good → s < nfa.pool.length → t < nfa.pool.length → nfa.Grow nfa'

/-- Every state of the DFA is reached from the initial state by some word. -/
def DFA.Accessible (D : DFA) : Prop :=
  ∀ i, i < D.pool.length → ∃ x, D.run D.init x = some i

/-- Different states of the DFA accept different sets of words. -/
def DFA.Distinct (D : DFA) : Prop :=
  ∀ i j, i < D.pool.length → j < D.pool.length →
    (∀ w, D.acceptsFrom i w = D.acceptsFrom j w) → i = j

/-- From every state of the DFA some word leads to a final state. -/
def DFA.Live (D : DFA) : Prop :=
  ∀ i, i < D.pool.length → ∃ y, D.acceptsFrom i y = true

/-- The shape of a DFA produced by determinizing the mirror image of an accessible DFA: it is
accessible, its states are pairwise distinguishable, and either every state is live or it is the
one-state automaton of the empty language. -/
structure DFA.Reduced (D : DFA) : Prop where
  init0 : D.init = 0
  wf : D.WF
  valid : D.valid
  noZero : D.noZero
  accessible : D.Accessible
  distinct : D.Distinct
  live : D.Live ∨ (D.pool.length = 1 ∧ ∀ w, D.accepts w = false)

/-- The states of the DFA are numbered in the order in which a breadth-first search from
state 0 that follows the bytes in ascending order meets them: every state but 0 has a
transition from an earlier state, and a transition into a state is preceded, in the order
(source, byte), by a transition into every earlier state but 0. -/
structure DFA.Bfs (D : DFA) : Prop where
  pred : ∀ j, 0 < j → j < D.pool.length → ∃ i c, i < j ∧ D.step i c = some j
  order : ∀ (j j' i' : Nat) (c' : Byte), 0 < j → j < j' → D.step i' c' = some j' →
    ∃ i c, D.step i c = some j ∧ (i < i' ∨ (i = i' ∧ c < c'))

/-! ## Concrete inputs used in examples -/

/-- A two-state DFA whose only transition is labelled with byte 0, accepting the one-byte
string `[0]`. -/
def zeroDFA : DFA :=
  { init := 0, pool := [{ final := false, trans := [(0, 1)] }, { final := true, trans := [] }] }

/-- An NFA value with an empty pool whose initial set names state 0. -/
def strayInitNFA : NFA := { init := [0], pool := [] }

/-- An NFA value with an empty pool whose initial set names the states 0 and 1. -/
def emptyPoolNFA : NFA := { init := [0, 1], pool := [] }

/-- The automaton of `ab*` as the encoder receives it, with `n = 3`. -/
def abStarEncoder : Encoder :=
  { fst := { arcs := [(0, 1, 97), (1, 1, 98)], finals := [1] }, n := 3 }

/-- The DFA of `ab*` as `DFA::from_regex` returns it. -/
def abStarDFA : DFA :=
  { init := 0, pool := [{ final := false, trans := [(97, 1)] }, { final := true, trans := [(98, 1)] }] }

/-- An ε-NFA for `ab*`: `0 -a-> 1`, `1 -ε-> 2`, `2 -b-> 1`, state 2 final, initial set `{0}`. -/
def abStarNFA : NFA :=
  { init := [0],
    pool := [{ final := false, trans := [(97, [1])] },
             { final := false, trans := [(0, [2])] },
             { final := true, trans := [(98, [1])] }] }

end Dank

namespace Dank

/-! ## Container lemmas -/

theorem mem_setInsert {x y : Nat} {l : List Nat} : y ∈ setInsert x l ↔ y = x ∨ y ∈ l := by
  induction l with
  | nil => simp [setInsert]
  | cons a l ih =>
    unfold setInsert
    split_ifs with h1 h2
    · simp
    · subst h2; simp
    · simp [ih]; tauto

theorem setSorted_setInsert {x : Nat} {l : List Nat} (h : setSorted l) :
    setSorted (setInsert x l) := by
  unfold setSorted at *
  induction l with
  | nil => simp [setInsert]
  | cons a l ih =>
    unfold setInsert
    split_ifs with h1 h2
    · rw [List.pairwise_cons] at h ⊢
      refine ⟨?_, List.pairwise_cons.2 h⟩
      intro b hb
      rcases List.mem_cons.1 hb with rfl | hb
      · exact h1
      · exact lt_trans h1 (h.1 b hb)
    · exact h
    · rw [List.pairwise_cons] at h ⊢
      refine ⟨?_, ih h.2⟩
      intro b hb
      rcases mem_setInsert.1 hb with rfl | hb
      · omega
      · exact h.1 b hb

theorem setInsert_of_mem {x : Nat} {l : List Nat} (h : setSorted l) (hx : x ∈ l) :
    setInsert x l = l := by
  unfold setSorted at h
  induction l with
  | nil => simp at hx
  | cons a l ih =>
    rw [List.pairwise_cons] at h
    unfold setInsert
    rcases List.mem_cons.1 hx with rfl | hx
    · simp
    · have := h.1 x hx
      rw [if_neg (by omega), if_neg (by omega), ih h.2 hx]

theorem mem_setInsertAll {xs s : List Nat} {y : Nat} :
    y ∈ setInsertAll xs s ↔ y ∈ xs ∨ y ∈ s := by
  unfold setInsertAll
  induction xs generalizing s with
  | nil => simp
  | cons a xs ih =>
    simp only [List.foldl_cons, ih, mem_setInsert, List.mem_cons]
    tauto

theorem setSorted_setInsertAll {xs s : List Nat} (h : setSorted s) :
    setSorted (setInsertAll xs s) := by
  unfold setInsertAll
  induction xs generalizing s with
  | nil => simpa using h
  | cons a xs ih =>
    simp only [List.foldl_cons]
    exact ih (setSorted_setInsert h)

/-- Two strictly ascending lists with the same members are equal. -/
theorem setSorted_ext {a b : List Nat} (ha : setSorted a) (hb : setSorted b)
    (h : ∀ x, x ∈ a ↔ x ∈ b) : a = b := by
  unfold setSorted at *
  have hp : a.Perm b := (List.perm_ext_iff_of_nodup (ha.imp (fun h => Nat.ne_of_lt h))
    (hb.imp (fun h => Nat.ne_of_lt h))).2 h
  exact List.eq_of_perm_of_sorted hp (ha.imp (fun h => Nat.le_of_lt h))
    (hb.imp (fun h => Nat.le_of_lt h))

theorem mapFind_eq_none {α : Type} {c : Byte} {m : List (Byte × α)} :
    mapFind c m = none ↔ ∀ e ∈ m, e.1 ≠ c := by
  induction m with
  | nil => simp [mapFind]
  | cons a m ih =>
    obtain ⟨k, v⟩ := a
    unfold mapFind
    split_ifs with h
    · simp [h]
    · simp [ih, h]

theorem mapFind_mem {α : Type} {c : Byte} {v : α} {m : List (Byte × α)}
    (h : mapFind c m = some v) : (c, v) ∈ m := by
  induction m with
  | nil => simp [mapFind] at h
  | cons a m ih =>
    obtain ⟨k, w⟩ := a
    unfold mapFind at h
    split_ifs at h with hk
    · simp at h; subst h; subst hk; simp
    · exact List.mem_cons_of_mem _ (ih h)

theorem mapFind_of_mem {α : Type} {c : Byte} {v : α} {m : List (Byte × α)}
    (hs : keysSorted m) (h : (c, v) ∈ m) : mapFind c m = some v := by
  unfold keysSorted at hs
  induction m with
  | nil => simp at h
  | cons a m ih =>
    obtain ⟨k, w⟩ := a
    simp only [List.map_cons, List.pairwise_cons] at hs
    unfold mapFind
    rcases List.mem_cons.1 h with h | h
    · simp at h; obtain ⟨rfl, rfl⟩ := h; simp
    · have : k < c := hs.1 c (List.mem_map.2 ⟨(c, v), h, rfl⟩)
      rw [if_neg (ne_of_lt this)]
      exact ih hs.2 h

theorem mem_keys_mapUpsert {α : Type} {c k : Byte} {f : Option α → α} {m : List (Byte × α)} :
    k ∈ (mapUpsert c f m).map Prod.fst ↔ k = c ∨ k ∈ m.map Prod.fst := by
  induction m with
  | nil => simp [mapUpsert]
  | cons a m ih =>
    obtain ⟨k', w⟩ := a
    unfold mapUpsert
    split_ifs with h1 h2
    · simp
    · subst h2; simp
    · simp only [List.map_cons, List.mem_cons, ih]; tauto

theorem keysSorted_mapUpsert {α : Type} {c : Byte} {f : Option α → α} {m : List (Byte × α)}
    (hs : keysSorted m) : keysSorted (mapUpsert c f m) := by
  unfold keysSorted at *
  induction m with
  | nil => simp [mapUpsert]
  | cons a m ih =>
    obtain ⟨k, w⟩ := a
    simp only [List.map_cons, List.pairwise_cons] at hs
    unfold mapUpsert
    split_ifs with h1 h2
    · simp only [List.map_cons, List.pairwise_cons]
      refine ⟨?_, hs⟩
      intro b hb
      rcases List.mem_cons.1 hb with rfl | hb
      · exact h1
      · exact lt_trans h1 (hs.1 b hb)
    · simp only [List.map_cons, List.pairwise_cons]; exact hs
    · simp only [List.map_cons, List.pairwise_cons]
      refine ⟨?_, ih hs.2⟩
      intro b hb
      rcases mem_keys_mapUpsert.1 hb with rfl | hb
      · exact lt_of_le_of_ne (not_lt.1 h1) (Ne.symm h2)
      · exact hs.1 b hb

theorem mapFind_mapUpsert_self {α : Type} {c : Byte} {f : Option α → α} {m : List (Byte × α)}
    (hs : keysSorted m) : mapFind c (mapUpsert c f m) = some (f (mapFind c m)) := by
  unfold keysSorted at hs
  induction m with
  | nil => simp [mapUpsert, mapFind]
  | cons a m ih =>
    obtain ⟨k', w⟩ := a
    simp only [List.map_cons, List.pairwise_cons] at hs
    by_cases h1 : c < k'
    · have hn : mapFind c ((k', w) :: m) = none := by
        rw [mapFind_eq_none]
        intro e he
        rcases List.mem_cons.1 he with rfl | he
        · exact ne_of_gt h1
        · exact ne_of_gt (lt_trans h1 (hs.1 e.1 (List.mem_map.2 ⟨e, he, rfl⟩)))
      rw [hn]
      simp [mapUpsert, h1, mapFind]
    · by_cases h2 : c = k'
      · subst h2
        simp [mapUpsert, mapFind]
      · have h3 : ¬ k' = c := fun h => h2 h.symm
        simp [mapUpsert, h1, h2, mapFind, h3, ih hs.2]

theorem mapFind_mapUpsert_ne {α : Type} {c k : Byte} {f : Option α → α} {m : List (Byte × α)}
    (hk : k ≠ c) : mapFind k (mapUpsert c f m) = mapFind k m := by
  induction m with
  | nil =>
    have : ¬ c = k := fun h => hk h.symm
    simp [mapUpsert, mapFind, this]
  | cons a m ih =>
    obtain ⟨k', w⟩ := a
    have hck : ¬ c = k := fun h => hk h.symm
    by_cases h1 : c < k'
    · simp [mapUpsert, h1, mapFind, hck]
    · by_cases h2 : c = k'
      · subst h2
        simp [mapUpsert, mapFind, hck]
      · simp [mapUpsert, h1, h2, mapFind, ih]

theorem mapFind_mapUpsert {α : Type} {c k : Byte} {f : Option α → α} {m : List (Byte × α)}
    (hs : keysSorted m) :
    mapFind k (mapUpsert c f m) = if k = c then some (f (mapFind c m)) else mapFind k m := by
  split_ifs with h
  · subst h; exact mapFind_mapUpsert_self hs
  · exact mapFind_mapUpsert_ne h

end Dank

namespace Dank

/-! ## ε-closure -/

theorem missing_le (n : Nat) (req : List Nat) : missing n req ≤ n := by
  unfold missing
  calc _ ≤ (Finset.range n).card := Finset.card_filter_le _ _
    _ = n := Finset.card_range n

theorem missing_setInsert {n x : Nat} {req : List Nat} (hx : x < n) (hn : x ∉ req) :
    missing n (setInsert x req) + 1 = missing n req := by
  unfold missing
  have h : (Finset.range n).filter (fun i => i ∉ setInsert x req)
      = ((Finset.range n).filter (fun i => i ∉ req)).erase x := by
    ext i
    simp only [Finset.mem_filter, Finset.mem_range, mem_setInsert, Finset.mem_erase]
    tauto
  rw [h, Finset.card_erase_of_mem (by simp [hx, hn])]
  have : 0 < ((Finset.range n).filter (fun i => i ∉ req)).card :=
    Finset.card_pos.2 ⟨x, by simp [hx, hn]⟩
  omega

theorem closureVisit_mem (xs : List Nat) (req q : List Nat) (y : Nat) :
    y ∈ (closureVisit xs (req, q)).1 ↔ y ∈ req ∨ y ∈ xs := by
  induction xs generalizing req q with
  | nil => simp [closureVisit]
  | cons a xs ih =>
    unfold closureVisit
    split_ifs with h
    · rw [ih]; simp only [List.mem_cons]
      constructor
      · tauto
      · rintro (h1 | rfl | h1)
        · exact Or.inl h1
        · exact Or.inl h
        · exact Or.inr h1
    · rw [ih]; simp only [List.mem_cons, mem_setInsert]; tauto

theorem closureVisit_queue (xs : List Nat) (req q : List Nat) (y : Nat) :
    y ∈ (closureVisit xs (req, q)).2 ↔ y ∈ q ∨ (y ∈ xs ∧ y ∉ req) := by
  induction xs generalizing req q with
  | nil => simp [closureVisit]
  | cons a xs ih =>
    unfold closureVisit
    split_ifs with h
    · rw [ih]; simp only [List.mem_cons]
      constructor
      · tauto
      · rintro (h1 | ⟨rfl | h1, h2⟩)
        · exact Or.inl h1
        · exact absurd h h2
        · exact Or.inr ⟨h1, h2⟩
    · rw [ih]; simp only [List.mem_cons, mem_setInsert, List.mem_append, List.mem_singleton,
        List.not_mem_nil, or_false]
      constructor
      · rintro ((h1 | rfl) | ⟨h1, h2⟩)
        · exact Or.inl h1
        · exact Or.inr ⟨Or.inl rfl, h⟩
        · exact Or.inr ⟨Or.inr h1, fun h3 => h2 (Or.inr h3)⟩
      · rintro (h1 | ⟨rfl | h1, h2⟩)
        · exact Or.inl (Or.inl h1)
        · exact Or.inl (Or.inr rfl)
        · by_cases hya : y = a
          · exact Or.inl (Or.inr hya)
          · exact Or.inr ⟨h1, fun h3 => h3.elim hya h2⟩

theorem closureVisit_sorted (xs : List Nat) (req q : List Nat) (h : setSorted req) :
    setSorted (closureVisit xs (req, q)).1 := by
  induction xs generalizing req q with
  | nil => simpa [closureVisit] using h
  | cons a xs ih =>
    unfold closureVisit
    split_ifs with h1
    · exact ih _ _ h
    · exact ih _ _ (setSorted_setInsert h)

theorem closureVisit_measure (n : Nat) (xs : List Nat) (req q : List Nat)
    (hx : ∀ x ∈ xs, x < n) :
    (closureVisit xs (req, q)).2.length + missing n (closureVisit xs (req, q)).1
      = q.length + missing n req := by
  induction xs generalizing req q with
  | nil => simp [closureVisit]
  | cons a xs ih =>
    have ha : a < n := hx a (List.mem_cons_self _ _)
    have hxs : ∀ x ∈ xs, x < n := fun x h => hx x (List.mem_cons_of_mem _ h)
    unfold closureVisit
    split_ifs with h1
    · exact ih _ _ hxs
    · rw [ih _ _ hxs]
      have := missing_setInsert ha h1
      simp only [List.length_append, List.length_singleton]
      omega

theorem NFA.succ_lt {N : NFA} (h : N.targetsValid) {u v : Nat} {c : Byte}
    (hv : v ∈ N.succ u c) : v < N.pool.length := by
  unfold NFA.succ at hv
  cases hu : N.pool[u]? with
  | none => simp [hu] at hv
  | some st =>
    simp only [hu] at hv
    cases hf : mapFind c st.trans with
    | none => simp [hf] at hv
    | some x =>
      simp only [hf, Option.getD_some] at hv
      exact h st (List.getElem?_mem hu) (c, x) (mapFind_mem hf) v hv

/-- Total correctness of the closure loop under the worklist invariant. -/
theorem NFA.closureLoop_spec (N : NFA) (htv : N.targetsValid) :
    ∀ (fuel : Nat) (q req : List Nat),
      (∀ u ∈ q, u < N.pool.length) →
      q.length + missing N.pool.length req ≤ fuel →
      ∃ r, N.closureLoop fuel q req = .ok r ∧
        (∀ y ∈ req, y ∈ r) ∧
        (∀ y ∈ r, y ∈ req ∨ ∃ u ∈ q, N.EpsReach u y) ∧
        ((∀ u ∈ req, u ∈ q ∨ ∀ v ∈ N.succ u 0, v ∈ req) → ∀ u ∈ r, ∀ v ∈ N.succ u 0, v ∈ r) ∧
        (setSorted req → setSorted r) ∧
        ((∀ y ∈ req, y < N.pool.length) → ∀ y ∈ r, y < N.pool.length) := by
  intro fuel
  induction fuel with
  | zero =>
    intro q req hq hf
    cases q with
    | nil =>
      refine ⟨req, rfl, fun y h => h, fun y h => Or.inl h, ?_, id, id⟩
      intro h u hu
      rcases h u hu with h | h
      · simp at h
      · exact h
    | cons u q => simp at hf
  | succ fuel ih =>
    intro q req hq hf
    cases q with
    | nil =>
      refine ⟨req, rfl, fun y h => h, fun y h => Or.inl h, ?_, id, id⟩
      intro h u hu
      rcases h u hu with h | h
      · simp at h
      · exact h
    | cons u q =>
      have hu : u < N.pool.length := hq u (List.mem_cons_self _ _)
      have hq' : ∀ v ∈ q, v < N.pool.length := fun v h => hq v (List.mem_cons_of_mem _ h)
      obtain ⟨st, hst⟩ : ∃ st, N.pool[u]? = some st := ⟨N.pool[u], List.getElem?_eq_getElem hu⟩
      simp only [List.length_cons] at hf
      cases hfind : mapFind 0 st.trans with
      | none =>
        have hsucc : N.succ u 0 = [] := by simp [NFA.succ, hst, hfind]
        obtain ⟨r, hr, h1, h2, h3, h4, h5⟩ := ih q req hq' (by omega)
        refine ⟨r, ?_, h1, ?_, ?_, h4, h5⟩
        · simp only [NFA.closureLoop, hst, hfind]; exact hr
        · intro y hy
          rcases h2 y hy with h | ⟨w, hw, hwy⟩
          · exact Or.inl h
          · exact Or.inr ⟨w, List.mem_cons_of_mem _ hw, hwy⟩
        · intro hinv
          apply h3
          intro w hw
          rcases hinv w hw with h | h
          · rcases List.mem_cons.1 h with rfl | h
            · right; intro v hv; rw [hsucc] at hv; simp at hv
            · exact Or.inl h
          · exact Or.inr h
      | some x =>
        have hsucc : N.succ u 0 = x := by simp [NFA.succ, hst, hfind]
        have hx : ∀ v ∈ x, v < N.pool.length := fun v hv =>
          NFA.succ_lt htv (u := u) (c := 0) (by rw [hsucc]; exact hv)
        have hmeas := closureVisit_measure N.pool.length x req q hx
        have hq2 : ∀ v ∈ (closureVisit x (req, q)).2, v < N.pool.length := by
          intro v hv
          rcases (closureVisit_queue x req q v).1 hv with h | ⟨h, _⟩
          · exact hq' v h
          · exact hx v h
        obtain ⟨r, hr, h1, h2, h3, h4, h5⟩ :=
          ih (closureVisit x (req, q)).2 (closureVisit x (req, q)).1 hq2 (by omega)
        refine ⟨r, ?_, ?_, ?_, ?_, ?_, ?_⟩
        · simp only [NFA.closureLoop, hst, hfind]; exact hr
        · intro y hy
          exact h1 y ((closureVisit_mem x req q y).2 (Or.inl hy))
        · intro y hy
          rcases h2 y hy with h | ⟨w, hw, hwy⟩
          · rcases (closureVisit_mem x req q y).1 h with h | h
            · exact Or.inl h
            · refine Or.inr ⟨u, List.mem_cons_self _ _, ?_⟩
              exact Relation.ReflTransGen.single (by rw [hsucc]; exact h)
          · rcases (closureVisit_queue x req q w).1 hw with h | ⟨h, _⟩
            · exact Or.inr ⟨w, List.mem_cons_of_mem _ h, hwy⟩
            · refine Or.inr ⟨u, List.mem_cons_self _ _, ?_⟩
              exact Relation.ReflTransGen.head (by rw [hsucc]; exact h) hwy
        · intro hinv
          apply h3
          intro w hw
          rcases (closureVisit_mem x req q w).1 hw with hw1 | hw1
          · rcases hinv w hw1 with h | h
            · rcases List.mem_cons.1 h with rfl | h
              · right; intro v hv
                rw [hsucc] at hv
                exact (closureVisit_mem x req q v).2 (Or.inr hv)
              · exact Or.inl ((closureVisit_queue x req q w).2 (Or.inl h))
            · right; intro v hv
              exact (closureVisit_mem x req q v).2 (Or.inl (h v hv))
          · by_cases hwr : w ∈ req
            · rcases hinv w hwr with h | h
              · rcases List.mem_cons.1 h with rfl | h
                · right; intro v hv
                  rw [hsucc] at hv
                  exact (closureVisit_mem x req q v).2 (Or.inr hv)
                · exact Or.inl ((closureVisit_queue x req q w).2 (Or.inl h))
              · right; intro v hv
                exact (closureVisit_mem x req q v).2 (Or.inl (h v hv))
            · exact Or.inl ((closureVisit_queue x req q w).2 (Or.inr ⟨hw1, hwr⟩))
        · intro hs
          exact h4 (closureVisit_sorted x req q hs)
        · intro hv
          apply h5
          intro y hy
          rcases (closureVisit_mem x req q y).1 hy with h | h
          · exact hv y h
          · exact hx y h

/-- Fuel that suffices for any closure computation on `N`, for a request set of size `k`. -/
theorem NFA.get_closure_spec (N : NFA) (htv : N.targetsValid) (req : List Nat)
    (hreq : ∀ u ∈ req, u < N.pool.length) (fuel : Nat)
    (hf : req.length + N.pool.length ≤ fuel) :
    ∃ r, N.get_closure fuel req = .ok r ∧
      (∀ y, y ∈ r ↔ ∃ u ∈ req, N.EpsReach u y) ∧
      (setSorted req → setSorted r) ∧
      (∀ y ∈ r, y < N.pool.length) := by
  have hm := missing_le N.pool.length req
  obtain ⟨r, hr, h1, h2, h3, h4, h5⟩ := N.closureLoop_spec htv fuel req req hreq (by omega)
  refine ⟨r, hr, ?_, h4, h5 hreq⟩
  have hclosed := h3 (fun u hu => Or.inl hu)
  intro y
  constructor
  · intro hy
    rcases h2 y hy with h | h
    · exact ⟨y, h, Relation.ReflTransGen.refl⟩
    · exact h
  · rintro ⟨u, hu, huy⟩
    induction huy with
    | refl => exact h1 u hu
    | tail _ hbc ih => exact hclosed _ ih _ hbc

end Dank

namespace Dank

/-! ## Powerset construction: the collection phase -/

theorem collectTrans_spec (entries acc : List (Byte × List Nat))
    (hk : keysSorted acc) (hs : ∀ c X, mapFind c acc = some X → setSorted X) :
    keysSorted (collectTrans entries acc) ∧
    (∀ c X, mapFind c (collectTrans entries acc) = some X → setSorted X) ∧
    (∀ c, (mapFind c (collectTrans entries acc)).isSome = true ↔
      ((mapFind c acc).isSome = true ∨ (0 < c ∧ ∃ X, (c, X) ∈ entries))) ∧
    (∀ c y, memAt (collectTrans entries acc) c y ↔
      (memAt acc c y ∨ (0 < c ∧ ∃ X, (c, X) ∈ entries ∧ y ∈ X))) := by
  unfold collectTrans
  induction entries generalizing acc with
  | nil => simp [hk]; exact hs
  | cons e entries ih =>
    obtain ⟨k, Y⟩ := e
    by_cases hpos : (0 : Byte) < k
    · have hfilter : List.filter (fun e : Byte × List Nat => decide (0 < e.1)) ((k, Y) :: entries)
          = (k, Y) :: List.filter (fun e : Byte × List Nat => decide (0 < e.1)) entries := by
        simp [List.filter_cons, hpos]
      rw [hfilter, List.foldl_cons]
      have hk' := keysSorted_mapUpsert (c := k)
        (f := fun o : Option (List Nat) => setInsertAll Y (o.getD [])) hk
      have hfind : ∀ c, mapFind c (mapUpsert k (fun o => setInsertAll Y (o.getD [])) acc)
          = if c = k then some (setInsertAll Y ((mapFind k acc).getD [])) else mapFind c acc :=
        fun c => mapFind_mapUpsert hk
      have hs' : ∀ c X, mapFind c (mapUpsert k (fun o => setInsertAll Y (o.getD [])) acc) = some X →
          setSorted X := by
        intro c X hX
        rw [hfind] at hX
        split_ifs at hX with hc
        · simp only [Option.some.injEq] at hX
          subst hX
          apply setSorted_setInsertAll
          cases hfa : mapFind k acc with
          | none => simp [setSorted]
          | some Z => simpa using hs k Z hfa
        · exact hs c X hX
      obtain ⟨i1, i2, i3, i4⟩ := ih _ hk' hs'
      refine ⟨i1, i2, ?_, ?_⟩
      · intro c
        rw [i3, hfind]
        by_cases hc : c = k
        · subst hc
          simp only [if_true, Option.isSome_some, true_or, true_iff]
          exact Or.inr ⟨hpos, Y, List.mem_cons_self _ _⟩
        · simp only [if_neg hc, List.mem_cons, Prod.mk.injEq]
          constructor
          · rintro (h | ⟨h0, X, hX⟩)
            · exact Or.inl h
            · exact Or.inr ⟨h0, X, Or.inr hX⟩
          · rintro (h | ⟨h0, X, ⟨h1, _⟩ | hX⟩)
            · exact Or.inl h
            · exact absurd h1 hc
            · exact Or.inr ⟨h0, X, hX⟩
      · intro c y
        rw [i4]
        unfold memAt
        rw [hfind]
        by_cases hc : c = k
        · subst hc
          simp only [if_true, Option.some.injEq, exists_eq_left', mem_setInsertAll,
            List.mem_cons, Prod.mk.injEq, true_and]
          constructor
          · rintro ((h | h) | ⟨h0, X, hX, hy⟩)
            · exact Or.inr ⟨hpos, Y, Or.inl rfl, h⟩
            · left
              cases hfa : mapFind c acc with
              | none => simp [hfa] at h
              | some Z => exact ⟨Z, rfl, by simpa [hfa] using h⟩
            · exact Or.inr ⟨h0, X, Or.inr hX, hy⟩
          · rintro (⟨X, hX, hy⟩ | ⟨h0, X, rfl | hX, hy⟩)
            · left; right; simp [hX, hy]
            · left; left; exact hy
            · exact Or.inr ⟨h0, X, hX, hy⟩
        · simp only [if_neg hc, List.mem_cons, Prod.mk.injEq]
          constructor
          · rintro (h | ⟨h0, X, hX, hy⟩)
            · exact Or.inl h
            · exact Or.inr ⟨h0, X, Or.inr hX, hy⟩
          · rintro (h | ⟨h0, X, ⟨h1, _⟩ | hX, hy⟩)
            · exact Or.inl h
            · exact absurd h1 hc
            · exact Or.inr ⟨h0, X, hX, hy⟩
    · have hfilter : List.filter (fun e : Byte × List Nat => decide (0 < e.1)) ((k, Y) :: entries)
          = List.filter (fun e : Byte × List Nat => decide (0 < e.1)) entries := by
        simp [List.filter_cons, hpos]
      rw [hfilter]
      obtain ⟨i1, i2, i3, i4⟩ := ih acc hk hs
      refine ⟨i1, i2, ?_, ?_⟩
      · intro c
        rw [i3]
        simp only [List.mem_cons, Prod.mk.injEq]
        constructor
        · rintro (h | ⟨h0, X, hX⟩)
          · exact Or.inl h
          · exact Or.inr ⟨h0, X, Or.inr hX⟩
        · rintro (h | ⟨h0, X, ⟨h1, _⟩ | hX⟩)
          · exact Or.inl h
          · subst h1; exact absurd h0 hpos
          · exact Or.inr ⟨h0, X, hX⟩
      · intro c y
        rw [i4]
        simp only [List.mem_cons, Prod.mk.injEq]
        constructor
        · rintro (h | ⟨h0, X, hX, hy⟩)
          · exact Or.inl h
          · exact Or.inr ⟨h0, X, Or.inr hX, hy⟩
        · rintro (h | ⟨h0, X, ⟨h1, _⟩ | hX, hy⟩)
          · exact Or.inl h
          · subst h1; exact absurd h0 hpos
          · exact Or.inr ⟨h0, X, hX, hy⟩

theorem NFA.hasKey_iff {N : NFA} (hwf : N.WF) {u : Nat} {st : NFA.State}
    (hst : N.pool[u]? = some st) (c : Byte) :
    (∃ X, (c, X) ∈ st.trans) ↔ N.HasKey u c := by
  have hks := (hwf.2 st (List.getElem?_mem hst)).1
  unfold NFA.HasKey
  constructor
  · rintro ⟨X, hX⟩
    exact ⟨st, hst, by rw [mapFind_of_mem hks hX]; rfl⟩
  · rintro ⟨st', hst', h⟩
    rw [hst] at hst'
    cases hst'
    cases hf : mapFind c st.trans with
    | none => simp [hf] at h
    | some X => exact ⟨X, mapFind_mem hf⟩

theorem NFA.mem_succ_iff {N : NFA} (hwf : N.WF) {u : Nat} {st : NFA.State}
    (hst : N.pool[u]? = some st) (c : Byte) (y : Nat) :
    (∃ X, (c, X) ∈ st.trans ∧ y ∈ X) ↔ y ∈ N.succ u c := by
  have hks := (hwf.2 st (List.getElem?_mem hst)).1
  unfold NFA.succ
  rw [hst]
  constructor
  · rintro ⟨X, hX, hy⟩
    simp [mapFind_of_mem hks hX, hy]
  · intro h
    cases hf : mapFind c st.trans with
    | none => simp [hf] at h
    | some X => exact ⟨X, mapFind_mem hf, by simpa [hf] using h⟩

theorem NFA.collect_spec (N : NFA) (hwf : N.WF) :
    ∀ (S : List Nat) (acc : List (Byte × List Nat)),
    (∀ u ∈ S, u < N.pool.length) →
    keysSorted acc → (∀ c X, mapFind c acc = some X → setSorted X) →
    ∃ r, N.collect S acc = .ok r ∧ keysSorted r ∧
      (∀ c X, mapFind c r = some X → setSorted X) ∧
      (∀ c, (mapFind c r).isSome = true ↔
        ((mapFind c acc).isSome = true ∨ (0 < c ∧ ∃ u ∈ S, N.HasKey u c))) ∧
      (∀ c y, memAt r c y ↔ (memAt acc c y ∨ (0 < c ∧ ∃ u ∈ S, y ∈ N.succ u c))) := by
  intro S
  induction S with
  | nil =>
    intro acc _ hk hs
    exact ⟨acc, rfl, hk, hs, by simp, by simp⟩
  | cons u S ih =>
    intro acc hv hk hs
    have hu : u < N.pool.length := hv u (List.mem_cons_self _ _)
    obtain ⟨st, hst⟩ : ∃ st, N.pool[u]? = some st := ⟨N.pool[u], List.getElem?_eq_getElem hu⟩
    obtain ⟨c1, c2, c3, c4⟩ := collectTrans_spec st.trans acc hk hs
    obtain ⟨r, hr, r1, r2, r3, r4⟩ :=
      ih (collectTrans st.trans acc) (fun v h => hv v (List.mem_cons_of_mem _ h)) c1 c2
    refine ⟨r, ?_, r1, r2, ?_, ?_⟩
    · simp only [NFA.collect, hst]; exact hr
    · intro c
      rw [r3, c3, NFA.hasKey_iff hwf hst]
      simp only [List.mem_cons, exists_eq_or_imp]
      tauto
    · intro c y
      rw [r4, c4, NFA.mem_succ_iff hwf hst]
      simp only [List.mem_cons, exists_eq_or_imp]
      tauto

theorem NFA.collect_nil_spec (N : NFA) (hwf : N.WF) (S : List Nat)
    (hS : ∀ u ∈ S, u < N.pool.length) :
    ∃ r, N.collect S [] = .ok r ∧ keysSorted r ∧
      (∀ c X, mapFind c r = some X → setSorted X) ∧
      (∀ c, (mapFind c r).isSome = true ↔ (0 < c ∧ ∃ u ∈ S, N.HasKey u c)) ∧
      (∀ c y, memAt r c y ↔ (0 < c ∧ ∃ u ∈ S, y ∈ N.succ u c)) := by
  obtain ⟨r, hr, r1, r2, r3, r4⟩ := N.collect_spec hwf S [] hS (by simp [keysSorted])
    (by intro c X h; simp [mapFind] at h)
  refine ⟨r, hr, r1, r2, ?_, ?_⟩
  · intro c; rw [r3]; simp [mapFind]
  · intro c y; rw [r4]; simp [memAt, mapFind]

end Dank

namespace Dank

/-! ## Powerset construction: auxiliary facts -/

theorem NFA.anyFinal_spec (N : NFA) (S : List Nat) (hS : ∀ u ∈ S, u < N.pool.length) :
    ∃ b, N.anyFinal S = .ok b ∧ (b = true ↔ ∃ u ∈ S, N.isFinal u = true) := by
  induction S with
  | nil => exact ⟨false, rfl, by simp⟩
  | cons u S ih =>
    have hu : u < N.pool.length := hS u (List.mem_cons_self _ _)
    obtain ⟨st, hst⟩ : ∃ st, N.pool[u]? = some st := ⟨N.pool[u], List.getElem?_eq_getElem hu⟩
    obtain ⟨b, hb, hb'⟩ := ih (fun v h => hS v (List.mem_cons_of_mem _ h))
    have hfu : N.isFinal u = st.final := by simp [NFA.isFinal, hst]
    by_cases hf : st.final = true
    · refine ⟨true, by simp [NFA.anyFinal, hst, hf], ?_⟩
      simp only [true_iff]
      exact ⟨u, List.mem_cons_self _ _, by rw [hfu, hf]⟩
    · refine ⟨b, by simp [NFA.anyFinal, hst, hf, hb], ?_⟩
      rw [hb']
      simp only [List.mem_cons, exists_eq_or_imp, hfu, hf, false_or]
      simp

theorem subsetFind_eq_none {T : List Nat} {m : List (List Nat × Nat)} :
    subsetFind T m = none ↔ T ∉ m.map Prod.fst := by
  induction m with
  | nil => simp [subsetFind]
  | cons a m ih =>
    obtain ⟨k, v⟩ := a
    unfold subsetFind
    split_ifs with h
    · simp [h]
    · simp only [ih, List.map_cons, List.mem_cons, not_or]
      exact ⟨fun h' => ⟨fun h'' => h h''.symm, h'⟩, fun h' => h'.2⟩

theorem subsetFind_mem {T : List Nat} {v : Nat} {m : List (List Nat × Nat)}
    (h : subsetFind T m = some v) : (T, v) ∈ m := by
  induction m with
  | nil => simp [subsetFind] at h
  | cons a m ih =>
    obtain ⟨k, w⟩ := a
    unfold subsetFind at h
    split_ifs at h with hk
    · simp at h; subst h; subst hk; simp
    · exact List.mem_cons_of_mem _ (ih h)

theorem subsetFind_of_mem {T : List Nat} {v : Nat} {m : List (List Nat × Nat)}
    (hn : (m.map Prod.fst).Nodup) (h : (T, v) ∈ m) : subsetFind T m = some v := by
  induction m with
  | nil => simp at h
  | cons a m ih =>
    obtain ⟨k, w⟩ := a
    simp only [List.map_cons, List.nodup_cons] at hn
    unfold subsetFind
    rcases List.mem_cons.1 h with h | h
    · simp at h; obtain ⟨rfl, rfl⟩ := h; simp
    · have : k ≠ T := by
        rintro rfl
        exact hn.1 (List.mem_map.2 ⟨(k, v), h, rfl⟩)
      rw [if_neg this]
      exact ih hn.2 h

/-- With values numbered positionally, an entry sits at the index it names. -/
theorem vals_index {m : List (List Nat × Nat)} (hv : m.map Prod.snd = List.range m.length)
    {i j : Nat} {S : List Nat} (h : m[i]? = some (S, j)) : j = i := by
  have h1 : (m.map Prod.snd)[i]? = some j := by
    rw [List.getElem?_map, h]; rfl
  rw [hv] at h1
  have hi : i < m.length := by
    by_contra hc
    rw [List.getElem?_eq_none (by omega)] at h
    cases h
  rw [List.getElem?_range hi] at h1
  cases h1; rfl

theorem rep_of_mem {m : List (List Nat × Nat)} (hv : m.map Prod.snd = List.range m.length)
    {v : Nat} {T : List Nat} (h : (T, v) ∈ m) : m[v]? = some (T, v) := by
  obtain ⟨i, hi⟩ := List.mem_iff_getElem?.1 h
  have := vals_index hv hi
  subst this
  exact hi

theorem setSorted_length_le {S : List Nat} {n : Nat} (hs : setSorted S) (hv : ∀ u ∈ S, u < n) :
    S.length ≤ n := by
  have hnd : S.Nodup := hs.imp (fun h => Nat.ne_of_lt h)
  have hsub : S ⊆ List.range n := fun u hu => List.mem_range.2 (hv u hu)
  have := (List.subperm_of_subset hnd hsub).length_le
  simpa using this

theorem setSorted_sublist_range {S : List Nat} {n : Nat} (hs : setSorted S)
    (hv : ∀ u ∈ S, u < n) : S ∈ (List.range n).sublists := by
  rw [List.mem_sublists]
  have hnd : S.Nodup := hs.imp (fun h => Nat.ne_of_lt h)
  have hsub : S ⊆ List.range n := fun u hu => List.mem_range.2 (hv u hu)
  have hp := List.subperm_of_subset hnd hsub
  have h1 : S.Sorted (· ≤ ·) := hs.imp (fun h => Nat.le_of_lt h)
  have h2 : (List.range n).Sorted (· ≤ ·) := (List.sorted_lt_range n).imp (fun h => Nat.le_of_lt h)
  exact List.sublist_of_subperm_of_sorted hp h1 h2

/-- At most `2 ^ n` pairwise different ascending lists of indices below `n` exist. -/
theorem subsets_length_le {l : List (List Nat)} {n : Nat} (hn : l.Nodup)
    (hs : ∀ S ∈ l, setSorted S ∧ ∀ u ∈ S, u < n) : l.length ≤ 2 ^ n := by
  have hsub : l ⊆ (List.range n).sublists := fun S hS =>
    setSorted_sublist_range (hs S hS).1 (hs S hS).2
  have := (List.subperm_of_subset hn hsub).length_le
  simpa using this

end Dank

namespace Dank

/-! ## Powerset construction: one transition -/

theorem getElem?_append_single {α : Type} {l : List α} {a b : α} {i : Nat}
    (h : (l ++ [a])[i]? = some b) :
    (i < l.length ∧ l[i]? = some b) ∨ (i = l.length ∧ b = a) := by
  by_cases hi : i < l.length
  · left
    rw [List.getElem?_append_left hi] at h
    exact ⟨hi, h⟩
  · right
    have hi' : l.length ≤ i := by omega
    rw [List.getElem?_append_right hi'] at h
    by_cases h0 : i - l.length = 0
    · rw [h0] at h
      simp at h
      exact ⟨by omega, h.symm⟩
    · obtain ⟨j, hj⟩ : ∃ j, i - l.length = j + 1 := ⟨i - l.length - 1, by omega⟩
      rw [hj] at h
      simp at h

theorem getElem?_set_cases {α : Type} {l : List α} {a b : α} {i k : Nat}
    (h : (l.set k a)[i]? = some b) :
    (i = k ∧ b = a) ∨ (i ≠ k ∧ l[i]? = some b) := by
  by_cases hik : k = i
  · subst hik
    left
    by_cases hk : k < l.length
    · rw [List.getElem?_set_self hk] at h
      cases h; exact ⟨rfl, rfl⟩
    · rw [List.getElem?_eq_none (by simp; omega)] at h
      cases h
  · right
    rw [List.getElem?_set_ne hik] at h
    exact ⟨fun h' => hik h'.symm, h⟩

theorem DetBase.rep_lt {N : NFA} {st : DetState} (_h : DetBase N st) {i j : Nat} {S : List Nat}
    (hr : st.m[i]? = some (S, j)) : i < st.m.length := by
  by_contra hc
  rw [List.getElem?_eq_none (by omega)] at hr
  cases hr

theorem DetBase.rep_unique {N : NFA} {st : DetState} (_h : DetBase N st) {i : Nat}
    {S S' : List Nat} (hr : st.m[i]? = some (S, i)) (hr' : st.m[i]? = some (S', i)) : S = S' := by
  rw [hr] at hr'
  cases hr'; rfl

theorem DetBase.rep_mem {N : NFA} {st : DetState} (_h : DetBase N st) {i j : Nat} {S : List Nat}
    (hr : st.m[i]? = some (S, j)) : S ∈ st.m.map Prod.fst :=
  List.mem_map.2 ⟨(S, j), List.getElem?_mem hr, rfl⟩

/-- Inserting a transition to an already numbered subset keeps the invariant. -/
theorem DetMid.insert_old {N : NFA} {st : DetState} {k : Nat} {Sk : List Nat} {K : Byte → Prop}
    (h : DetMid N st k Sk K) {c : Byte} {T : List Nat} {v : Nat} {ds : DFA.State}
    (hds : st.dfa.pool[k]? = some ds)
    (hc0 : 0 < c) (hkey : ∃ u ∈ Sk, N.HasKey u c) (hK : ¬ K c)
    (hfind : subsetFind T st.m = some v) (hstep : N.IsStep Sk c T)
    (hKlt : ∀ c0, K c0 → c0 < c) :
    DetMid N ⟨⟨st.dfa.init, st.dfa.pool.set k (ds.setEdge c v)⟩, st.m, st.q, st.inQ⟩ k Sk
      (fun c' => K c' ∨ c' = c) := by
  have hb := h.toDetBase
  have hrepv : st.m[v]? = some (T, v) := rep_of_mem h.vals (subsetFind_mem hfind)
  have hdsS := h.sortedT k ds hds
  have hfind' : ∀ c', mapFind c' (ds.setEdge c v).trans
      = if c' = c then some v else mapFind c' ds.trans := fun c' => mapFind_mapUpsert hdsS
  refine
    { init0 := h.init0
      len_pool := by simpa using h.len_pool
      len_inQ := h.len_inQ
      vals := h.vals
      first := h.first
      nodup := h.nodup
      subs := h.subs
      final := ?_
      sortedT := ?_
      trans := ?_
      pred := ?_
      bfs := ?_
      cur := h.cur
      queue := h.queue
      complete := ?_
      pending := ?_
      keys := ?_ }
  · intro i S ds2 hr hp
    rcases getElem?_set_cases hp with ⟨rfl, rfl⟩ | ⟨_, hp'⟩
    · exact h.final i S ds hr hds
    · exact h.final i S ds2 hr hp'
  · intro i ds2 hp
    rcases getElem?_set_cases hp with ⟨rfl, rfl⟩ | ⟨_, hp'⟩
    · exact keysSorted_mapUpsert hdsS
    · exact h.sortedT i ds2 hp'
  · intro i S ds2 c' j hr hp hf
    rcases getElem?_set_cases hp with ⟨rfl, rfl⟩ | ⟨_, hp'⟩
    · have hS : S = Sk := hb.rep_unique hr h.cur
      subst hS
      rw [hfind'] at hf
      split_ifs at hf with hcc
      · cases hf
        subst hcc
        exact ⟨hc0, hkey, T, hrepv, hstep⟩
      · exact h.trans i S ds c' j hr hds hf
    · exact h.trans i S ds2 c' j hr hp' hf
  · intro i hi0 hil
    obtain ⟨p, hpi, dsp, cp, hp, hf⟩ := h.pred i hi0 hil
    by_cases hpk : p = k
    · subst hpk
      rw [hds] at hp
      cases hp
      refine ⟨p, hpi, ds.setEdge c v, cp, ?_, ?_⟩
      · show (st.dfa.pool.set p _)[p]? = _
        rw [List.getElem?_set_self (by rw [h.len_pool]; exact hb.rep_lt h.cur)]
      · rw [hfind']
        have hKcp : K cp := (h.keys _ hds cp).1 (by rw [hf]; rfl)
        have : cp ≠ c := fun hh => hK (hh ▸ hKcp)
        rw [if_neg this]; exact hf
    · refine ⟨p, hpi, dsp, cp, ?_, hf⟩
      show (st.dfa.pool.set k _)[p]? = _
      rw [List.getElem?_set_ne (fun hh => hpk hh.symm)]; exact hp
  · have keep : ∀ (i : Nat) (dsi : DFA.State) (ci : Byte) (j : Nat),
        st.dfa.pool[i]? = some dsi → mapFind ci dsi.trans = some j →
        ∃ ds2, (st.dfa.pool.set k (ds.setEdge c v))[i]? = some ds2 ∧
          mapFind ci ds2.trans = some j := by
      intro i dsi ci j hpi hfi
      by_cases hik : i = k
      · rw [hik, hds] at hpi
        cases hpi
        refine ⟨ds.setEdge c v, ?_, ?_⟩
        · rw [hik, List.getElem?_set_self (by rw [h.len_pool]; exact hb.rep_lt h.cur)]
        · rw [hfind']
          have hKci : K ci := (h.keys _ hds ci).1 (by rw [hfi]; rfl)
          rw [if_neg (fun hh : ci = c => hK (hh ▸ hKci))]; exact hfi
      · exact ⟨dsi, by rw [List.getElem?_set_ne (fun hh => hik hh.symm)]; exact hpi, hfi⟩
    have fromOld : ∀ (j j' i' : Nat) (ds' : DFA.State) (c' : Byte), 0 < j → j < j' →
        st.dfa.pool[i']? = some ds' → mapFind c' ds'.trans = some j' →
        ∃ (i : Nat) (ds2 : DFA.State) (c2 : Byte),
          (st.dfa.pool.set k (ds.setEdge c v))[i]? = some ds2 ∧
          mapFind c2 ds2.trans = some j ∧ (i < i' ∨ (i = i' ∧ c2 < c')) := by
      intro j j' i' ds' c' hj0 hjj hp' hf
      obtain ⟨i, dsi, ci, hpi, hfi, hlex⟩ := h.bfs j j' i' ds' c' hj0 hjj hp' hf
      obtain ⟨ds2, h1, h2⟩ := keep i dsi ci j hpi hfi
      exact ⟨i, ds2, ci, h1, h2, hlex⟩
    intro j j' i' ds' c' hj0 hjj hpp hf
    rcases getElem?_set_cases hpp with ⟨hik, hdd⟩ | ⟨_, hp'⟩
    · rw [hdd, hfind'] at hf
      split_ifs at hf with hcc
      · cases hf
        have hjl : j < st.m.length := lt_trans hjj (hb.rep_lt hrepv)
        obtain ⟨p, hpj, dsp, cp, hpp2, hfp⟩ := h.pred j hj0 hjl
        obtain ⟨ds2, h1, h2⟩ := keep p dsp cp j hpp2 hfp
        refine ⟨p, ds2, cp, h1, h2, ?_⟩
        by_cases hpk : p = k
        · right
          rw [hpk, hds] at hpp2
          cases hpp2
          have hKcp : K cp := (h.keys _ hds cp).1 (by rw [hfp]; rfl)
          exact ⟨by rw [hpk, hik], by rw [hcc]; exact hKlt cp hKcp⟩
        · left
          by_contra hlt
          have hkp : k < p := by omega
          have := h.pending p dsp hkp hpp2
          rw [this] at hfp
          simp [mapFind] at hfp
      · exact fromOld j j' i' ds c' hj0 hjj (by rw [hik]; exact hds) hf
    · exact fromOld j j' i' ds' c' hj0 hjj hp' hf
  · intro i S ds2 c' hik hr hp hc' hk'
    rcases getElem?_set_cases hp with ⟨rfl, _⟩ | ⟨_, hp'⟩
    · omega
    · exact h.complete i S ds2 c' hik hr hp' hc' hk'
  · intro i ds2 hik hp
    rcases getElem?_set_cases hp with ⟨rfl, _⟩ | ⟨_, hp'⟩
    · omega
    · exact h.pending i ds2 hik hp'
  · intro ds2 hp c'
    rcases getElem?_set_cases hp with ⟨_, rfl⟩ | ⟨hne, _⟩
    · rw [hfind']
      split_ifs with hcc
      · simp [hcc]
      · rw [h.keys ds hds c']
        simp [hcc]
    · exact absurd rfl hne

/-- Creating a new DFA state for an unseen subset and inserting the transition to it keeps the
invariant. -/
theorem DetMid.insert_new {N : NFA} {st : DetState} {k : Nat} {Sk : List Nat} {K : Byte → Prop}
    (h : DetMid N st k Sk K) {c : Byte} {T : List Nat} {fin : Bool} {ds : DFA.State}
    (hds : st.dfa.pool[k]? = some ds)
    (hc0 : 0 < c) (hkey : ∃ u ∈ Sk, N.HasKey u c) (hK : ¬ K c)
    (hfind : subsetFind T st.m = none) (hstep : N.IsStep Sk c T)
    (hTs : setSorted T) (hTv : ∀ u ∈ T, u < N.pool.length)
    (hTc : ∀ u ∈ T, ∀ v ∈ N.succ u 0, v ∈ T)
    (hfin : fin = true ↔ ∃ u ∈ T, N.isFinal u = true)
    (hKlt : ∀ c0, K c0 → c0 < c) :
    DetMid N ⟨⟨st.dfa.init, st.dfa.pool.set k (ds.setEdge c st.dfa.pool.length) ++ [⟨fin, []⟩]⟩,
      st.m ++ [(T, st.dfa.pool.length)], st.q ++ [T], st.inQ ++ [true]⟩ k Sk
      (fun c' => K c' ∨ c' = c) := by
  have hb := h.toDetBase
  have hlen := h.len_pool
  have hklt : k < st.m.length := hb.rep_lt h.cur
  have hdsS := h.sortedT k ds hds
  have hfind' : ∀ c', mapFind c' (ds.setEdge c st.dfa.pool.length).trans
      = if c' = c then some st.dfa.pool.length else mapFind c' ds.trans :=
    fun c' => mapFind_mapUpsert hdsS
  have hTnew : T ∉ st.m.map Prod.fst := subsetFind_eq_none.1 hfind
  -- access lemmas for the new map and pool
  have hm : ∀ {i j : Nat} {S : List Nat}, (st.m ++ [(T, st.dfa.pool.length)])[i]? = some (S, j) →
      (i < st.m.length ∧ st.m[i]? = some (S, j)) ∨ (i = st.m.length ∧ S = T ∧ j = st.m.length) := by
    intro i j S hx
    rcases getElem?_append_single hx with h1 | ⟨h1, h2⟩
    · exact Or.inl h1
    · right
      simp only [Prod.mk.injEq] at h2
      exact ⟨h1, h2.1, by rw [h2.2, hlen]⟩
  have hmold : ∀ {i j : Nat} {S : List Nat}, st.m[i]? = some (S, j) →
      (st.m ++ [(T, st.dfa.pool.length)])[i]? = some (S, j) := by
    intro i j S hx
    rw [List.getElem?_append_left (hb.rep_lt hx)]; exact hx
  have hp : ∀ {i : Nat} {ds2 : DFA.State},
      (st.dfa.pool.set k (ds.setEdge c st.dfa.pool.length) ++ [⟨fin, []⟩])[i]? = some ds2 →
      (i = k ∧ ds2 = ds.setEdge c st.dfa.pool.length) ∨
      (i ≠ k ∧ i < st.m.length ∧ st.dfa.pool[i]? = some ds2) ∨
      (i = st.m.length ∧ ds2 = ⟨fin, []⟩) := by
    intro i ds2 hx
    rcases getElem?_append_single hx with ⟨h1, h2⟩ | ⟨h1, h2⟩
    · rcases getElem?_set_cases h2 with h3 | ⟨h3, h4⟩
      · exact Or.inl h3
      · right; left
        refine ⟨h3, ?_, h4⟩
        simpa [hlen] using h1
    · right; right
      refine ⟨?_, h2⟩
      simpa [hlen] using h1
  have hpk : (st.dfa.pool.set k (ds.setEdge c st.dfa.pool.length) ++ [⟨fin, []⟩])[k]?
      = some (ds.setEdge c st.dfa.pool.length) := by
    rw [List.getElem?_append_left (by simp [hlen, hklt]),
      List.getElem?_set_self (by rw [hlen]; exact hklt)]
  have hpold : ∀ {i : Nat} {ds2 : DFA.State}, i ≠ k → st.dfa.pool[i]? = some ds2 →
      (st.dfa.pool.set k (ds.setEdge c st.dfa.pool.length) ++ [⟨fin, []⟩])[i]? = some ds2 := by
    intro i ds2 hik hx
    have hi : i < st.dfa.pool.length := by
      by_contra hc
      rw [List.getElem?_eq_none (by omega)] at hx
      cases hx
    rw [List.getElem?_append_left (by simpa using hi),
      List.getElem?_set_ne (fun hh => hik hh.symm)]
    exact hx
  refine
    { init0 := h.init0
      len_pool := by simp [hlen]
      len_inQ := by simp [h.len_inQ]
      vals := ?_
      first := hmold h.first
      nodup := ?_
      subs := ?_
      final := ?_
      sortedT := ?_
      trans := ?_
      pred := ?_
      bfs := ?_
      cur := hmold h.cur
      queue := ?_
      complete := ?_
      pending := ?_
      keys := ?_ }
  · simp only [List.map_append, List.map_cons, List.map_nil, List.length_append,
      List.length_singleton, List.range_succ, h.vals, hlen]
  · simp only [List.map_append, List.map_cons, List.map_nil]
    rw [List.nodup_append]
    refine ⟨h.nodup, by simp, ?_⟩
    intro a ha hb'
    simp only [List.mem_singleton] at hb'
    subst hb'
    exact hTnew ha
  · intro S hS
    simp only [List.map_append, List.map_cons, List.map_nil, List.mem_append,
      List.mem_singleton] at hS
    rcases hS with hS | rfl
    · exact h.subs S hS
    · exact ⟨hTs, hTv, Or.inr hTc⟩
  · intro i S ds2 hr hpp
    rcases hm hr with ⟨hi, hr'⟩ | ⟨hi, rfl, _⟩
    · rcases hp hpp with ⟨rfl, rfl⟩ | ⟨_, _, hp'⟩ | ⟨hi', _⟩
      · exact h.final i S ds hr' hds
      · exact h.final i S ds2 hr' hp'
      · omega
    · rcases hp hpp with ⟨rfl, _⟩ | ⟨_, hi', _⟩ | ⟨_, rfl⟩
      · omega
      · omega
      · exact hfin
  · intro i ds2 hpp
    rcases hp hpp with ⟨rfl, rfl⟩ | ⟨_, _, hp'⟩ | ⟨_, rfl⟩
    · exact keysSorted_mapUpsert hdsS
    · exact h.sortedT i ds2 hp'
    · simp [keysSorted]
  · intro i S ds2 c' j hr hpp hf
    rcases hp hpp with ⟨rfl, rfl⟩ | ⟨_, hi, hp'⟩ | ⟨hi, rfl⟩
    · rcases hm hr with ⟨_, hr'⟩ | ⟨hi, _⟩
      · have hS : S = Sk := hb.rep_unique hr' h.cur
        subst hS
        rw [hfind'] at hf
        split_ifs at hf with hcc
        · cases hf
          subst hcc
          refine ⟨hc0, hkey, T, ?_, hstep⟩
          rw [List.getElem?_append_right (by omega), hlen]
          simp
        · obtain ⟨a1, a2, T', a3, a4⟩ := h.trans i S ds c' j hr' hds hf
          exact ⟨a1, a2, T', hmold a3, a4⟩
      · omega
    · rcases hm hr with ⟨_, hr'⟩ | ⟨hi', _⟩
      · obtain ⟨a1, a2, T', a3, a4⟩ := h.trans i S ds2 c' j hr' hp' hf
        exact ⟨a1, a2, T', hmold a3, a4⟩
      · omega
    · simp [mapFind] at hf
  · intro i hi0 hil
    simp only [List.length_append, List.length_singleton] at hil
    by_cases hi : i < st.m.length
    · obtain ⟨p, hpi, dsp, cp, hpp, hf⟩ := h.pred i hi0 hi
      by_cases hpk' : p = k
      · subst hpk'
        rw [hds] at hpp
        cases hpp
        refine ⟨p, hpi, ds.setEdge c st.dfa.pool.length, cp, hpk, ?_⟩
        rw [hfind']
        have hKcp : K cp := (h.keys _ hds cp).1 (by rw [hf]; rfl)
        have : cp ≠ c := fun hh => hK (hh ▸ hKcp)
        rw [if_neg this]; exact hf
      · exact ⟨p, hpi, dsp, cp, hpold hpk' hpp, hf⟩
    · have hi' : i = st.m.length := by omega
      refine ⟨k, by omega, ds.setEdge c st.dfa.pool.length, c, hpk, ?_⟩
      rw [hfind', if_pos rfl, hlen, hi']
  · have keep : ∀ (i : Nat) (dsi : DFA.State) (ci : Byte) (j : Nat),
        st.dfa.pool[i]? = some dsi → mapFind ci dsi.trans = some j →
        ∃ ds2, (st.dfa.pool.set k (ds.setEdge c st.dfa.pool.length) ++ [⟨fin, []⟩])[i]? =
            some ds2 ∧ mapFind ci ds2.trans = some j := by
      intro i dsi ci j hpi hfi
      by_cases hik : i = k
      · rw [hik, hds] at hpi
        cases hpi
        refine ⟨ds.setEdge c st.dfa.pool.length, by rw [hik]; exact hpk, ?_⟩
        rw [hfind']
        have hKci : K ci := (h.keys _ hds ci).1 (by rw [hfi]; rfl)
        rw [if_neg (fun hh : ci = c => hK (hh ▸ hKci))]; exact hfi
      · exact ⟨dsi, hpold hik hpi, hfi⟩
    have fromOld : ∀ (j j' i' : Nat) (ds' : DFA.State) (c' : Byte), 0 < j → j < j' →
        st.dfa.pool[i']? = some ds' → mapFind c' ds'.trans = some j' →
        ∃ (i : Nat) (ds2 : DFA.State) (c2 : Byte),
          (st.dfa.pool.set k (ds.setEdge c st.dfa.pool.length) ++ [⟨fin, []⟩])[i]? = some ds2 ∧
          mapFind c2 ds2.trans = some j ∧ (i < i' ∨ (i = i' ∧ c2 < c')) := by
      intro j j' i' ds' c' hj0 hjj hp' hf
      obtain ⟨i, dsi, ci, hpi, hfi, hlex⟩ := h.bfs j j' i' ds' c' hj0 hjj hp' hf
      obtain ⟨ds2, h1, h2⟩ := keep i dsi ci j hpi hfi
      exact ⟨i, ds2, ci, h1, h2, hlex⟩
    intro j j' i' ds' c' hj0 hjj hpp hf
    rcases hp hpp with ⟨hik, hdd⟩ | ⟨_, _, hp'⟩ | ⟨_, hdd⟩
    · rw [hdd, hfind'] at hf
      split_ifs at hf with hcc
      · cases hf
        have hjl : j < st.m.length := by omega
        obtain ⟨p, hpj, dsp, cp, hpp2, hfp⟩ := h.pred j hj0 hjl
        obtain ⟨ds2, h1, h2⟩ := keep p dsp cp j hpp2 hfp
        refine ⟨p, ds2, cp, h1, h2, ?_⟩
        by_cases hpk' : p = k
        · right
          rw [hpk', hds] at hpp2
          cases hpp2
          have hKcp : K cp := (h.keys _ hds cp).1 (by rw [hfp]; rfl)
          exact ⟨by rw [hpk', hik], by rw [hcc]; exact hKlt cp hKcp⟩
        · left
          by_contra hlt
          have hkp : k < p := by omega
          have := h.pending p dsp hkp hpp2
          rw [this] at hfp
          simp [mapFind] at hfp
      · exact fromOld j j' i' ds c' hj0 hjj (by rw [hik]; exact hds) hf
    · exact fromOld j j' i' ds' c' hj0 hjj hp' hf
    · rw [hdd] at hf
      simp [mapFind] at hf
  · show st.q ++ [T] = _
    rw [h.queue, List.drop_append_of_le_length (by omega)]
    simp
  · intro i S ds2 c' hik hr hpp hc' hk'
    rcases hm hr with ⟨_, hr'⟩ | ⟨hi, _⟩
    · rcases hp hpp with ⟨rfl, _⟩ | ⟨_, _, hp'⟩ | ⟨hi', _⟩
      · omega
      · exact h.complete i S ds2 c' hik hr' hp' hc' hk'
      · omega
    · omega
  · intro i ds2 hik hpp
    rcases hp hpp with ⟨rfl, _⟩ | ⟨_, _, hp'⟩ | ⟨_, rfl⟩
    · omega
    · exact h.pending i ds2 hik hp'
    · rfl
  · intro ds2 hpp c'
    rw [hpk] at hpp
    cases hpp
    rw [hfind']
    split_ifs with hcc
    · simp [hcc]
    · rw [h.keys ds hds c']
      simp [hcc]

end Dank

namespace Dank

/-! ## Powerset construction: the transition loop -/

theorem DFA.insert_ok {D : DFA} {s : Nat} {c : Byte} {t : Nat} {ds : DFA.State}
    (hds : D.pool[s]? = some ds) (hf : mapFind c ds.trans = none) :
    D.insert s c t = .ok ⟨D.init, D.pool.set s (ds.setEdge c t)⟩ := by
  simp [DFA.insert, hds, hf]

theorem newState_pool (pool : List DFA.State) (k : Nat) (x : DFA.State) (fin : Bool)
    (hk : k < pool.length) :
    (if fin = true then
        ((pool ++ [DFA.State.new]).set k x).set pool.length
          { final := true,
            trans := (((pool ++ [DFA.State.new]).set k x).getD pool.length DFA.State.new).trans }
      else (pool ++ [DFA.State.new]).set k x)
    = pool.set k x ++ [⟨fin, []⟩] := by
  have h1 : (pool ++ [DFA.State.new]).set k x = pool.set k x ++ [DFA.State.new] := by
    rw [List.set_append, if_pos hk]
  rw [h1]
  cases fin with
  | false => simp [DFA.State.new]
  | true =>
    simp only [if_true]
    have h2 : (pool.set k x ++ [DFA.State.new]).getD pool.length DFA.State.new
        = DFA.State.new := by
      simp [List.getD]
    rw [h2, List.set_append, if_neg (by simp)]
    simp [DFA.State.new]

theorem NFA.detEdges_spec (N : NFA) (htv : N.targetsValid) (fuel : Nat)
    (hfuel : 2 * N.pool.length ≤ fuel) (k : Nat) (Sk : List Nat) :
    ∀ (entries : List (Byte × List Nat)) (st : DetState) (K : Byte → Prop),
      DetMid N st k Sk K →
      keysSorted entries →
      (∀ e ∈ entries, ¬ K e.1) →
      (∀ e ∈ entries, 0 < e.1 ∧ (∃ u ∈ Sk, N.HasKey u e.1) ∧ setSorted e.2 ∧
          (∀ y, y ∈ e.2 ↔ ∃ u ∈ Sk, y ∈ N.succ u e.1)) →
      (∀ e ∈ entries, ∀ c0, K c0 → c0 < e.1) →
      ∃ st', N.detEdges fuel k entries st = .ok st' ∧
        DetMid N st' k Sk (fun c => K c ∨ c ∈ entries.map Prod.fst) := by
  intro entries
  induction entries with
  | nil =>
    intro st K h _ _ _ _
    exact ⟨st, rfl, by simpa using h⟩
  | cons e rest ih =>
    intro st K h hks hnK hent hlt
    obtain ⟨c, X⟩ := e
    have hKlt : ∀ c0, K c0 → c0 < c := fun c0 h0 => hlt (c, X) (List.mem_cons_self _ _) c0 h0
    have hltrest : ∀ e ∈ rest, ∀ c0, (K c0 ∨ c0 = c) → c0 < e.1 := by
      intro e he c0 h0
      rcases h0 with h0 | h0
      · exact hlt e (List.mem_cons_of_mem _ he) c0 h0
      · unfold keysSorted at hks
        simp only [List.map_cons, List.pairwise_cons] at hks
        rw [h0]
        exact hks.1 e.1 (List.mem_map.2 ⟨e, he, rfl⟩)
    obtain ⟨hc0, hkey, hXs, hXm⟩ := hent (c, X) (List.mem_cons_self _ _)
    simp only at hc0 hkey hXs hXm
    have hXv : ∀ u ∈ X, u < N.pool.length := by
      intro u hu
      obtain ⟨w, _, hw⟩ := (hXm u).1 hu
      exact NFA.succ_lt htv hw
    have hXl : X.length ≤ N.pool.length := setSorted_length_le hXs hXv
    obtain ⟨T, hT, hTm, hTs, hTv⟩ := N.get_closure_spec htv X hXv fuel (by omega)
    have hTs := hTs hXs
    have hstep : N.IsStep Sk c T := by
      intro y
      rw [hTm]
      constructor
      · rintro ⟨v, hv, hvy⟩
        obtain ⟨u, hu, huv⟩ := (hXm v).1 hv
        exact ⟨u, hu, v, huv, hvy⟩
      · rintro ⟨u, hu, v, huv, hvy⟩
        exact ⟨v, (hXm v).2 ⟨u, hu, huv⟩, hvy⟩
    have hTc : ∀ u ∈ T, ∀ v ∈ N.succ u 0, v ∈ T := by
      intro u hu v hv
      obtain ⟨x, hx, hxu⟩ := (hTm u).1 hu
      exact (hTm v).2 ⟨x, hx, Relation.ReflTransGen.tail hxu hv⟩
    have hb := h.toDetBase
    have hklt : k < st.m.length := hb.rep_lt h.cur
    have hkp : k < st.dfa.pool.length := by rw [h.len_pool]; exact hklt
    obtain ⟨ds, hds⟩ : ∃ ds, st.dfa.pool[k]? = some ds :=
      ⟨st.dfa.pool[k], List.getElem?_eq_getElem hkp⟩
    have hKc : ¬ K c := hnK (c, X) (List.mem_cons_self _ _)
    have hdsc : mapFind c ds.trans = none := by
      cases hf : mapFind c ds.trans with
      | none => rfl
      | some j => exact absurd ((h.keys ds hds c).1 (by rw [hf]; rfl)) hKc
    have hks' : keysSorted rest := by
      unfold keysSorted at hks ⊢
      simp only [List.map_cons, List.pairwise_cons] at hks
      exact hks.2
    have hrestK : ∀ e ∈ rest, ¬ (K e.1 ∨ e.1 = c) := by
      intro e he hh
      rcases hh with hh | hh
      · exact hnK e (List.mem_cons_of_mem _ he) hh
      · unfold keysSorted at hks
        simp only [List.map_cons, List.pairwise_cons] at hks
        have := hks.1 e.1 (List.mem_map.2 ⟨e, he, rfl⟩)
        rw [hh] at this
        exact lt_irrefl _ this
    have hrest : ∀ e ∈ rest, 0 < e.1 ∧ (∃ u ∈ Sk, N.HasKey u e.1) ∧ setSorted e.2 ∧
          (∀ y, y ∈ e.2 ↔ ∃ u ∈ Sk, y ∈ N.succ u e.1) :=
      fun e he => hent e (List.mem_cons_of_mem _ he)
    have hKeq : (fun c' => (K c' ∨ c' = c) ∨ c' ∈ rest.map Prod.fst)
        = (fun c' => K c' ∨ c' ∈ ((c, X) :: rest).map Prod.fst) := by
      funext c'
      simp only [List.map_cons, List.mem_cons, eq_iff_iff]
      tauto
    cases hfind : subsetFind T st.m with
    | some v =>
      have hmid := h.insert_old hds hc0 hkey hKc hfind hstep hKlt
      obtain ⟨st', hst', hmid'⟩ := ih _ _ hmid hks' hrestK hrest hltrest
      refine ⟨st', ?_, hKeq ▸ hmid'⟩
      rw [NFA.detEdges]
      simp only [hT, bind, Except.bind, hfind, DFA.insert_ok hds hdsc]
      exact hst'
    | none =>
      obtain ⟨fin, hfin, hfin'⟩ := N.anyFinal_spec T hTv
      have hmid := h.insert_new hds hc0 hkey hKc hfind hstep hTs hTv hTc hfin' hKlt
      obtain ⟨st', hst', hmid'⟩ := ih _ _ hmid hks' hrestK hrest hltrest
      refine ⟨st', ?_, hKeq ▸ hmid'⟩
      have hds1 : (st.dfa.pool ++ [DFA.State.new])[k]? = some ds := by
        rw [List.getElem?_append_left (by rw [h.len_pool]; exact hklt)]; exact hds
      have hins := DFA.insert_ok (D := ⟨st.dfa.init, st.dfa.pool ++ [DFA.State.new]⟩)
        (t := st.dfa.pool.length) hds1 hdsc
      rw [NFA.detEdges]
      simp only [hT, bind, Except.bind, hfind, hins, hfin]
      have hpool := newState_pool st.dfa.pool k (ds.setEdge c st.dfa.pool.length) fin
        (by rw [h.len_pool]; exact hklt)
      rw [← hst']
      congr 1
      have : ∀ (a b : DFA), a = b → ∀ m q i, DetState.mk a m q i = DetState.mk b m q i := by
        intro a b hab m q i; rw [hab]
      apply this
      cases fin with
      | false => simpa using congrArg (DFA.mk st.dfa.init) hpool
      | true => simpa using congrArg (DFA.mk st.dfa.init) hpool

end Dank

namespace Dank

/-! ## Powerset construction: the worklist loop -/

theorem DetBase.length_le {N : NFA} {st : DetState} (h : DetBase N st) :
    st.m.length ≤ 2 ^ N.pool.length := by
  have := subsets_length_le h.nodup (fun S hS => ⟨(h.subs S hS).1, (h.subs S hS).2.1⟩)
  simpa using this

theorem DetInv.pop {N : NFA} {st : DetState} {k : Nat} (h : DetInv N st k)
    {u0 : List Nat} {q : List (List Nat)} (hq : st.q = u0 :: q) :
    k < st.m.length ∧ subsetFind u0 st.m = some k ∧
      DetMid N ⟨st.dfa, st.m, q, st.inQ.set k false⟩ k u0 (fun _ => False) := by
  have hb := h.toDetBase
  have hqq := h.queue
  rw [hq] at hqq
  have hklt : k < st.m.length := by
    by_contra hc
    rw [List.drop_eq_nil_of_le (by omega)] at hqq
    simp at hqq
  have hdrop : st.m.drop k = st.m[k] :: st.m.drop (k + 1) := List.drop_eq_getElem_cons hklt
  rw [hdrop, List.map_cons] at hqq
  simp only [List.cons.injEq] at hqq
  obtain ⟨hu0, hq'⟩ := hqq
  have hget : st.m[k]? = some st.m[k] := List.getElem?_eq_getElem hklt
  have hcur : st.m[k]? = some (u0, k) := by
    have h1 : st.m[k]? = some (u0, st.m[k].2) := by rw [hget, hu0]
    have := vals_index h.vals h1
    rw [this] at h1
    exact h1
  refine ⟨hklt, subsetFind_of_mem h.nodup (List.getElem?_mem hcur), ?_⟩
  exact
    { init0 := h.init0
      len_pool := h.len_pool
      len_inQ := by simpa using h.len_inQ
      vals := h.vals
      first := h.first
      nodup := h.nodup
      subs := h.subs
      final := h.final
      sortedT := h.sortedT
      trans := h.trans
      pred := h.pred
      bfs := h.bfs
      cur := hcur
      queue := hq'
      complete := h.complete
      pending := fun i ds hik hp => h.pending i ds (by omega) hp
      keys := by
        intro ds hp c
        have := h.pending k ds (le_refl _) hp
        simp [this, mapFind] }

theorem DetMid.finish {N : NFA} {st : DetState} {k : Nat} {Sk : List Nat}
    {coll : List (Byte × List Nat)}
    (h : DetMid N st k Sk (fun c => False ∨ c ∈ coll.map Prod.fst))
    (hcoll : ∀ c, (mapFind c coll).isSome = true ↔ (0 < c ∧ ∃ u ∈ Sk, N.HasKey u c)) :
    DetInv N st (k + 1) := by
  have hb := h.toDetBase
  exact
    { init0 := h.init0
      len_pool := h.len_pool
      len_inQ := h.len_inQ
      vals := h.vals
      first := h.first
      nodup := h.nodup
      subs := h.subs
      final := h.final
      sortedT := h.sortedT
      trans := h.trans
      pred := h.pred
      bfs := h.bfs
      hk := hb.rep_lt h.cur
      queue := h.queue
      complete := by
        intro i S ds c hik hr hp hc0 hkey
        by_cases hi : i < k
        · exact h.complete i S ds c hi hr hp hc0 hkey
        · have hik' : i = k := by omega
          subst hik'
          have hS : S = Sk := hb.rep_unique hr h.cur
          subst hS
          rw [h.keys ds hp c]
          right
          have h1 := (hcoll c).2 ⟨hc0, hkey⟩
          cases hf : mapFind c coll with
          | none => simp [hf] at h1
          | some X => exact List.mem_map.2 ⟨(c, X), mapFind_mem hf, rfl⟩
      pending := fun i ds hik hp => h.pending i ds (by omega) hp }

theorem NFA.detLoop_spec (N : NFA) (hwf : N.WF) (htv : N.targetsValid) :
    ∀ (fuel : Nat) (st : DetState) (k : Nat), DetInv N st k →
      (2 ^ N.pool.length + 1 - k) + 2 * N.pool.length ≤ fuel →
      ∃ st', N.detLoop fuel st = .ok st'.dfa ∧ DetInv N st' st'.m.length := by
  intro fuel
  induction fuel with
  | zero =>
    intro st k h hf
    have := h.toDetBase.length_le
    have := h.hk
    omega
  | succ fuel ih =>
    intro st k h hf
    cases hq : st.q with
    | nil =>
      refine ⟨st, ?_, ?_⟩
      · rw [NFA.detLoop]; simp [hq]
      · have hqq := h.queue
        rw [hq] at hqq
        have hk : k = st.m.length := by
          by_contra hc
          have hklt : k < st.m.length := lt_of_le_of_ne h.hk hc
          have hl := congrArg List.length hqq
          simp only [List.length_nil, List.length_map, List.length_drop] at hl
          omega
        rw [← hk]; exact h
    | cons u0 q =>
      obtain ⟨hklt, hfind, hmid⟩ := h.pop hq
      have hb := h.toDetBase
      have hlen := hb.length_le
      have hu0 := h.subs u0 (hb.rep_mem hmid.cur)
      obtain ⟨coll, hcoll, c1, c2, c3, c4⟩ := N.collect_nil_spec hwf u0 hu0.2.1
      have hent : ∀ e ∈ coll, 0 < e.1 ∧ (∃ u ∈ u0, N.HasKey u e.1) ∧ setSorted e.2 ∧
          (∀ y, y ∈ e.2 ↔ ∃ u ∈ u0, y ∈ N.succ u e.1) := by
        intro e he
        have hfe : mapFind e.1 coll = some e.2 := mapFind_of_mem c1 he
        have h3 := (c3 e.1).1 (by rw [hfe]; rfl)
        refine ⟨h3.1, h3.2, c2 _ _ hfe, ?_⟩
        intro y
        have h4 := c4 e.1 y
        unfold memAt at h4
        rw [hfe] at h4
        simp only [Option.some.injEq, exists_eq_left'] at h4
        rw [h4]
        simp [h3.1]
      obtain ⟨st1, hst1, hmid1⟩ := N.detEdges_spec htv fuel (by omega) k u0 coll _ _ hmid c1
        (by intro e _ hF; exact hF) hent (by intro e _ c0 hF; exact absurd hF id)
      have hinv1 := hmid1.finish c3
      obtain ⟨st2, hst2, hinv2⟩ := ih st1 (k + 1) hinv1 (by omega)
      refine ⟨st2, ?_, hinv2⟩
      rw [NFA.detLoop]
      have hkq : k < st.inQ.length := by rw [h.len_inQ]; exact hklt
      simp only [hq, hfind, hkq, if_true, hcoll, bind, Except.bind, hst1]
      exact hst2

end Dank

namespace Dank

/-! ## Powerset construction: language -/

theorem NFA.determinize_spec (N : NFA) (hwf : N.WF) (htv : N.targetsValid)
    (hiv : N.initValid) (fuel : Nat)
    (hf : 2 ^ N.pool.length + 1 + 2 * N.pool.length ≤ fuel) :
    ∃ st, N.determinize fuel = .ok st.dfa ∧ DetInv N st st.m.length := by
  obtain ⟨fin, hfin, hfin'⟩ := N.anyFinal_spec N.init hiv
  have hinv : DetInv N ⟨⟨0, [⟨fin, []⟩]⟩, [(N.init, 0)], [N.init], [true]⟩ 0 :=
    { init0 := rfl
      len_pool := rfl
      len_inQ := rfl
      vals := rfl
      first := rfl
      nodup := by simp
      subs := by
        intro S hS
        simp only [List.map_cons, List.map_nil, List.mem_singleton] at hS
        subst hS
        exact ⟨hwf.1, hiv, Or.inl rfl⟩
      final := by
        intro i S ds hr hp
        cases i with
        | zero =>
          simp only [List.getElem?_cons_zero, Option.some.injEq, Prod.mk.injEq] at hr hp
          obtain ⟨rfl, _⟩ := hr
          subst hp
          exact hfin'
        | succ i => simp at hr
      sortedT := by
        intro i ds hp
        cases i with
        | zero =>
          simp only [List.getElem?_cons_zero, Option.some.injEq] at hp
          subst hp
          simp [keysSorted]
        | succ i => simp at hp
      trans := by
        intro i S ds c j hr hp hfd
        cases i with
        | zero =>
          simp only [List.getElem?_cons_zero, Option.some.injEq] at hp
          subst hp
          simp [mapFind] at hfd
        | succ i => simp at hp
      pred := by
        intro i hi0 hil
        simp only [List.length_singleton] at hil
        omega
      bfs := by
        intro j j' i' ds' c' _ _ hp hf
        cases i' with
        | zero =>
          simp only [List.getElem?_cons_zero, Option.some.injEq] at hp
          subst hp
          simp [mapFind] at hf
        | succ i => simp at hp
      hk := Nat.zero_le _
      queue := rfl
      complete := by intro i S ds c hik; omega
      pending := by
        intro i ds _ hp
        cases i with
        | zero =>
          simp only [List.getElem?_cons_zero, Option.some.injEq] at hp
          subst hp; rfl
        | succ i => simp at hp }
  obtain ⟨st, hst, hinv'⟩ := N.detLoop_spec hwf htv fuel _ 0 hinv (by rw [Nat.sub_zero]; exact hf)
  refine ⟨st, ?_, hinv'⟩
  unfold NFA.determinize
  simp only [hfin, bind, Except.bind, DFA.State.new]
  exact hst

theorem NFA.path_of_epsReach {N : NFA} {u v f : Nat} {x : List Byte}
    (h : N.EpsReach u v) (hp : N.Path v x f) : N.Path u x f := by
  induction h using Relation.ReflTransGen.head_induction_on with
  | refl => exact hp
  | head hab _ ih => exact NFA.Path.eps hab ih

theorem NFA.path_nil_iff {N : NFA} {u f : Nat} : N.Path u [] f ↔ N.EpsReach u f := by
  constructor
  · intro h
    generalize hw : ([] : List Byte) = w at h
    induction h with
    | nil u => exact Relation.ReflTransGen.refl
    | eps hv _ ih => exact Relation.ReflTransGen.head hv (ih hw)
    | sym _ _ _ _ => cases hw
  · intro h
    exact NFA.path_of_epsReach h (NFA.Path.nil f)

theorem NFA.path_cons_iff {N : NFA} {u f : Nat} {c : Byte} {x : List Byte} :
    N.Path u (c :: x) f ↔
      ∃ u' v, N.EpsReach u u' ∧ c ≠ 0 ∧ v ∈ N.succ u' c ∧ N.Path v x f := by
  constructor
  · intro h
    generalize hw : c :: x = w at h
    induction h with
    | nil u => cases hw
    | eps hv _ ih =>
      obtain ⟨u', v, h1, h2, h3, h4⟩ := ih hw
      exact ⟨u', v, Relation.ReflTransGen.head hv h1, h2, h3, h4⟩
    | sym hc hv hp _ =>
      cases hw
      exact ⟨_, _, Relation.ReflTransGen.refl, hc, hv, hp⟩
  · rintro ⟨u', v, h1, h2, h3, h4⟩
    exact NFA.path_of_epsReach h1 (NFA.Path.sym h2 h3 h4)

theorem NFA.hasKey_of_succ {N : NFA} {u v : Nat} {c : Byte} (h : v ∈ N.succ u c) :
    N.HasKey u c := by
  unfold NFA.succ at h
  cases hu : N.pool[u]? with
  | none => simp [hu] at h
  | some st =>
    simp only [hu] at h
    cases hf : mapFind c st.trans with
    | none => simp [hf] at h
    | some X => exact ⟨st, hu, by rw [hf]; rfl⟩

theorem mem_closed_of_epsReach {N : NFA} {S : List Nat}
    (hS : ∀ u ∈ S, ∀ v ∈ N.succ u 0, v ∈ S) {u v : Nat} (hu : u ∈ S) (h : N.EpsReach u v) :
    v ∈ S := by
  induction h with
  | refl => exact hu
  | tail _ hbc ih => exact hS _ ih _ hbc

/-- In a finished powerset construction, the run from state `i` accepts exactly the words
spelled by NFA paths from the subset of `i` to a final state. -/
theorem DetInv.acceptsFrom_iff {N : NFA} {st : DetState} (h : DetInv N st st.m.length)
    (hic : N.initClosed) :
    ∀ (w : List Byte) (i : Nat) (S : List Nat), st.m[i]? = some (S, i) →
      (st.dfa.acceptsFrom i w = true ↔ ∃ u ∈ S, ∃ f, N.Path u w f ∧ N.isFinal f = true) := by
  have hb := h.toDetBase
  have hcl : ∀ S ∈ st.m.map Prod.fst, ∀ u ∈ S, ∀ v ∈ N.succ u 0, v ∈ S := by
    intro S hS
    rcases (h.subs S hS).2.2 with rfl | hc
    · exact hic
    · exact hc
  intro w
  induction w with
  | nil =>
    intro i S hr
    have hi : i < st.dfa.pool.length := by rw [h.len_pool]; exact hb.rep_lt hr
    have hp : st.dfa.pool[i]? = some st.dfa.pool[i] := List.getElem?_eq_getElem hi
    have hS := h.subs S (hb.rep_mem hr)
    simp only [DFA.acceptsFrom, DFA.run, DFA.isFinal, hp]
    rw [h.final i S _ hr hp]
    constructor
    · rintro ⟨u, hu, hf⟩
      exact ⟨u, hu, u, NFA.Path.nil u, hf⟩
    · rintro ⟨u, hu, f, hpath, hf⟩
      exact ⟨f, mem_closed_of_epsReach (hcl S (hb.rep_mem hr)) hu (NFA.path_nil_iff.1 hpath), hf⟩
  | cons c x ih =>
    intro i S hr
    have hi : i < st.dfa.pool.length := by rw [h.len_pool]; exact hb.rep_lt hr
    have hp : st.dfa.pool[i]? = some st.dfa.pool[i] := List.getElem?_eq_getElem hi
    have hS := h.subs S (hb.rep_mem hr)
    have hacc : st.dfa.acceptsFrom i (c :: x) =
        match mapFind c st.dfa.pool[i].trans with
        | none => false
        | some j => st.dfa.acceptsFrom j x := by
      simp only [DFA.acceptsFrom, DFA.run, DFA.step, hp]
      cases mapFind c st.dfa.pool[i].trans <;> rfl
    rw [hacc]
    cases hfd : mapFind c st.dfa.pool[i].trans with
    | none =>
      simp only [Bool.false_eq_true, false_iff]
      rintro ⟨u, hu, f, hpath, hf⟩
      obtain ⟨u', v, h1, h2, h3, h4⟩ := NFA.path_cons_iff.1 hpath
      have hu' := mem_closed_of_epsReach (hcl S (hb.rep_mem hr)) hu h1
      have hc0 : (0 : Byte) < c := Fin.pos_iff_ne_zero.2 h2
      have := h.complete i S _ c (hb.rep_lt hr) hr hp hc0 ⟨u', hu', NFA.hasKey_of_succ h3⟩
      rw [hfd] at this
      cases this
    | some j =>
      obtain ⟨hc0, _, T, hrT, hstep⟩ := h.trans i S _ c j hr hp hfd
      simp only
      rw [ih j T hrT]
      constructor
      · rintro ⟨v', hv', f, hpath, hf⟩
        obtain ⟨u, hu, v, huv, hvv'⟩ := (hstep v').1 hv'
        exact ⟨u, hu, f, NFA.Path.sym (Fin.pos_iff_ne_zero.1 hc0) huv
          (NFA.path_of_epsReach hvv' hpath), hf⟩
      · rintro ⟨u, hu, f, hpath, hf⟩
        obtain ⟨u', v, h1, h2, h3, h4⟩ := NFA.path_cons_iff.1 hpath
        have hu' := mem_closed_of_epsReach (hcl S (hb.rep_mem hr)) hu h1
        exact ⟨v, (hstep v).2 ⟨u', hu', v, h3, Relation.ReflTransGen.refl⟩, f, h4, hf⟩

theorem DetInv.accepts_iff {N : NFA} {st : DetState} (h : DetInv N st st.m.length)
    (hic : N.initClosed) (w : List Byte) : st.dfa.accepts w = true ↔ N.Accepts w := by
  unfold DFA.accepts NFA.Accepts
  rw [h.init0]
  exact h.acceptsFrom_iff hic w 0 N.init h.first

end Dank

namespace Dank

/-! ## Reversal -/

theorem forall_mapUpsert {α : Type} (P : Byte × α → Prop) {c : Byte} {f : Option α → α}
    {m : List (Byte × α)} (hm : ∀ e ∈ m, P e)
    (hf : ∀ o : Option α, (∀ v, o = some v → P (c, v)) → P (c, f o)) :
    ∀ e ∈ mapUpsert c f m, P e := by
  induction m with
  | nil =>
    intro e he
    simp only [mapUpsert, List.mem_singleton] at he
    subst he
    exact hf none (by intro v hv; cases hv)
  | cons a m ih =>
    obtain ⟨k, w⟩ := a
    intro e he
    unfold mapUpsert at he
    split_ifs at he with h1 h2
    · rcases List.mem_cons.1 he with rfl | he
      · exact hf none (by intro v hv; cases hv)
      · exact hm e he
    · subst h2
      rcases List.mem_cons.1 he with rfl | he
      · apply hf
        intro v hv
        cases hv
        exact hm _ (List.mem_cons_self _ _)
      · exact hm e (List.mem_cons_of_mem _ he)
    · rcases List.mem_cons.1 he with rfl | he
      · exact hm _ (List.mem_cons_self _ _)
      · exact ih (fun e he => hm e (List.mem_cons_of_mem _ he)) e he

theorem setInsert_ne_nil (x : Nat) (l : List Nat) : setInsert x l ≠ [] := by
  cases l with
  | nil => simp [setInsert]
  | cons a l =>
    unfold setInsert
    split_ifs <;> simp

theorem NFA.insert_spec {N : NFA} {s : Nat} (c : Byte) (t : Nat) (hs : s < N.pool.length)
    (hwf : N.poolWF) :
    ∃ N', N.insert s c t = .ok N' ∧ N'.init = N.init ∧ N'.pool.length = N.pool.length ∧
      N'.poolWF ∧ ((∀ st ∈ N.pool, st.final = false) → (∀ st ∈ N'.pool, st.final = false)) ∧
      (∀ u, N'.isFinal u = N.isFinal u) ∧
      (∀ u c' v, v ∈ N'.succ u c' ↔ (v ∈ N.succ u c' ∨ (u = s ∧ c' = c ∧ v = t))) := by
  obtain ⟨st, hst⟩ : ∃ st, N.pool[s]? = some st := ⟨N.pool[s], List.getElem?_eq_getElem hs⟩
  have hstm : st ∈ N.pool := List.getElem?_mem hst
  have hks := (hwf st hstm).1
  refine ⟨⟨N.init, N.pool.set s
    ⟨st.final, mapUpsert c (fun o => setInsert t (o.getD [])) st.trans⟩⟩,
    by simp only [NFA.insert, hst], rfl, by simp, ?_, ?_, ?_, ?_⟩
  · intro st2 hst2
    rcases List.mem_or_eq_of_mem_set hst2 with h | rfl
    · exact hwf st2 h
    · refine ⟨keysSorted_mapUpsert hks, ?_⟩
      apply forall_mapUpsert (fun e => setSorted e.2 ∧ e.2 ≠ []) (hwf st hstm).2
      intro o ho
      refine ⟨setSorted_setInsert ?_, setInsert_ne_nil _ _⟩
      cases o with
      | none => simp [setSorted]
      | some v => exact (ho v rfl).1
  · intro hf st2 hst2
    rcases List.mem_or_eq_of_mem_set hst2 with h | rfl
    · exact hf st2 h
    · exact hf st hstm
  · intro u
    simp only [NFA.isFinal]
    by_cases hus : s = u
    · subst hus
      rw [List.getElem?_set_self hs, hst]
    · rw [List.getElem?_set_ne hus]
  · intro u c' v
    simp only [NFA.succ]
    by_cases hus : s = u
    · subst hus
      rw [List.getElem?_set_self hs, hst]
      simp only
      rw [mapFind_mapUpsert hks]
      by_cases hc : c' = c
      · subst hc
        simp only [if_true, Option.getD_some, mem_setInsert, true_and]
        tauto
      · simp only [if_neg hc, hc, false_and, and_false, or_false, if_false]
    · rw [List.getElem?_set_ne hus]
      have : ¬ u = s := fun h => hus h.symm
      simp [this]

theorem RevInv.congr {n : Nat} {nfa : NFA} {E E' : Nat → Byte → Nat → Prop}
    (h : RevInv n nfa E) (hE : ∀ u c t, E u c t ↔ E' u c t) : RevInv n nfa E' :=
  { len := h.len
    wf := h.wf
    nofinal := h.nofinal
    edges := fun t c u => (h.edges t c u).trans (hE u c t)
    targets := fun t c u hu => h.targets t c u ((hE u c t).2 hu) }

theorem reverseEdges_spec (n i : Nat) (hi : i < n) :
    ∀ (es : List (Byte × Nat)) (nfa : NFA) (E : Nat → Byte → Nat → Prop),
      RevInv n nfa E → (∀ e ∈ es, e.2 < n) →
      ∃ nfa', reverseEdges i es nfa = .ok nfa' ∧ nfa'.init = nfa.init ∧
        RevInv n nfa' (fun u c t => E u c t ∨ (u = i ∧ (c, t) ∈ es)) := by
  intro es
  induction es with
  | nil =>
    intro nfa E h _
    exact ⟨nfa, rfl, rfl, h.congr (by simp)⟩
  | cons e es ih =>
    obtain ⟨c, t⟩ := e
    intro nfa E h hes
    have ht : t < nfa.pool.length := by
      rw [h.len]; exact hes (c, t) (List.mem_cons_self _ _)
    obtain ⟨nfa1, h1, hinit, hlen, hwf, hnf, _, hsucc⟩ := NFA.insert_spec c i ht h.wf
    have hinv1 : RevInv n nfa1 (fun u c' t' => E u c' t' ∨ (u = i ∧ c' = c ∧ t' = t)) :=
      { len := by rw [hlen, h.len]
        wf := hwf
        nofinal := hnf h.nofinal
        edges := by
          intro t' c' u
          rw [hsucc, h.edges]
          tauto
        targets := by
          intro t' c' u hu
          rcases hu with hu | ⟨rfl, _, _⟩
          · exact h.targets t' c' u hu
          · exact hi }
    obtain ⟨nfa2, h2, hinit2, hinv2⟩ := ih nfa1 _ hinv1
      (fun e he => hes e (List.mem_cons_of_mem _ he))
    refine ⟨nfa2, ?_, by rw [hinit2, hinit], hinv2.congr ?_⟩
    · simp only [reverseEdges, h1, bind, Except.bind]
      exact h2
    · intro u c' t'
      simp only [List.mem_cons, Prod.mk.injEq]
      tauto

theorem reverseLoop_spec (n : Nat) :
    ∀ (states : List DFA.State) (i : Nat) (nfa : NFA) (E : Nat → Byte → Nat → Prop),
      RevInv n nfa E → setSorted nfa.init → i + states.length ≤ n →
      (∀ st ∈ states, ∀ e ∈ st.trans, e.2 < n) →
      ∃ nfa', reverseLoop i states nfa = .ok nfa' ∧
        RevInv n nfa' (fun u c t => E u c t ∨
          ∃ st, states[u - i]? = some st ∧ i ≤ u ∧ (c, t) ∈ st.trans) ∧
        setSorted nfa'.init ∧
        (∀ x, x ∈ nfa'.init ↔
          (x ∈ nfa.init ∨ ∃ st, states[x - i]? = some st ∧ i ≤ x ∧ st.final = true)) := by
  intro states
  induction states with
  | nil =>
    intro i nfa E h hs _ _
    exact ⟨nfa, rfl, h.congr (by simp), hs, by simp⟩
  | cons st states ih =>
    intro i nfa E h hs hlen hval
    simp only [List.length_cons] at hlen
    obtain ⟨nfa1, h1, hinit1, hinv1⟩ := reverseEdges_spec n i (by omega) st.trans nfa E h
      (hval st (List.mem_cons_self _ _))
    have hinv1' : RevInv n (if st.final = true then { nfa1 with init := setInsert i nfa1.init }
        else nfa1) (fun u c t => E u c t ∨ (u = i ∧ (c, t) ∈ st.trans)) := by
      split_ifs
      · exact
          { len := hinv1.len
            wf := hinv1.wf
            nofinal := hinv1.nofinal
            edges := hinv1.edges
            targets := hinv1.targets }
      · exact hinv1
    have hs1 : setSorted (if st.final = true then { nfa1 with init := setInsert i nfa1.init }
        else nfa1).init := by
      split_ifs
      · exact setSorted_setInsert (by rw [hinit1]; exact hs)
      · rw [hinit1]; exact hs
    obtain ⟨nfa2, h2, hinv2, hs2, hmem2⟩ := ih (i + 1) _ _ hinv1' hs1 (by omega)
      (fun s hs e he => hval s (List.mem_cons_of_mem _ hs) e he)
    refine ⟨nfa2, ?_, hinv2.congr ?_, hs2, ?_⟩
    · simp only [reverseLoop, h1, bind, Except.bind]
      exact h2
    · intro u c t
      constructor
      · rintro ((h | ⟨rfl, h⟩) | ⟨s, hs, hiu, hm⟩)
        · exact Or.inl h
        · exact Or.inr ⟨st, by simp, le_refl _, h⟩
        · refine Or.inr ⟨s, ?_, by omega, hm⟩
          have : u - i = (u - (i + 1)) + 1 := by omega
          rw [this, List.getElem?_cons_succ]; exact hs
      · rintro (h | ⟨s, hs, hiu, hm⟩)
        · exact Or.inl (Or.inl h)
        · by_cases hui : u = i
          · subst hui
            simp only [Nat.sub_self, List.getElem?_cons_zero, Option.some.injEq] at hs
            subst hs
            exact Or.inl (Or.inr ⟨rfl, hm⟩)
          · have : u - i = (u - (i + 1)) + 1 := by omega
            rw [this, List.getElem?_cons_succ] at hs
            exact Or.inr ⟨s, hs, by omega, hm⟩
    · intro x
      rw [hmem2]
      have hinit : ∀ y, y ∈ (if st.final = true then { nfa1 with init := setInsert i nfa1.init }
          else nfa1).init ↔ (y ∈ nfa.init ∨ (y = i ∧ st.final = true)) := by
        intro y
        split_ifs with hf
        · simp only [mem_setInsert, hinit1, hf, and_true]; tauto
        · simp [hinit1, hf]
      rw [hinit]
      constructor
      · rintro ((h | ⟨rfl, h⟩) | ⟨s, hs, hiu, hm⟩)
        · exact Or.inl h
        · exact Or.inr ⟨st, by simp, le_refl _, h⟩
        · refine Or.inr ⟨s, ?_, by omega, hm⟩
          have : x - i = (x - (i + 1)) + 1 := by omega
          rw [this, List.getElem?_cons_succ]; exact hs
      · rintro (h | ⟨s, hs, hiu, hm⟩)
        · exact Or.inl (Or.inl h)
        · by_cases hui : x = i
          · subst hui
            simp only [Nat.sub_self, List.getElem?_cons_zero, Option.some.injEq] at hs
            subst hs
            exact Or.inl (Or.inr ⟨rfl, hm⟩)
          · have : x - i = (x - (i + 1)) + 1 := by omega
            rw [this, List.getElem?_cons_succ] at hs
            exact Or.inr ⟨s, hs, by omega, hm⟩

end Dank

namespace Dank

/-! ## Reversal: specification and language -/

theorem DFA.step_eq_some_iff {D : DFA} (hwf : D.WF) {u t : Nat} {c : Byte} :
    D.step u c = some t ↔ ∃ st, D.pool[u]? = some st ∧ (c, t) ∈ st.trans := by
  unfold DFA.step
  cases hu : D.pool[u]? with
  | none => simp
  | some st =>
    have hks := hwf st (List.getElem?_mem hu)
    simp only [Option.some.injEq, exists_eq_left']
    exact ⟨mapFind_mem, mapFind_of_mem hks⟩

theorem DFA.step_lt {D : DFA} {u t : Nat} {c : Byte} (h : D.step u c = some t) :
    u < D.pool.length := by
  unfold DFA.step at h
  by_contra hc
  rw [List.getElem?_eq_none (by omega)] at h
  cases h

theorem DFA.step_target_lt {D : DFA} (hv : D.valid) {u t : Nat} {c : Byte}
    (h : D.step u c = some t) : t < D.pool.length := by
  unfold DFA.step at h
  cases hu : D.pool[u]? with
  | none => rw [hu] at h; cases h
  | some st =>
    rw [hu] at h
    exact hv.2 st (List.getElem?_mem hu) (c, t) (mapFind_mem h)

theorem DFA.reverse_spec (D : DFA) (hwf : D.WF) (hv : D.valid) :
    ∃ N, D.reverse = .ok N ∧ IsReverse D N := by
  have h0 : RevInv D.pool.length ⟨[], List.replicate D.pool.length NFA.State.new⟩
      (fun _ _ _ => False) :=
    { len := by simp
      wf := by
        intro st hst
        rw [(List.mem_replicate.1 hst).2]
        simp [NFA.State.new, keysSorted]
      nofinal := by
        intro st hst
        rw [(List.mem_replicate.1 hst).2]
        rfl
      edges := by
        intro t c u
        simp only [NFA.succ, iff_false]
        by_cases ht : t < D.pool.length
        · rw [List.getElem?_replicate_of_lt ht]
          simp [NFA.State.new, mapFind]
        · rw [List.getElem?_eq_none (by simp; omega)]
          simp
      targets := by intro t c u h; exact h.elim }
  obtain ⟨N1, h1, hinv, hs, hmem⟩ := reverseLoop_spec D.pool.length D.pool 0 _ _ h0
    (by simp [setSorted]) (by simp)
    (fun st hst e he => hv.2 st hst e he)
  have hi : D.init < N1.pool.length := by rw [hinv.len]; exact hv.1
  obtain ⟨sti, hsti⟩ : ∃ st, N1.pool[D.init]? = some st :=
    ⟨N1.pool[D.init], List.getElem?_eq_getElem hi⟩
  refine ⟨⟨N1.init, N1.pool.set D.init ⟨true, sti.trans⟩⟩, ?_, ?_⟩
  · simp only [DFA.reverse, h1, bind, Except.bind, hsti]
  · have hsucc : ∀ t c, NFA.succ ⟨N1.init, N1.pool.set D.init ⟨true, sti.trans⟩⟩ t c
        = N1.succ t c := by
      intro t c
      simp only [NFA.succ]
      by_cases ht : D.init = t
      · subst ht
        rw [List.getElem?_set_self hi, hsti]
      · rw [List.getElem?_set_ne ht]
    exact
      { len := by simp [hinv.len]
        wf := by
          intro st hst
          rcases List.mem_or_eq_of_mem_set hst with h | rfl
          · exact hinv.wf st h
          · exact hinv.wf sti (List.getElem?_mem hsti)
        initSorted := hs
        init := by
          intro x
          show x ∈ N1.init ↔ _
          rw [hmem]
          simp only [List.not_mem_nil, Nat.sub_zero, Nat.zero_le, true_and, false_or,
            DFA.isFinal]
          cases D.pool[x]? with
          | none => simp
          | some st => simp
        final := by
          intro f
          simp only [NFA.isFinal]
          by_cases hf : D.init = f
          · subst hf
            rw [List.getElem?_set_self hi]
            simp
          · rw [List.getElem?_set_ne hf]
            have hne : ¬ f = D.init := fun h => hf h.symm
            simp only [hne, iff_false]
            cases hp : N1.pool[f]? with
            | none => simp
            | some st =>
              simp [hinv.nofinal st (List.getElem?_mem hp)]
        edges := by
          intro t c u
          rw [hsucc, hinv.edges, DFA.step_eq_some_iff hwf]
          simp }

theorem IsReverse.nfa_wf {D : DFA} {N : NFA} (h : IsReverse D N) : N.WF :=
  ⟨h.initSorted, fun st hst => ⟨(h.wf st hst).1, fun e he => ((h.wf st hst).2 e he).1⟩⟩

theorem IsReverse.targetsValid {D : DFA} {N : NFA} (h : IsReverse D N) : N.targetsValid := by
  intro st hst e he v hv
  obtain ⟨t, ht⟩ := List.mem_iff_getElem?.1 hst
  have hks := (h.wf st hst).1
  have hsucc : v ∈ N.succ t e.1 := by
    simp only [NFA.succ, ht, mapFind_of_mem hks (show (e.1, e.2) ∈ st.trans from he)]
    exact hv
  rw [h.len]
  exact DFA.step_lt ((h.edges t e.1 v).1 hsucc)

theorem IsReverse.initValid {D : DFA} {N : NFA} (h : IsReverse D N) : N.initValid := by
  intro x hx
  have := (h.init x).1 hx
  rw [h.len]
  unfold DFA.isFinal at this
  by_contra hc
  rw [List.getElem?_eq_none (by omega)] at this
  cases this

theorem DFA.step_ne_zero {D : DFA} (hz : D.noZero) {u t : Nat} {c : Byte}
    (h : D.step u c = some t) : c ≠ 0 := by
  unfold DFA.step at h
  cases hu : D.pool[u]? with
  | none => rw [hu] at h; cases h
  | some st =>
    rw [hu] at h
    exact hz st (List.getElem?_mem hu) (c, t) (mapFind_mem h)

theorem IsReverse.no_eps {D : DFA} {N : NFA} (h : IsReverse D N) (hz : D.noZero)
    (u v : Nat) : v ∉ N.succ u 0 := by
  intro hv
  exact DFA.step_ne_zero hz ((h.edges u 0 v).1 hv) rfl

theorem IsReverse.initClosed {D : DFA} {N : NFA} (h : IsReverse D N) (hz : D.noZero) :
    N.initClosed := by
  intro u _ v hv
  exact absurd hv (h.no_eps hz u v)

theorem DFA.run_append {D : DFA} (q : Nat) (x y : List Byte) :
    D.run q (x ++ y) = (D.run q x).bind (fun q1 => D.run q1 y) := by
  induction x generalizing q with
  | nil => rfl
  | cons c x ih =>
    simp only [List.cons_append, DFA.run]
    cases D.step q c with
    | none => rfl
    | some q1 => exact ih q1

theorem DFA.run_single {D : DFA} (q : Nat) (c : Byte) : D.run q [c] = D.step q c := by
  simp only [DFA.run]
  cases D.step q c <;> rfl

theorem DFA.run_snoc {D : DFA} (q : Nat) (x : List Byte) (c : Byte) :
    D.run q (x ++ [c]) = (D.run q x).bind (fun q1 => D.step q1 c) := by
  rw [DFA.run_append]
  congr 1
  funext q1
  exact DFA.run_single q1 c

/-- Paths of the mirror image are the runs of the DFA read backwards. -/
theorem IsReverse.path_iff {D : DFA} {N : NFA} (h : IsReverse D N) (hz : D.noZero) :
    ∀ (w : List Byte) (u f : Nat), N.Path u w f ↔ D.run f w.reverse = some u := by
  intro w
  induction w with
  | nil =>
    intro u f
    rw [NFA.path_nil_iff]
    simp only [List.reverse_nil, DFA.run, Option.some.injEq]
    constructor
    · intro hr
      induction hr with
      | refl => rfl
      | tail _ hbc _ => exact absurd hbc (h.no_eps hz _ _)
    · rintro rfl
      exact Relation.ReflTransGen.refl
  | cons c x ih =>
    intro u f
    rw [NFA.path_cons_iff, List.reverse_cons, DFA.run_snoc]
    constructor
    · rintro ⟨u', v, h1, h2, h3, h4⟩
      have hu : u = u' := by
        induction h1 with
        | refl => rfl
        | tail _ hbc _ => exact absurd hbc (h.no_eps hz _ _)
      subst hu
      rw [(ih v f).1 h4]
      exact (h.edges u c v).1 h3
    · intro hr
      cases hx : D.run f x.reverse with
      | none => rw [hx] at hr; cases hr
      | some v =>
        rw [hx] at hr
        have hs : D.step v c = some u := hr
        exact ⟨u, v, Relation.ReflTransGen.refl, DFA.step_ne_zero hz hs,
          (h.edges u c v).2 hs, (ih v f).2 hx⟩

theorem IsReverse.accepts_reverse_iff {D : DFA} {N : NFA} (h : IsReverse D N) (hz : D.noZero)
    (w : List Byte) : N.Accepts w ↔ D.accepts w.reverse = true := by
  unfold NFA.Accepts DFA.accepts DFA.acceptsFrom
  constructor
  · rintro ⟨i, hi, f, hp, hf⟩
    rw [(h.final f).1 hf] at hp
    rw [(h.path_iff hz w i D.init).1 hp]
    exact (h.init i).1 hi
  · intro hacc
    cases hr : D.run D.init w.reverse with
    | none => rw [hr] at hacc; cases hacc
    | some i =>
      rw [hr] at hacc
      exact ⟨i, (h.init i).2 hacc, D.init, (h.path_iff hz w i D.init).2 hr,
        (h.final D.init).2 rfl⟩

end Dank

namespace Dank

/-! ## Shape of a determinized automaton, and the double reversal -/

theorem DetInv.dfa_wf {N : NFA} {st : DetState} {k : Nat} (h : DetInv N st k) : st.dfa.WF := by
  intro ds hds
  obtain ⟨i, hi⟩ := List.mem_iff_getElem?.1 hds
  exact h.sortedT i ds hi

theorem DetInv.rep_exists {N : NFA} {st : DetState} {k : Nat} (h : DetInv N st k) {i : Nat}
    (hi : i < st.m.length) : ∃ S, st.m[i]? = some (S, i) := by
  have hg : st.m[i]? = some st.m[i] := List.getElem?_eq_getElem hi
  have h1 : st.m[i]? = some ((st.m[i]).1, (st.m[i]).2) := hg
  have := vals_index h.vals h1
  exact ⟨(st.m[i]).1, by rw [this] at h1; exact h1⟩

theorem DetInv.dfa_valid {N : NFA} {st : DetState} {k : Nat} (h : DetInv N st k) :
    st.dfa.valid := by
  have hb := h.toDetBase
  constructor
  · rw [h.init0, h.len_pool]
    exact hb.rep_lt h.first
  · intro ds hds e he
    obtain ⟨i, hi⟩ := List.mem_iff_getElem?.1 hds
    have hil : i < st.m.length := by
      rw [← h.len_pool]
      by_contra hc
      rw [List.getElem?_eq_none (by omega)] at hi
      cases hi
    obtain ⟨S, hS⟩ := h.rep_exists hil
    have hf := mapFind_of_mem (h.sortedT i ds hi) (show (e.1, e.2) ∈ ds.trans from he)
    obtain ⟨_, _, T, hT, _⟩ := h.trans i S ds e.1 e.2 hS hi hf
    rw [h.len_pool]
    exact hb.rep_lt hT

theorem DetInv.dfa_noZero {N : NFA} {st : DetState} {k : Nat} (h : DetInv N st k) :
    st.dfa.noZero := by
  intro ds hds e he
  obtain ⟨i, hi⟩ := List.mem_iff_getElem?.1 hds
  have hil : i < st.m.length := by
    rw [← h.len_pool]
    by_contra hc
    rw [List.getElem?_eq_none (by omega)] at hi
    cases hi
  obtain ⟨S, hS⟩ := h.rep_exists hil
  have hf := mapFind_of_mem (h.sortedT i ds hi) (show (e.1, e.2) ∈ ds.trans from he)
  obtain ⟨hc0, _⟩ := h.trans i S ds e.1 e.2 hS hi hf
  exact Fin.pos_iff_ne_zero.1 hc0

/-- Determinizing the mirror image of a DFA without byte-0 transitions: enough fuel gives a
DFA for the reversed language, again well formed and without byte-0 transitions. -/
theorem DFA.reverse_determinize_spec (D : DFA) (hwf : D.WF) (hv : D.valid) (hz : D.noZero)
    (fuel : Nat) (hf : 2 ^ D.pool.length + 1 + 2 * D.pool.length ≤ fuel) :
    ∃ N st, D.reverse = .ok N ∧ IsReverse D N ∧ N.determinize fuel = .ok st.dfa ∧
      DetInv N st st.m.length ∧ (∀ w, st.dfa.accepts w = D.accepts w.reverse) := by
  obtain ⟨N, hN, hrev⟩ := D.reverse_spec hwf hv
  obtain ⟨st, hst, hinv⟩ := N.determinize_spec hrev.nfa_wf hrev.targetsValid hrev.initValid
    fuel (by rw [hrev.len]; exact hf)
  refine ⟨N, st, hN, hrev, hst, hinv, ?_⟩
  intro w
  have h1 := hinv.accepts_iff (hrev.initClosed hz) w
  have h2 := hrev.accepts_reverse_iff hz w
  cases ha : st.dfa.accepts w <;> cases hb : D.accepts w.reverse <;> simp_all

theorem DetInv.pool_length_le {N : NFA} {st : DetState} {k : Nat} (h : DetInv N st k) :
    st.dfa.pool.length ≤ 2 ^ N.pool.length := by
  rw [h.len_pool]; exact h.toDetBase.length_le

/-- The fuel bound used for the two determinizations of `minimize`. -/
theorem minimize_fuel_mono {n m : Nat} (h : m ≤ 2 ^ n) :
    2 ^ m + 1 + 2 * m ≤ 2 ^ (2 ^ n) + 1 + 2 * 2 ^ n := by
  have := Nat.pow_le_pow_right (show 0 < 2 by norm_num) h
  omega

theorem two_pow_ge (n : Nat) : n ≤ 2 ^ n := Nat.le_of_lt n.lt_two_pow

theorem DFA.minimize_spec (D : DFA) (hwf : D.WF) (hv : D.valid) (hz : D.noZero)
    (fuel : Nat) (hf : 2 ^ (2 ^ D.pool.length) + 1 + 2 * 2 ^ D.pool.length ≤ fuel) :
    ∃ M, D.minimize fuel = .ok M ∧ ∀ w, M.accepts w = D.accepts w := by
  have hf1 : 2 ^ D.pool.length + 1 + 2 * D.pool.length ≤ fuel :=
    le_trans (minimize_fuel_mono (two_pow_ge _)) hf
  obtain ⟨N1, st1, hN1, hrev1, hst1, hinv1, hacc1⟩ :=
    D.reverse_determinize_spec hwf hv hz fuel hf1
  have hlen1 : st1.dfa.pool.length ≤ 2 ^ D.pool.length := by
    rw [← hrev1.len]; exact hinv1.pool_length_le
  obtain ⟨N2, st2, hN2, _, hst2, _, hacc2⟩ :=
    st1.dfa.reverse_determinize_spec hinv1.dfa_wf hinv1.dfa_valid hinv1.dfa_noZero fuel
      (le_trans (minimize_fuel_mono hlen1) hf)
  refine ⟨st2.dfa, ?_, ?_⟩
  · simp only [DFA.minimize, hN1, hst1, hN2, bind, Except.bind]
    exact hst2
  · intro w
    rw [hacc2, hacc1, List.reverse_reverse]

end Dank

namespace Dank

/-! ## Encoder: alphabet and counting table -/

theorem mem_byteInsert {x y : Byte} {l : List Byte} : y ∈ byteInsert x l ↔ y = x ∨ y ∈ l := by
  induction l with
  | nil => simp [byteInsert]
  | cons a l ih =>
    unfold byteInsert
    split_ifs with h1 h2
    · simp
    · subst h2; simp
    · simp [ih]; tauto

theorem sorted_byteInsert {x : Byte} {l : List Byte} (h : l.Pairwise (· < ·)) :
    (byteInsert x l).Pairwise (· < ·) := by
  induction l with
  | nil => simp [byteInsert]
  | cons a l ih =>
    unfold byteInsert
    split_ifs with h1 h2
    · rw [List.pairwise_cons] at h ⊢
      refine ⟨?_, List.pairwise_cons.2 h⟩
      intro b hb
      rcases List.mem_cons.1 hb with rfl | hb
      · exact h1
      · exact lt_trans h1 (h.1 b hb)
    · exact h
    · rw [List.pairwise_cons] at h ⊢
      refine ⟨?_, ih h.2⟩
      intro b hb
      rcases mem_byteInsert.1 hb with rfl | hb
      · exact lt_of_le_of_ne (not_lt.1 h1) (Ne.symm h2)
      · exact h.1 b hb

theorem foldl_byteInsert_spec (arcs : List (Nat × Nat × Byte)) (acc : List Byte)
    (h : acc.Pairwise (· < ·)) :
    (arcs.foldl (fun acc a => byteInsert a.2.2 acc) acc).Pairwise (· < ·) ∧
    ∀ c, c ∈ arcs.foldl (fun acc a => byteInsert a.2.2 acc) acc ↔
      (c ∈ acc ∨ ∃ a ∈ arcs, a.2.2 = c) := by
  induction arcs generalizing acc with
  | nil => simp [h]
  | cons a arcs ih =>
    simp only [List.foldl_cons]
    obtain ⟨h1, h2⟩ := ih (byteInsert a.2.2 acc) (sorted_byteInsert h)
    refine ⟨h1, ?_⟩
    intro c
    rw [h2, mem_byteInsert]
    simp only [List.mem_cons, exists_eq_or_imp]
    constructor
    · rintro ((h | h) | h)
      · exact Or.inr (Or.inl h.symm)
      · exact Or.inl h
      · exact Or.inr (Or.inr h)
    · rintro (h | h | h)
      · exact Or.inl (Or.inr h)
      · exact Or.inl (Or.inl h.symm)
      · exact Or.inr h

theorem Encoder.sigma_sorted (e : Encoder) : e.sigma.Pairwise (· < ·) :=
  (foldl_byteInsert_spec e.fst.arcs [] List.Pairwise.nil).1

theorem Encoder.sigma_nodup (e : Encoder) : e.sigma.Nodup :=
  e.sigma_sorted.imp (fun h => ne_of_lt h)

theorem Encoder.mem_sigma_of_delta {e : Encoder} {q q1 : Nat} {c : Byte}
    (h : e.delta q c = some q1) : c ∈ e.sigma := by
  unfold Encoder.delta at h
  cases hf : e.fst.arcs.find? (fun a => a.1 = q ∧ a.2.2 = c) with
  | none => rw [hf] at h; cases h
  | some a =>
    have hm := List.mem_of_find?_eq_some hf
    have hp := List.find?_some hf
    simp only [decide_eq_true_eq] at hp
    exact ((foldl_byteInsert_spec e.fst.arcs [] List.Pairwise.nil).2 c).2 (Or.inr ⟨a, hm, hp.2⟩)

/-- The block of words that start with the symbol `c`. -/
theorem Encoder.words_succ (e : Encoder) (q i : Nat) :
    e.words q (i + 1) = e.sigma.flatMap (fun c =>
      match e.delta q c with
      | none => []
      | some q1 => (e.words q1 i).map (fun w => c :: w)) := rfl

theorem Encoder.T_eq_length (e : Encoder) : ∀ (i q : Nat), e.T q i = (e.words q i).length := by
  intro i
  induction i with
  | zero =>
    intro q
    simp only [Encoder.T, Encoder.words]
    split_ifs <;> rfl
  | succ i ih =>
    intro q
    simp only [Encoder.T, Encoder.words, List.length_flatMap]
    congr 1
    apply List.map_congr_left
    intro c _
    simp only [Function.comp]
    cases hd : e.delta q c with
    | none => rfl
    | some q1 => simp [ih q1]

theorem Encoder.acceptsFrom_nil (e : Encoder) (q : Nat) :
    e.acceptsFrom q [] = e.isFinal q := rfl

theorem Encoder.acceptsFrom_cons (e : Encoder) (q : Nat) (c : Byte) (w : List Byte) :
    e.acceptsFrom q (c :: w) =
      match e.delta q c with
      | none => false
      | some q1 => e.acceptsFrom q1 w := by
  simp only [Encoder.acceptsFrom, Encoder.run]
  cases e.delta q c <;> rfl

theorem Encoder.mem_words (e : Encoder) : ∀ (i q : Nat) (w : List Byte),
    w ∈ e.words q i ↔ (w.length = i ∧ e.acceptsFrom q w = true) := by
  intro i
  induction i with
  | zero =>
    intro q w
    simp only [Encoder.words]
    cases w with
    | nil => cases h : e.isFinal q <;> simp [Encoder.acceptsFrom_nil, h]
    | cons c w => split_ifs <;> simp
  | succ i ih =>
    intro q w
    rw [Encoder.words_succ, List.mem_flatMap]
    cases w with
    | nil =>
      simp only [List.length_nil]
      constructor
      · rintro ⟨c, _, hc⟩
        cases hd : e.delta q c with
        | none => rw [hd] at hc; simp at hc
        | some q1 => rw [hd] at hc; simp at hc
      · rintro ⟨h, _⟩; omega
    | cons b w =>
      rw [Encoder.acceptsFrom_cons]
      constructor
      · rintro ⟨c, _, hc⟩
        cases hd : e.delta q c with
        | none => rw [hd] at hc; simp at hc
        | some q1 =>
          rw [hd] at hc
          simp only [List.mem_map, List.cons.injEq] at hc
          obtain ⟨w', hw', rfl, rfl⟩ := hc
          rw [hd]
          have := (ih q1 w').1 hw'
          exact ⟨by simp [this.1], this.2⟩
      · rintro ⟨hl, hacc⟩
        cases hd : e.delta q b with
        | none => rw [hd] at hacc; cases hacc
        | some q1 =>
          rw [hd] at hacc
          refine ⟨b, Encoder.mem_sigma_of_delta hd, ?_⟩
          rw [hd]
          simp only [List.mem_map, List.cons.injEq, true_and, exists_eq_right]
          exact (ih q1 w).2 ⟨by simpa using hl, hacc⟩

end Dank

namespace Dank

/-! ## Encoder: canonical enumeration -/

theorem lex_irrefl : ∀ (w : List Byte), ¬ List.Lex (· < ·) w w := by
  intro w
  induction w with
  | nil => intro h; cases h
  | cons a w ih =>
    intro h
    cases h with
    | cons h => exact ih h
    | rel h => exact lt_irrefl _ h

theorem lex_asymm : ∀ (w w' : List Byte), List.Lex (· < ·) w w' → ¬ List.Lex (· < ·) w' w := by
  intro w
  induction w with
  | nil => intro w' _ h'; cases h'
  | cons a w ih =>
    intro w' h h'
    cases h with
    | cons h =>
      cases h' with
      | cons h' => exact ih _ h h'
      | rel h' => exact lt_irrefl _ h'
    | rel h =>
      cases h' with
      | cons h' => exact lt_irrefl _ h
      | rel h' => exact lt_asymm h h'

theorem Precedes.asymm {w w' : List Byte} (h : Precedes w w') : ¬ Precedes w' w := by
  intro h'
  rcases h with h | ⟨h1, h2⟩
  · rcases h' with h' | ⟨h1', _⟩
    · omega
    · omega
  · rcases h' with h' | ⟨_, h2'⟩
    · omega
    · exact lex_asymm _ _ h2 h2'

theorem Precedes.irrefl (w : List Byte) : ¬ Precedes w w := fun h => h.asymm h

theorem Encoder.words_sorted (e : Encoder) : ∀ (i q : Nat),
    (e.words q i).Pairwise (List.Lex (· < ·)) := by
  intro i
  induction i with
  | zero =>
    intro q
    simp only [Encoder.words]
    split_ifs <;> simp
  | succ i ih =>
    intro q
    rw [Encoder.words_succ, List.pairwise_flatMap]
    constructor
    · intro c _
      cases hd : e.delta q c with
      | none => simp
      | some q1 =>
        simp only
        rw [List.pairwise_map]
        exact (ih q1).imp (fun h => List.Lex.cons h)
    · refine e.sigma_sorted.imp ?_
      intro c1 c2 hc x hx y hy
      cases hd1 : e.delta q c1 with
      | none => rw [hd1] at hx; simp at hx
      | some q1 =>
        cases hd2 : e.delta q c2 with
        | none => rw [hd2] at hy; simp at hy
        | some q2 =>
          rw [hd1] at hx
          rw [hd2] at hy
          simp only [List.mem_map] at hx hy
          obtain ⟨x', _, rfl⟩ := hx
          obtain ⟨y', _, rfl⟩ := hy
          exact List.Lex.rel hc

theorem Encoder.words_nodup (e : Encoder) (i q : Nat) : (e.words q i).Nodup := by
  unfold List.Nodup
  refine (e.words_sorted i q).imp ?_
  intro a b h heq
  subst heq
  exact lex_irrefl _ h

theorem Encoder.slice_sorted (e : Encoder) (L k : Nat) : (e.slice L k).Pairwise Precedes := by
  unfold Encoder.slice
  rw [List.pairwise_flatMap]
  constructor
  · intro j _
    have := e.words_sorted (L + j) e.start
    rw [List.pairwise_iff_forall_sublist] at this ⊢
    intro a b hab
    have ha := (e.mem_words _ _ a).1 (hab.subset (List.mem_cons_self _ _))
    have hb := (e.mem_words _ _ b).1 (hab.subset (by simp))
    exact Or.inr ⟨by rw [ha.1, hb.1], this hab⟩
  · refine (List.pairwise_lt_range k).imp ?_
    intro j1 j2 hj x hx y hy
    have ha := (e.mem_words _ _ x).1 hx
    have hb := (e.mem_words _ _ y).1 hy
    exact Or.inl (by rw [ha.1, hb.1]; omega)

theorem Encoder.slice_nodup (e : Encoder) (L k : Nat) : (e.slice L k).Nodup := by
  unfold List.Nodup
  refine (e.slice_sorted L k).imp ?_
  intro a b h heq
  subst heq
  exact Precedes.irrefl _ h

theorem Encoder.mem_slice (e : Encoder) (L k : Nat) (w : List Byte) :
    w ∈ e.slice L k ↔ (L ≤ w.length ∧ w.length < L + k ∧ e.accepts w = true) := by
  unfold Encoder.slice Encoder.accepts
  simp only [List.mem_flatMap, List.mem_range, Encoder.mem_words]
  constructor
  · rintro ⟨j, hj, hl, ha⟩
    exact ⟨by omega, by omega, ha⟩
  · rintro ⟨h1, h2, ha⟩
    exact ⟨w.length - L, by omega, by omega, ha⟩

theorem Encoder.mem_langList (e : Encoder) (w : List Byte) :
    w ∈ e.langList ↔ (w.length ≤ e.n ∧ e.accepts w = true) := by
  unfold Encoder.langList
  rw [Encoder.mem_slice]
  constructor
  · rintro ⟨_, h, ha⟩; exact ⟨by omega, ha⟩
  · rintro ⟨h, ha⟩; exact ⟨by omega, by omega, ha⟩

theorem Encoder.slice_length (e : Encoder) (L k : Nat) :
    (e.slice L k).length = ((List.range k).map (fun j => e.T e.start (L + j))).sum := by
  unfold Encoder.slice
  rw [List.length_flatMap]
  congr 1
  apply List.map_congr_left
  intro j _
  simp only [Function.comp]
  exact (e.T_eq_length _ _).symm

theorem Encoder.numWords_eq (e : Encoder) (a b : Nat) :
    e.getNumWordsInLanguage a b = (e.slice a (b + 1 - a)).length := by
  rw [Encoder.slice_length]; rfl

theorem Encoder.shorter_eq (e : Encoder) (L : Nat) : e.shorter L = (e.slice 0 L).length := by
  rw [Encoder.slice_length]
  unfold Encoder.shorter
  congr 1
  apply List.map_congr_left
  intro j _
  rw [Nat.zero_add]

theorem Encoder.slice_succ (e : Encoder) (L k : Nat) :
    e.slice L (k + 1) = e.words e.start L ++ e.slice (L + 1) k := by
  unfold Encoder.slice
  rw [List.range_succ_eq_map, List.flatMap_cons, List.flatMap_map]
  congr 1
  congr 1
  funext j
  congr 1
  omega

theorem Encoder.slice_add (e : Encoder) (L k1 k2 : Nat) :
    e.slice L (k1 + k2) = e.slice L k1 ++ e.slice (L + k1) k2 := by
  induction k1 generalizing L with
  | zero => simp [Encoder.slice]
  | succ k1 ih =>
    rw [show k1 + 1 + k2 = (k1 + k2) + 1 by omega, Encoder.slice_succ, Encoder.slice_succ, ih,
      List.append_assoc]
    congr 3
    omega

end Dank

namespace Dank

/-! ## Encoder: unrank and rank walk the canonical enumeration -/

theorem getElem?_append_cases {α : Type} (l1 l2 : List α) (i : Nat) :
    (l1 ++ l2)[i]? = if i < l1.length then l1[i]? else l2[i - l1.length]? := by
  split_ifs with h
  · exact List.getElem?_append_left h
  · exact List.getElem?_append_right (by omega)

theorem Encoder.pick_spec (e : Encoder) (q r : Nat) : ∀ (cs : List Byte) (i : Nat),
    (cs.flatMap (fun c =>
      match e.delta q c with
      | none => []
      | some q1 => (e.words q1 r).map (fun w => c :: w)))[i]?
    = (e.pick q r cs i).bind (fun x => ((e.words x.2.1 r)[x.2.2]?).map (fun w => x.1 :: w)) := by
  intro cs
  induction cs with
  | nil => intro i; simp [Encoder.pick]
  | cons c cs ih =>
    intro i
    rw [List.flatMap_cons, getElem?_append_cases]
    cases hd : e.delta q c with
    | none =>
      simp only [Encoder.pick, hd, List.length_nil, Nat.not_lt_zero, if_false, Nat.sub_zero]
      exact ih i
    | some q1 =>
      simp only [Encoder.pick, hd, List.length_map, ← Encoder.T_eq_length]
      split_ifs with hlt
      · simp [List.getElem?_map]
      · exact ih _

theorem Encoder.unrankWalk_eq (e : Encoder) : ∀ (r q i : Nat),
    e.unrankWalk r q i = (e.words q r)[i]? := by
  intro r
  induction r with
  | zero =>
    intro q i
    simp only [Encoder.unrankWalk, Encoder.words]
    cases hf : e.isFinal q with
    | false => simp
    | true =>
      cases i with
      | zero => simp
      | succ i => simp
  | succ r ih =>
    intro q i
    rw [Encoder.words_succ]
    refine Eq.trans ?_ (e.pick_spec q r e.sigma i).symm
    simp only [Encoder.unrankWalk]
    cases hp : e.pick q r e.sigma i with
    | none => rfl
    | some x =>
      obtain ⟨c, q1, i1⟩ := x
      simp only [ih]
      rfl

theorem Encoder.chooseLength_spec (e : Encoder) : ∀ (steps L i : Nat),
    (e.slice L (steps + 1))[i]?
      = (e.chooseLength steps L i).bind (fun x => (e.words e.start x.1)[x.2]?) := by
  intro steps
  induction steps with
  | zero =>
    intro L i
    rw [Encoder.slice_succ, getElem?_append_cases, ← Encoder.T_eq_length]
    unfold Encoder.chooseLength
    split_ifs with h
    · rfl
    · simp [Encoder.slice]
  | succ steps ih =>
    intro L i
    rw [Encoder.slice_succ, getElem?_append_cases, ← Encoder.T_eq_length]
    unfold Encoder.chooseLength
    split_ifs with h
    · rfl
    · exact ih _ _

theorem Encoder.unrank_eq (e : Encoder) (i : Nat) : e.unrank i = e.langList[i]? := by
  unfold Encoder.unrank Encoder.langList
  rw [Encoder.chooseLength_spec]
  cases hc : e.chooseLength e.n 0 i with
  | none => rfl
  | some x =>
    obtain ⟨L, i1⟩ := x
    simp only [Encoder.unrankWalk_eq]
    rfl

theorem flatMap_length_sum {α β : Type} (l : List α) (f : α → List β) :
    (l.flatMap f).length = (l.map (fun a => (f a).length)).sum := by
  rw [List.length_flatMap]; rfl

theorem Encoder.block_index (e : Encoder) (q r : Nat) (b : Byte) (q1 j : Nat) (x : List Byte)
    (hd : e.delta q b = some q1) (hx : (e.words q1 r)[j]? = some x) :
    ∀ (pre post : List Byte),
    ((pre ++ b :: post).flatMap (fun c =>
      match e.delta q c with
      | none => []
      | some q1 => (e.words q1 r).map (fun w => c :: w)))[(pre.map (fun c =>
        match e.delta q c with
        | none => 0
        | some q2 => e.T q2 r)).sum + j]? = some (b :: x) := by
  intro pre post
  induction pre with
  | nil =>
    have hj : j < (e.words q1 r).length := by
      by_contra hc
      rw [List.getElem?_eq_none (by omega)] at hx
      cases hx
    simp only [List.nil_append, List.flatMap_cons, List.map_nil, List.sum_nil, Nat.zero_add, hd]
    rw [List.getElem?_append_left (by simpa using hj), List.getElem?_map, hx]
    rfl
  | cons c pre ih =>
    simp only [List.cons_append, List.flatMap_cons, List.map_cons, List.sum_cons]
    cases hc : e.delta q c with
    | none =>
      simp only [List.nil_append, Nat.zero_add]
      exact ih
    | some q2 =>
      simp only
      rw [List.getElem?_append_right (by simp [Encoder.T_eq_length]; omega)]
      have : e.T q2 r + (List.map (fun c => match e.delta q c with
            | none => 0
            | some q2 => e.T q2 r) pre).sum + j
          - (List.map (fun w => c :: w) (e.words q2 r)).length
          = (List.map (fun c => match e.delta q c with
            | none => 0
            | some q2 => e.T q2 r) pre).sum + j := by
        simp only [List.length_map, Encoder.T_eq_length]
        omega
      rw [this]
      exact ih

theorem Encoder.rankWalk_spec (e : Encoder) : ∀ (w : List Byte) (q : Nat),
    e.acceptsFrom q w = true →
    ∃ r, e.rankWalk q w = some r ∧ (e.words q w.length)[r]? = some w := by
  intro w
  induction w with
  | nil =>
    intro q h
    rw [Encoder.acceptsFrom_nil] at h
    exact ⟨0, by simp [Encoder.rankWalk, h], by simp [Encoder.words, h]⟩
  | cons b x ih =>
    intro q h
    rw [Encoder.acceptsFrom_cons] at h
    cases hd : e.delta q b with
    | none => rw [hd] at h; cases h
    | some q1 =>
      rw [hd] at h
      obtain ⟨r1, hr1, hw1⟩ := ih q1 h
      have hb : b ∈ e.sigma := Encoder.mem_sigma_of_delta hd
      refine ⟨((e.sigma.take (e.sigma.indexOf b)).map (fun c =>
            match e.delta q c with
            | none => 0
            | some q2 => e.T q2 x.length)).sum + r1,
        by simp only [Encoder.rankWalk, hb, if_true, hd, hr1, Option.map_some'] <;> rfl, ?_⟩
      have hk : e.sigma.indexOf b < e.sigma.length := List.indexOf_lt_length.2 hb
      have hsplit : e.sigma.take (e.sigma.indexOf b) ++
          b :: e.sigma.drop (e.sigma.indexOf b + 1) = e.sigma := by
        conv_rhs => rw [← List.take_append_drop (e.sigma.indexOf b) e.sigma]
        rw [List.drop_eq_getElem_cons hk]
        simp
      have := e.block_index q x.length b q1 r1 x hd hw1 (e.sigma.take (e.sigma.indexOf b))
        (e.sigma.drop (e.sigma.indexOf b + 1))
      rw [hsplit] at this
      exact this

end Dank

namespace Dank

/-! ## Encoder: the ranking theorems -/

theorem ncard_of_list {l : List (List Byte)} (hn : l.Nodup) (P : List Byte → Prop)
    (h : ∀ w, w ∈ l ↔ P w) : Set.ncard {w | P w} = l.length := by
  have : {w | P w} = (↑l.toFinset : Set (List Byte)) := by
    ext w
    simp [h]
  rw [this, Set.ncard_coe_Finset, List.toFinset_card_of_nodup hn]

theorem nodup_index_unique {l : List (List Byte)} (hn : l.Nodup) {i j : Nat} {w : List Byte}
    (hi : l[i]? = some w) (hj : l[j]? = some w) : i = j := by
  have hil : i < l.length := by
    by_contra hc
    rw [List.getElem?_eq_none (by omega)] at hi
    cases hi
  have hjl : j < l.length := by
    by_contra hc
    rw [List.getElem?_eq_none (by omega)] at hj
    cases hj
  rw [List.getElem?_eq_getElem hil] at hi
  rw [List.getElem?_eq_getElem hjl] at hj
  have : l[i] = l[j] := by
    rw [Option.some.injEq] at hi hj
    rw [hi, hj]
  exact (hn.getElem_inj_iff).1 this

theorem Encoder.numWords_eq_length (e : Encoder) : e.numWords = e.langList.length := by
  unfold Encoder.numWords Encoder.langList
  rw [Encoder.numWords_eq]
  rfl

theorem Encoder.rank_spec (e : Encoder) (w : List Byte) (ha : e.accepts w = true)
    (hl : w.length ≤ e.n) : ∃ r, e.rank w = some r ∧ e.langList[r]? = some w := by
  obtain ⟨j, hj, hw⟩ := e.rankWalk_spec w e.start ha
  refine ⟨e.shorter w.length + j, by simp [Encoder.rank, hl, hj], ?_⟩
  unfold Encoder.langList
  have hsplit : e.n + 1 = w.length + ((e.n - w.length) + 1) := by omega
  rw [hsplit, Encoder.slice_add, Encoder.slice_succ, Encoder.shorter_eq,
    List.getElem?_append_right (by omega), Nat.add_sub_cancel_left]
  have hjl : j < (e.words e.start w.length).length := by
    by_contra hc
    rw [List.getElem?_eq_none (by omega)] at hw
    cases hw
  rw [Nat.zero_add, List.getElem?_append_left hjl]
  exact hw

theorem Encoder.unrank_rank_spec (e : Encoder) (i : Nat) (hi : i < e.numWords) :
    ∃ w, e.unrank i = some w ∧ e.rank w = some i := by
  rw [Encoder.numWords_eq_length] at hi
  refine ⟨e.langList[i], by rw [Encoder.unrank_eq, List.getElem?_eq_getElem hi], ?_⟩
  have hmem := (e.mem_langList _).1 (List.getElem_mem hi)
  obtain ⟨r, hr, hw⟩ := e.rank_spec _ hmem.2 hmem.1
  rw [hr]
  congr 1
  exact nodup_index_unique (e.slice_nodup _ _) hw (List.getElem?_eq_getElem hi)

theorem Encoder.rank_unrank_spec (e : Encoder) (w : List Byte) (ha : e.accepts w = true)
    (hl : w.length ≤ e.n) :
    ∃ r, e.rank w = some r ∧ e.unrank r = some w ∧ r < e.numWords := by
  obtain ⟨r, hr, hw⟩ := e.rank_spec w ha hl
  refine ⟨r, hr, by rw [Encoder.unrank_eq]; exact hw, ?_⟩
  rw [Encoder.numWords_eq_length]
  by_contra hc
  rw [List.getElem?_eq_none (by omega)] at hw
  cases hw

theorem sorted_index_lt {l : List (List Byte)} (hs : l.Pairwise Precedes) {i j : Nat}
    {w w' : List Byte} (hi : l[i]? = some w) (hj : l[j]? = some w') (hp : Precedes w w') :
    i < j := by
  have hil : i < l.length := by
    by_contra hc
    rw [List.getElem?_eq_none (by omega)] at hi
    cases hi
  have hjl : j < l.length := by
    by_contra hc
    rw [List.getElem?_eq_none (by omega)] at hj
    cases hj
  rw [List.getElem?_eq_getElem hil, Option.some.injEq] at hi
  rw [List.getElem?_eq_getElem hjl, Option.some.injEq] at hj
  by_contra hc
  rcases Nat.lt_or_eq_of_le (Nat.le_of_not_lt hc) with h | h
  · have := (List.pairwise_iff_getElem.1 hs) j i hjl hil h
    rw [hi, hj] at this
    exact hp.asymm this
  · subst h
    rw [hi] at hj
    subst hj
    exact Precedes.irrefl _ hp

theorem Encoder.rank_lt_spec (e : Encoder) (w w' : List Byte)
    (ha : e.accepts w = true) (hl : w.length ≤ e.n)
    (ha' : e.accepts w' = true) (hl' : w'.length ≤ e.n) (hp : Precedes w w') :
    ∃ r r', e.rank w = some r ∧ e.rank w' = some r' ∧ r < r' := by
  obtain ⟨r, hr, hw⟩ := e.rank_spec w ha hl
  obtain ⟨r', hr', hw'⟩ := e.rank_spec w' ha' hl'
  exact ⟨r, r', hr, hr', sorted_index_lt (e.slice_sorted _ _) hw hw' hp⟩

theorem Encoder.unrank_position (e : Encoder) (i : Nat) (w : List Byte)
    (hu : e.unrank i = some w) :
    Set.ncard {v | e.accepts v = true ∧ v.length ≤ e.n ∧ Precedes v w} = i := by
  rw [Encoder.unrank_eq] at hu
  have hil : i < e.langList.length := by
    by_contra hc
    rw [List.getElem?_eq_none (by omega)] at hu
    cases hu
  have hs : e.langList.Pairwise Precedes := e.slice_sorted _ _
  have hn : (e.langList.take i).Nodup := (e.slice_nodup 0 (e.n + 1)).sublist (List.take_sublist _ _)
  rw [ncard_of_list hn]
  · rw [List.length_take]; omega
  · intro v
    constructor
    · intro hv
      obtain ⟨j, hj⟩ := List.mem_iff_getElem?.1 hv
      have hjlt : j < i := by
        by_contra hc
        rw [List.getElem?_take_eq_none (by omega)] at hj
        cases hj
      rw [List.getElem?_take_of_lt hjlt] at hj
      have hm := (e.mem_langList v).1 (List.getElem?_mem hj)
      have hjl : j < e.langList.length := by omega
      have hp := (List.pairwise_iff_getElem.1 hs) j i hjl hil hjlt
      rw [List.getElem?_eq_getElem hjl, Option.some.injEq] at hj
      rw [List.getElem?_eq_getElem hil, Option.some.injEq] at hu
      rw [hj, hu] at hp
      exact ⟨hm.2, hm.1, hp⟩
    · rintro ⟨h1, h2, h3⟩
      obtain ⟨j, hj⟩ := List.mem_iff_getElem?.1 ((e.mem_langList v).2 ⟨h2, h1⟩)
      have hjlt := sorted_index_lt hs hj hu h3
      apply List.mem_iff_getElem?.2
      exact ⟨j, by rw [List.getElem?_take_of_lt hjlt]; exact hj⟩

theorem Encoder.T_count (e : Encoder) (q i : Nat) :
    e.T q i = Set.ncard {w : List Byte | w.length = i ∧ e.acceptsFrom q w = true} := by
  rw [ncard_of_list (e.words_nodup i q) _ (e.mem_words i q), Encoder.T_eq_length]

theorem Encoder.numWords_count (e : Encoder) (a b : Nat) (hab : a ≤ b) :
    e.getNumWordsInLanguage a b
      = Set.ncard {w : List Byte | e.accepts w = true ∧ a ≤ w.length ∧ w.length ≤ b} := by
  rw [Encoder.numWords_eq, ncard_of_list (e.slice_nodup a (b + 1 - a))]
  intro w
  rw [Encoder.mem_slice]
  constructor
  · rintro ⟨h1, h2, h3⟩; exact ⟨h3, h1, by omega⟩
  · rintro ⟨h1, h2, h3⟩; exact ⟨h2, by omega, h1⟩

end Dank

namespace Dank

/-! ## More fuel does not change a result -/

theorem NFA.closureLoop_mono (N : NFA) : ∀ (fuel : Nat) (q req r : List Nat),
    N.closureLoop fuel q req = .ok r → ∀ k, N.closureLoop (fuel + k) q req = .ok r := by
  intro fuel
  induction fuel with
  | zero =>
    intro q req r h k
    cases q with
    | nil =>
      cases k with
      | zero => exact h
      | succ k => simpa [NFA.closureLoop] using h
    | cons u q => simp [NFA.closureLoop] at h
  | succ fuel ih =>
    intro q req r h k
    cases q with
    | nil =>
      rw [show fuel + 1 + k = (fuel + k) + 1 by omega]
      simpa [NFA.closureLoop] using h
    | cons u q =>
      rw [show fuel + 1 + k = (fuel + k) + 1 by omega]
      simp only [NFA.closureLoop] at h ⊢
      cases hu : N.pool[u]? with
      | none => rw [hu] at h; cases h
      | some st =>
        rw [hu] at h
        simp only at h ⊢
        cases hf : mapFind 0 st.trans with
        | none =>
          rw [hf] at h
          exact ih _ _ _ h k
        | some x =>
          rw [hf] at h
          exact ih _ _ _ h k

theorem NFA.get_closure_mono (N : NFA) {fuel : Nat} {req r : List Nat}
    (h : N.get_closure fuel req = .ok r) (k : Nat) : N.get_closure (fuel + k) req = .ok r :=
  N.closureLoop_mono fuel req req r h k

theorem NFA.detEdges_mono (N : NFA) (fuel u1 : Nat) : ∀ (entries : List (Byte × List Nat))
    (st st' : DetState), N.detEdges fuel u1 entries st = .ok st' →
    ∀ k, N.detEdges (fuel + k) u1 entries st = .ok st' := by
  intro entries
  induction entries with
  | nil => intro st st' h k; exact h
  | cons e rest ih =>
    obtain ⟨c, X⟩ := e
    intro st st' h k
    rw [NFA.detEdges] at h ⊢
    cases hc : N.get_closure fuel X with
    | error err => rw [hc] at h; cases h
    | ok T =>
      rw [hc] at h
      rw [N.get_closure_mono hc k]
      simp only [bind, Except.bind] at h ⊢
      cases hf : subsetFind T st.m with
      | none =>
        rw [hf] at h
        simp only at h ⊢
        cases hi : DFA.insert ⟨st.dfa.init, st.dfa.pool ++ [DFA.State.new]⟩ u1 c
            st.dfa.pool.length with
        | error err => rw [hi] at h; cases h
        | ok d =>
          rw [hi] at h
          simp only at h ⊢
          cases ha : N.anyFinal T with
          | error err => rw [ha] at h; cases h
          | ok fin =>
            rw [ha] at h
            exact ih _ _ h k
      | some v =>
        rw [hf] at h
        simp only at h ⊢
        cases hi : st.dfa.insert u1 c v with
        | error err => rw [hi] at h; cases h
        | ok d =>
          rw [hi] at h
          exact ih _ _ h k

theorem NFA.detLoop_mono (N : NFA) : ∀ (fuel : Nat) (st : DetState) (D : DFA),
    N.detLoop fuel st = .ok D → ∀ k, N.detLoop (fuel + k) st = .ok D := by
  intro fuel
  induction fuel with
  | zero =>
    intro st D h k
    rw [NFA.detLoop] at h ⊢
    cases hq : st.q with
    | nil => rw [hq] at h; simpa using h
    | cons u0 q => rw [hq] at h; simp at h
  | succ fuel ih =>
    intro st D h k
    rw [show fuel + 1 + k = (fuel + k) + 1 by omega]
    rw [NFA.detLoop] at h ⊢
    cases hq : st.q with
    | nil => rw [hq] at h; simpa using h
    | cons u0 q =>
      rw [hq] at h
      simp only at h ⊢
      split_ifs at h ⊢ with hlt
      · cases hc : N.collect u0 [] with
        | error err => rw [hc] at h; cases h
        | ok coll =>
          rw [hc] at h
          simp only [bind, Except.bind] at h ⊢
          split at h
          · cases h
          · rename_i st1 he
            rw [N.detEdges_mono _ _ _ _ _ he k]
            exact ih _ _ h k

theorem NFA.determinize_mono (N : NFA) {fuel : Nat} {D : DFA}
    (h : N.determinize fuel = .ok D) (k : Nat) : N.determinize (fuel + k) = .ok D := by
  unfold NFA.determinize at h ⊢
  cases ha : N.anyFinal N.init with
  | error err => rw [ha] at h; cases h
  | ok fin =>
    rw [ha] at h
    simp only [bind, Except.bind] at h ⊢
    exact N.detLoop_mono _ _ _ h k

end Dank

namespace Dank

/-! ## Brzozowski: determinizing a mirror image gives a reduced automaton -/

theorem DFA.run_lt {D : DFA} (hv : D.valid) : ∀ (x : List Byte) (q q1 : Nat),
    q < D.pool.length → D.run q x = some q1 → q1 < D.pool.length := by
  intro x
  induction x with
  | nil =>
    intro q q1 hq h
    simp only [DFA.run, Option.some.injEq] at h
    omega
  | cons c x ih =>
    intro q q1 hq h
    simp only [DFA.run] at h
    cases hs : D.step q c with
    | none => rw [hs] at h; cases h
    | some q2 =>
      rw [hs] at h
      exact ih q2 q1 (DFA.step_target_lt hv hs) h

theorem DFA.acceptsFrom_append (D : DFA) (q : Nat) (x y : List Byte) :
    D.acceptsFrom q (x ++ y) =
      match D.run q x with
      | none => false
      | some q1 => D.acceptsFrom q1 y := by
  unfold DFA.acceptsFrom
  rw [DFA.run_append]
  cases D.run q x <;> rfl

theorem DetInv.step_eq {N : NFA} {st : DetState} {k : Nat} (_h : DetInv N st k) {p : Nat}
    {ds : DFA.State} (hp : st.dfa.pool[p]? = some ds) (c : Byte) :
    st.dfa.step p c = mapFind c ds.trans := by
  simp [DFA.step, hp]

theorem DetInv.accessible {N : NFA} {st : DetState} {k : Nat} (h : DetInv N st k) :
    st.dfa.Accessible := by
  intro i
  induction i using Nat.strong_induction_on with
  | _ i ih =>
    intro hi
    by_cases hi0 : i = 0
    · subst hi0
      exact ⟨[], by rw [h.init0]; rfl⟩
    · obtain ⟨p, hpi, ds, c, hp, hf⟩ := h.pred i (by omega) (by rw [← h.len_pool]; exact hi)
      obtain ⟨x, hx⟩ := ih p hpi (by omega)
      refine ⟨x ++ [c], ?_⟩
      rw [DFA.run_snoc, hx]
      show st.dfa.step p c = some i
      rw [h.step_eq hp]
      exact hf

/-- The subset of every state but the first is not empty, when the NFA stores no empty target
set. -/
theorem DetInv.subset_ne_nil {N : NFA} {st : DetState} {k : Nat} (h : DetInv N st k)
    (hwf : N.poolWF) {i : Nat} {S : List Nat} (hi : 0 < i) (hr : st.m[i]? = some (S, i)) :
    S ≠ [] := by
  have hb := h.toDetBase
  obtain ⟨p, hpi, ds, c, hp, hf⟩ := h.pred i hi (hb.rep_lt hr)
  have hpl : p < st.m.length := by
    have := hb.rep_lt hr
    omega
  obtain ⟨Sp, hSp⟩ := h.rep_exists hpl
  obtain ⟨_, ⟨u, hu, st1, hst1, hkey⟩, T, hT, hstep⟩ := h.trans p Sp ds c i hSp hp hf
  have hTS : T = S := hb.rep_unique hT hr
  subst hTS
  cases hfind : mapFind c st1.trans with
  | none => rw [hfind] at hkey; cases hkey
  | some X =>
    have hX := ((hwf st1 (List.getElem?_mem hst1)).2 (c, X) (mapFind_mem hfind)).2
    obtain ⟨v, hv⟩ := List.exists_mem_of_ne_nil X hX
    have hvs : v ∈ N.succ u c := by
      simp only [NFA.succ, hst1, hfind]
      exact hv
    have : v ∈ T := (hstep v).2 ⟨u, hu, v, hvs, Relation.ReflTransGen.refl⟩
    intro hnil
    rw [hnil] at this
    cases this

theorem DetInv.reduced {B : DFA} {N : NFA} {st : DetState} (hrev : IsReverse B N)
    (hz : B.noZero) (hacc : B.Accessible) (h : DetInv N st st.m.length) :
    st.dfa.Reduced := by
  have hb := h.toDetBase
  -- a state whose subset contains `q` accepts the reversal of a word leading to `q`
  have hlive : ∀ (i : Nat) (S : List Nat) (q : Nat), st.m[i]? = some (S, i) → q ∈ S →
      ∃ x, B.run B.init x = some q ∧ st.dfa.acceptsFrom i x.reverse = true := by
    intro i S q hr hq
    have hql : q < B.pool.length := by
      rw [← hrev.len]
      exact (h.subs S (hb.rep_mem hr)).2.1 q hq
    obtain ⟨x, hx⟩ := hacc q hql
    refine ⟨x, hx, ?_⟩
    rw [h.acceptsFrom_iff (hrev.initClosed hz) x.reverse i S hr]
    refine ⟨q, hq, B.init, ?_, (hrev.final B.init).2 rfl⟩
    rw [hrev.path_iff hz, List.reverse_reverse]
    exact hx
  refine
    { init0 := h.init0
      wf := h.dfa_wf
      valid := h.dfa_valid
      noZero := h.dfa_noZero
      accessible := h.accessible
      distinct := ?_
      live := ?_ }
  · intro i j hi hj hsame
    rw [h.len_pool] at hi hj
    obtain ⟨Si, hSi⟩ := h.rep_exists hi
    obtain ⟨Sj, hSj⟩ := h.rep_exists hj
    -- membership in the subsets is decided by the accepted words
    have hmem : ∀ (a b : Nat) (Sa Sb : List Nat), st.m[a]? = some (Sa, a) →
        st.m[b]? = some (Sb, b) → (∀ w, st.dfa.acceptsFrom a w = st.dfa.acceptsFrom b w) →
        ∀ q, q ∈ Sa → q ∈ Sb := by
      intro a b Sa Sb hSa hSb hw q hq
      obtain ⟨x, hx, hax⟩ := hlive a Sa q hSa hq
      rw [hw, h.acceptsFrom_iff (hrev.initClosed hz) x.reverse b Sb hSb] at hax
      obtain ⟨u, hu, f, hpath, hf⟩ := hax
      rw [(hrev.final f).1 hf, hrev.path_iff hz, List.reverse_reverse, hx] at hpath
      cases hpath
      exact hu
    have hSeq : Si = Sj := by
      apply setSorted_ext (h.subs Si (hb.rep_mem hSi)).1 (h.subs Sj (hb.rep_mem hSj)).1
      intro q
      exact ⟨hmem i j Si Sj hSi hSj hsame q, hmem j i Sj Si hSj hSi (fun w => (hsame w).symm) q⟩
    subst hSeq
    have h1 := subsetFind_of_mem h.nodup (List.getElem?_mem hSi)
    have h2 := subsetFind_of_mem h.nodup (List.getElem?_mem hSj)
    rw [h1] at h2
    cases h2
    rfl
  · by_cases hinit : N.init = []
    · right
      have hlen : st.m.length = 1 := by
        by_contra hne
        have h1 : 1 < st.m.length := by
          have := hb.rep_lt h.first
          omega
        obtain ⟨p, hp1, ds, c, hp, hf⟩ := h.pred 1 (by omega) h1
        have hp0 : p = 0 := by omega
        subst hp0
        obtain ⟨_, ⟨u, hu, _⟩, _⟩ := h.trans 0 N.init ds c 1 h.first hp hf
        rw [hinit] at hu
        cases hu
      refine ⟨by rw [h.len_pool]; exact hlen, ?_⟩
      intro w
      cases hacc' : st.dfa.accepts w with
      | false => rfl
      | true =>
        obtain ⟨i, hi, _⟩ := (h.accepts_iff (hrev.initClosed hz) w).1 hacc'
        rw [hinit] at hi
        cases hi
    · left
      intro i hi
      rw [h.len_pool] at hi
      obtain ⟨S, hS⟩ := h.rep_exists hi
      have hne : S ≠ [] := by
        by_cases hi0 : i = 0
        · subst hi0
          have := hb.rep_unique hS h.first
          rw [this]; exact hinit
        · exact h.subset_ne_nil hrev.wf (by omega) hS
      obtain ⟨q, hq⟩ := List.exists_mem_of_ne_nil S hne
      obtain ⟨x, _, hx⟩ := hlive i S q hS hq
      exact ⟨x.reverse, hx⟩

end Dank

namespace Dank

/-! ## Brzozowski: the number of states is determined by the language -/

theorem DFA.Reduced.card_le {D1 D2 : DFA} (h1 : D1.Reduced) (h2 : D2.Reduced)
    (hL : ∀ w, D1.accepts w = D2.accepts w) (hlive : D1.Live) :
    D1.pool.length ≤ D2.pool.length := by
  have hex : ∀ i : Fin D1.pool.length, ∃ j : Fin D2.pool.length, ∃ x,
      D1.run D1.init x = some i.val ∧ D2.run D2.init x = some j.val := by
    intro i
    obtain ⟨x, hx⟩ := h1.accessible i.val i.isLt
    obtain ⟨y, hy⟩ := hlive i.val i.isLt
    have hacc : D1.accepts (x ++ y) = true := by
      unfold DFA.accepts
      rw [DFA.acceptsFrom_append, hx]
      exact hy
    rw [hL] at hacc
    unfold DFA.accepts at hacc
    rw [DFA.acceptsFrom_append] at hacc
    cases hr : D2.run D2.init x with
    | none => rw [hr] at hacc; cases hacc
    | some j =>
      exact ⟨⟨j, DFA.run_lt h2.valid x D2.init j h2.valid.1 hr⟩, x, hx, hr⟩
  choose f hf using hex
  have hinj : Function.Injective f := by
    intro a b hab
    obtain ⟨x, hx1, hx2⟩ := hf a
    obtain ⟨x', hx1', hx2'⟩ := hf b
    rw [hab] at hx2
    apply Fin.ext
    apply h1.distinct a.val b.val a.isLt b.isLt
    intro w
    have e1 : D1.accepts (x ++ w) = D1.acceptsFrom a.val w := by
      unfold DFA.accepts; rw [DFA.acceptsFrom_append, hx1]
    have e2 : D1.accepts (x' ++ w) = D1.acceptsFrom b.val w := by
      unfold DFA.accepts; rw [DFA.acceptsFrom_append, hx1']
    have e3 : D2.accepts (x ++ w) = D2.acceptsFrom (f b).val w := by
      unfold DFA.accepts; rw [DFA.acceptsFrom_append, hx2]
    have e4 : D2.accepts (x' ++ w) = D2.acceptsFrom (f b).val w := by
      unfold DFA.accepts; rw [DFA.acceptsFrom_append, hx2']
    rw [← e1, ← e2, hL, hL, e3, e4]
  simpa using Fintype.card_le_of_injective f hinj

theorem DFA.Reduced.card_eq {D1 D2 : DFA} (h1 : D1.Reduced) (h2 : D2.Reduced)
    (hL : ∀ w, D1.accepts w = D2.accepts w) : D1.pool.length = D2.pool.length := by
  have hL' : ∀ w, D2.accepts w = D1.accepts w := fun w => (hL w).symm
  rcases h1.live with hl1 | ⟨hn1, he1⟩
  · rcases h2.live with hl2 | ⟨_, he2⟩
    · exact le_antisymm (h1.card_le h2 hL hl1) (h2.card_le h1 hL' hl2)
    · obtain ⟨y, hy⟩ := hl1 D1.init h1.valid.1
      have : D1.accepts y = true := hy
      rw [hL, he2] at this
      cases this
  · rcases h2.live with hl2 | ⟨hn2, _⟩
    · obtain ⟨y, hy⟩ := hl2 D2.init h2.valid.1
      have : D2.accepts y = true := hy
      rw [hL', he1] at this
      cases this
    · rw [hn1, hn2]

end Dank

namespace Dank

/-! ## Thompson construction: structural invariant -/

theorem Except.bind_eq_ok {ε α β : Type} {x : Except ε α} {f : α → Except ε β} {b : β}
    (h : x >>= f = .ok b) : ∃ a, x = .ok a ∧ f a = .ok b := by
  cases x with
  | error e => cases h
  | ok a => exact ⟨a, rfl, h⟩

theorem NFA.Grow.trans {N N1 N2 : NFA} (h1 : N.Grow N1) (h2 : N1.Grow N2) : N.Grow N2 :=
  { good := h2.good
    len := le_trans h1.len h2.len
    init := by rw [h2.init, h1.init]
    final := fun u => by rw [h2.final, h1.final] }

theorem NFA.Grow.refl {N : NFA} (h : N.Good) : N.Grow N :=
  { good := h, len := le_refl _, init := rfl, final := fun _ => rfl }

theorem NFA.push2_pool_length (N : NFA) : N.push2.pool.length = N.pool.length + 2 := by
  simp [NFA.push2]

theorem NFA.push2_get_old {N : NFA} {u : Nat} (hu : u < N.pool.length) :
    N.push2.pool[u]? = N.pool[u]? := by
  simp only [NFA.push2]
  exact List.getElem?_append_left hu

theorem NFA.push2_get_new {N : NFA} {u : Nat} {st : NFA.State}
    (hu : N.pool.length ≤ u) (h : N.push2.pool[u]? = some st) : st = NFA.State.new := by
  simp only [NFA.push2] at h
  rw [List.getElem?_append_right hu] at h
  have := List.getElem?_mem h
  simp only [List.mem_cons, List.mem_singleton, List.not_mem_nil, or_false, or_self] at this
  exact this

theorem NFA.push2_succ (N : NFA) (u : Nat) (c : Byte) : N.push2.succ u c = N.succ u c := by
  by_cases hu : u < N.pool.length
  · simp only [NFA.succ, NFA.push2_get_old hu]
  · have h2 : N.pool[u]? = none := List.getElem?_eq_none (by omega)
    simp only [NFA.succ, h2]
    cases hp : N.push2.pool[u]? with
    | none => rfl
    | some st =>
      rw [NFA.push2_get_new (by omega) hp]
      rfl

theorem NFA.push2_isFinal (N : NFA) (u : Nat) : N.push2.isFinal u = N.isFinal u := by
  by_cases hu : u < N.pool.length
  · simp only [NFA.isFinal, NFA.push2_get_old hu]
  · have h2 : N.pool[u]? = none := List.getElem?_eq_none (by omega)
    simp only [NFA.isFinal, h2]
    cases hp : N.push2.pool[u]? with
    | none => rfl
    | some st =>
      rw [NFA.push2_get_new (by omega) hp]
      rfl

theorem NFA.push2_grow {N : NFA} (h : N.Good) : N.Grow N.push2 :=
  { good :=
      { wf := by
          intro st hst
          simp only [NFA.push2, List.mem_append, List.mem_cons, List.mem_singleton,
            List.not_mem_nil, or_false, or_self] at hst
          rcases hst with hst | rfl
          · exact h.wf st hst
          · simp [NFA.State.new, keysSorted]
        targets := by
          intro u c v hv
          rw [NFA.push2_succ] at hv
          have := h.targets u c v hv
          rw [NFA.push2_pool_length]
          omega }
    len := by rw [NFA.push2_pool_length]; omega
    init := rfl
    final := N.push2_isFinal }

theorem NFA.insert_lt {N N1 : NFA} {s t : Nat} {c : Byte} (h : N.insert s c t = .ok N1) :
    s < N.pool.length := by
  by_contra hs
  have : N.pool[s]? = none := List.getElem?_eq_none (by omega)
  simp [NFA.insert, this] at h

theorem NFA.insert_grow {N N1 : NFA} {s t : Nat} {c : Byte} (hg : N.Good)
    (ht : t < N.pool.length) (h : N.insert s c t = .ok N1) :
    N.Grow N1 ∧ N1.pool.length = N.pool.length ∧
      (∀ u c' v, v ∈ N1.succ u c' ↔ (v ∈ N.succ u c' ∨ (u = s ∧ c' = c ∧ v = t))) := by
  obtain ⟨N', h', hinit, hlen, hwf, _, hfin, hsucc⟩ := NFA.insert_spec c t (NFA.insert_lt h) hg.wf
  rw [h] at h'
  cases h'
  refine ⟨?_, hlen, hsucc⟩
  exact
    { good :=
        { wf := hwf
          targets := by
            intro u c' v hv
            rw [hlen]
            rcases (hsucc u c' v).1 hv with hv | ⟨_, _, rfl⟩
            · exact hg.targets u c' v hv
            · exact ht }
      len := by rw [hlen]
      init := hinit
      final := hfin }

end Dank

namespace Dank

/-! ## Thompson construction: every result is a well-formed extension -/

theorem NFA.insert_grow' {N N1 : NFA} {s t : Nat} {c : Byte} (hg : N.Good)
    (ht : t < N.pool.length) (h : N.insert s c t = .ok N1) : N.Grow N1 :=
  (NFA.insert_grow hg ht h).1

theorem thompsonAlt_grow {recur : NFA → Nat → Nat → Nat → Nat → Except Err NFA}
    (ih : RecurGrows recur) {nfa nfa' : NFA} {s t lo k hi : Nat}
    (h : thompsonAlt recur nfa s t lo k hi = .ok nfa')
    (hg : nfa.Good) (hs : s < nfa.pool.length) (ht : t < nfa.pool.length) : nfa.Grow nfa' := by
  unfold thompsonAlt at h
  have hp := NFA.push2_grow hg
  have hlen2 := nfa.push2_pool_length
  obtain ⟨n1, e1, h⟩ := Except.bind_eq_ok h
  obtain ⟨n2, e2, h⟩ := Except.bind_eq_ok h
  obtain ⟨n3, e3, h⟩ := Except.bind_eq_ok h
  obtain ⟨n4, e4, h⟩ := Except.bind_eq_ok h
  obtain ⟨n5, e5, h⟩ := Except.bind_eq_ok h
  obtain ⟨g1, l1, _⟩ := NFA.insert_grow hp.good (by omega) e1
  obtain ⟨g2, l2, _⟩ := NFA.insert_grow g1.good (by omega) e2
  have g3 := ih _ _ _ _ _ _ e3 g2.good (by omega) (by omega)
  have hp3 := NFA.push2_grow g3.good
  have hlen3 := n3.push2_pool_length
  have l3 := g3.len
  obtain ⟨g4, l4, _⟩ := NFA.insert_grow hp3.good (by omega) e4
  obtain ⟨g5, l5, _⟩ := NFA.insert_grow g4.good (by omega) e5
  have g6 := ih _ _ _ _ _ _ h g5.good (by omega) (by omega)
  exact hp.trans (g1.trans (g2.trans (g3.trans (hp3.trans (g4.trans (g5.trans g6))))))

theorem thompsonCat_grow {recur : NFA → Nat → Nat → Nat → Nat → Except Err NFA}
    (ih : RecurGrows recur) {nfa nfa' : NFA} {s t lo k hi : Nat}
    (h : thompsonCat recur nfa s t lo k hi = .ok nfa')
    (hg : nfa.Good) (hs : s < nfa.pool.length) (ht : t < nfa.pool.length) : nfa.Grow nfa' := by
  unfold thompsonCat at h
  have hp := NFA.push2_grow hg
  have hlen2 := nfa.push2_pool_length
  obtain ⟨n1, e1, h⟩ := Except.bind_eq_ok h
  obtain ⟨n2, e2, h⟩ := Except.bind_eq_ok h
  obtain ⟨g1, l1, _⟩ := NFA.insert_grow hp.good (by omega) e1
  have g2 := ih _ _ _ _ _ _ e2 g1.good (by omega) (by omega)
  have l2 := g2.len
  have g3 := ih _ _ _ _ _ _ h g2.good (by omega) (by omega)
  exact hp.trans (g1.trans (g2.trans g3))

theorem thompsonOpt_grow {recur : NFA → Nat → Nat → Nat → Nat → Except Err NFA}
    (ih : RecurGrows recur) {nfa nfa' : NFA} {s t lo hi : Nat}
    (h : thompsonOpt recur nfa s t lo hi = .ok nfa')
    (hg : nfa.Good) (hs : s < nfa.pool.length) (ht : t < nfa.pool.length) : nfa.Grow nfa' := by
  unfold thompsonOpt at h
  have hp := NFA.push2_grow hg
  have hlen2 := nfa.push2_pool_length
  obtain ⟨n1, e1, h⟩ := Except.bind_eq_ok h
  obtain ⟨n2, e2, h⟩ := Except.bind_eq_ok h
  obtain ⟨n3, e3, h⟩ := Except.bind_eq_ok h
  obtain ⟨g1, l1, _⟩ := NFA.insert_grow hp.good (by omega) e1
  obtain ⟨g2, l2, _⟩ := NFA.insert_grow g1.good (by omega) e2
  obtain ⟨g3, l3, _⟩ := NFA.insert_grow g2.good (by omega) e3
  have g4 := ih _ _ _ _ _ _ h g3.good (by omega) (by omega)
  exact hp.trans (g1.trans (g2.trans (g3.trans g4)))

theorem thompsonStar_grow {recur : NFA → Nat → Nat → Nat → Nat → Except Err NFA}
    (ih : RecurGrows recur) {nfa nfa' : NFA} {s t lo hi : Nat}
    (h : thompsonStar recur nfa s t lo hi = .ok nfa')
    (hg : nfa.Good) (hs : s < nfa.pool.length) (ht : t < nfa.pool.length) : nfa.Grow nfa' := by
  unfold thompsonStar at h
  have hp := NFA.push2_grow hg
  have hlen2 := nfa.push2_pool_length
  obtain ⟨n1, e1, h⟩ := Except.bind_eq_ok h
  obtain ⟨n2, e2, h⟩ := Except.bind_eq_ok h
  obtain ⟨n3, e3, h⟩ := Except.bind_eq_ok h
  obtain ⟨n4, e4, h⟩ := Except.bind_eq_ok h
  obtain ⟨g1, l1, _⟩ := NFA.insert_grow hp.good (by omega) e1
  obtain ⟨g2, l2, _⟩ := NFA.insert_grow g1.good (by omega) e2
  obtain ⟨g3, l3, _⟩ := NFA.insert_grow g2.good (by omega) e3
  obtain ⟨g4, l4, _⟩ := NFA.insert_grow g3.good (by omega) e4
  have g5 := ih _ _ _ _ _ _ h g4.good (by omega) (by omega)
  exact hp.trans (g1.trans (g2.trans (g3.trans (g4.trans g5))))

theorem thompsonPlus_grow {recur : NFA → Nat → Nat → Nat → Nat → Except Err NFA}
    (ih : RecurGrows recur) {nfa nfa' : NFA} {s t lo hi : Nat}
    (h : thompsonPlus recur nfa s t lo hi = .ok nfa')
    (hg : nfa.Good) (hs : s < nfa.pool.length) (ht : t < nfa.pool.length) : nfa.Grow nfa' := by
  unfold thompsonPlus at h
  have hp := NFA.push2_grow hg
  have hlen2 := nfa.push2_pool_length
  obtain ⟨n1, e1, h⟩ := Except.bind_eq_ok h
  obtain ⟨n2, e2, h⟩ := Except.bind_eq_ok h
  obtain ⟨g1, l1, _⟩ := NFA.insert_grow hp.good (by omega) e1
  have g2 := ih _ _ _ _ _ _ e2 g1.good (by omega) (by omega)
  have l2 := g2.len
  have g3 := thompsonStar_grow ih h g2.good (by omega) (by omega)
  exact hp.trans (g1.trans (g2.trans g3))

theorem NFA.fromRegexAux_grow (p : List Byte) : ∀ (fuel : Nat),
    RecurGrows (NFA.fromRegexAux p fuel) := by
  intro fuel
  induction fuel with
  | zero => intro nfa s t lo hi nfa' h; simp [NFA.fromRegexAux] at h
  | succ fuel ih =>
    intro nfa s t lo hi nfa' h hg hs ht
    rw [NFA.fromRegexAux] at h
    cases hc : classify p fuel lo hi with
    | error e => rw [hc] at h; cases h
    | ok shape =>
      rw [hc] at h
      cases shape with
      | single ch => exact NFA.insert_grow' hg ht h
      | escaped c => exact NFA.insert_grow' hg ht h
      | alt k => exact thompsonAlt_grow ih h hg hs ht
      | cat k => exact thompsonCat_grow ih h hg hs ht
      | opt => exact thompsonOpt_grow ih h hg hs ht
      | star => exact thompsonStar_grow ih h hg hs ht
      | plus => exact thompsonPlus_grow ih h hg hs ht
      | paren => exact ih _ _ _ _ _ _ h hg hs ht

end Dank

namespace Dank

/-! ## The pipeline `DFA::from_regex` returns a reduced automaton -/

theorem NFA.determinize_inv (N : NFA) (hwf : N.WF) (htv : N.targetsValid)
    (hiv : N.initValid) {fuel : Nat} {D : DFA}
    (h : N.determinize fuel = .ok D) :
    ∃ st, st.dfa = D ∧ DetInv N st st.m.length := by
  obtain ⟨st, hst, hinv⟩ := N.determinize_spec hwf htv hiv
    (fuel + (2 ^ N.pool.length + 1 + 2 * N.pool.length)) (by omega)
  rw [N.determinize_mono h] at hst
  cases hst
  exact ⟨st, rfl, hinv⟩

theorem NFA.Good.targets_valid {N : NFA} (h : N.Good) : N.targetsValid := by
  intro st hst e he v hv
  obtain ⟨u, hu⟩ := List.mem_iff_getElem?.1 hst
  apply h.targets u e.1 v
  simp only [NFA.succ, hu, mapFind_of_mem (h.wf st hst).1 (show (e.1, e.2) ∈ st.trans from he)]
  exact hv

theorem NFA.get_closure_inv (N : NFA) (hg : N.Good) {req r : List Nat} {fuel : Nat}
    (hreq : ∀ u ∈ req, u < N.pool.length) (hs : setSorted req)
    (h : N.get_closure fuel req = .ok r) :
    setSorted r ∧ (∀ y ∈ r, y < N.pool.length) ∧ (∀ y, y ∈ r ↔ ∃ u ∈ req, N.EpsReach u y) := by
  obtain ⟨r', hr', h1, h2, h3⟩ := N.get_closure_spec hg.targets_valid req hreq
    (fuel + (req.length + N.pool.length)) (by omega)
  rw [N.get_closure_mono h] at hr'
  cases hr'
  exact ⟨h2 hs, h3, h1⟩

/-- The initial two-state automaton of `NFA::from_regex`. -/
theorem startNFA_good :
    NFA.Good ⟨[0], [NFA.State.new, { NFA.State.new with final := true }]⟩ :=
  { wf := by
      intro st hst
      simp only [List.mem_cons, List.mem_singleton, List.not_mem_nil, or_false] at hst
      rcases hst with rfl | rfl <;> simp [NFA.State.new, keysSorted]
    targets := by
      intro u c v hv
      simp only [NFA.succ] at hv
      match u, hv with
      | 0, hv => simp [NFA.State.new, mapFind] at hv
      | 1, hv => simp [NFA.State.new, mapFind] at hv
      | u + 2, hv => simp at hv }

/-- What `NFA::from_regex` returns, whenever it returns: a well-formed automaton that extends
the initial two-state automaton and whose initial set is the ε-closure of state 0. -/
theorem NFA.from_regex_inv {fuel : Nat} {p : List Byte} {N : NFA}
    (h : NFA.from_regex fuel p = .ok N) :
    N.Good ∧ N.WF ∧ N.targetsValid ∧ N.initValid ∧ N.initClosed ∧ 2 ≤ N.pool.length ∧
      (∀ u, N.isFinal u = true ↔ u = 1) ∧ (∀ y, y ∈ N.init ↔ N.EpsReach 0 y) := by
  unfold NFA.from_regex at h
  obtain ⟨n1, e1, h⟩ := Except.bind_eq_ok h
  obtain ⟨init, e2, h⟩ := Except.bind_eq_ok h
  cases h
  have g1 := NFA.fromRegexAux_grow p fuel _ _ _ _ _ _ e1 startNFA_good (by simp) (by simp)
  have hlen : 2 ≤ n1.pool.length := by
    have := g1.len
    simpa using this
  rw [g1.init] at e2
  obtain ⟨c1, c2, c3⟩ := n1.get_closure_inv g1.good
    (show ∀ u ∈ [0], u < n1.pool.length by simp; omega)
    (by simp [setSorted]) e2
  have hgood : NFA.Good ⟨init, n1.pool⟩ :=
    { wf := g1.good.wf, targets := g1.good.targets }
  refine ⟨hgood, ⟨c1, fun st hst => ⟨(g1.good.wf st hst).1,
    fun e he => ((g1.good.wf st hst).2 e he).1⟩⟩, hgood.targets_valid, c2, ?_, hlen, ?_, ?_⟩
  · intro u hu v hv
    obtain ⟨x, hx, hxu⟩ := (c3 u).1 hu
    exact (c3 v).2 ⟨x, hx, Relation.ReflTransGen.tail hxu hv⟩
  · intro u
    have hf : NFA.isFinal ⟨init, n1.pool⟩ u = n1.isFinal u := rfl
    rw [hf, g1.final]
    simp only [NFA.isFinal]
    match u with
    | 0 => simp [NFA.State.new]
    | 1 => simp
    | u + 2 => simp
  · intro y
    have := c3 y
    simp only [List.mem_singleton, exists_eq_left] at this
    exact this

theorem DFA.reverse_inv {D : DFA} {N : NFA} (hwf : D.WF) (hv : D.valid)
    (h : D.reverse = .ok N) : IsReverse D N := by
  obtain ⟨N', hN', hrev⟩ := D.reverse_spec hwf hv
  rw [h] at hN'
  cases hN'
  exact hrev

/-- Whenever `DFA::from_regex` returns, its result is a reduced automaton. -/
theorem DFA.from_regex_reduced {fuel : Nat} {p : List Byte} {D : DFA}
    (h : DFA.from_regex fuel p = .ok D) : D.Reduced := by
  unfold DFA.from_regex at h
  obtain ⟨n0, e0, h1⟩ := Except.bind_eq_ok h
  obtain ⟨d0, e1, h2⟩ := Except.bind_eq_ok h1
  obtain ⟨n1, e2, h3⟩ := Except.bind_eq_ok h2
  obtain ⟨d1, e3, h4⟩ := Except.bind_eq_ok h3
  obtain ⟨n2, e4, e5⟩ := Except.bind_eq_ok h4
  obtain ⟨_, hwf0, htv0, hiv0, hic0, _⟩ := NFA.from_regex_inv e0
  obtain ⟨st0, hd0, hinv0⟩ := n0.determinize_inv hwf0 htv0 hiv0 e1
  rw [← hd0] at e2
  have hrev1 := DFA.reverse_inv hinv0.dfa_wf hinv0.dfa_valid e2
  obtain ⟨st1, hd1, hinv1⟩ := n1.determinize_inv hrev1.nfa_wf hrev1.targetsValid
    hrev1.initValid e3
  rw [← hd1] at e4
  have hrev2 := DFA.reverse_inv hinv1.dfa_wf hinv1.dfa_valid e4
  obtain ⟨st2, hd2, hinv2⟩ := n2.determinize_inv hrev2.nfa_wf hrev2.targetsValid
    hrev2.initValid e5
  rw [← hd2]
  exact hinv2.reduced hrev2 hinv1.dfa_noZero hinv1.accessible

end Dank

namespace Dank

/-! ## The scanning loop on printed patterns -/

theorem Seg.read {p : List Byte} {i : Nat} {c : Byte} {x : List Byte} (h : Seg p i (c :: x)) :
    p[i]? = some c := by
  obtain ⟨pre, suf, rfl, rfl⟩ := h
  rw [List.append_assoc, List.getElem?_append_right (le_refl _)]
  simp

theorem Seg.left {p : List Byte} {i : Nat} {x y : List Byte} (h : Seg p i (x ++ y)) :
    Seg p i x := by
  obtain ⟨pre, suf, rfl, rfl⟩ := h
  exact ⟨pre, y ++ suf, by simp, rfl⟩

theorem Seg.right {p : List Byte} {i : Nat} {x y : List Byte} (h : Seg p i (x ++ y)) :
    Seg p (i + x.length) y := by
  obtain ⟨pre, suf, rfl, rfl⟩ := h
  exact ⟨pre ++ x, suf, by simp, by simp⟩

theorem Seg.tail {p : List Byte} {i : Nat} {c : Byte} {x : List Byte} (h : Seg p i (c :: x)) :
    Seg p (i + 1) x :=
  Seg.right (x := [c]) h

theorem Seg.bound {p : List Byte} {i : Nat} {x : List Byte} (h : Seg p i x) :
    i + x.length ≤ p.length := by
  obtain ⟨pre, suf, rfl, rfl⟩ := h
  simp

theorem Seg.last {p : List Byte} {i : Nat} {c : Byte} {x : List Byte} (h : Seg p i (x ++ [c])) :
    p[i + x.length]? = some c :=
  (Seg.right h).read

theorem ScanStep.nil (p : List Byte) (hi i d o c : Nat) : ScanStep p hi [] i d o c d o c :=
  fun _ => ⟨0, le_refl _, rfl⟩

theorem ScanStep.comp {p : List Byte} {hi : Nat} {x y : List Byte}
    {i d o c d1 o1 c1 d2 o2 c2 : Nat}
    (h1 : ScanStep p hi x i d o c d1 o1 c1)
    (h2 : ScanStep p hi y (i + x.length) d1 o1 c1 d2 o2 c2) :
    ScanStep p hi (x ++ y) i d o c d2 o2 c2 := by
  intro fuel
  obtain ⟨k2, hk2, e2⟩ := h2 fuel
  obtain ⟨k1, hk1, e1⟩ := h1 (fuel + k2)
  refine ⟨k2 + k1, by simp; omega, ?_⟩
  rw [← Nat.add_assoc, e1, e2, List.length_append, Nat.add_assoc]

theorem isMeta_false {c : Byte} (h : isMeta c = false) :
    c ≠ BSLASH ∧ c ≠ LPAREN ∧ c ≠ RPAREN ∧ c ≠ PIPE ∧ c ≠ QMARK ∧ c ≠ STAR ∧ c ≠ PLUS := by
  simp only [isMeta, Bool.decide_or, Bool.or_eq_false_iff, decide_eq_false_iff_not] at h
  tauto

theorem scan_plain {p : List Byte} (hi : Nat) {i : Nat} {ch : Byte} (d o c : Nat)
    (hs : Seg p i [ch]) (hhi : i + 1 ≤ hi) (hm : isMeta ch = false) :
    ScanStep p hi [ch] i d o c d o (if d = 0 then i else c) := by
  intro fuel
  refine ⟨1, le_refl _, ?_⟩
  obtain ⟨m1, m2, m3, m4, m5, m6, m7⟩ := isMeta_false hm
  rw [scanLoop]
  simp [show i ≠ hi by omega, hs.read, m1, m2, m3, m4, m5, m6, m7]

theorem scan_esc {p : List Byte} (hi : Nat) {i : Nat} {ch : Byte} (d o c : Nat)
    (hs : Seg p i [BSLASH, ch]) (hhi : i + 2 ≤ hi) :
    ScanStep p hi [BSLASH, ch] i d o c d o (if d = 0 then i else c) := by
  intro fuel
  refine ⟨1, by simp, ?_⟩
  rw [scanLoop]
  simp [show i ≠ hi by omega, hs.read]

theorem scan_lparen {p : List Byte} (hi : Nat) {i : Nat} (d o c : Nat)
    (hs : Seg p i [LPAREN]) (hhi : i + 1 ≤ hi) :
    ScanStep p hi [LPAREN] i d o c (d + 1) o (if d = 0 then i else c) := by
  intro fuel
  refine ⟨1, le_refl _, ?_⟩
  rw [scanLoop]
  simp [show i ≠ hi by omega, hs.read, show LPAREN ≠ BSLASH by decide]

theorem scan_rparen {p : List Byte} (hi : Nat) {i : Nat} (d o c : Nat)
    (hs : Seg p i [RPAREN]) (hhi : i + 1 ≤ hi) :
    ScanStep p hi [RPAREN] i (d + 1) o c d o c := by
  intro fuel
  refine ⟨1, le_refl _, ?_⟩
  rw [scanLoop]
  simp [show i ≠ hi by omega, hs.read, show RPAREN ≠ BSLASH by decide,
    show RPAREN ≠ LPAREN by decide]

theorem scan_pipe {p : List Byte} (hi : Nat) {i : Nat} (d o c : Nat)
    (hs : Seg p i [PIPE]) (hhi : i + 1 ≤ hi) :
    ScanStep p hi [PIPE] i d o c d (if d = 0 then i else o) c := by
  intro fuel
  refine ⟨1, le_refl _, ?_⟩
  rw [scanLoop]
  simp [show i ≠ hi by omega, hs.read, show PIPE ≠ BSLASH by decide,
    show PIPE ≠ LPAREN by decide, show PIPE ≠ RPAREN by decide]

theorem scan_op {p : List Byte} (hi : Nat) {i : Nat} {op : Byte} (d o c : Nat)
    (hop : op = QMARK ∨ op = STAR ∨ op = PLUS)
    (hs : Seg p i [op]) (hhi : i + 1 ≤ hi) :
    ScanStep p hi [op] i d o c d o c := by
  intro fuel
  refine ⟨1, le_refl _, ?_⟩
  rw [scanLoop]
  rcases hop with rfl | rfl | rfl
  · simp [show i ≠ hi by omega, hs.read, show QMARK ≠ BSLASH by decide,
      show QMARK ≠ LPAREN by decide, show QMARK ≠ RPAREN by decide,
      show QMARK ≠ PIPE by decide]
  · simp [show i ≠ hi by omega, hs.read, show STAR ≠ BSLASH by decide,
      show STAR ≠ LPAREN by decide, show STAR ≠ RPAREN by decide,
      show STAR ≠ PIPE by decide]
  · simp [show i ≠ hi by omega, hs.read, show PLUS ≠ BSLASH by decide,
      show PLUS ≠ LPAREN by decide, show PLUS ≠ RPAREN by decide,
      show PLUS ≠ PIPE by decide]

theorem Regex.print_length_pos (r : Regex) : 0 < r.print.length := by
  induction r with
  | atom c => simp [Regex.print]
  | esc c => simp [Regex.print]
  | group r _ => simp [Regex.print]
  | opt r _ => simp [Regex.print]
  | star r _ => simp [Regex.print]
  | plus r _ => simp [Regex.print]
  | cat a b iha _ => simp only [Regex.print, List.length_append]; omega
  | alt a b iha _ => simp only [Regex.print, List.length_append]; omega

end Dank

namespace Dank

/-! ## The scan of a whole pattern -/

theorem seg_single_of_cons {p : List Byte} {i : Nat} {c : Byte} {x : List Byte}
    (h : Seg p i (c :: x)) : Seg p i [c] :=
  Seg.left (x := [c]) (y := x) h

/-- Inside parentheses a pattern leaves the state of the scan unchanged. -/
theorem scan_inside (r : Regex) : ∀ (lead : Bool), r.Lax lead →
    ∀ (p : List Byte) (hi i d o c : Nat), Seg p i r.print → i + r.print.length ≤ hi →
      ScanStep p hi r.print i (d + 1) o c (d + 1) o c := by
  induction r with
  | atom ch =>
    intro lead hwf p hi i d o c hs hhi
    rcases hwf with hm | ⟨_, hop⟩
    · have := scan_plain hi (d + 1) o c hs (by simpa [Regex.print] using hhi) hm
      simpa [Regex.print] using this
    · exact scan_op hi (d + 1) o c hop hs (by simpa [Regex.print] using hhi)
  | esc ch =>
    intro lead hwf p hi i d o c hs hhi
    have := scan_esc hi (d + 1) o c hs (by simpa [Regex.print] using hhi)
    simpa [Regex.print] using this
  | group r ih =>
    intro lead hwf p hi i d o c hs hhi
    simp only [Regex.print, List.length_cons, List.length_append, List.length_nil] at hhi
    have hs1 : Seg p i [LPAREN] := seg_single_of_cons hs
    have hs2 : Seg p (i + 1) (r.print ++ [RPAREN]) := hs.tail
    have h1 := scan_lparen hi (d + 1) o c hs1 (by omega)
    have h2 := ih true hwf p hi (i + 1) (d + 1) o c hs2.left (by omega)
    have hs3 : Seg p (i + 1 + r.print.length) [RPAREN] := hs2.right
    have h3 := scan_rparen hi (d + 1) o c hs3 (by omega)
    simp only [Nat.add_eq_zero, one_ne_zero, and_false, if_false] at h1
    have := h1.comp (y := r.print ++ [RPAREN]) (h2.comp h3)
    simpa [Regex.print] using this
  | opt r ih =>
    intro lead hwf p hi i d o c hs hhi
    simp only [Regex.print, List.length_append, List.length_singleton] at hhi
    have h1 := ih lead hwf.1 p hi i d o c hs.left (by omega)
    have hsr : Seg p (i + r.print.length) [QMARK] := hs.right
    have h2 := scan_op hi (d + 1) o c (Or.inl rfl) hsr (by omega)
    exact h1.comp h2
  | star r ih =>
    intro lead hwf p hi i d o c hs hhi
    simp only [Regex.print, List.length_append, List.length_singleton] at hhi
    have h1 := ih lead hwf.1 p hi i d o c hs.left (by omega)
    have hsr : Seg p (i + r.print.length) [STAR] := hs.right
    have h2 := scan_op hi (d + 1) o c (Or.inr (Or.inl rfl)) hsr (by omega)
    exact h1.comp h2
  | plus r ih =>
    intro lead hwf p hi i d o c hs hhi
    simp only [Regex.print, List.length_append, List.length_singleton] at hhi
    have h1 := ih lead hwf.1 p hi i d o c hs.left (by omega)
    have hsr : Seg p (i + r.print.length) [PLUS] := hs.right
    have h2 := scan_op hi (d + 1) o c (Or.inr (Or.inr rfl)) hsr (by omega)
    exact h1.comp h2
  | cat a b iha ihb =>
    intro lead hwf p hi i d o c hs hhi
    simp only [Regex.print, List.length_append] at hhi
    have h1 := iha lead hwf.1 p hi i d o c hs.left (by omega)
    have h2 := ihb false hwf.2.1 p hi (i + a.print.length) d o c hs.right (by omega)
    exact h1.comp h2
  | alt a b iha ihb =>
    intro lead hwf p hi i d o c hs hhi
    simp only [Regex.print, List.length_append, List.length_cons] at hhi
    have hsr : Seg p (i + a.print.length) (PIPE :: b.print) := hs.right
    have h1 := iha true hwf.1 p hi i d o c hs.left (by omega)
    have hsp : Seg p (i + a.print.length) [PIPE] := seg_single_of_cons hsr
    have h2 := scan_pipe hi (d + 1) o c hsp (by omega)
    have h3 := ihb true hwf.2.1 p hi (i + a.print.length + 1) d o c hsr.tail (by omega)
    simp only [Nat.add_eq_zero, one_ne_zero, and_false, if_false] at h2
    exact h1.comp (y := PIPE :: b.print) (h2.comp (x := [PIPE]) h3)

/-- At depth 0 the scan of a pattern ends at depth 0; it moves `option` only over a top-level
`|` and leaves `concatenation` at the start of the last top-level operand, or where it was
when that operand is headed by a postfix operator byte without operand. -/
theorem scan_top (r : Regex) : ∀ (lead : Bool), r.Lax lead →
    ∀ (p : List Byte) (hi i o c : Nat), Seg p i r.print → i + r.print.length ≤ hi →
      ∃ o1 c1, ScanStep p hi r.print i 0 o c 0 o1 c1 ∧
        (1 ≤ r.level → o1 = o) ∧ (2 ≤ r.level → c1 = i ∨ (lead = true ∧ c1 = c)) ∧
        (∀ a b, r = .cat a b → c1 = i + a.print.length) ∧
        (∀ a b, r = .alt a b → o1 = i + a.print.length) := by
  induction r with
  | atom ch =>
    intro lead hwf p hi i o c hs hhi
    rcases hwf with hm | ⟨hl, hop⟩
    · have := scan_plain hi 0 o c hs (by simpa [Regex.print] using hhi) hm
      exact ⟨o, i, by simpa [Regex.print] using this, fun _ => rfl, fun _ => Or.inl rfl,
        (fun a b h => by cases h), (fun a b h => by cases h)⟩
    · have := scan_op hi 0 o c hop hs (by simpa [Regex.print] using hhi)
      exact ⟨o, c, this, fun _ => rfl, fun _ => Or.inr ⟨hl, rfl⟩,
        (fun a b h => by cases h), (fun a b h => by cases h)⟩
  | esc ch =>
    intro lead hwf p hi i o c hs hhi
    have := scan_esc hi 0 o c hs (by simpa [Regex.print] using hhi)
    exact ⟨o, i, by simpa [Regex.print] using this, fun _ => rfl, fun _ => Or.inl rfl,
      (fun a b h => by cases h), (fun a b h => by cases h)⟩
  | group r _ =>
    intro lead hwf p hi i o c hs hhi
    simp only [Regex.print, List.length_cons, List.length_append, List.length_nil] at hhi
    have hs1 : Seg p i [LPAREN] := seg_single_of_cons hs
    have hs2 : Seg p (i + 1) (r.print ++ [RPAREN]) := hs.tail
    have h1 := scan_lparen hi 0 o c hs1 (by omega)
    have h2 := scan_inside r true hwf p hi (i + 1) 0 o i hs2.left (by omega)
    have hs3 : Seg p (i + 1 + r.print.length) [RPAREN] := hs2.right
    have h3 := scan_rparen hi 0 o i hs3 (by omega)
    simp only [if_true] at h1
    have := h1.comp (y := r.print ++ [RPAREN]) (h2.comp h3)
    exact ⟨o, i, by simpa [Regex.print] using this, fun _ => rfl, fun _ => Or.inl rfl,
      (fun a b h => by cases h), (fun a b h => by cases h)⟩
  | opt r ih =>
    intro lead hwf p hi i o c hs hhi
    simp only [Regex.print, List.length_append, List.length_singleton] at hhi
    obtain ⟨o1, c1, h1, e1, e2, _, _⟩ := ih lead hwf.1 p hi i o c hs.left (by omega)
    have hsr : Seg p (i + r.print.length) [QMARK] := hs.right
    have h2 := scan_op hi 0 o1 c1 (Or.inl rfl) hsr (by omega)
    exact ⟨o1, c1, h1.comp h2, fun _ => e1 (by have := hwf.2; omega), fun _ => e2 hwf.2,
      (fun a b h => by cases h), (fun a b h => by cases h)⟩
  | star r ih =>
    intro lead hwf p hi i o c hs hhi
    simp only [Regex.print, List.length_append, List.length_singleton] at hhi
    obtain ⟨o1, c1, h1, e1, e2, _, _⟩ := ih lead hwf.1 p hi i o c hs.left (by omega)
    have hsr : Seg p (i + r.print.length) [STAR] := hs.right
    have h2 := scan_op hi 0 o1 c1 (Or.inr (Or.inl rfl)) hsr (by omega)
    exact ⟨o1, c1, h1.comp h2, fun _ => e1 (by have := hwf.2; omega), fun _ => e2 hwf.2,
      (fun a b h => by cases h), (fun a b h => by cases h)⟩
  | plus r ih =>
    intro lead hwf p hi i o c hs hhi
    simp only [Regex.print, List.length_append, List.length_singleton] at hhi
    obtain ⟨o1, c1, h1, e1, e2, _, _⟩ := ih lead hwf.1 p hi i o c hs.left (by omega)
    have hsr : Seg p (i + r.print.length) [PLUS] := hs.right
    have h2 := scan_op hi 0 o1 c1 (Or.inr (Or.inr rfl)) hsr (by omega)
    exact ⟨o1, c1, h1.comp h2, fun _ => e1 (by have := hwf.2; omega), fun _ => e2 hwf.2,
      (fun a b h => by cases h), (fun a b h => by cases h)⟩
  | cat a b iha ihb =>
    intro lead hwf p hi i o c hs hhi
    simp only [Regex.print, List.length_append] at hhi
    obtain ⟨o1, c1, h1, e1, _, _, _⟩ := iha lead hwf.1 p hi i o c hs.left (by omega)
    obtain ⟨o2, c2, h2, f1, f2, _, _⟩ :=
      ihb false hwf.2.1 p hi (i + a.print.length) o1 c1 hs.right (by omega)
    have ho1 : o1 = o := e1 hwf.2.2.1
    have ho2 : o2 = o1 := f1 (by have := hwf.2.2.2; omega)
    have hc2 : c2 = i + a.print.length := by
      rcases f2 hwf.2.2.2 with h | ⟨h, _⟩
      · exact h
      · cases h
    refine ⟨o2, c2, h1.comp h2, fun _ => by rw [ho2, ho1], ?_, ?_, (fun a b h => by cases h)⟩
    · intro h; simp [Regex.level] at h
    · intro a' b' h
      cases h
      exact hc2
  | alt a b iha ihb =>
    intro lead hwf p hi i o c hs hhi
    simp only [Regex.print, List.length_append, List.length_cons] at hhi
    have hsr : Seg p (i + a.print.length) (PIPE :: b.print) := hs.right
    obtain ⟨o1, c1, h1, _, _, _, _⟩ := iha true hwf.1 p hi i o c hs.left (by omega)
    have hsp : Seg p (i + a.print.length) [PIPE] := seg_single_of_cons hsr
    have h2 := scan_pipe hi 0 o1 c1 hsp (by omega)
    simp only [if_true] at h2
    obtain ⟨o3, c3, h3, f1, _, _, _⟩ :=
      ihb true hwf.2.1 p hi (i + a.print.length + 1) (i + a.print.length) c1 hsr.tail (by omega)
    have ho3 : o3 = i + a.print.length := f1 hwf.2.2
    refine ⟨o3, c3, h1.comp (y := PIPE :: b.print) (h2.comp (x := [PIPE]) h3), ?_, ?_,
      (fun a b h => by cases h), ?_⟩
    · intro h; simp [Regex.level] at h
    · intro h; simp [Regex.level] at h
    · intro a' b' h
      cases h
      exact ho3

theorem scanLoop_mono (p : List Byte) (hi : Nat) : ∀ (fuel i d o c : Nat) (r : Nat × Nat),
    scanLoop p hi fuel i d o c = .ok r → ∀ k, scanLoop p hi (fuel + k) i d o c = .ok r := by
  intro fuel
  induction fuel with
  | zero =>
    intro i d o c r h k
    unfold scanLoop at h ⊢
    by_cases h1 : i = hi
    · simp only [h1, if_true] at h ⊢
      exact h
    · simp [h1] at h
  | succ fuel ih =>
    intro i d o c r h k
    rw [show fuel + 1 + k = (fuel + k) + 1 by omega]
    unfold scanLoop at h ⊢
    by_cases h1 : i = hi
    · simp only [h1, if_true] at h ⊢
      exact h
    · simp only [h1, if_false] at h ⊢
      cases hp : p[i]? with
      | none => rw [hp] at h; cases h
      | some ch =>
        rw [hp] at h
        simp only at h ⊢
        by_cases c1 : ch = BSLASH
        · simp only [c1, if_true] at h ⊢
          exact ih _ _ _ _ _ h k
        · simp only [c1, if_false] at h ⊢
          by_cases c2 : ch = LPAREN
          · simp only [c2, if_true] at h ⊢
            exact ih _ _ _ _ _ h k
          · simp only [c2, if_false] at h ⊢
            by_cases c3 : ch = RPAREN
            · simp only [c3, if_true] at h ⊢
              by_cases hd : d = 0
              · simp [hd] at h
              · simp only [hd, if_false] at h ⊢
                exact ih _ _ _ _ _ h k
            · simp only [c3, if_false] at h ⊢
              by_cases c4 : ch = PIPE
              · simp only [c4, if_true] at h ⊢
                exact ih _ _ _ _ _ h k
              · simp only [c4, if_false] at h ⊢
                by_cases c5 : ch = QMARK ∨ ch = STAR ∨ ch = PLUS
                · simp only [c5, if_true] at h ⊢
                  exact ih _ _ _ _ _ h k
                · simp only [c5, if_false] at h ⊢
                  exact ih _ _ _ _ _ h k

/-- The result of the scanning loop of `_from_regex` on a pattern. -/
theorem scanLoop_print (r : Regex) {lead : Bool} (hwf : r.Lax lead) (p : List Byte) (lo : Nat)
    (hs : Seg p lo r.print) (fuel : Nat) (hf : r.print.length ≤ fuel) :
    ∃ o c, scanLoop p (lo + r.print.length) fuel lo 0 lo lo = .ok (o, c) ∧
      (1 ≤ r.level → o = lo) ∧ (2 ≤ r.level → c = lo) ∧
      (∀ a b, r = .cat a b → c = lo + a.print.length) ∧
      (∀ a b, r = .alt a b → o = lo + a.print.length) := by
  obtain ⟨o, c, h, e1, e2, e3, e4⟩ :=
    scan_top r lead hwf p (lo + r.print.length) lo lo lo hs (le_refl _)
  refine ⟨o, c, ?_, e1, fun hl => (e2 hl).elim id And.right, e3, e4⟩
  obtain ⟨k, hk, e⟩ := h 0
  have hend : scanLoop p (lo + r.print.length) 0 (lo + r.print.length) 0 o c = .ok (o, c) := by
    unfold scanLoop; simp
  rw [hend] at e
  have := scanLoop_mono p _ _ _ _ _ _ _ e (fuel - (0 + k))
  rw [show 0 + k + (fuel - (0 + k)) = fuel by omega] at this
  exact this

end Dank

namespace Dank

/-! ## The branch taken by `_from_regex` on a pattern of the grammar -/

theorem Regex.print_length_one {r : Regex} (h : r.print.length = 1) : ∃ c, r = .atom c := by
  cases r with
  | atom c => exact ⟨c, rfl⟩
  | esc c => simp [Regex.print] at h
  | group r => simp [Regex.print] at h
  | opt r =>
    have := r.print_length_pos
    simp only [Regex.print, List.length_append, List.length_singleton] at h
    omega
  | star r =>
    have := r.print_length_pos
    simp only [Regex.print, List.length_append, List.length_singleton] at h
    omega
  | plus r =>
    have := r.print_length_pos
    simp only [Regex.print, List.length_append, List.length_singleton] at h
    omega
  | cat a b =>
    have := a.print_length_pos
    have := b.print_length_pos
    simp only [Regex.print, List.length_append] at h
    omega
  | alt a b =>
    have := a.print_length_pos
    simp only [Regex.print, List.length_append, List.length_cons] at h
    omega

/-- A pattern of the grammar of length 2 that starts with a backslash is an escaped byte. -/
theorem Regex.head_bslash {r : Regex} {lead : Bool} (hwf : r.Lax lead) (hl : r.print.length = 2)
    (hh : r.print.head? = some BSLASH) : ∃ c, r = .esc c := by
  have hatom : ∀ (a : Regex) (rest : List Byte), a.Lax lead → a.print.length = 1 →
      (a.print ++ rest).head? = some BSLASH → False := by
    intro a rest ha hl1 hh1
    obtain ⟨c, rfl⟩ := Regex.print_length_one hl1
    simp only [Regex.print, List.singleton_append, List.head?_cons, Option.some.injEq] at hh1
    rcases ha with hm | ⟨_, hop⟩
    · exact (isMeta_false hm).1 hh1
    · subst hh1
      rcases hop with h | h | h <;> exact absurd h (by decide)
  cases r with
  | atom c => simp [Regex.print] at hl
  | esc c => exact ⟨c, rfl⟩
  | group r =>
    simp only [Regex.print, List.head?_cons, Option.some.injEq] at hh
    exact absurd hh (by decide)
  | opt r =>
    simp only [Regex.print, List.length_append, List.length_singleton] at hl
    exact (hatom r _ hwf.1 (by omega) hh).elim
  | star r =>
    simp only [Regex.print, List.length_append, List.length_singleton] at hl
    exact (hatom r _ hwf.1 (by omega) hh).elim
  | plus r =>
    simp only [Regex.print, List.length_append, List.length_singleton] at hl
    exact (hatom r _ hwf.1 (by omega) hh).elim
  | cat a b =>
    have := a.print_length_pos
    have := b.print_length_pos
    simp only [Regex.print, List.length_append] at hl
    exact (hatom a _ hwf.1 (by omega) hh).elim
  | alt a b =>
    have := a.print_length_pos
    have := b.print_length_pos
    simp only [Regex.print, List.length_append, List.length_cons] at hl
    omega

theorem Seg.head_eq {p : List Byte} {i : Nat} {x : List Byte} (h : Seg p i x)
    (hx : 0 < x.length) : p[i]? = x.head? := by
  cases x with
  | nil => simp at hx
  | cons c x => rw [h.read]; rfl

/-- The test for an escaped byte fails on every pattern of the grammar that is not one. -/
theorem escapedAt_none {r : Regex} {lead : Bool} (hwf : r.Lax lead) (hne : ∀ c, r ≠ .esc c)
    {p : List Byte} {lo : Nat} (hs : Seg p lo r.print) :
    escapedAt p lo (lo + r.print.length) = .ok none := by
  unfold escapedAt
  by_cases h2 : lo + r.print.length = lo + 2
  · rw [if_pos h2, hs.head_eq r.print_length_pos]
    cases hh : r.print.head? with
    | none =>
      have := r.print_length_pos
      cases hp : r.print with
      | nil => rw [hp] at this; simp at this
      | cons c x => rw [hp] at hh; simp at hh
    | some ch =>
      simp only
      by_cases hb : ch = BSLASH
      · subst hb
        obtain ⟨c, hc⟩ := Regex.head_bslash hwf (by omega) hh
        exact absurd hc (hne c)
      · rw [if_neg hb]
  · rw [if_neg h2]

theorem classify_atom {c : Byte} {p : List Byte} {lo : Nat} (hs : Seg p lo (Regex.atom c).print)
    (fuel : Nat) : classify p fuel lo (lo + (Regex.atom c).print.length) = .ok (.single c) := by
  unfold classify
  simp only [Regex.print, List.length_singleton, if_true]
  rw [show p[lo]? = some c from hs.read]

theorem classify_esc {c : Byte} {p : List Byte} {lo : Nat} (hs : Seg p lo (Regex.esc c).print)
    (fuel : Nat) : classify p fuel lo (lo + (Regex.esc c).print.length) = .ok (.escaped c) := by
  unfold classify escapedAt
  have h0 : p[lo]? = some BSLASH := hs.read
  have h1 : p[lo + 1]? = some c := hs.tail.read
  simp [Regex.print, h0, h1]

/-- The branch for a pattern that is neither a single byte nor an escaped byte is decided by
the scan. -/
theorem classify_scan {r : Regex} {lead : Bool} (hwf : r.Lax lead) (hna : ∀ c, r ≠ .atom c)
    (hne : ∀ c, r ≠ .esc c) {p : List Byte} {lo : Nat} (hs : Seg p lo r.print)
    (fuel : Nat) (hf : r.print.length ≤ fuel) :
    ∃ o c, scanLoop p (lo + r.print.length) fuel lo 0 lo lo = .ok (o, c) ∧
      classify p fuel lo (lo + r.print.length) =
        (if o ≠ lo then .ok (.alt o)
         else if c ≠ lo then .ok (.cat c)
         else classifyPostfix p lo (lo + r.print.length)) ∧
      (1 ≤ r.level → o = lo) ∧ (2 ≤ r.level → c = lo) ∧
      (∀ a b, r = .cat a b → c = lo + a.print.length) ∧
      (∀ a b, r = .alt a b → o = lo + a.print.length) := by
  obtain ⟨o, c, hscan, e1, e2, e3, e4⟩ := scanLoop_print r hwf p lo hs fuel hf
  refine ⟨o, c, hscan, ?_, e1, e2, e3, e4⟩
  have hlen : ¬ lo + r.print.length = lo + 1 := by
    intro h
    obtain ⟨c, hc⟩ := Regex.print_length_one (r := r) (by omega)
    exact hna c hc
  unfold classify
  rw [if_neg hlen, escapedAt_none hwf hne hs, hscan]

theorem classify_alt {a b : Regex} {lead : Bool}
    (hwf : (Regex.alt a b).Lax lead) {p : List Byte} {lo : Nat}
    (hs : Seg p lo (Regex.alt a b).print) (fuel : Nat)
    (hf : (Regex.alt a b).print.length ≤ fuel) :
    classify p fuel lo (lo + (Regex.alt a b).print.length) = .ok (.alt (lo + a.print.length)) := by
  obtain ⟨o, c, _, hc, _, _, _, e4⟩ := classify_scan hwf (fun c h => by cases h)
    (fun c h => by cases h) hs fuel hf
  have ho := e4 a b rfl
  have := a.print_length_pos
  rw [hc, if_pos (by omega), ho]

theorem classify_cat {a b : Regex} {lead : Bool}
    (hwf : (Regex.cat a b).Lax lead) {p : List Byte} {lo : Nat}
    (hs : Seg p lo (Regex.cat a b).print) (fuel : Nat)
    (hf : (Regex.cat a b).print.length ≤ fuel) :
    classify p fuel lo (lo + (Regex.cat a b).print.length) = .ok (.cat (lo + a.print.length)) := by
  obtain ⟨o, c, _, hc, e1, _, e3, _⟩ := classify_scan hwf (fun c h => by cases h)
    (fun c h => by cases h) hs fuel hf
  have ho := e1 (by simp [Regex.level])
  have hcc := e3 a b rfl
  have := a.print_length_pos
  rw [hc, if_neg (by simp [ho]), if_pos (by omega), hcc]

theorem classifyPostfix_last {p : List Byte} {lo : Nat} {x : List Byte} {op : Byte}
    (hs : Seg p lo (x ++ [op])) :
    (if lo + (x ++ [op]).length = 0 then none else p[lo + (x ++ [op]).length - 1]?) = some op := by
  rw [if_neg (by simp)]
  have : lo + (x ++ [op]).length - 1 = lo + x.length := by
    simp only [List.length_append, List.length_singleton]; omega
  rw [this]
  exact hs.last

theorem classify_operator {r : Regex} {q : Regex}
    (hq : q = .opt r ∨ q = .star r ∨ q = .plus r) {lead : Bool} (hwf : q.Lax lead)
    {p : List Byte} {lo : Nat} (hs : Seg p lo q.print) (fuel : Nat)
    (hf : q.print.length ≤ fuel) :
    classify p fuel lo (lo + q.print.length) = classifyPostfix p lo (lo + q.print.length) := by
  have hna : ∀ c, q ≠ .atom c := by
    intro c h; rcases hq with rfl | rfl | rfl <;> cases h
  have hne : ∀ c, q ≠ .esc c := by
    intro c h; rcases hq with rfl | rfl | rfl <;> cases h
  obtain ⟨o, c, _, hc, e1, e2, _, _⟩ := classify_scan hwf hna hne hs fuel hf
  have hl : 2 ≤ q.level := by rcases hq with rfl | rfl | rfl <;> simp [Regex.level]
  have ho := e1 (by omega)
  have hcc := e2 hl
  rw [hc, if_neg (by simp [ho]), if_neg (by simp [hcc])]

theorem classify_opt {r : Regex} {lead : Bool}
    (hwf : (Regex.opt r).Lax lead) {p : List Byte} {lo : Nat}
    (hs : Seg p lo (Regex.opt r).print) (fuel : Nat) (hf : (Regex.opt r).print.length ≤ fuel) :
    classify p fuel lo (lo + (Regex.opt r).print.length) = .ok .opt := by
  rw [classify_operator (Or.inl rfl) hwf hs fuel hf]
  unfold classifyPostfix
  simp only [Regex.print] at hs ⊢
  rw [classifyPostfix_last hs]
  simp

theorem classify_star {r : Regex} {lead : Bool}
    (hwf : (Regex.star r).Lax lead) {p : List Byte} {lo : Nat}
    (hs : Seg p lo (Regex.star r).print) (fuel : Nat)
    (hf : (Regex.star r).print.length ≤ fuel) :
    classify p fuel lo (lo + (Regex.star r).print.length) = .ok .star := by
  rw [classify_operator (Or.inr (Or.inl rfl)) hwf hs fuel hf]
  unfold classifyPostfix
  simp only [Regex.print] at hs ⊢
  rw [classifyPostfix_last hs]
  simp [show STAR ≠ QMARK by decide]

theorem classify_plus {r : Regex} {lead : Bool}
    (hwf : (Regex.plus r).Lax lead) {p : List Byte} {lo : Nat}
    (hs : Seg p lo (Regex.plus r).print) (fuel : Nat)
    (hf : (Regex.plus r).print.length ≤ fuel) :
    classify p fuel lo (lo + (Regex.plus r).print.length) = .ok .plus := by
  rw [classify_operator (Or.inr (Or.inr rfl)) hwf hs fuel hf]
  unfold classifyPostfix
  simp only [Regex.print] at hs ⊢
  rw [classifyPostfix_last hs]
  simp [show PLUS ≠ QMARK by decide, show PLUS ≠ STAR by decide]

theorem classify_group {r : Regex} {lead : Bool}
    (hwf : (Regex.group r).Lax lead) {p : List Byte} {lo : Nat}
    (hs : Seg p lo (Regex.group r).print) (fuel : Nat)
    (hf : (Regex.group r).print.length ≤ fuel) :
    classify p fuel lo (lo + (Regex.group r).print.length) = .ok .paren := by
  obtain ⟨o, c, _, hc, e1, e2, _, _⟩ := classify_scan hwf (fun c h => by cases h)
    (fun c h => by cases h) hs fuel hf
  have ho := e1 (by simp [Regex.level])
  have hcc := e2 (by simp [Regex.level])
  rw [hc, if_neg (by simp [ho]), if_neg (by simp [hcc])]
  unfold classifyPostfix
  have hfirst : p[lo]? = some LPAREN := hs.read
  have hs' : Seg p lo ((LPAREN :: r.print) ++ [RPAREN]) := by
    simpa [Regex.print] using hs
  have hlast := classifyPostfix_last hs'
  have hlen : (Regex.group r).print.length = ((LPAREN :: r.print) ++ [RPAREN]).length := by
    simp [Regex.print]
  rw [hlen, hlast, hfirst]
  simp [show RPAREN ≠ QMARK by decide, show RPAREN ≠ STAR by decide,
    show RPAREN ≠ PLUS by decide]

end Dank

namespace Dank

/-! ## Thompson construction: paths -/

theorem NFA.pathN_of_path {N : NFA} {u f : Nat} {w : List Byte} (h : N.Path u w f) :
    ∃ n, N.PathN n u w f := by
  induction h with
  | nil u => exact ⟨0, NFA.PathN.nil u⟩
  | eps hv _ ih => obtain ⟨n, hn⟩ := ih; exact ⟨n + 1, NFA.PathN.eps hv hn⟩
  | sym hc hv _ ih => obtain ⟨n, hn⟩ := ih; exact ⟨n + 1, NFA.PathN.sym hc hv hn⟩

theorem NFA.path_of_pathN {N : NFA} {n u f : Nat} {w : List Byte} (h : N.PathN n u w f) :
    N.Path u w f := by
  induction h with
  | nil u => exact NFA.Path.nil u
  | eps hv _ ih => exact NFA.Path.eps hv ih
  | sym hc hv _ ih => exact NFA.Path.sym hc hv ih

theorem NFA.Path.append {N : NFA} {u v f : Nat} {x y : List Byte} (h1 : N.Path u x v)
    (h2 : N.Path v y f) : N.Path u (x ++ y) f := by
  induction h1 with
  | nil u => exact h2
  | eps hv _ ih => exact NFA.Path.eps hv (ih h2)
  | sym hc hv _ ih => exact NFA.Path.sym hc hv (ih h2)

theorem NFA.Path.lift {N N1 : NFA} (hm : ∀ u c v, v ∈ N.succ u c → v ∈ N1.succ u c)
    {u f : Nat} {x : List Byte} (h : N.Path u x f) : N1.Path u x f := by
  induction h with
  | nil u => exact NFA.Path.nil u
  | eps hv _ ih => exact NFA.Path.eps (hm _ _ _ hv) ih
  | sym hc hv _ ih => exact NFA.Path.sym hc (hm _ _ _ hv) ih

theorem NFA.Path.eps_step {N : NFA} {u v : Nat} (h : v ∈ N.succ u 0) : N.Path u [] v :=
  NFA.Path.eps h (NFA.Path.nil v)

/-- The first transition of a path that does not end where it starts. -/
theorem NFA.PathN.first {N : NFA} {n u f : Nat} {w : List Byte} (h : N.PathN n u w f)
    (hne : f ≠ u) :
    ∃ m, n = m + 1 ∧
      ((∃ v, v ∈ N.succ u 0 ∧ N.PathN m v w f) ∨
       (∃ c v x, c ≠ 0 ∧ v ∈ N.succ u c ∧ w = c :: x ∧ N.PathN m v x f)) := by
  cases h with
  | nil u => exact absurd rfl hne
  | eps hv hp => exact ⟨_, rfl, Or.inl ⟨_, hv, hp⟩⟩
  | sym hc hv hp => exact ⟨_, rfl, Or.inr ⟨_, _, _, hc, hv, rfl, hp⟩⟩

/-- A path from a state without transitions is empty. -/
theorem NFA.PathN.of_no_succ {N : NFA} {n u f : Nat} {w : List Byte} (h : N.PathN n u w f)
    (hs : ∀ c, N.succ u c = []) : w = [] ∧ f = u := by
  cases h with
  | nil u => exact ⟨rfl, rfl⟩
  | eps hv _ => rw [hs] at hv; cases hv
  | sym _ hv _ => rw [hs] at hv; cases hv

theorem NFA.succ_of_ge {N : NFA} {u : Nat} (hu : N.pool.length ≤ u) (c : Byte) :
    N.succ u c = [] := by
  simp [NFA.succ, List.getElem?_eq_none hu]

/-- Transitions are only ever added by a fragment whose entry had none. -/
theorem Frag.edges_mono {L : Language Byte} {N N1 : NFA} {s t : Nat} (h : Frag L N N1 s t)
    (hs : ∀ c, N.succ s c = []) : ∀ u c v, v ∈ N.succ u c → v ∈ N1.succ u c := by
  intro u c v hv
  by_cases hu : u < N.pool.length
  · by_cases hus : u = s
    · subst hus; rw [hs] at hv; cases hv
    · exact (h.frame u hu hus c v).2 hv
  · rw [NFA.succ_of_ge (by omega)] at hv; cases hv

theorem wired_push2 {N : NFA} (hg : N.Good) : Wired N N.push2 (fun _ _ _ => False) :=
  { grow := NFA.push2_grow hg
    len := N.push2_pool_length
    edges := by intro u c v; rw [NFA.push2_succ]; simp }

theorem Wired.insert {N N1 : NFA} {E : Nat → Byte → Nat → Prop} (h : Wired N N1 E)
    (a : Nat) (c : Byte) (b : Nat) (ha : a < N1.pool.length) (hb : b < N1.pool.length) :
    ∃ N2, N1.insert a c b = .ok N2 ∧
      Wired N N2 (fun u c' v => E u c' v ∨ (u = a ∧ c' = c ∧ v = b)) := by
  obtain ⟨N2, h2, _⟩ := NFA.insert_spec c b ha h.grow.good.wf
  obtain ⟨g, l, e⟩ := NFA.insert_grow h.grow.good hb h2
  refine ⟨N2, h2, ?_⟩
  exact
    { grow := h.grow.trans g
      len := by rw [l, h.len]
      edges := by
        intro u c' v
        rw [e, h.edges]
        tauto }

/-- The base cases: a single transition labelled with a byte other than 0. -/
theorem frag_single {N N1 : NFA} {s t : Nat} {c : Byte} (hpre : Pre N s t) (hc : c ≠ 0)
    (h : N.insert s c t = .ok N1) : Frag {[c]} N N1 s t := by
  obtain ⟨g, l, e⟩ := NFA.insert_grow hpre.good hpre.ht h
  refine
    { grow := g
      frame := ?_
      sound := ?_
      complete := ?_ }
  · intro u _ hus c' v
    rw [e]
    simp [hus]
  · intro x hx
    have : x = [c] := hx
    subst this
    exact NFA.Path.sym hc ((e s c t).2 (Or.inr ⟨rfl, rfl, rfl⟩)) (NFA.Path.nil t)
  · intro G hG n w f hp hf
    have hfs : f ≠ s := fun h => hf (Or.inl h)
    obtain ⟨m, rfl, hh⟩ := hp.first hfs
    have hsucc : ∀ c' v, v ∈ G.succ s c' ↔ (c' = c ∧ v = t) := by
      intro c' v
      rw [hG s (Or.inl rfl), e, hpre.fresh]
      simp
    rcases hh with ⟨v, hv, hp'⟩ | ⟨c', v, x, hc', hv, rfl, hp'⟩
    · exact absurd ((hsucc 0 v).1 hv).1.symm hc
    · obtain ⟨rfl, rfl⟩ := (hsucc c' v).1 hv
      exact ⟨[c'], x, m, rfl, rfl, hp', by omega⟩

/-- A single transition labelled 0 is an ε-move: the fragment of the empty word. -/
theorem frag_eps {N N1 : NFA} {s t : Nat} (hpre : Pre N s t)
    (h : N.insert s 0 t = .ok N1) : Frag 1 N N1 s t := by
  obtain ⟨g, l, e⟩ := NFA.insert_grow hpre.good hpre.ht h
  refine
    { grow := g
      frame := ?_
      sound := ?_
      complete := ?_ }
  · intro u _ hus c' v
    rw [e]
    simp [hus]
  · intro x hx
    rw [Language.mem_one] at hx
    subst hx
    exact NFA.Path.eps_step ((e s 0 t).2 (Or.inr ⟨rfl, rfl, rfl⟩))
  · intro G hG n w f hp hf
    have hfs : f ≠ s := fun h => hf (Or.inl h)
    obtain ⟨m, rfl, hh⟩ := hp.first hfs
    have hsucc : ∀ c' v, v ∈ G.succ s c' ↔ (c' = 0 ∧ v = t) := by
      intro c' v
      rw [hG s (Or.inl rfl), e, hpre.fresh]
      simp
    rcases hh with ⟨v, hv, hp'⟩ | ⟨c', v, x, hc', hv, rfl, hp'⟩
    · obtain ⟨_, rfl⟩ := (hsucc 0 v).1 hv
      exact ⟨[], w, m, rfl, (Language.mem_one _).2 rfl, hp', by omega⟩
    · exact absurd ((hsucc c' v).1 hv).1 hc'

end Dank

namespace Dank

/-! ## Thompson construction: the fragments -/

theorem NFA.not_mem_succ_of_ge {N : NFA} {u : Nat} (hu : N.pool.length ≤ u) (c : Byte)
    (v : Nat) : ¬ v ∈ N.succ u c := by
  rw [NFA.succ_of_ge hu]; exact List.not_mem_nil v

theorem NFA.succ_eq_nil {N : NFA} {u : Nat} {c : Byte} (h : ∀ v, ¬ v ∈ N.succ u c) :
    N.succ u c = [] :=
  List.eq_nil_iff_forall_not_mem.2 h

theorem Wired.of_iff {N N1 : NFA} {E E1 : Nat → Byte → Nat → Prop} (h : Wired N N1 E)
    (he : ∀ u c v, E u c v ↔ E1 u c v) : Wired N N1 E1 :=
  { grow := h.grow
    len := h.len
    edges := by intro u c v; rw [h.edges, he] }

theorem NFA.Inner.iff {N N1 : NFA} {s u : Nat} :
    N.Inner N1 s u ↔ (u = s ∨ (N.pool.length ≤ u ∧ u < N1.pool.length)) := Iff.rfl

/-- Concatenation: `s -L1-> i0 -ε-> i1 -L2-> t`. -/
theorem frag_cat {L1 L2 : Language Byte} {N N1 N2 N3 : NFA} {s t : Nat} (hpre : Pre N s t)
    (hw : Wired N N1 (fun u c v => u = N.pool.length ∧ c = 0 ∧ v = N.pool.length + 1))
    (h1 : Frag L1 N1 N2 s N.pool.length)
    (h2 : Frag L2 N2 N3 (N.pool.length + 1) t) : Frag (L1 * L2) N N3 s t := by
  have hs := hpre.hs
  have ht := hpre.ht
  have hne := hpre.hne
  have l1 := hw.len
  have l2 := h1.grow.len
  have l3 := h2.grow.len
  have e1 : ∀ u c v, v ∈ N1.succ u c ↔
      (v ∈ N.succ u c ∨ (u = N.pool.length ∧ c = 0 ∧ v = N.pool.length + 1)) := hw.edges
  have fresh1 : ∀ c, N1.succ s c = [] := by
    intro c; apply NFA.succ_eq_nil; intro v hv
    rcases (e1 s c v).1 hv with h | ⟨h, _⟩
    · rw [hpre.fresh] at h; cases h
    · omega
  have fresh2 : ∀ c, N2.succ (N.pool.length + 1) c = [] := by
    intro c; apply NFA.succ_eq_nil; intro v hv
    have := (h1.frame _ (by omega) (by omega) c v).1 hv
    rcases (e1 _ c v).1 this with h | ⟨h, _⟩
    · exact NFA.not_mem_succ_of_ge (by omega) _ _ h
    · omega
  have m1 := h1.edges_mono fresh1
  have m2 := h2.edges_mono fresh2
  refine
    { grow := hw.grow.trans (h1.grow.trans h2.grow)
      frame := ?_
      sound := ?_
      complete := ?_ }
  · intro u hu hus c v
    rw [h2.frame u (by omega) (by omega), h1.frame u (by omega) hus, e1]
    constructor
    · rintro (h | ⟨h, _⟩)
      · exact h
      · omega
    · exact Or.inl
  · intro x hx
    obtain ⟨a, ha, b, hb, rfl⟩ := Language.mem_mul.1 hx
    have p1 : N3.Path s a N.pool.length := (h1.sound a ha).lift m2
    have p2 : N3.Path N.pool.length [] (N.pool.length + 1) :=
      NFA.Path.eps_step (m2 _ _ _ (m1 _ _ _ ((e1 _ _ _).2 (Or.inr ⟨rfl, rfl, rfl⟩))))
    have p3 := h2.sound b hb
    exact p1.append (p2.append p3)
  · intro G hG n w f hp hf
    rw [NFA.Inner.iff] at hf
    have hG1 : ∀ u, N1.Inner N2 s u → ∀ c v, v ∈ G.succ u c ↔ v ∈ N2.succ u c := by
      intro u hu c v
      rw [NFA.Inner.iff] at hu
      rw [hG u (NFA.Inner.iff.2 (by omega))]
      exact h2.frame u (by omega) (by omega) c v
    obtain ⟨x, y, m, rfl, hx, hp1, hm⟩ := h1.complete G hG1 n w f hp
      (by rw [NFA.Inner.iff]; omega)
    have hmid : ∀ c v, v ∈ G.succ N.pool.length c ↔ (c = 0 ∧ v = N.pool.length + 1) := by
      intro c v
      rw [hG _ (NFA.Inner.iff.2 (by omega)), h2.frame _ (by omega) (by omega),
        h1.frame _ (by omega) (by omega), e1]
      constructor
      · rintro (h | ⟨_, h⟩)
        · exact absurd h (NFA.not_mem_succ_of_ge (le_refl _) _ _)
        · exact h
      · exact fun h => Or.inr ⟨rfl, h⟩
    obtain ⟨k, rfl, hh⟩ := hp1.first (by omega)
    have hp2 : G.PathN k (N.pool.length + 1) y f := by
      rcases hh with ⟨v, hv, hp'⟩ | ⟨c, v, z, hc, hv, _, _⟩
      · obtain ⟨_, rfl⟩ := (hmid 0 v).1 hv
        exact hp'
      · exact absurd ((hmid c v).1 hv).1 hc
    have hG2 : ∀ u, N2.Inner N3 (N.pool.length + 1) u →
        ∀ c v, v ∈ G.succ u c ↔ v ∈ N3.succ u c := by
      intro u hu c v
      rw [NFA.Inner.iff] at hu
      exact hG u (NFA.Inner.iff.2 (by omega)) c v
    obtain ⟨x2, y2, m2, rfl, hx2, hp3, hm2⟩ := h2.complete G hG2 k y f hp2
      (by rw [NFA.Inner.iff]; omega)
    exact ⟨x ++ x2, y2, m2, by simp, Language.mem_mul.2 ⟨x, hx, x2, hx2, rfl⟩, hp3, by omega⟩

/-- Option: `s -ε-> i0 -L-> i1 -ε-> t` and `s -ε-> t`. -/
theorem frag_opt {L : Language Byte} {N N1 N2 : NFA} {s t : Nat} (hpre : Pre N s t)
    (hw : Wired N N1 (fun u c v => c = 0 ∧ ((u = s ∧ v = N.pool.length) ∨ (u = s ∧ v = t) ∨
      (u = N.pool.length + 1 ∧ v = t))))
    (h1 : Frag L N1 N2 N.pool.length (N.pool.length + 1)) : Frag (L + 1) N N2 s t := by
  have hs := hpre.hs
  have ht := hpre.ht
  have hne := hpre.hne
  have l1 := hw.len
  have l2 := h1.grow.len
  have e1 := hw.edges
  have fresh1 : ∀ c, N1.succ N.pool.length c = [] := by
    intro c; apply NFA.succ_eq_nil; intro v hv
    rcases (e1 _ c v).1 hv with h | ⟨_, h⟩
    · exact NFA.not_mem_succ_of_ge (le_refl _) _ _ h
    · omega
  have m1 := h1.edges_mono fresh1
  refine
    { grow := hw.grow.trans h1.grow
      frame := ?_
      sound := ?_
      complete := ?_ }
  · intro u hu hus c v
    rw [h1.frame u (by omega) (by omega), e1]
    constructor
    · rintro (h | ⟨_, h⟩)
      · exact h
      · omega
    · exact Or.inl
  · intro x hx
    rcases Language.mem_add _ _ _ |>.1 hx with hx | hx
    · have p1 : N2.Path s [] N.pool.length :=
        NFA.Path.eps_step (m1 _ _ _ ((e1 _ _ _).2 (Or.inr ⟨rfl, Or.inl ⟨rfl, rfl⟩⟩)))
      have p2 := h1.sound x hx
      have p3 : N2.Path (N.pool.length + 1) [] t :=
        NFA.Path.eps_step (m1 _ _ _ ((e1 _ _ _).2 (Or.inr ⟨rfl, Or.inr (Or.inr ⟨rfl, rfl⟩)⟩)))
      have := p1.append (p2.append p3)
      simpa using this
    · rw [Language.mem_one] at hx
      subst hx
      exact NFA.Path.eps_step (m1 _ _ _ ((e1 _ _ _).2 (Or.inr ⟨rfl, Or.inr (Or.inl ⟨rfl, rfl⟩)⟩)))
  · intro G hG n w f hp hf
    rw [NFA.Inner.iff] at hf
    have hS : ∀ c v, v ∈ G.succ s c ↔ (c = 0 ∧ (v = N.pool.length ∨ v = t)) := by
      intro c v
      rw [hG _ (NFA.Inner.iff.2 (Or.inl rfl)), h1.frame _ (by omega) (by omega), e1,
        hpre.fresh]
      constructor
      · rintro (h | ⟨h0, h⟩)
        · cases h
        · refine ⟨h0, ?_⟩; omega
      · rintro ⟨h0, h⟩
        refine Or.inr ⟨h0, ?_⟩; omega
    have hT : ∀ c v, v ∈ G.succ (N.pool.length + 1) c ↔ (c = 0 ∧ v = t) := by
      intro c v
      rw [hG _ (NFA.Inner.iff.2 (by omega)), h1.frame _ (by omega) (by omega), e1]
      constructor
      · rintro (h | ⟨h0, h⟩)
        · exact absurd h (NFA.not_mem_succ_of_ge (by omega) _ _)
        · refine ⟨h0, ?_⟩; omega
      · rintro ⟨h0, h⟩
        refine Or.inr ⟨h0, ?_⟩; omega
    have hG1 : ∀ u, N1.Inner N2 N.pool.length u → ∀ c v, v ∈ G.succ u c ↔ v ∈ N2.succ u c := by
      intro u hu c v
      rw [NFA.Inner.iff] at hu
      exact hG u (NFA.Inner.iff.2 (by omega)) c v
    obtain ⟨k, rfl, hh⟩ := hp.first (by omega)
    have hp1 : G.PathN k N.pool.length w f ∨ G.PathN k t w f := by
      rcases hh with ⟨v, hv, hp'⟩ | ⟨c, v, z, hc, hv, _, _⟩
      · rcases ((hS 0 v).1 hv).2 with rfl | rfl
        · exact Or.inl hp'
        · exact Or.inr hp'
      · exact absurd ((hS c v).1 hv).1 hc
    rcases hp1 with hp1 | hp1
    · obtain ⟨x, y, m, rfl, hx, hp2, hm⟩ := h1.complete G hG1 k w f hp1
        (by rw [NFA.Inner.iff]; omega)
      obtain ⟨j, rfl, hh⟩ := hp2.first (by omega)
      have hp3 : G.PathN j t y f := by
        rcases hh with ⟨v, hv, hp'⟩ | ⟨c, v, z, hc, hv, _, _⟩
        · obtain ⟨_, rfl⟩ := (hT 0 v).1 hv
          exact hp'
        · exact absurd ((hT c v).1 hv).1 hc
      exact ⟨x, y, j, rfl, (Language.mem_add _ _ _).2 (Or.inl hx), hp3, by omega⟩
    · exact ⟨[], w, k, rfl, (Language.mem_add _ _ _).2 (Or.inr (Language.mem_one _ |>.2 rfl)),
        hp1, by omega⟩

/-- Star: `s -ε-> i0 -L-> i1 -ε-> t`, `s -ε-> t` and `i1 -ε-> i0`. -/
theorem frag_star {L : Language Byte} {N N1 N2 : NFA} {s t : Nat} (hpre : Pre N s t)
    (hw : Wired N N1 (fun u c v => c = 0 ∧ ((u = s ∧ v = N.pool.length) ∨ (u = s ∧ v = t) ∨
      (u = N.pool.length + 1 ∧ v = N.pool.length) ∨ (u = N.pool.length + 1 ∧ v = t))))
    (h1 : Frag L N1 N2 N.pool.length (N.pool.length + 1)) :
    Frag (KStar.kstar L) N N2 s t := by
  have hs := hpre.hs
  have ht := hpre.ht
  have hne := hpre.hne
  have l1 := hw.len
  have l2 := h1.grow.len
  have e1 := hw.edges
  have fresh1 : ∀ c, N1.succ N.pool.length c = [] := by
    intro c; apply NFA.succ_eq_nil; intro v hv
    rcases (e1 _ c v).1 hv with h | ⟨_, h⟩
    · exact NFA.not_mem_succ_of_ge (le_refl _) _ _ h
    · omega
  have m1 := h1.edges_mono fresh1
  refine
    { grow := hw.grow.trans h1.grow
      frame := ?_
      sound := ?_
      complete := ?_ }
  · intro u hu hus c v
    rw [h1.frame u (by omega) (by omega), e1]
    constructor
    · rintro (h | ⟨_, h⟩)
      · exact h
      · omega
    · exact Or.inl
  · intro x hx
    obtain ⟨Ls, rfl, hLs⟩ := Language.mem_kstar.1 hx
    have pST : N2.Path s [] t :=
      NFA.Path.eps_step (m1 _ _ _ ((e1 _ _ _).2 (Or.inr ⟨rfl, Or.inr (Or.inl ⟨rfl, rfl⟩)⟩)))
    have pS0 : N2.Path s [] N.pool.length :=
      NFA.Path.eps_step (m1 _ _ _ ((e1 _ _ _).2 (Or.inr ⟨rfl, Or.inl ⟨rfl, rfl⟩⟩)))
    have p10 : N2.Path (N.pool.length + 1) [] N.pool.length :=
      NFA.Path.eps_step (m1 _ _ _ ((e1 _ _ _).2
        (Or.inr ⟨rfl, Or.inr (Or.inr (Or.inl ⟨rfl, rfl⟩))⟩)))
    have p1T : N2.Path (N.pool.length + 1) [] t :=
      NFA.Path.eps_step (m1 _ _ _ ((e1 _ _ _).2
        (Or.inr ⟨rfl, Or.inr (Or.inr (Or.inr ⟨rfl, rfl⟩))⟩)))
    have loop : ∀ Ms : List (List Byte), (∀ y ∈ Ms, y ∈ L) →
        N2.Path (N.pool.length + 1) Ms.flatten t := by
      intro Ms
      induction Ms with
      | nil => intro _; exact p1T
      | cons y Ms ih =>
        intro hM
        have q := h1.sound y (hM y (List.mem_cons_self _ _))
        have := p10.append (q.append (ih (fun z hz => hM z (List.mem_cons_of_mem _ hz))))
        simpa using this
    cases Ls with
    | nil => exact pST
    | cons y Ms =>
      have q := h1.sound y (hLs y (List.mem_cons_self _ _))
      have := pS0.append (q.append (loop Ms (fun z hz => hLs z (List.mem_cons_of_mem _ hz))))
      simpa using this
  · intro G hG n w f hp hf
    rw [NFA.Inner.iff] at hf
    have hS : ∀ c v, v ∈ G.succ s c ↔ (c = 0 ∧ (v = N.pool.length ∨ v = t)) := by
      intro c v
      rw [hG _ (NFA.Inner.iff.2 (Or.inl rfl)), h1.frame _ (by omega) (by omega), e1,
        hpre.fresh]
      constructor
      · rintro (h | ⟨h0, h⟩)
        · cases h
        · refine ⟨h0, ?_⟩; omega
      · rintro ⟨h0, h⟩
        refine Or.inr ⟨h0, ?_⟩; omega
    have hT : ∀ c v, v ∈ G.succ (N.pool.length + 1) c ↔
        (c = 0 ∧ (v = N.pool.length ∨ v = t)) := by
      intro c v
      rw [hG _ (NFA.Inner.iff.2 (by omega)), h1.frame _ (by omega) (by omega), e1]
      constructor
      · rintro (h | ⟨h0, h⟩)
        · exact absurd h (NFA.not_mem_succ_of_ge (by omega) _ _)
        · refine ⟨h0, ?_⟩; omega
      · rintro ⟨h0, h⟩
        refine Or.inr ⟨h0, ?_⟩; omega
    have hG1 : ∀ u, N1.Inner N2 N.pool.length u → ∀ c v, v ∈ G.succ u c ↔ v ∈ N2.succ u c := by
      intro u hu c v
      rw [NFA.Inner.iff] at hu
      exact hG u (NFA.Inner.iff.2 (by omega)) c v
    have loop : ∀ k, ∀ j, j ≤ k → ∀ w, G.PathN j N.pool.length w f →
        ∃ x y m, w = x ++ y ∧ x ∈ KStar.kstar L ∧ G.PathN m t y f ∧ m < j := by
      intro k
      induction k with
      | zero =>
        intro j hj w hp0
        obtain ⟨i, rfl, _⟩ := hp0.first (by omega)
        omega
      | succ k ih =>
        intro j hj w hp0
        obtain ⟨x, y, m, rfl, hx, hp2, hm⟩ := h1.complete G hG1 j w f hp0
          (by rw [NFA.Inner.iff]; omega)
        obtain ⟨i, rfl, hh⟩ := hp2.first (by omega)
        have hp3 : G.PathN i N.pool.length y f ∨ G.PathN i t y f := by
          rcases hh with ⟨v, hv, hp'⟩ | ⟨c, v, z, hc, hv, _, _⟩
          · rcases ((hT 0 v).1 hv).2 with rfl | rfl
            · exact Or.inl hp'
            · exact Or.inr hp'
          · exact absurd ((hT c v).1 hv).1 hc
        rcases hp3 with hp3 | hp3
        · obtain ⟨x2, y2, m2, rfl, hx2, hp4, hm2⟩ := ih i (by omega) y hp3
          obtain ⟨Ls, rfl, hLs⟩ := Language.mem_kstar.1 hx2
          refine ⟨x ++ Ls.flatten, y2, m2, by simp, ?_, hp4, by omega⟩
          refine Language.mem_kstar.2 ⟨x :: Ls, by simp, ?_⟩
          intro z hz
          rcases List.mem_cons.1 hz with rfl | hz
          · exact hx
          · exact hLs z hz
        · refine ⟨x, y, i, rfl, ?_, hp3, by omega⟩
          exact Language.mem_kstar.2 ⟨[x], by simp, by simpa using hx⟩
    obtain ⟨k, rfl, hh⟩ := hp.first (by omega)
    have hp1 : G.PathN k N.pool.length w f ∨ G.PathN k t w f := by
      rcases hh with ⟨v, hv, hp'⟩ | ⟨c, v, z, hc, hv, _, _⟩
      · rcases ((hS 0 v).1 hv).2 with rfl | rfl
        · exact Or.inl hp'
        · exact Or.inr hp'
      · exact absurd ((hS c v).1 hv).1 hc
    rcases hp1 with hp1 | hp1
    · obtain ⟨x, y, m, rfl, hx, hp2, hm⟩ := loop k k (le_refl _) w hp1
      exact ⟨x, y, m, rfl, hx, hp2, by omega⟩
    · exact ⟨[], w, k, rfl, Language.nil_mem_kstar _, hp1, by omega⟩

/-- Alternation: `s -ε-> i0 -L1-> i1 -ε-> t` and `s -ε-> j0 -L2-> j1 -ε-> t`. -/
theorem frag_alt {L1 L2 : Language Byte} {N N1 N2 N3 N4 : NFA} {s t : Nat} (hpre : Pre N s t)
    (hw : Wired N N1 (fun u c v => c = 0 ∧ ((u = s ∧ v = N.pool.length) ∨
      (u = N.pool.length + 1 ∧ v = t))))
    (h1 : Frag L1 N1 N2 N.pool.length (N.pool.length + 1))
    (hw2 : Wired N2 N3 (fun u c v => c = 0 ∧ ((u = s ∧ v = N2.pool.length) ∨
      (u = N2.pool.length + 1 ∧ v = t))))
    (h2 : Frag L2 N3 N4 N2.pool.length (N2.pool.length + 1)) : Frag (L1 + L2) N N4 s t := by
  have hs := hpre.hs
  have ht := hpre.ht
  have hne := hpre.hne
  have l1 := hw.len
  have l2 := h1.grow.len
  have l3 := hw2.len
  have l4 := h2.grow.len
  have e1 := hw.edges
  have e3 := hw2.edges
  have fresh1 : ∀ c, N1.succ N.pool.length c = [] := by
    intro c; apply NFA.succ_eq_nil; intro v hv
    rcases (e1 _ c v).1 hv with h | ⟨_, h⟩
    · exact NFA.not_mem_succ_of_ge (le_refl _) _ _ h
    · omega
  have fresh3 : ∀ c, N3.succ N2.pool.length c = [] := by
    intro c; apply NFA.succ_eq_nil; intro v hv
    rcases (e3 _ c v).1 hv with h | ⟨_, h⟩
    · exact NFA.not_mem_succ_of_ge (le_refl _) _ _ h
    · omega
  have m1 := h1.edges_mono fresh1
  have m2 : ∀ u c v, v ∈ N2.succ u c → v ∈ N3.succ u c := fun u c v h => (e3 u c v).2 (Or.inl h)
  have m3 := h2.edges_mono fresh3
  refine
    { grow := hw.grow.trans (h1.grow.trans (hw2.grow.trans h2.grow))
      frame := ?_
      sound := ?_
      complete := ?_ }
  · intro u hu hus c v
    rw [h2.frame u (by omega) (by omega), e3, h1.frame u (by omega) (by omega), e1]
    constructor
    · rintro ((h | ⟨_, h⟩) | ⟨_, h⟩)
      · exact h
      · omega
      · omega
    · exact fun h => Or.inl (Or.inl h)
  · intro x hx
    rcases Language.mem_add _ _ _ |>.1 hx with hx | hx
    · have p1 : N4.Path s [] N.pool.length :=
        NFA.Path.eps_step (m3 _ _ _ (m2 _ _ _ (m1 _ _ _
          ((e1 _ _ _).2 (Or.inr ⟨rfl, Or.inl ⟨rfl, rfl⟩⟩)))))
      have p2 : N4.Path N.pool.length x (N.pool.length + 1) :=
        ((h1.sound x hx).lift m2).lift m3
      have p3 : N4.Path (N.pool.length + 1) [] t :=
        NFA.Path.eps_step (m3 _ _ _ (m2 _ _ _ (m1 _ _ _
          ((e1 _ _ _).2 (Or.inr ⟨rfl, Or.inr ⟨rfl, rfl⟩⟩)))))
      have := p1.append (p2.append p3)
      simpa using this
    · have p1 : N4.Path s [] N2.pool.length :=
        NFA.Path.eps_step (m3 _ _ _ ((e3 _ _ _).2 (Or.inr ⟨rfl, Or.inl ⟨rfl, rfl⟩⟩)))
      have p2 := h2.sound x hx
      have p3 : N4.Path (N2.pool.length + 1) [] t :=
        NFA.Path.eps_step (m3 _ _ _ ((e3 _ _ _).2 (Or.inr ⟨rfl, Or.inr ⟨rfl, rfl⟩⟩)))
      have := p1.append (p2.append p3)
      simpa using this
  · intro G hG n w f hp hf
    rw [NFA.Inner.iff] at hf
    have hS : ∀ c v, v ∈ G.succ s c ↔ (c = 0 ∧ (v = N.pool.length ∨ v = N2.pool.length)) := by
      intro c v
      rw [hG _ (NFA.Inner.iff.2 (Or.inl rfl)), h2.frame _ (by omega) (by omega), e3,
        h1.frame _ (by omega) (by omega), e1, hpre.fresh]
      constructor
      · rintro ((h | ⟨h0, h⟩) | ⟨h0, h⟩)
        · cases h
        · refine ⟨h0, ?_⟩; omega
        · refine ⟨h0, ?_⟩; omega
      · rintro ⟨h0, h | h⟩
        · exact Or.inl (Or.inr ⟨h0, Or.inl ⟨rfl, h⟩⟩)
        · exact Or.inr ⟨h0, Or.inl ⟨rfl, h⟩⟩
    have hT1 : ∀ c v, v ∈ G.succ (N.pool.length + 1) c ↔ (c = 0 ∧ v = t) := by
      intro c v
      rw [hG _ (NFA.Inner.iff.2 (by omega)), h2.frame _ (by omega) (by omega), e3,
        h1.frame _ (by omega) (by omega), e1]
      constructor
      · rintro ((h | ⟨h0, h⟩) | ⟨h0, h⟩)
        · exact absurd h (NFA.not_mem_succ_of_ge (by omega) _ _)
        · refine ⟨h0, ?_⟩; omega
        · omega
      · rintro ⟨h0, h⟩
        exact Or.inl (Or.inr ⟨h0, Or.inr ⟨rfl, h⟩⟩)
    have hT2 : ∀ c v, v ∈ G.succ (N2.pool.length + 1) c ↔ (c = 0 ∧ v = t) := by
      intro c v
      rw [hG _ (NFA.Inner.iff.2 (by omega)), h2.frame _ (by omega) (by omega), e3]
      constructor
      · rintro (h | ⟨h0, h⟩)
        · exact absurd h (NFA.not_mem_succ_of_ge (by omega) _ _)
        · refine ⟨h0, ?_⟩; omega
      · rintro ⟨h0, h⟩
        exact Or.inr ⟨h0, Or.inr ⟨rfl, h⟩⟩
    have hG1 : ∀ u, N1.Inner N2 N.pool.length u → ∀ c v, v ∈ G.succ u c ↔ v ∈ N2.succ u c := by
      intro u hu c v
      rw [NFA.Inner.iff] at hu
      rw [hG u (NFA.Inner.iff.2 (by omega)), h2.frame _ (by omega) (by omega), e3]
      constructor
      · rintro (h | ⟨_, h⟩)
        · exact h
        · omega
      · exact Or.inl
    have hG2 : ∀ u, N3.Inner N4 N2.pool.length u →
        ∀ c v, v ∈ G.succ u c ↔ v ∈ N4.succ u c := by
      intro u hu c v
      rw [NFA.Inner.iff] at hu
      exact hG u (NFA.Inner.iff.2 (by omega)) c v
    obtain ⟨k, rfl, hh⟩ := hp.first (by omega)
    have hp1 : G.PathN k N.pool.length w f ∨ G.PathN k N2.pool.length w f := by
      rcases hh with ⟨v, hv, hp'⟩ | ⟨c, v, z, hc, hv, _, _⟩
      · rcases ((hS 0 v).1 hv).2 with rfl | rfl
        · exact Or.inl hp'
        · exact Or.inr hp'
      · exact absurd ((hS c v).1 hv).1 hc
    rcases hp1 with hp1 | hp1
    · obtain ⟨x, y, m, rfl, hx, hp2, hm⟩ := h1.complete G hG1 k w f hp1
        (by rw [NFA.Inner.iff]; omega)
      obtain ⟨j, rfl, hh⟩ := hp2.first (by omega)
      have hp3 : G.PathN j t y f := by
        rcases hh with ⟨v, hv, hp'⟩ | ⟨c, v, z, hc, hv, _, _⟩
        · obtain ⟨_, rfl⟩ := (hT1 0 v).1 hv
          exact hp'
        · exact absurd ((hT1 c v).1 hv).1 hc
      exact ⟨x, y, j, rfl, (Language.mem_add _ _ _).2 (Or.inl hx), hp3, by omega⟩
    · obtain ⟨x, y, m, rfl, hx, hp2, hm⟩ := h2.complete G hG2 k w f hp1
        (by rw [NFA.Inner.iff]; omega)
      obtain ⟨j, rfl, hh⟩ := hp2.first (by omega)
      have hp3 : G.PathN j t y f := by
        rcases hh with ⟨v, hv, hp'⟩ | ⟨c, v, z, hc, hv, _, _⟩
        · obtain ⟨_, rfl⟩ := (hT2 0 v).1 hv
          exact hp'
        · exact absurd ((hT2 c v).1 hv).1 hc
      exact ⟨x, y, j, rfl, (Language.mem_add _ _ _).2 (Or.inr hx), hp3, by omega⟩

end Dank

namespace Dank

/-! ## Thompson construction: the branches of `_from_regex` -/

theorem Wired.pre_of {N N1 : NFA} {E : Nat → Byte → Nat → Prop} (h : Wired N N1 E) {a b : Nat}
    (ha : a < N1.pool.length) (hb : b < N1.pool.length) (hne : a ≠ b)
    (hN : ∀ c, N.succ a c = []) (hE : ∀ c v, ¬ E a c v) : Pre N1 a b :=
  { good := h.grow.good
    hs := ha
    ht := hb
    hne := hne
    fresh := by
      intro c; apply NFA.succ_eq_nil; intro v hv
      rcases (h.edges a c v).1 hv with h1 | h1
      · rw [hN] at h1; cases h1
      · exact hE c v h1 }

theorem Frag.pre_after {L : Language Byte} {N N1 : NFA} {s t : Nat} (h : Frag L N N1 s t) {a b : Nat}
    (ha : a < N.pool.length) (has : a ≠ s) (hb : b < N1.pool.length) (hne : a ≠ b)
    (hN : ∀ c, N.succ a c = []) : Pre N1 a b :=
  { good := h.grow.good
    hs := lt_of_lt_of_le ha h.grow.len
    ht := hb
    hne := hne
    fresh := by
      intro c; apply NFA.succ_eq_nil; intro v hv
      have := (h.frame a ha has c v).1 hv
      rw [hN] at this; cases this }

theorem thompsonCat_frag {recur : Nat → NFA → Nat → Nat → Nat → Nat → Except Err NFA} {F : Nat}
    {L1 L2 : Language Byte} {lo k hi : Nat} (h1 : RecurFrag recur F L1 lo k)
    (h2 : RecurFrag recur F L2 k hi) {nfa : NFA} {s t : Nat} (hpre : Pre nfa s t) :
    ∃ nfa1, Frag (L1 * L2) nfa nfa1 s t ∧
      ∀ fuel, F ≤ fuel → thompsonCat (recur fuel) nfa s t lo k hi = .ok nfa1 := by
  have hs := hpre.hs
  have ht := hpre.ht
  have hne := hpre.hne
  have w0 := wired_push2 hpre.good
  have l0 := nfa.push2_pool_length
  obtain ⟨N1, hi1, w1⟩ := w0.insert nfa.pool.length 0 (nfa.pool.length + 1)
    (by omega) (by omega)
  have l1 := w1.len
  have pre1 : Pre N1 s nfa.pool.length :=
    w1.pre_of (by omega) (by omega) (by omega) hpre.fresh (by intro c v h; simp at h; try omega)
  obtain ⟨N2, f1, hr1⟩ := h1 N1 s nfa.pool.length pre1
  have l2 := f1.grow.len
  have pre2 : Pre N2 (nfa.pool.length + 1) t :=
    f1.pre_after (by omega) (by omega) (by omega) (by omega)
      (w1.pre_of (b := s) (by omega) (by omega) (by omega)
        (fun c => NFA.succ_of_ge (by omega) c) (by intro c v h; simp at h; try omega)).fresh
  obtain ⟨N3, f2, hr2⟩ := h2 N2 (nfa.pool.length + 1) t pre2
  refine ⟨N3, frag_cat hpre (w1.of_iff (by intro u c v; simp)) f1 f2, ?_⟩
  intro fuel hf
  simp only [thompsonCat, hi1, hr1 fuel hf, hr2 fuel hf, bind, Except.bind]

theorem thompsonOpt_frag {recur : Nat → NFA → Nat → Nat → Nat → Nat → Except Err NFA} {F : Nat}
    {L : Language Byte} {lo hi : Nat} (h1 : RecurFrag recur F L lo (hi - 1))
    {nfa : NFA} {s t : Nat} (hpre : Pre nfa s t) :
    ∃ nfa1, Frag (L + 1) nfa nfa1 s t ∧
      ∀ fuel, F ≤ fuel → thompsonOpt (recur fuel) nfa s t lo hi = .ok nfa1 := by
  have hs := hpre.hs
  have ht := hpre.ht
  have hne := hpre.hne
  have w0 := wired_push2 hpre.good
  have l0 := nfa.push2_pool_length
  obtain ⟨Na, hia, wa⟩ := w0.insert s 0 nfa.pool.length (by omega) (by omega)
  have la := wa.len
  obtain ⟨Nb, hib, wb⟩ := wa.insert s 0 t (by omega) (by omega)
  have lb := wb.len
  obtain ⟨N1, hi1, w1⟩ := wb.insert (nfa.pool.length + 1) 0 t (by omega) (by omega)
  have l1 := w1.len
  have pre1 : Pre N1 nfa.pool.length (nfa.pool.length + 1) :=
    w1.pre_of (by omega) (by omega) (by omega) (fun c => NFA.succ_of_ge (le_refl _) c)
      (by intro c v h; simp at h; try omega)
  obtain ⟨N2, f1, hr1⟩ := h1 N1 _ _ pre1
  refine ⟨N2, frag_opt hpre (w1.of_iff (by intro u c v; simp; tauto)) f1, ?_⟩
  intro fuel hf
  simp only [thompsonOpt, hia, hib, hi1, hr1 fuel hf, bind, Except.bind]

theorem thompsonStar_frag {recur : Nat → NFA → Nat → Nat → Nat → Nat → Except Err NFA} {F : Nat}
    {L : Language Byte} {lo hi : Nat} (h1 : RecurFrag recur F L lo (hi - 1))
    {nfa : NFA} {s t : Nat} (hpre : Pre nfa s t) :
    ∃ nfa1, Frag (KStar.kstar L) nfa nfa1 s t ∧
      ∀ fuel, F ≤ fuel → thompsonStar (recur fuel) nfa s t lo hi = .ok nfa1 := by
  have hs := hpre.hs
  have ht := hpre.ht
  have hne := hpre.hne
  have w0 := wired_push2 hpre.good
  have l0 := nfa.push2_pool_length
  obtain ⟨Na, hia, wa⟩ := w0.insert s 0 nfa.pool.length (by omega) (by omega)
  have la := wa.len
  obtain ⟨Nb, hib, wb⟩ := wa.insert s 0 t (by omega) (by omega)
  have lb := wb.len
  obtain ⟨Nc, hic, wc⟩ := wb.insert (nfa.pool.length + 1) 0 nfa.pool.length
    (by omega) (by omega)
  have lc := wc.len
  obtain ⟨N1, hi1, w1⟩ := wc.insert (nfa.pool.length + 1) 0 t (by omega) (by omega)
  have l1 := w1.len
  have pre1 : Pre N1 nfa.pool.length (nfa.pool.length + 1) :=
    w1.pre_of (by omega) (by omega) (by omega) (fun c => NFA.succ_of_ge (le_refl _) c)
      (by intro c v h; simp at h; try omega)
  obtain ⟨N2, f1, hr1⟩ := h1 N1 _ _ pre1
  refine ⟨N2, frag_star hpre (w1.of_iff (by intro u c v; simp; tauto)) f1, ?_⟩
  intro fuel hf
  simp only [thompsonStar, hia, hib, hic, hi1, hr1 fuel hf, bind, Except.bind]

theorem thompsonPlus_frag {recur : Nat → NFA → Nat → Nat → Nat → Nat → Except Err NFA} {F : Nat}
    {L : Language Byte} {lo hi : Nat} (h1 : RecurFrag recur F L lo (hi - 1))
    {nfa : NFA} {s t : Nat} (hpre : Pre nfa s t) :
    ∃ nfa1, Frag (L * KStar.kstar L) nfa nfa1 s t ∧
      ∀ fuel, F ≤ fuel → thompsonPlus (recur fuel) nfa s t lo hi = .ok nfa1 := by
  have hs := hpre.hs
  have ht := hpre.ht
  have hne := hpre.hne
  have w0 := wired_push2 hpre.good
  have l0 := nfa.push2_pool_length
  obtain ⟨N1, hi1, w1⟩ := w0.insert nfa.pool.length 0 (nfa.pool.length + 1)
    (by omega) (by omega)
  have l1 := w1.len
  have pre1 : Pre N1 s nfa.pool.length :=
    w1.pre_of (by omega) (by omega) (by omega) hpre.fresh (by intro c v h; simp at h; try omega)
  obtain ⟨N2, f1, hr1⟩ := h1 N1 s nfa.pool.length pre1
  have l2 := f1.grow.len
  have pre2 : Pre N2 (nfa.pool.length + 1) t :=
    f1.pre_after (by omega) (by omega) (by omega) (by omega)
      (w1.pre_of (b := s) (by omega) (by omega) (by omega)
        (fun c => NFA.succ_of_ge (by omega) c) (by intro c v h; simp at h; try omega)).fresh
  obtain ⟨N3, f2, hr2⟩ := thompsonStar_frag h1 pre2
  refine ⟨N3, frag_cat hpre (w1.of_iff (by intro u c v; simp)) f1 f2, ?_⟩
  intro fuel hf
  simp only [thompsonPlus, hi1, hr1 fuel hf, hr2 fuel hf, bind, Except.bind]

theorem thompsonAlt_frag {recur : Nat → NFA → Nat → Nat → Nat → Nat → Except Err NFA} {F : Nat}
    {L1 L2 : Language Byte} {lo k hi : Nat} (h1 : RecurFrag recur F L1 lo k)
    (h2 : RecurFrag recur F L2 (k + 1) hi) {nfa : NFA} {s t : Nat} (hpre : Pre nfa s t) :
    ∃ nfa1, Frag (L1 + L2) nfa nfa1 s t ∧
      ∀ fuel, F ≤ fuel → thompsonAlt (recur fuel) nfa s t lo k hi = .ok nfa1 := by
  have hs := hpre.hs
  have ht := hpre.ht
  have hne := hpre.hne
  have w0 := wired_push2 hpre.good
  have l0 := nfa.push2_pool_length
  obtain ⟨Na, hia, wa⟩ := w0.insert s 0 nfa.pool.length (by omega) (by omega)
  have la := wa.len
  obtain ⟨N1, hi1, w1⟩ := wa.insert (nfa.pool.length + 1) 0 t (by omega) (by omega)
  have l1 := w1.len
  have pre1 : Pre N1 nfa.pool.length (nfa.pool.length + 1) :=
    w1.pre_of (by omega) (by omega) (by omega) (fun c => NFA.succ_of_ge (le_refl _) c)
      (by intro c v h; simp at h; try omega)
  obtain ⟨N2, f1, hr1⟩ := h1 N1 _ _ pre1
  have l2 := f1.grow.len
  have v0 := wired_push2 f1.grow.good
  have k0 := N2.push2_pool_length
  obtain ⟨Nb, hib, vb⟩ := v0.insert s 0 N2.pool.length (by omega) (by omega)
  have kb := vb.len
  obtain ⟨N3, hi3, w3⟩ := vb.insert (N2.pool.length + 1) 0 t (by omega) (by omega)
  have l3 := w3.len
  have pre3 : Pre N3 N2.pool.length (N2.pool.length + 1) :=
    w3.pre_of (by omega) (by omega) (by omega) (fun c => NFA.succ_of_ge (le_refl _) c)
      (by intro c v h; simp at h; try omega)
  obtain ⟨N4, f3, hr3⟩ := h2 N3 _ _ pre3
  refine ⟨N4, frag_alt hpre (w1.of_iff (by intro u c v; simp; tauto)) f1
    (w3.of_iff (by intro u c v; simp; tauto)) f3, ?_⟩
  intro fuel hf
  simp only [thompsonAlt, hia, hi1, hr1 fuel hf, hib, hi3, hr3 fuel hf, bind, Except.bind]

end Dank

namespace Dank

/-! ## Thompson construction: `_from_regex` on a well-formed pattern -/

theorem RecurFrag.fuel_mono {recur : Nat → NFA → Nat → Nat → Nat → Nat → Except Err NFA}
    {F F1 : Nat} {L : Language Byte} {lo hi : Nat} (h : RecurFrag recur F L lo hi)
    (hF : F ≤ F1) : RecurFrag recur F1 L lo hi := by
  intro nfa s t hpre
  obtain ⟨nfa1, hf, hr⟩ := h nfa s t hpre
  exact ⟨nfa1, hf, fun fuel hfu => hr fuel (le_trans hF hfu)⟩

/-- The fragment of a single transition: the empty word for the label 0, the one-byte word
for any other label. -/
theorem frag_byte {N N1 : NFA} {s t : Nat} (c : Byte) (hpre : Pre N s t)
    (h : N.insert s c t = .ok N1) :
    Frag (if c = 0 then (1 : Language Byte) else {[c]}) N N1 s t := by
  by_cases hc : c = 0
  · subst hc
    rw [if_pos rfl]
    exact frag_eps hpre h
  · rw [if_neg hc]
    exact frag_single hpre hc h

/-- On the print of a parse tree, `_from_regex` returns for every fuel above the length of
the print, and what it adds is a fragment for the language of the tree, a byte 0 in it
denoting the empty word and an operator byte without operand itself. -/
theorem NFA.fromRegexAux_fragNul (p : List Byte) (r : Regex) : ∀ (lead : Bool), r.Lax lead →
    ∀ (lo : Nat),
    Seg p lo r.print →
    RecurFrag (NFA.fromRegexAux p) (r.print.length + 1) r.langNul lo (lo + r.print.length) := by
  induction r with
  | atom c =>
    intro lead hwf lo hseg nfa s t hpre
    obtain ⟨N1, h1, _⟩ := NFA.insert_spec c t hpre.hs hpre.good.wf
    refine ⟨N1, frag_byte c hpre h1, ?_⟩
    intro fuel hf
    obtain ⟨k, rfl⟩ : ∃ k, fuel = k + 1 := ⟨fuel - 1, by omega⟩
    rw [NFA.fromRegexAux, classify_atom hseg]
    exact h1
  | esc c =>
    intro lead hwf lo hseg nfa s t hpre
    obtain ⟨N1, h1, _⟩ := NFA.insert_spec c t hpre.hs hpre.good.wf
    refine ⟨N1, frag_byte c hpre h1, ?_⟩
    intro fuel hf
    obtain ⟨k, rfl⟩ : ∃ k, fuel = k + 1 := ⟨fuel - 1, by omega⟩
    rw [NFA.fromRegexAux, classify_esc hseg]
    exact h1
  | group r ih =>
    intro lead hwf lo hseg nfa s t hpre
    have hseg1 : Seg p (lo + 1) r.print := by
      have := hseg
      simp only [Regex.print] at this
      exact this.tail.left
    obtain ⟨N1, f1, h1⟩ := ih true hwf (lo + 1) hseg1 nfa s t hpre
    refine ⟨N1, f1, ?_⟩
    intro fuel hf
    obtain ⟨k, rfl⟩ : ∃ k, fuel = k + 1 := ⟨fuel - 1, by omega⟩
    have hlen : (Regex.group r).print.length = r.print.length + 2 := by simp [Regex.print]
    rw [NFA.fromRegexAux, classify_group hwf hseg k (by omega)]
    have e : lo + (Regex.group r).print.length - 1 = lo + 1 + r.print.length := by omega
    simp only [e]
    exact h1 k (by omega)
  | opt r ih =>
    intro lead hwf lo hseg nfa s t hpre
    have hlen : (Regex.opt r).print.length = r.print.length + 1 := by simp [Regex.print]
    have hseg1 : Seg p lo r.print := by
      have := hseg
      simp only [Regex.print] at this
      exact this.left
    have hr : RecurFrag (NFA.fromRegexAux p) (r.print.length + 1) r.langNul lo
        (lo + (Regex.opt r).print.length - 1) := by
      have e : lo + (Regex.opt r).print.length - 1 = lo + r.print.length := by omega
      rw [e]; exact ih lead hwf.1 lo hseg1
    obtain ⟨N1, f1, h1⟩ := thompsonOpt_frag hr hpre
    refine ⟨N1, f1, ?_⟩
    intro fuel hf
    obtain ⟨k, rfl⟩ : ∃ k, fuel = k + 1 := ⟨fuel - 1, by omega⟩
    rw [NFA.fromRegexAux, classify_opt hwf hseg k (by omega)]
    exact h1 k (by omega)
  | star r ih =>
    intro lead hwf lo hseg nfa s t hpre
    have hlen : (Regex.star r).print.length = r.print.length + 1 := by simp [Regex.print]
    have hseg1 : Seg p lo r.print := by
      have := hseg
      simp only [Regex.print] at this
      exact this.left
    have hr : RecurFrag (NFA.fromRegexAux p) (r.print.length + 1) r.langNul lo
        (lo + (Regex.star r).print.length - 1) := by
      have e : lo + (Regex.star r).print.length - 1 = lo + r.print.length := by omega
      rw [e]; exact ih lead hwf.1 lo hseg1
    obtain ⟨N1, f1, h1⟩ := thompsonStar_frag hr hpre
    refine ⟨N1, f1, ?_⟩
    intro fuel hf
    obtain ⟨k, rfl⟩ : ∃ k, fuel = k + 1 := ⟨fuel - 1, by omega⟩
    rw [NFA.fromRegexAux, classify_star hwf hseg k (by omega)]
    exact h1 k (by omega)
  | plus r ih =>
    intro lead hwf lo hseg nfa s t hpre
    have hlen : (Regex.plus r).print.length = r.print.length + 1 := by simp [Regex.print]
    have hseg1 : Seg p lo r.print := by
      have := hseg
      simp only [Regex.print] at this
      exact this.left
    have hr : RecurFrag (NFA.fromRegexAux p) (r.print.length + 1) r.langNul lo
        (lo + (Regex.plus r).print.length - 1) := by
      have e : lo + (Regex.plus r).print.length - 1 = lo + r.print.length := by omega
      rw [e]; exact ih lead hwf.1 lo hseg1
    obtain ⟨N1, f1, h1⟩ := thompsonPlus_frag hr hpre
    refine ⟨N1, f1, ?_⟩
    intro fuel hf
    obtain ⟨k, rfl⟩ : ∃ k, fuel = k + 1 := ⟨fuel - 1, by omega⟩
    rw [NFA.fromRegexAux, classify_plus hwf hseg k (by omega)]
    exact h1 k (by omega)
  | cat a b iha ihb =>
    intro lead hwf lo hseg nfa s t hpre
    have hlen : (Regex.cat a b).print.length = a.print.length + b.print.length := by
      simp [Regex.print]
    have hsega : Seg p lo a.print := by
      have := hseg
      simp only [Regex.print] at this
      exact this.left
    have hsegb : Seg p (lo + a.print.length) b.print := by
      have := hseg
      simp only [Regex.print] at this
      exact this.right
    have hra : RecurFrag (NFA.fromRegexAux p) ((Regex.cat a b).print.length) a.langNul lo
        (lo + a.print.length) :=
      (iha lead hwf.1 lo hsega).fuel_mono (by have := b.print_length_pos; omega)
    have hrb : RecurFrag (NFA.fromRegexAux p) ((Regex.cat a b).print.length) b.langNul
        (lo + a.print.length) (lo + (Regex.cat a b).print.length) := by
      have e : lo + (Regex.cat a b).print.length = lo + a.print.length + b.print.length := by
        omega
      rw [e]
      exact (ihb false hwf.2.1 _ hsegb).fuel_mono (by have := a.print_length_pos; omega)
    obtain ⟨N1, f1, h1⟩ := thompsonCat_frag hra hrb hpre
    refine ⟨N1, f1, ?_⟩
    intro fuel hf
    obtain ⟨k, rfl⟩ : ∃ k, fuel = k + 1 := ⟨fuel - 1, by omega⟩
    rw [NFA.fromRegexAux, classify_cat hwf hseg k (by omega)]
    exact h1 k (by omega)
  | alt a b iha ihb =>
    intro lead hwf lo hseg nfa s t hpre
    have hlen : (Regex.alt a b).print.length = a.print.length + b.print.length + 1 := by
      simp [Regex.print]; omega
    have hsega : Seg p lo a.print := by
      have := hseg
      simp only [Regex.print] at this
      exact this.left
    have hsegb : Seg p (lo + a.print.length + 1) b.print := by
      have := hseg
      simp only [Regex.print] at this
      exact this.right.tail
    have hra : RecurFrag (NFA.fromRegexAux p) ((Regex.alt a b).print.length) a.langNul lo
        (lo + a.print.length) :=
      (iha true hwf.1 lo hsega).fuel_mono (by omega)
    have hrb : RecurFrag (NFA.fromRegexAux p) ((Regex.alt a b).print.length) b.langNul
        (lo + a.print.length + 1) (lo + (Regex.alt a b).print.length) := by
      have e : lo + (Regex.alt a b).print.length = lo + a.print.length + 1 + b.print.length := by
        omega
      rw [e]
      exact (ihb true hwf.2.1 _ hsegb).fuel_mono (by omega)
    obtain ⟨N1, f1, h1⟩ := thompsonAlt_frag hra hrb hpre
    refine ⟨N1, f1, ?_⟩
    intro fuel hf
    obtain ⟨k, rfl⟩ : ∃ k, fuel = k + 1 := ⟨fuel - 1, by omega⟩
    rw [NFA.fromRegexAux, classify_alt hwf hseg k (by omega)]
    exact h1 k (by omega)

/-- A well-formed tree is a tree of the grammar. -/
theorem Regex.WellFormed.shaped {r : Regex} (h : r.WellFormed) : r.Shaped := by
  induction r with
  | atom c => exact h.2
  | esc c => trivial
  | group r ih => exact ih h
  | opt r ih => exact ⟨ih h.1, h.2⟩
  | star r ih => exact ⟨ih h.1, h.2⟩
  | plus r ih => exact ⟨ih h.1, h.2⟩
  | cat a b iha ihb => exact ⟨iha h.1, ihb h.2.1, h.2.2⟩
  | alt a b iha ihb => exact ⟨iha h.1, ihb h.2.1, h.2.2⟩

/-- A tree of the grammar is read without failing, at a head position or not. -/
theorem Regex.Shaped.lax {r : Regex} (h : r.Shaped) : ∀ lead, r.Lax lead := by
  induction r with
  | atom c => exact fun _ => Or.inl h
  | esc c => exact fun _ => trivial
  | group r ih => exact fun _ => ih h true
  | opt r ih => exact fun lead => ⟨ih h.1 lead, h.2⟩
  | star r ih => exact fun lead => ⟨ih h.1 lead, h.2⟩
  | plus r ih => exact fun lead => ⟨ih h.1 lead, h.2⟩
  | cat a b iha ihb => exact fun lead => ⟨iha h.1 lead, ihb h.2.1 false, h.2.2⟩
  | alt a b iha ihb => exact fun _ => ⟨iha h.1 true, ihb h.2.1 true, h.2.2⟩

/-- On a well-formed tree, which has no byte 0, the two readings of the language agree. -/
theorem Regex.langNul_eq {r : Regex} (h : r.WellFormed) : r.langNul = r.lang := by
  induction r with
  | atom c => simp only [Regex.langNul, Regex.lang, if_neg h.1]
  | esc c =>
    have hc : c ≠ 0 := h
    simp only [Regex.langNul, Regex.lang, if_neg hc]
  | group r ih => simp only [Regex.langNul, Regex.lang, ih h]
  | opt r ih => simp only [Regex.langNul, Regex.lang, ih h.1]
  | star r ih => simp only [Regex.langNul, Regex.lang, ih h.1]
  | plus r ih => simp only [Regex.langNul, Regex.lang, ih h.1]
  | cat a b iha ihb => simp only [Regex.langNul, Regex.lang, iha h.1, ihb h.2.1]
  | alt a b iha ihb => simp only [Regex.langNul, Regex.lang, iha h.1, ihb h.2.1]

/-- On the print of a well-formed parse tree, `_from_regex` returns for every fuel above the
length of the print, and what it adds is a fragment for the language of the tree. -/
theorem NFA.fromRegexAux_frag (p : List Byte) (r : Regex) (hwf : r.WellFormed) (lo : Nat)
    (hseg : Seg p lo r.print) :
    RecurFrag (NFA.fromRegexAux p) (r.print.length + 1) r.lang lo (lo + r.print.length) := by
  have h := NFA.fromRegexAux_fragNul p r false (hwf.shaped.lax false) lo hseg
  rw [Regex.langNul_eq hwf] at h
  exact h

end Dank

namespace Dank

/-! ## `NFA::from_regex` and `DFA::from_regex` on a well-formed pattern -/

theorem startNFA_pre :
    Pre ⟨[0], [NFA.State.new, { NFA.State.new with final := true }]⟩ 0 1 :=
  { good := startNFA_good
    hs := by simp
    ht := by simp
    hne := by decide
    fresh := by intro c; simp [NFA.succ, NFA.State.new, mapFind] }

theorem Seg.whole (p : List Byte) : Seg p 0 p := ⟨[], [], by simp, rfl⟩

/-- A fragment between the states 0 and 1 of the initial automaton spells exactly its
language on the paths from 0 to 1. -/
theorem Frag.start_path_iff {L : Language Byte} {N1 : NFA}
    (h : Frag L ⟨[0], [NFA.State.new, { NFA.State.new with final := true }]⟩ N1 0 1)
    (w : List Byte) : N1.Path 0 w 1 ↔ w ∈ L := by
  constructor
  · intro hp
    obtain ⟨n, hn⟩ := NFA.pathN_of_path hp
    obtain ⟨x, y, m, rfl, hx, hp1, _⟩ := h.complete N1 (fun _ _ _ _ => Iff.rfl) n w 1 hn
      (by rw [NFA.Inner.iff]; simp)
    have hno : ∀ c, N1.succ 1 c = [] := by
      intro c; apply NFA.succ_eq_nil; intro v hv
      have := (h.frame 1 (by simp) (by decide) c v).1 hv
      simp [NFA.succ, NFA.State.new, mapFind] at this
    obtain ⟨rfl, _⟩ := hp1.of_no_succ hno
    simpa using hx
  · exact h.sound w

/-- With enough fuel `NFA::from_regex` returns on a pattern for which `_from_regex` builds a
fragment between the states 0 and 1, and the NFA accepts the language of the fragment. -/
theorem NFA.from_regex_nfa_of_frag (p : List Byte) (F : Nat) (L : Language Byte)
    (h : RecurFrag (NFA.fromRegexAux p) F L 0 p.length) :
    ∃ F1 N, (∀ fuel, F1 ≤ fuel → NFA.from_regex fuel p = .ok N) ∧
      ∀ w, N.Accepts w ↔ w ∈ L := by
  obtain ⟨N1, f1, h1⟩ := h _ 0 1 startNFA_pre
  have hg := f1.grow
  have hlen : 2 ≤ N1.pool.length := by
    have := hg.len
    simpa using this
  have hreq : ∀ u ∈ [0], u < N1.pool.length := by simp; omega
  obtain ⟨c, hc, _⟩ := N1.get_closure_spec hg.good.targets_valid [0] hreq
    (1 + N1.pool.length) (by simp)
  have hall : ∀ fuel, F + (1 + N1.pool.length) ≤ fuel →
      NFA.from_regex fuel p = .ok { N1 with init := c } := by
    intro fuel hf
    have hc1 := N1.get_closure_mono hc (fuel - (1 + N1.pool.length))
    rw [show 1 + N1.pool.length + (fuel - (1 + N1.pool.length)) = fuel by omega] at hc1
    simp only [NFA.from_regex, h1 fuel (by omega), hg.init, hc1, bind, Except.bind]
  refine ⟨_, _, hall, ?_⟩
  obtain ⟨_, _, _, _, _, _, hfin, hinit⟩ := NFA.from_regex_inv (hall _ (le_refl _))
  intro w
  rw [← f1.start_path_iff w]
  constructor
  · rintro ⟨i, hi, f, hp, hf⟩
    rw [(hfin f).1 hf] at hp
    have hp1 : N1.Path i w 1 :=
      @NFA.Path.lift ⟨c, N1.pool⟩ N1 (fun _ _ _ h => h) _ _ _ hp
    have he : N1.EpsReach 0 i := (hinit i).1 hi
    exact NFA.path_of_epsReach he hp1
  · intro hp
    exact ⟨0, (hinit 0).2 Relation.ReflTransGen.refl, 1,
      @NFA.Path.lift N1 ⟨c, N1.pool⟩ (fun _ _ _ h => h) _ _ _ hp, (hfin 1).2 rfl⟩

/-- The pipeline `regex → NFA → determinize → reverse → determinize → reverse → determinize`
returns on a pattern for which `_from_regex` builds a fragment between the states 0 and 1,
and the DFA accepts the language of the fragment. -/
theorem DFA.from_regex_of_frag (p : List Byte) (F : Nat) (L : Language Byte)
    (h : RecurFrag (NFA.fromRegexAux p) F L 0 p.length) :
    ∃ F1, ∀ fuel, F1 ≤ fuel → ∃ D, DFA.from_regex fuel p = .ok D ∧
      ∀ w, D.accepts w = true ↔ w ∈ L := by
  obtain ⟨F0, N, hN, hL⟩ := NFA.from_regex_nfa_of_frag p F L h
  obtain ⟨_, hwf0, htv0, hiv0, hic0, _⟩ := NFA.from_regex_inv (hN F0 (le_refl _))
  obtain ⟨F1, hF1⟩ : ∃ F1, F1 = 2 ^ N.pool.length + 1 + 2 * N.pool.length := ⟨_, rfl⟩
  obtain ⟨st, hst, hinv⟩ := N.determinize_spec hwf0 htv0 hiv0 F1 (le_of_eq hF1.symm)
  obtain ⟨F2, hF2⟩ : ∃ F2, F2 = 2 ^ (2 ^ st.dfa.pool.length) + 1 + 2 * 2 ^ st.dfa.pool.length :=
    ⟨_, rfl⟩
  refine ⟨F0 + F1 + F2, ?_⟩
  intro fuel hf
  have hst1 := N.determinize_mono hst (fuel - F1)
  rw [show F1 + (fuel - F1) = fuel by omega] at hst1
  obtain ⟨M, hM, hacc⟩ := st.dfa.minimize_spec hinv.dfa_wf hinv.dfa_valid hinv.dfa_noZero fuel
    (by rw [← hF2]; omega)
  refine ⟨M, ?_, ?_⟩
  · simp only [DFA.minimize, bind, Except.bind] at hM
    simp only [DFA.from_regex, hN fuel (by omega), hst1, bind, Except.bind]
    exact hM
  · intro w
    rw [hacc, hinv.accepts_iff hic0, hL]

theorem Regex.recurFrag_whole (r : Regex) (hwf : r.WellFormed) :
    RecurFrag (NFA.fromRegexAux r.print) (r.print.length + 1) r.lang 0 r.print.length := by
  have h := NFA.fromRegexAux_frag r.print r hwf 0 (Seg.whole _)
  rw [Nat.zero_add] at h
  exact h

/-- The NFA of a well-formed pattern: with enough fuel `NFA::from_regex` returns it, and it
accepts the language of the pattern. -/
theorem NFA.from_regex_accepts (r : Regex) (hwf : r.WellFormed) :
    ∃ F N, (∀ fuel, F ≤ fuel → NFA.from_regex fuel r.print = .ok N) ∧
      ∀ w, N.Accepts w ↔ w ∈ r.lang :=
  NFA.from_regex_nfa_of_frag _ _ _ (r.recurFrag_whole hwf)

/-- The pipeline returns on every well-formed pattern, and the DFA accepts the language of the
pattern. -/
theorem DFA.from_regex_language (r : Regex) (hwf : r.WellFormed) :
    ∃ F, ∀ fuel, F ≤ fuel → ∃ D, DFA.from_regex fuel r.print = .ok D ∧
      ∀ w, D.accepts w = true ↔ w ∈ r.lang :=
  DFA.from_regex_of_frag _ _ _ (r.recurFrag_whole hwf)

end Dank

namespace Dank

/-! ## Patterns outside the grammar: an operator without operand, a trailing backslash -/

/-- The fragment of a whole pattern that `_from_regex` reads as a tree. -/
theorem Regex.recurFrag_lax (r : Regex) (h : r.Lax true) :
    RecurFrag (NFA.fromRegexAux r.print) (r.print.length + 1) r.langNul 0 r.print.length := by
  have h1 := NFA.fromRegexAux_fragNul r.print r true h 0 (Seg.whole _)
  rw [Nat.zero_add] at h1
  exact h1

/-- Every pattern that `_from_regex` reads as a tree: `NFA::from_regex` returns, and the NFA
accepts the language of the tree, in which a byte 0 denotes the empty word and an operator
byte without operand is a literal. -/
theorem NFA.from_regex_nfa_lax (r : Regex) (h : r.Lax true) :
    ∃ F N, (∀ fuel, F ≤ fuel → NFA.from_regex fuel r.print = .ok N) ∧
      ∀ w, N.Accepts w ↔ w ∈ r.langNul :=
  NFA.from_regex_nfa_of_frag _ _ _ (r.recurFrag_lax h)

/-- Every pattern that `_from_regex` reads as a tree: the pipeline returns, and the DFA
accepts the language of the tree. -/
theorem DFA.from_regex_lax (r : Regex) (h : r.Lax true) :
    ∃ F, ∀ fuel, F ≤ fuel → ∃ D, DFA.from_regex fuel r.print = .ok D ∧
      ∀ w, D.accepts w = true ↔ w ∈ r.langNul :=
  DFA.from_regex_of_frag _ _ _ (r.recurFrag_lax h)

/-- On a tree whose print has no byte 0 the two readings of the language agree. -/
theorem Regex.langNul_eq_of_print {r : Regex} (h : (0 : Byte) ∉ r.print) :
    r.langNul = r.lang := by
  induction r with
  | atom c =>
    have hc : c ≠ 0 := fun e => h (by simp [Regex.print, e])
    simp only [Regex.langNul, Regex.lang, if_neg hc]
  | esc c =>
    have hc : c ≠ 0 := fun e => h (by simp [Regex.print, e])
    simp only [Regex.langNul, Regex.lang, if_neg hc]
  | group r ih =>
    have h1 : (0 : Byte) ∉ r.print := fun e => h (by simp [Regex.print, e])
    simp only [Regex.langNul, Regex.lang, ih h1]
  | opt r ih =>
    have h1 : (0 : Byte) ∉ r.print := fun e => h (by simp [Regex.print, e])
    simp only [Regex.langNul, Regex.lang, ih h1]
  | star r ih =>
    have h1 : (0 : Byte) ∉ r.print := fun e => h (by simp [Regex.print, e])
    simp only [Regex.langNul, Regex.lang, ih h1]
  | plus r ih =>
    have h1 : (0 : Byte) ∉ r.print := fun e => h (by simp [Regex.print, e])
    simp only [Regex.langNul, Regex.lang, ih h1]
  | cat a b iha ihb =>
    have h1 : (0 : Byte) ∉ a.print := fun e => h (by simp [Regex.print, e])
    have h2 : (0 : Byte) ∉ b.print := fun e => h (by simp [Regex.print, e])
    simp only [Regex.langNul, Regex.lang, iha h1, ihb h2]
  | alt a b iha ihb =>
    have h1 : (0 : Byte) ∉ a.print := fun e => h (by simp [Regex.print, e])
    have h2 : (0 : Byte) ∉ b.print := fun e => h (by simp [Regex.print, e])
    simp only [Regex.langNul, Regex.lang, iha h1, ihb h2]

/-- The scanning loop on a range that reaches the end of the buffer and ends in an unescaped
backslash: the loop steps over the end and reads outside the buffer. -/
theorem scan_trailing (p : List Byte) : ∀ (n : Nat) (x : List Byte), x.length ≤ n →
    endsInEscape x = true → ∀ (i d o c fuel : Nat), Seg p i x → i + x.length = p.length →
      x.length + 1 ≤ fuel → scanLoop p p.length fuel i d o c = .error .abort := by
  intro n
  induction n with
  | zero =>
    intro x hx he
    cases x with
    | nil => simp [endsInEscape] at he
    | cons a x => simp at hx
  | succ n ih =>
    intro x hx he i d o c fuel hs hend hf
    cases x with
    | nil => simp [endsInEscape] at he
    | cons ch rest =>
      have hlen : (ch :: rest).length = rest.length + 1 := rfl
      rw [hlen] at hx hend hf
      obtain ⟨f, rfl⟩ : ∃ f, fuel = f + 1 := ⟨fuel - 1, by omega⟩
      have hread : p[i]? = some ch := hs.read
      have hrest : Seg p (i + 1) rest := hs.tail
      have step : ∀ d1 o1 c1, endsInEscape rest = true →
          scanLoop p p.length f (i + 1) d1 o1 c1 = .error .abort := by
        intro d1 o1 c1 he1
        exact ih rest (by omega) he1 (i + 1) d1 o1 c1 f hrest (by omega) (by omega)
      unfold scanLoop
      rw [if_neg (by omega)]
      simp only [hread]
      by_cases c1 : ch = BSLASH
      · rw [if_pos c1]
        simp only [endsInEscape, c1, if_true] at he
        cases rest with
        | nil =>
          simp only [List.length_nil] at hend hf
          obtain ⟨g, rfl⟩ : ∃ g, f = g + 1 := ⟨f - 1, by omega⟩
          unfold scanLoop
          rw [if_neg (by omega)]
          simp only [List.getElem?_eq_none (show p.length ≤ i + 2 by omega)]
        | cons b rest2 =>
          simp only [List.length_cons] at hx hend hf
          have hs2 : Seg p (i + 2) rest2 := hrest.tail
          exact ih rest2 (by omega) he (i + 2) _ _ _ f hs2 (by omega) (by omega)
      · rw [if_neg c1]
        have he1 : endsInEscape rest = true := by
          unfold endsInEscape at he
          rw [if_neg c1] at he
          exact he
        by_cases c2 : ch = LPAREN
        · rw [if_pos c2]; exact step _ _ _ he1
        · rw [if_neg c2]
          by_cases c3 : ch = RPAREN
          · rw [if_pos c3]
            by_cases hd : d = 0
            · rw [if_pos hd]
            · rw [if_neg hd]; exact step _ _ _ he1
          · rw [if_neg c3]
            by_cases c4 : ch = PIPE
            · rw [if_pos c4]; exact step _ _ _ he1
            · rw [if_neg c4]
              by_cases c5 : ch = QMARK ∨ ch = STAR ∨ ch = PLUS
              · rw [if_pos c5]; exact step _ _ _ he1
              · rw [if_neg c5]; exact step _ _ _ he1

/-- A pattern of two or more bytes that ends in an unescaped backslash: `NFA::from_regex`
returns no automaton, the scan of `_from_regex` reads outside the pattern. -/
theorem NFA.from_regex_trailing_nfa (p : List Byte) (h2 : 2 ≤ p.length)
    (he : endsInEscape p = true) (fuel : Nat) (hf : p.length + 2 ≤ fuel) :
    NFA.from_regex fuel p = .error .abort := by
  obtain ⟨k, rfl⟩ : ∃ k, fuel = k + 1 := ⟨fuel - 1, by omega⟩
  have hscan : ∀ d o c, scanLoop p p.length k 0 d o c = .error .abort := by
    intro d o c
    exact scan_trailing p p.length p (le_refl _) he 0 d o c k (Seg.whole p) (by simp) (by omega)
  have hesc : escapedAt p 0 p.length = .ok none := by
    unfold escapedAt
    by_cases hl : p.length = 0 + 2
    · rw [if_pos hl]
      match p, hl, he with
      | [a, b], _, he =>
        simp only [List.getElem?_cons_zero]
        by_cases ha : a = BSLASH
        · simp [endsInEscape, ha] at he
        · simp [ha]
    · rw [if_neg hl]
  have hcl : classify p k 0 p.length = .error .abort := by
    unfold classify
    rw [if_neg (by omega), hesc]
    rw [hscan 0 0 0]
  have haux : ∀ nfa s t, NFA.fromRegexAux p (k + 1) nfa s t 0 p.length = .error .abort := by
    intro nfa s t
    rw [NFA.fromRegexAux, hcl]
  simp only [NFA.from_regex, haux]
  rfl

theorem DFA.from_regex_trailing (p : List Byte) (h2 : 2 ≤ p.length)
    (he : endsInEscape p = true) (fuel : Nat) (hf : p.length + 2 ≤ fuel) :
    DFA.from_regex fuel p = .error .abort := by
  unfold DFA.from_regex
  rw [NFA.from_regex_trailing_nfa p h2 he fuel hf]
  rfl

end Dank

namespace Dank

/-! ## The FST text: `DFA::to_fst` writes the lines of the specification -/

theorem fstText_nil : fstText [] = "" := rfl

theorem fstText_cons (l : FstLine) (ls : List FstLine) :
    fstText (l :: ls) = l.text ++ fstText ls := rfl

theorem fstText_append (a b : List FstLine) : fstText (a ++ b) = fstText a ++ fstText b := by
  induction a with
  | nil => simp [fstText_nil]
  | cons l a ih => rw [List.cons_append, fstText_cons, fstText_cons, ih, String.append_assoc]

theorem fstEdges_eq (i : Nat) : ∀ (m : List (Byte × Nat)) (ss : String),
    fstEdges i m ss = ss ++ fstText (m.map (fun e => FstLine.arc i e.2 e.1)) := by
  intro m
  induction m with
  | nil => intro ss; simp [fstEdges, fstText_nil]
  | cons e m ih =>
    intro ss
    obtain ⟨c, t⟩ := e
    rw [fstEdges, ih, List.map_cons, fstText_cons]
    simp only [FstLine.text, String.append_assoc]

theorem fstLoop_eq : ∀ (states : List DFA.State) (i : Nat) (ss : String),
    fstLoop i states ss = ss ++ fstText (poolLines i states) := by
  intro states
  induction states with
  | nil => intro i ss; simp [fstLoop, poolLines, fstText_nil]
  | cons st rest ih =>
    intro i ss
    rw [fstLoop, poolLines]
    rw [ih, fstEdges_eq, fstText_append, fstText_append]
    cases st.final with
    | false => simp [fstText_nil, String.append_assoc]
    | true => simp [fstText_cons, fstText_nil, FstLine.text, String.append_assoc]

theorem DFA.to_fst_eq (D : DFA) : D.to_fst = fstText (poolLines 0 D.pool) := by
  rw [DFA.to_fst, fstLoop_eq]
  simp

/-- A map with ascending keys lists its entries in increasing byte order. -/
theorem sorted_entries_eq {m : List (Byte × Nat)} (hs : keysSorted m) :
    m = (List.finRange 256).filterMap (fun c => (mapFind c m).map (fun t => (c, t))) := by
  have hs1 : m.Pairwise (fun a b => a.1 < b.1) := List.pairwise_map.1 hs
  have hs2 : ((List.finRange 256).filterMap
      (fun c => (mapFind c m).map (fun t => (c, t)))).Pairwise (fun a b => a.1 < b.1) := by
    refine List.Pairwise.filterMap _ ?_ (List.pairwise_lt_finRange 256)
    intro a a' haa b hb b' hb'
    simp only [Option.mem_def, Option.map_eq_some'] at hb hb'
    obtain ⟨_, _, rfl⟩ := hb
    obtain ⟨_, _, rfl⟩ := hb'
    exact haa
  have hanti : IsAntisymm (Byte × Nat) (fun a b => a.1 < b.1) :=
    ⟨fun a b h1 h2 => absurd h1 (lt_asymm h2)⟩
  have hirr : ∀ l : List (Byte × Nat), l.Pairwise (fun a b => a.1 < b.1) → l.Nodup := by
    intro l hl
    exact hl.imp (fun {a b} h hab => by rw [hab] at h; exact lt_irrefl _ h)
  refine @List.eq_of_perm_of_sorted _ _ hanti _ _ ?_ hs1 hs2
  rw [List.perm_ext_iff_of_nodup (hirr _ hs1) (hirr _ hs2)]
  rintro ⟨c, t⟩
  simp only [List.mem_filterMap, List.mem_finRange, true_and, Option.map_eq_some']
  constructor
  · intro h
    exact ⟨c, t, mapFind_of_mem hs h, rfl⟩
  · rintro ⟨c', t', h, he⟩
    cases he
    exact mapFind_mem h

/-- The lines that `to_fst` writes for a state are the lines of the specification. -/
theorem DFA.stateLines_eq {D : DFA} (hwf : D.WF) {i : Nat} {st : DFA.State}
    (hst : D.pool[i]? = some st) :
    st.trans.map (fun e => FstLine.arc i e.2 e.1) ++
      (if st.final then [FstLine.final i] else []) = D.stateLines i := by
  have hk : keysSorted st.trans := hwf st (List.getElem?_mem hst)
  have hstep : ∀ c, D.step i c = mapFind c st.trans := by
    intro c; simp [DFA.step, hst]
  have hfin : D.isFinal i = st.final := by simp [DFA.isFinal, hst]
  have hfun : (fun c => (D.step i c).map (fun t => FstLine.arc i t c)) =
      (fun c => ((mapFind c st.trans).map (fun t => (c, t))).map
        (fun e => FstLine.arc i e.2 e.1)) := by
    funext c
    rw [hstep]
    cases mapFind c st.trans <;> rfl
  have hE : st.trans.map (fun e => FstLine.arc i e.2 e.1) =
      (List.finRange 256).filterMap (fun c => (D.step i c).map (fun t => FstLine.arc i t c)) := by
    rw [hfun]
    conv_lhs => rw [sorted_entries_eq hk]
    rw [List.map_filterMap]
  unfold DFA.stateLines
  rw [hfin, hE]

theorem poolLines_eq {D : DFA} (hwf : D.WF) : ∀ (states : List DFA.State) (k : Nat),
    (∀ j st, states[j]? = some st → D.pool[k + j]? = some st) →
    poolLines k states = (List.range' k states.length).flatMap D.stateLines := by
  intro states
  induction states with
  | nil => intro k _; simp [poolLines]
  | cons st rest ih =>
    intro k h
    rw [poolLines, List.length_cons, List.range'_succ, List.flatMap_cons]
    have h0 : D.pool[k]? = some st := by
      have := h 0 st (by simp)
      simpa using this
    rw [DFA.stateLines_eq hwf h0, ih (k + 1)]
    intro j st' hj
    have := h (j + 1) st' (by simpa using hj)
    rw [show k + 1 + j = k + (j + 1) by omega]
    exact this

/-- The text written by `DFA::to_fst` is the concatenation of the lines of the
specification. -/
theorem DFA.to_fst_lines (D : DFA) (hwf : D.WF) : D.to_fst = fstText D.fstLines := by
  rw [D.to_fst_eq, poolLines_eq hwf D.pool 0 (by intro j st h; simpa using h)]
  rw [DFA.fstLines, List.range_eq_range']

end Dank

namespace Dank

/-! ## The lines of the FST text and the start state of the encoder -/

theorem DFA.step_lt_length {D : DFA} {s : Nat} {c : Byte} {t : Nat}
    (h : D.step s c = some t) : s < D.pool.length := by
  by_contra hc
  simp [DFA.step, List.getElem?_eq_none (not_lt.1 hc)] at h

theorem DFA.isFinal_lt_length {D : DFA} {s : Nat} (h : D.isFinal s = true) :
    s < D.pool.length := by
  by_contra hc
  simp [DFA.isFinal, List.getElem?_eq_none (not_lt.1 hc)] at h

theorem DFA.arc_mem_stateLines {D : DFA} {i s t : Nat} {c : Byte} :
    FstLine.arc s t c ∈ D.stateLines i ↔ (i = s ∧ D.step s c = some t) := by
  unfold DFA.stateLines
  simp only [List.mem_append, List.mem_filterMap, List.mem_finRange, true_and,
    Option.map_eq_some']
  constructor
  · rintro (⟨c', t', h, he⟩ | h)
    · cases he
      exact ⟨rfl, h⟩
    · split at h <;> simp at h
  · rintro ⟨rfl, h⟩
    exact Or.inl ⟨c, t, h, rfl⟩

theorem DFA.final_mem_stateLines {D : DFA} {i s : Nat} :
    FstLine.final s ∈ D.stateLines i ↔ (i = s ∧ D.isFinal s = true) := by
  unfold DFA.stateLines
  simp only [List.mem_append, List.mem_filterMap, List.mem_finRange, true_and,
    Option.map_eq_some']
  constructor
  · rintro (⟨c', t', _, he⟩ | h)
    · cases he
    · split at h
      · simp only [List.mem_singleton, FstLine.final.injEq] at h
        subst h
        exact ⟨rfl, by assumption⟩
      · simp at h
  · rintro ⟨rfl, h⟩
    right
    rw [if_pos h]
    simp

/-- The transition records of the text are the transitions of the DFA. -/
theorem DFA.arc_mem_fstLines {D : DFA} {s t : Nat} {c : Byte} :
    FstLine.arc s t c ∈ D.fstLines ↔ D.step s c = some t := by
  unfold DFA.fstLines
  simp only [List.mem_flatMap, List.mem_range, DFA.arc_mem_stateLines]
  constructor
  · rintro ⟨i, _, _, h⟩; exact h
  · intro h; exact ⟨s, DFA.step_lt_length h, rfl, h⟩

/-- The final markers of the text are the final states of the DFA. -/
theorem DFA.final_mem_fstLines {D : DFA} {s : Nat} :
    FstLine.final s ∈ D.fstLines ↔ D.isFinal s = true := by
  unfold DFA.fstLines
  simp only [List.mem_flatMap, List.mem_range, DFA.final_mem_stateLines]
  constructor
  · rintro ⟨i, _, _, h⟩; exact h
  · intro h; exact ⟨s, DFA.isFinal_lt_length h, rfl, h⟩

theorem DFA.stateLines_src {D : DFA} {i : Nat} {l : FstLine} (h : l ∈ D.stateLines i) :
    (∃ t c, l = FstLine.arc i t c) ∨ l = FstLine.final i := by
  cases l with
  | arc s t c =>
    obtain ⟨rfl, _⟩ := DFA.arc_mem_stateLines.1 h
    exact Or.inl ⟨t, c, rfl⟩
  | final s =>
    obtain ⟨rfl, _⟩ := DFA.final_mem_stateLines.1 h
    exact Or.inr rfl

theorem DFA.stateLines_nodup (D : DFA) (i : Nat) : (D.stateLines i).Nodup := by
  unfold DFA.stateLines
  rw [List.nodup_append]
  refine ⟨?_, ?_, ?_⟩
  · refine List.Nodup.filterMap ?_ (List.nodup_finRange 256)
    intro a a' b hb hb'
    simp only [Option.mem_def, Option.map_eq_some'] at hb hb'
    obtain ⟨_, _, rfl⟩ := hb
    obtain ⟨_, _, he⟩ := hb'
    cases he
    rfl
  · split <;> simp
  · intro l h1 h2
    simp only [List.mem_filterMap, List.mem_finRange, true_and, Option.map_eq_some'] at h1
    obtain ⟨_, _, _, rfl⟩ := h1
    split at h2 <;> simp at h2

/-- No line is written twice: one record per transition, one marker per final state. -/
theorem DFA.fstLines_nodup (D : DFA) : D.fstLines.Nodup := by
  unfold DFA.fstLines
  rw [List.nodup_flatMap]
  refine ⟨fun i _ => D.stateLines_nodup i, ?_⟩
  refine (List.nodup_range D.pool.length).imp ?_
  intro a b hab l h1 h2
  rcases DFA.stateLines_src h1 with ⟨t, c, rfl⟩ | rfl
  · exact hab (DFA.arc_mem_stateLines.1 h2).1.symm
  · exact hab (DFA.final_mem_stateLines.1 h2).1.symm

/-- The language of a pattern has a word that is not empty. -/
theorem Regex.exists_nonempty (r : Regex) : ∃ w, w ∈ r.lang ∧ w ≠ [] := by
  induction r with
  | atom c => exact ⟨[c], rfl, by simp⟩
  | esc c => exact ⟨[c], rfl, by simp⟩
  | group r ih => exact ih
  | opt r ih =>
    obtain ⟨w, hw, hne⟩ := ih
    exact ⟨w, (Language.mem_add _ _ _).2 (Or.inl hw), hne⟩
  | star r ih =>
    obtain ⟨w, hw, hne⟩ := ih
    exact ⟨w, Language.mem_kstar.2 ⟨[w], by simp, by simpa using hw⟩, hne⟩
  | plus r ih =>
    obtain ⟨w, hw, hne⟩ := ih
    exact ⟨w ++ [], Language.mem_mul.2 ⟨w, hw, [], Language.nil_mem_kstar _, rfl⟩, by simpa using hne⟩
  | cat a b iha ihb =>
    obtain ⟨w, hw, hne⟩ := iha
    obtain ⟨v, hv, _⟩ := ihb
    exact ⟨w ++ v, Language.mem_mul.2 ⟨w, hw, v, hv, rfl⟩, by simp [hne]⟩
  | alt a b iha _ =>
    obtain ⟨w, hw, hne⟩ := iha
    exact ⟨w, (Language.mem_add _ _ _).2 (Or.inl hw), hne⟩

/-- A DFA that accepts a word that is not empty has a transition out of its initial state. -/
theorem DFA.step_of_accepts {D : DFA} {w : List Byte} (h : D.accepts w = true) (hne : w ≠ []) :
    ∃ c t, D.step D.init c = some t := by
  cases w with
  | nil => exact absurd rfl hne
  | cons c x =>
    unfold DFA.accepts DFA.acceptsFrom at h
    simp only [DFA.run] at h
    cases hs : D.step D.init c with
    | none => rw [hs] at h; simp at h
    | some t => exact ⟨c, t, hs⟩

/-- The start state that the encoder infers from the lines of a DFA with initial state 0 and a
transition out of it. -/
theorem Encoder.start_of_lines {D : DFA} (h0 : D.init = 0) {c : Byte} {t : Nat}
    (hs : D.step D.init c = some t) (n : Nat) :
    Encoder.start ⟨Fst.ofLines D.fstLines, n⟩ = D.init := by
  have hmem : FstLine.arc 0 t c ∈ D.fstLines := by
    rw [DFA.arc_mem_fstLines, ← h0]; exact hs
  have harc : (0, t, c) ∈ (Fst.ofLines D.fstLines).arcs := by
    unfold Fst.ofLines
    simp only [List.mem_filterMap]
    exact ⟨_, hmem, rfl⟩
  have : (0 : Nat) ∈ Encoder.states ⟨Fst.ofLines D.fstLines, n⟩ := by
    unfold Encoder.states
    simp only [List.mem_append, List.mem_map]
    exact Or.inl (Or.inl ⟨_, harc, rfl⟩)
  unfold Encoder.start
  rw [if_pos this, h0]

end Dank

namespace Dank

/-! ## `NFA::get_closure`: the ε-closure, idempotent and extensive -/

/-- With enough fuel `get_closure` returns the set of the states reachable by ε-moves from
the members of the set it is given; the result is ascending and holds valid indices only. -/
theorem NFA.get_closure_reach (N : NFA) (htv : N.targetsValid) (S : List Nat)
    (hS : ∀ u ∈ S, u < N.pool.length) (fuel : Nat) (hf : S.length + N.pool.length ≤ fuel) :
    ∃ r, N.get_closure fuel S = .ok r ∧ ∀ y, y ∈ r ↔ ∃ u ∈ S, N.EpsReach u y := by
  obtain ⟨r, hr, h1, _, _⟩ := N.get_closure_spec htv S hS fuel hf
  exact ⟨r, hr, h1⟩

/-- Applying `get_closure` to its own result changes nothing, and the result contains the
set it was computed from. -/
theorem NFA.get_closure_idem (N : NFA) (htv : N.targetsValid) (S : List Nat)
    (hss : setSorted S) (hS : ∀ u ∈ S, u < N.pool.length) (fuel : Nat)
    (hf : 2 * N.pool.length ≤ fuel) :
    ∃ r, N.get_closure fuel S = .ok r ∧ (∀ x ∈ S, x ∈ r) ∧ N.get_closure fuel r = .ok r := by
  have hlS : S.length ≤ N.pool.length := setSorted_length_le hss hS
  obtain ⟨r, hr, h1, h2, h3⟩ := N.get_closure_spec htv S hS fuel (by omega)
  have hsr := h2 hss
  have hlr : r.length ≤ N.pool.length := setSorted_length_le hsr h3
  obtain ⟨r2, hr2, g1, g2, _⟩ := N.get_closure_spec htv r h3 fuel (by omega)
  have hext : ∀ x ∈ S, x ∈ r := fun x hx => (h1 x).2 ⟨x, hx, Relation.ReflTransGen.refl⟩
  refine ⟨r, hr, hext, ?_⟩
  have : r2 = r := by
    apply setSorted_ext (g2 hsr) hsr
    intro y
    rw [g1, h1]
    constructor
    · rintro ⟨u, hu, huy⟩
      obtain ⟨u0, hu0, h0⟩ := (h1 u).1 hu
      exact ⟨u0, hu0, h0.trans huy⟩
    · rintro ⟨u0, hu0, h0⟩
      exact ⟨u0, hext u0 hu0, h0⟩
  rw [hr2, this]

end Dank

namespace Dank

/-! ## `NFA::determinize` never writes a transition labelled 0 -/

theorem collectTrans_keys_pos (entries : List (Byte × List Nat)) :
    ∀ (acc : List (Byte × List Nat)), (∀ e ∈ acc, 0 < e.1) →
      ∀ e ∈ collectTrans entries acc, 0 < e.1 := by
  unfold collectTrans
  have key : ∀ (l : List (Byte × List Nat)), (∀ e ∈ l, 0 < e.1) →
      ∀ (acc : List (Byte × List Nat)), (∀ e ∈ acc, 0 < e.1) →
      ∀ e ∈ l.foldl (fun a e => mapUpsert e.1 (fun o => setInsertAll e.2 (o.getD [])) a) acc,
        0 < e.1 := by
    intro l
    induction l with
    | nil => intro _ acc h; simpa using h
    | cons x l ih =>
      intro hl acc hacc
      rw [List.foldl_cons]
      apply ih (fun e he => hl e (List.mem_cons_of_mem _ he))
      intro e he
      have hk : e.1 ∈ (mapUpsert x.1 (fun o => setInsertAll x.2 (o.getD [])) acc).map Prod.fst :=
        List.mem_map_of_mem _ he
      rcases mem_keys_mapUpsert.1 hk with h | h
      · rw [h]; exact hl x (List.mem_cons_self _ _)
      · obtain ⟨e', he', hee⟩ := List.mem_map.1 h
        rw [← hee]; exact hacc e' he'
  apply key
  intro e he
  simpa using (List.mem_filter.1 he).2

theorem NFA.collect_keys_pos (N : NFA) : ∀ (S : List Nat) (acc r : List (Byte × List Nat)),
    N.collect S acc = .ok r → (∀ e ∈ acc, 0 < e.1) → ∀ e ∈ r, 0 < e.1 := by
  intro S
  induction S with
  | nil =>
    intro acc r h hacc
    simp only [NFA.collect, Except.ok.injEq] at h
    rw [← h]; exact hacc
  | cons i S ih =>
    intro acc r h hacc
    rw [NFA.collect] at h
    cases hp : N.pool[i]? with
    | none => rw [hp] at h; cases h
    | some st =>
      rw [hp] at h
      exact ih _ _ h (collectTrans_keys_pos st.trans acc hacc)

theorem DFA.noZero_set {pool : List DFA.State} {init init1 : Nat} (h : DFA.noZero ⟨init, pool⟩)
    (s : Nat) (x : DFA.State) (hx : ∀ e ∈ x.trans, e.1 ≠ 0) :
    DFA.noZero ⟨init1, pool.set s x⟩ := by
  intro st hst e he
  rcases List.mem_or_eq_of_mem_set hst with h1 | rfl
  · exact h st h1 e he
  · exact hx e he

theorem DFA.insert_noZero {D D1 : DFA} {s : Nat} {c : Byte} {t : Nat} (h : D.noZero)
    (hc : c ≠ 0) (hi : D.insert s c t = .ok D1) : D1.noZero := by
  unfold DFA.insert at hi
  cases hp : D.pool[s]? with
  | none => rw [hp] at hi; cases hi
  | some st =>
    rw [hp] at hi
    simp only at hi
    cases hf : mapFind c st.trans with
    | some _ => rw [hf] at hi; cases hi
    | none =>
      rw [hf] at hi
      simp only [Except.ok.injEq] at hi
      rw [← hi]
      apply @DFA.noZero_set _ D.init _ h
      intro e he
      have hk : e.1 ∈ (mapUpsert c (fun _ => t) st.trans).map Prod.fst :=
        List.mem_map_of_mem _ he
      rcases mem_keys_mapUpsert.1 hk with h1 | h1
      · rw [h1]; exact hc
      · obtain ⟨e', he', hee⟩ := List.mem_map.1 h1
        rw [← hee]
        exact h st (List.getElem?_mem hp) e' he'

theorem NFA.detEdges_noZero (N : NFA) (fuel u1 : Nat) : ∀ (entries : List (Byte × List Nat))
    (st st1 : DetState), N.detEdges fuel u1 entries st = .ok st1 →
    (∀ e ∈ entries, 0 < e.1) → st.dfa.noZero → st1.dfa.noZero := by
  intro entries
  induction entries with
  | nil =>
    intro st st1 h _ hz
    simp only [NFA.detEdges, Except.ok.injEq] at h
    rw [← h]; exact hz
  | cons e rest ih =>
    obtain ⟨c, X⟩ := e
    intro st st1 h hpos hz
    have hc : c ≠ 0 := Fin.pos_iff_ne_zero.1 (hpos (c, X) (List.mem_cons_self _ _))
    have hrest : ∀ e ∈ rest, 0 < e.1 := fun e he => hpos e (List.mem_cons_of_mem _ he)
    rw [NFA.detEdges] at h
    cases hcl : N.get_closure fuel X with
    | error err => rw [hcl] at h; cases h
    | ok T =>
      rw [hcl] at h
      simp only [bind, Except.bind] at h
      cases hf : subsetFind T st.m with
      | none =>
        rw [hf] at h
        simp only at h
        cases hi : DFA.insert ⟨st.dfa.init, st.dfa.pool ++ [DFA.State.new]⟩ u1 c
            st.dfa.pool.length with
        | error err => rw [hi] at h; cases h
        | ok d =>
          rw [hi] at h
          simp only at h
          cases ha : N.anyFinal T with
          | error err => rw [ha] at h; cases h
          | ok fin =>
            rw [ha] at h
            have hz0 : DFA.noZero ⟨st.dfa.init, st.dfa.pool ++ [DFA.State.new]⟩ := by
              intro x hx e he
              simp only [List.mem_append, List.mem_singleton] at hx
              rcases hx with hx | rfl
              · exact hz x hx e he
              · simp [DFA.State.new] at he
            have hzd : d.noZero := DFA.insert_noZero hz0 hc hi
            refine ih _ _ h hrest ?_
            cases fin with
            | false => exact hzd
            | true =>
              simp only [if_true]
              apply @DFA.noZero_set _ d.init _ hzd
              intro e he
              simp only [List.getD_eq_getElem?_getD] at he
              cases hg : d.pool[st.dfa.pool.length]? with
              | none => rw [hg] at he; simp [DFA.State.new] at he
              | some x =>
                rw [hg] at he
                exact hzd x (List.getElem?_mem hg) e he
      | some v =>
        rw [hf] at h
        simp only at h
        cases hi : st.dfa.insert u1 c v with
        | error err => rw [hi] at h; cases h
        | ok d =>
          rw [hi] at h
          exact ih _ _ h hrest (DFA.insert_noZero hz hc hi)

theorem NFA.detLoop_noZero (N : NFA) : ∀ (fuel : Nat) (st : DetState) (D : DFA),
    N.detLoop fuel st = .ok D → st.dfa.noZero → D.noZero := by
  intro fuel
  induction fuel with
  | zero =>
    intro st D h hz
    rw [NFA.detLoop] at h
    cases hq : st.q with
    | nil =>
      rw [hq] at h
      simp only [Except.ok.injEq] at h
      rw [← h]; exact hz
    | cons u0 q => rw [hq] at h; simp at h
  | succ fuel ih =>
    intro st D h hz
    rw [NFA.detLoop] at h
    cases hq : st.q with
    | nil =>
      rw [hq] at h
      simp only [Except.ok.injEq] at h
      rw [← h]; exact hz
    | cons u0 q =>
      rw [hq] at h
      simp only at h
      split at h
      · rename_i hlt
        simp only [bind, Except.bind] at h
        cases hc : N.collect u0 [] with
        | error err => rw [hc] at h; cases h
        | ok coll =>
          rw [hc] at h
          simp only at h
          have hpos := N.collect_keys_pos u0 [] coll hc (by simp)
          split at h
          · cases h
          · rename_i st1 he
            exact ih _ _ h (N.detEdges_noZero fuel _ coll _ st1 he hpos hz)
      · cases h

/-- Whatever the NFA, a DFA returned by `determinize` has no transition labelled 0. -/
theorem NFA.determinize_noZero (N : NFA) {fuel : Nat} {D : DFA}
    (h : N.determinize fuel = .ok D) : D.noZero := by
  unfold NFA.determinize at h
  cases ha : N.anyFinal N.init with
  | error err => rw [ha] at h; cases h
  | ok fin =>
    rw [ha] at h
    refine N.detLoop_noZero fuel _ D h ?_
    intro st hst e he
    simp only [List.mem_singleton] at hst
    subst hst
    simp [DFA.State.new] at he

/-- A DFA without transitions labelled 0 accepts no word that contains the byte 0. -/
theorem DFA.noZero_rejects {D : DFA} (hz : D.noZero) : ∀ (w : List Byte) (q : Nat),
    (0 : Byte) ∈ w → D.acceptsFrom q w = false := by
  intro w
  induction w with
  | nil => intro q h; simp at h
  | cons c x ih =>
    intro q h
    unfold DFA.acceptsFrom
    simp only [DFA.run]
    cases hs : D.step q c with
    | none => rfl
    | some t =>
      simp only
      have hc := DFA.step_ne_zero hz hs
      have hx : (0 : Byte) ∈ x := by
        rcases List.mem_cons.1 h with h0 | h0
        · exact absurd h0.symm hc
        · exact h0
      have := ih t hx
      unfold DFA.acceptsFrom at this
      exact this

/-- A pattern of the grammar in which the byte 0 may stand as an atom: the pipeline returns,
and the DFA accepts the language in which each such atom denotes the empty word. -/
theorem DFA.from_regex_langNul (r : Regex) (hs : r.Shaped) :
    ∃ F, ∀ fuel, F ≤ fuel → ∃ D, DFA.from_regex fuel r.print = .ok D ∧
      ∀ w, D.accepts w = true ↔ w ∈ r.langNul :=
  DFA.from_regex_lax r (hs.lax true)

/-- The language of the atom 0 is the empty word alone. -/
theorem Regex.langNul_atom_zero (w : List Byte) :
    w ∈ (Regex.atom 0).langNul ↔ w = [] := by
  simp only [Regex.langNul, if_true, Language.mem_one]

/-- Whatever the pattern, a DFA returned by `DFA::from_regex` has no transition labelled
0. -/
theorem DFA.from_regex_noZero {fuel : Nat} {p : List Byte} {D : DFA}
    (h : DFA.from_regex fuel p = .ok D) : D.noZero :=
  (DFA.from_regex_reduced h).noZero

end Dank

namespace Dank

/-! ## Every automaton returned by `from_regex` accepts some word -/

theorem NFA.Ext.chain {N N1 N2 : NFA} (h1 : N.Ext N1) (h2 : N1.Ext N2) : N.Ext N2 :=
  { grow := h1.grow.trans h2.grow
    edges := fun u c v h => h2.edges u c v (h1.edges u c v h) }

theorem NFA.ext_push2 {N : NFA} (h : N.Good) : N.Ext N.push2 :=
  { grow := NFA.push2_grow h
    edges := fun u c v hv => by rw [NFA.push2_succ]; exact hv }

theorem NFA.ext_insert {N N1 : NFA} {s t : Nat} {c : Byte} (hg : N.Good)
    (ht : t < N.pool.length) (h : N.insert s c t = .ok N1) :
    N.Ext N1 ∧ N1.pool.length = N.pool.length ∧ t ∈ N1.succ s c := by
  obtain ⟨g, l, e⟩ := NFA.insert_grow hg ht h
  exact ⟨⟨g, fun u c' v hv => (e u c' v).2 (Or.inl hv)⟩, l, (e s c t).2 (Or.inr ⟨rfl, rfl, rfl⟩)⟩

/-- A transition is a path, spelling its byte unless the byte is 0. -/
theorem NFA.path_of_edge {N : NFA} {u v : Nat} {c : Byte} (h : v ∈ N.succ u c) :
    ∃ w, N.Path u w v := by
  by_cases hc : c = 0
  · subst hc
    exact ⟨[], NFA.Path.eps_step h⟩
  · exact ⟨[c], NFA.Path.sym hc h (NFA.Path.nil v)⟩

theorem NFA.Ext.path {N N1 : NFA} (h : N.Ext N1) {u v : Nat} {w : List Byte}
    (hp : N.Path u w v) : N1.Path u w v :=
  hp.lift h.edges

theorem thompsonAlt_conn {recur : NFA → Nat → Nat → Nat → Nat → Except Err NFA}
    (ih : RecurConn recur) {nfa nfa' : NFA} {s t lo k hi : Nat}
    (h : thompsonAlt recur nfa s t lo k hi = .ok nfa')
    (hg : nfa.Good) (hs : s < nfa.pool.length) (ht : t < nfa.pool.length) :
    nfa.Ext nfa' ∧ ∃ w, nfa'.Path s w t := by
  unfold thompsonAlt at h
  have hp := NFA.ext_push2 hg
  have hlen2 := nfa.push2_pool_length
  obtain ⟨n1, e1, h⟩ := Except.bind_eq_ok h
  obtain ⟨n2, e2, h⟩ := Except.bind_eq_ok h
  obtain ⟨n3, e3, h⟩ := Except.bind_eq_ok h
  obtain ⟨n4, e4, h⟩ := Except.bind_eq_ok h
  obtain ⟨n5, e5, h⟩ := Except.bind_eq_ok h
  obtain ⟨g1, l1, a1⟩ := NFA.ext_insert hp.grow.good (by omega) e1
  obtain ⟨g2, l2, a2⟩ := NFA.ext_insert g1.grow.good (by omega) e2
  obtain ⟨g3, w, pw⟩ := ih _ _ _ _ _ _ e3 g2.grow.good (by omega) (by omega)
  have hp3 := NFA.ext_push2 g3.grow.good
  have hlen3 := n3.push2_pool_length
  have l3 := g3.grow.len
  obtain ⟨g4, l4, _⟩ := NFA.ext_insert hp3.grow.good (by omega) e4
  obtain ⟨g5, l5, _⟩ := NFA.ext_insert g4.grow.good (by omega) e5
  obtain ⟨g6, _, _⟩ := ih _ _ _ _ _ _ h g5.grow.good (by omega) (by omega)
  have tail := hp3.chain (g4.chain (g5.chain g6))
  refine ⟨hp.chain (g1.chain (g2.chain (g3.chain tail))), ?_⟩
  have p1 : nfa'.Path s [] nfa.pool.length :=
    NFA.Path.eps_step ((g2.chain (g3.chain tail)).edges _ _ _ a1)
  have p2 : nfa'.Path nfa.pool.length w (nfa.pool.length + 1) := tail.path pw
  have p3 : nfa'.Path (nfa.pool.length + 1) [] t :=
    NFA.Path.eps_step ((g3.chain tail).edges _ _ _ a2)
  exact ⟨_, p1.append (p2.append p3)⟩

theorem thompsonCat_conn {recur : NFA → Nat → Nat → Nat → Nat → Except Err NFA}
    (ih : RecurConn recur) {nfa nfa' : NFA} {s t lo k hi : Nat}
    (h : thompsonCat recur nfa s t lo k hi = .ok nfa')
    (hg : nfa.Good) (hs : s < nfa.pool.length) (ht : t < nfa.pool.length) :
    nfa.Ext nfa' ∧ ∃ w, nfa'.Path s w t := by
  unfold thompsonCat at h
  have hp := NFA.ext_push2 hg
  have hlen2 := nfa.push2_pool_length
  obtain ⟨n1, e1, h⟩ := Except.bind_eq_ok h
  obtain ⟨n2, e2, h⟩ := Except.bind_eq_ok h
  obtain ⟨g1, l1, a1⟩ := NFA.ext_insert hp.grow.good (by omega) e1
  obtain ⟨g2, w1, pw1⟩ := ih _ _ _ _ _ _ e2 g1.grow.good (by omega) (by omega)
  have l2 := g2.grow.len
  obtain ⟨g3, w2, pw2⟩ := ih _ _ _ _ _ _ h g2.grow.good (by omega) (by omega)
  refine ⟨hp.chain (g1.chain (g2.chain g3)), ?_⟩
  have p1 : nfa'.Path s w1 nfa.pool.length := g3.path pw1
  have p2 : nfa'.Path nfa.pool.length [] (nfa.pool.length + 1) :=
    NFA.Path.eps_step ((g2.chain g3).edges _ _ _ a1)
  exact ⟨_, p1.append (p2.append pw2)⟩

theorem thompsonOpt_conn {recur : NFA → Nat → Nat → Nat → Nat → Except Err NFA}
    (ih : RecurConn recur) {nfa nfa' : NFA} {s t lo hi : Nat}
    (h : thompsonOpt recur nfa s t lo hi = .ok nfa')
    (hg : nfa.Good) (hs : s < nfa.pool.length) (ht : t < nfa.pool.length) :
    nfa.Ext nfa' ∧ ∃ w, nfa'.Path s w t := by
  unfold thompsonOpt at h
  have hp := NFA.ext_push2 hg
  have hlen2 := nfa.push2_pool_length
  obtain ⟨n1, e1, h⟩ := Except.bind_eq_ok h
  obtain ⟨n2, e2, h⟩ := Except.bind_eq_ok h
  obtain ⟨n3, e3, h⟩ := Except.bind_eq_ok h
  obtain ⟨g1, l1, _⟩ := NFA.ext_insert hp.grow.good (by omega) e1
  obtain ⟨g2, l2, a2⟩ := NFA.ext_insert g1.grow.good (by omega) e2
  obtain ⟨g3, l3, _⟩ := NFA.ext_insert g2.grow.good (by omega) e3
  obtain ⟨g4, _, _⟩ := ih _ _ _ _ _ _ h g3.grow.good (by omega) (by omega)
  refine ⟨hp.chain (g1.chain (g2.chain (g3.chain g4))), ?_⟩
  exact ⟨[], NFA.Path.eps_step ((g3.chain g4).edges _ _ _ a2)⟩

theorem thompsonStar_conn {recur : NFA → Nat → Nat → Nat → Nat → Except Err NFA}
    (ih : RecurConn recur) {nfa nfa' : NFA} {s t lo hi : Nat}
    (h : thompsonStar recur nfa s t lo hi = .ok nfa')
    (hg : nfa.Good) (hs : s < nfa.pool.length) (ht : t < nfa.pool.length) :
    nfa.Ext nfa' ∧ ∃ w, nfa'.Path s w t := by
  unfold thompsonStar at h
  have hp := NFA.ext_push2 hg
  have hlen2 := nfa.push2_pool_length
  obtain ⟨n1, e1, h⟩ := Except.bind_eq_ok h
  obtain ⟨n2, e2, h⟩ := Except.bind_eq_ok h
  obtain ⟨n3, e3, h⟩ := Except.bind_eq_ok h
  obtain ⟨n4, e4, h⟩ := Except.bind_eq_ok h
  obtain ⟨g1, l1, _⟩ := NFA.ext_insert hp.grow.good (by omega) e1
  obtain ⟨g2, l2, a2⟩ := NFA.ext_insert g1.grow.good (by omega) e2
  obtain ⟨g3, l3, _⟩ := NFA.ext_insert g2.grow.good (by omega) e3
  obtain ⟨g4, l4, _⟩ := NFA.ext_insert g3.grow.good (by omega) e4
  obtain ⟨g5, _, _⟩ := ih _ _ _ _ _ _ h g4.grow.good (by omega) (by omega)
  refine ⟨hp.chain (g1.chain (g2.chain (g3.chain (g4.chain g5)))), ?_⟩
  exact ⟨[], NFA.Path.eps_step ((g3.chain (g4.chain g5)).edges _ _ _ a2)⟩

theorem thompsonPlus_conn {recur : NFA → Nat → Nat → Nat → Nat → Except Err NFA}
    (ih : RecurConn recur) {nfa nfa' : NFA} {s t lo hi : Nat}
    (h : thompsonPlus recur nfa s t lo hi = .ok nfa')
    (hg : nfa.Good) (hs : s < nfa.pool.length) (ht : t < nfa.pool.length) :
    nfa.Ext nfa' ∧ ∃ w, nfa'.Path s w t := by
  unfold thompsonPlus at h
  have hp := NFA.ext_push2 hg
  have hlen2 := nfa.push2_pool_length
  obtain ⟨n1, e1, h⟩ := Except.bind_eq_ok h
  obtain ⟨n2, e2, h⟩ := Except.bind_eq_ok h
  obtain ⟨g1, l1, a1⟩ := NFA.ext_insert hp.grow.good (by omega) e1
  obtain ⟨g2, w1, pw1⟩ := ih _ _ _ _ _ _ e2 g1.grow.good (by omega) (by omega)
  have l2 := g2.grow.len
  obtain ⟨g3, w2, pw2⟩ := thompsonStar_conn ih h g2.grow.good (by omega) (by omega)
  refine ⟨hp.chain (g1.chain (g2.chain g3)), ?_⟩
  have p1 : nfa'.Path s w1 nfa.pool.length := g3.path pw1
  have p2 : nfa'.Path nfa.pool.length [] (nfa.pool.length + 1) :=
    NFA.Path.eps_step ((g2.chain g3).edges _ _ _ a1)
  exact ⟨_, p1.append (p2.append pw2)⟩

theorem NFA.fromRegexAux_conn (p : List Byte) : ∀ (fuel : Nat),
    RecurConn (NFA.fromRegexAux p fuel) := by
  intro fuel
  induction fuel with
  | zero => intro nfa s t lo hi nfa' h; simp [NFA.fromRegexAux] at h
  | succ fuel ih =>
    intro nfa s t lo hi nfa' h hg hs ht
    rw [NFA.fromRegexAux] at h
    cases hc : classify p fuel lo hi with
    | error e => rw [hc] at h; cases h
    | ok shape =>
      rw [hc] at h
      cases shape with
      | single ch =>
        obtain ⟨g, _, a⟩ := NFA.ext_insert hg ht h
        exact ⟨g, NFA.path_of_edge a⟩
      | escaped c =>
        obtain ⟨g, _, a⟩ := NFA.ext_insert hg ht h
        exact ⟨g, NFA.path_of_edge a⟩
      | alt k => exact thompsonAlt_conn ih h hg hs ht
      | cat k => exact thompsonCat_conn ih h hg hs ht
      | opt => exact thompsonOpt_conn ih h hg hs ht
      | star => exact thompsonStar_conn ih h hg hs ht
      | plus => exact thompsonPlus_conn ih h hg hs ht
      | paren => exact ih _ _ _ _ _ _ h hg hs ht

/-- Whenever `NFA::from_regex` returns, the NFA accepts some word. -/
theorem NFA.from_regex_nonempty {fuel : Nat} {p : List Byte} {N : NFA}
    (h : NFA.from_regex fuel p = .ok N) : ∃ w, N.Accepts w := by
  obtain ⟨_, _, _, _, _, _, hfin, hinit⟩ := NFA.from_regex_inv h
  unfold NFA.from_regex at h
  obtain ⟨n1, e1, h⟩ := Except.bind_eq_ok h
  obtain ⟨init, e2, h⟩ := Except.bind_eq_ok h
  cases h
  obtain ⟨_, w, pw⟩ := NFA.fromRegexAux_conn p fuel _ _ _ _ _ _ e1 startNFA_good
    (by simp) (by simp)
  exact ⟨w, 0, (hinit 0).2 Relation.ReflTransGen.refl, 1,
    @NFA.Path.lift n1 ⟨init, n1.pool⟩ (fun _ _ _ h => h) _ _ _ pw, (hfin 1).2 rfl⟩

/-- Whenever `DFA::from_regex` returns, `NFA::from_regex` has returned an NFA with the same
language. -/
theorem DFA.from_regex_accepts_iff {fuel : Nat} {p : List Byte} {D : DFA}
    (h : DFA.from_regex fuel p = .ok D) :
    ∃ N, NFA.from_regex fuel p = .ok N ∧ ∀ w, D.accepts w = true ↔ N.Accepts w := by
  unfold DFA.from_regex at h
  obtain ⟨n0, e0, h1⟩ := Except.bind_eq_ok h
  obtain ⟨d0, e1, h2⟩ := Except.bind_eq_ok h1
  obtain ⟨n1, e2, h3⟩ := Except.bind_eq_ok h2
  obtain ⟨d1, e3, h4⟩ := Except.bind_eq_ok h3
  obtain ⟨n2, e4, e5⟩ := Except.bind_eq_ok h4
  obtain ⟨_, hwf0, htv0, hiv0, hic0, _⟩ := NFA.from_regex_inv e0
  obtain ⟨st0, hd0, hinv0⟩ := n0.determinize_inv hwf0 htv0 hiv0 e1
  rw [← hd0] at e2
  have hrev1 := DFA.reverse_inv hinv0.dfa_wf hinv0.dfa_valid e2
  obtain ⟨st1, hd1, hinv1⟩ := n1.determinize_inv hrev1.nfa_wf hrev1.targetsValid
    hrev1.initValid e3
  rw [← hd1] at e4
  have hrev2 := DFA.reverse_inv hinv1.dfa_wf hinv1.dfa_valid e4
  obtain ⟨st2, hd2, hinv2⟩ := n2.determinize_inv hrev2.nfa_wf hrev2.targetsValid
    hrev2.initValid e5
  refine ⟨n0, e0, ?_⟩
  intro w
  rw [← hd2, hinv2.accepts_iff (hrev2.initClosed hinv1.dfa_noZero),
    hrev2.accepts_reverse_iff hinv1.dfa_noZero,
    hinv1.accepts_iff (hrev1.initClosed hinv0.dfa_noZero),
    hrev1.accepts_reverse_iff hinv0.dfa_noZero, List.reverse_reverse,
    hinv0.accepts_iff hic0]

/-- Whenever `DFA::from_regex` returns, from every state of the DFA some word leads to a
final state. -/
theorem DFA.from_regex_live {fuel : Nat} {p : List Byte} {D : DFA}
    (h : DFA.from_regex fuel p = .ok D) : D.Live := by
  obtain ⟨N, hN, hL⟩ := DFA.from_regex_accepts_iff h
  obtain ⟨w, hw⟩ := NFA.from_regex_nonempty hN
  rcases (DFA.from_regex_reduced h).live with hl | ⟨_, he⟩
  · exact hl
  · have := (hL w).2 hw
    rw [he w] at this
    cases this

/-- The DFA of a finished powerset construction is numbered in breadth-first order. -/
theorem DetInv.dfa_bfs {N : NFA} {st : DetState} {k : Nat} (h : DetInv N st k) :
    st.dfa.Bfs := by
  constructor
  · intro j hj0 hjl
    obtain ⟨p, hpj, ds, c, hp, hf⟩ := h.pred j hj0 (by rw [← h.len_pool]; exact hjl)
    exact ⟨p, c, hpj, by simp [DFA.step, hp, hf]⟩
  · intro j j' i' c' hj0 hjj hs
    obtain ⟨ds', hp', hf'⟩ : ∃ ds', st.dfa.pool[i']? = some ds' ∧
        mapFind c' ds'.trans = some j' := by
      unfold DFA.step at hs
      cases hp : st.dfa.pool[i']? with
      | none => rw [hp] at hs; cases hs
      | some ds' => rw [hp] at hs; exact ⟨ds', rfl, hs⟩
    obtain ⟨i, ds, c, hp, hf, hlex⟩ := h.bfs j j' i' ds' c' hj0 hjj hp' hf'
    exact ⟨i, c, by simp [DFA.step, hp, hf], hlex⟩

/-- Whenever `DFA::from_regex` returns, the states of the DFA are numbered in breadth-first
order. -/
theorem DFA.from_regex_bfs {fuel : Nat} {p : List Byte} {D : DFA}
    (h : DFA.from_regex fuel p = .ok D) : D.Bfs := by
  unfold DFA.from_regex at h
  obtain ⟨n0, e0, h1⟩ := Except.bind_eq_ok h
  obtain ⟨d0, e1, h2⟩ := Except.bind_eq_ok h1
  obtain ⟨n1, e2, h3⟩ := Except.bind_eq_ok h2
  obtain ⟨d1, e3, h4⟩ := Except.bind_eq_ok h3
  obtain ⟨n2, e4, e5⟩ := Except.bind_eq_ok h4
  obtain ⟨_, hwf0, htv0, hiv0, hic0, _⟩ := NFA.from_regex_inv e0
  obtain ⟨st0, hd0, hinv0⟩ := n0.determinize_inv hwf0 htv0 hiv0 e1
  rw [← hd0] at e2
  have hrev1 := DFA.reverse_inv hinv0.dfa_wf hinv0.dfa_valid e2
  obtain ⟨st1, hd1, hinv1⟩ := n1.determinize_inv hrev1.nfa_wf hrev1.targetsValid
    hrev1.initValid e3
  rw [← hd1] at e4
  have hrev2 := DFA.reverse_inv hinv1.dfa_wf hinv1.dfa_valid e4
  obtain ⟨st2, hd2, hinv2⟩ := n2.determinize_inv hrev2.nfa_wf hrev2.targetsValid
    hrev2.initValid e5
  rw [← hd2]
  exact hinv2.dfa_bfs

end Dank

namespace Dank

/-! ## Two reduced DFAs numbered in breadth-first order with the same language are equal -/

theorem DFA.acceptsFrom_step_cons (D : DFA) (q : Nat) (c : Byte) (w : List Byte) :
    D.acceptsFrom q (c :: w) =
      match D.step q c with
      | none => false
      | some q1 => D.acceptsFrom q1 w := by
  unfold DFA.acceptsFrom
  simp only [DFA.run]
  cases D.step q c <;> rfl

/-- States with the same words stay so along a transition. -/
theorem DFA.sim_step {D1 D2 : DFA} (v1 : D1.valid) (l1 : D1.Live) {i j i1 : Nat}
    {c : Byte} (hs : ∀ w, D1.acceptsFrom i w = D2.acceptsFrom j w)
    (h : D1.step i c = some i1) :
    ∃ j1, D2.step j c = some j1 ∧ ∀ w, D1.acceptsFrom i1 w = D2.acceptsFrom j1 w := by
  obtain ⟨y, hy⟩ := l1 i1 (DFA.step_target_lt v1 h)
  have e1 : ∀ w, D1.acceptsFrom i (c :: w) = D1.acceptsFrom i1 w := by
    intro w; rw [DFA.acceptsFrom_step_cons, h]
  have h2 : D2.acceptsFrom j (c :: y) = true := by rw [← hs, e1]; exact hy
  rw [DFA.acceptsFrom_step_cons] at h2
  cases hj : D2.step j c with
  | none => rw [hj] at h2; cases h2
  | some j1 =>
    refine ⟨j1, rfl, fun w => ?_⟩
    rw [← e1, hs, DFA.acceptsFrom_step_cons, hj]

/-- Every state of the first DFA has a state of the second one with the same words. -/
theorem DFA.sim_total {D1 D2 : DFA} (h1 : D1.Reduced) (h2 : D2.Reduced) (l1 : D1.Live)
    (hL : ∀ w, D1.accepts w = D2.accepts w) {i : Nat} (hi : i < D1.pool.length) :
    ∃ j, j < D2.pool.length ∧ ∀ w, D1.acceptsFrom i w = D2.acceptsFrom j w := by
  obtain ⟨x, hx⟩ := h1.accessible i hi
  have key : ∀ (x : List Byte) (q q' : Nat), q' < D2.pool.length →
      (∀ w, D1.acceptsFrom q w = D2.acceptsFrom q' w) → D1.run q x = some i →
      ∃ j, j < D2.pool.length ∧ ∀ w, D1.acceptsFrom i w = D2.acceptsFrom j w := by
    intro x
    induction x with
    | nil =>
      intro q q' hq' hs hr
      simp only [DFA.run, Option.some.injEq] at hr
      subst hr
      exact ⟨q', hq', hs⟩
    | cons c x ih =>
      intro q q' hq' hs hr
      simp only [DFA.run] at hr
      cases hst : D1.step q c with
      | none => rw [hst] at hr; cases hr
      | some q1 =>
        rw [hst] at hr
        obtain ⟨j1, hj1, hs1⟩ := DFA.sim_step h1.valid l1 hs hst
        exact ih q1 j1 (DFA.step_target_lt h2.valid hj1) hs1 hr
  exact key x D1.init D2.init h2.valid.1 hL hx

theorem lex_measure {a i : Nat} {b c : Byte} (h : a < i ∨ (a = i ∧ b < c)) :
    a * 256 + b.val < i * 256 + c.val ∧ a ≤ i := by
  have hb := b.isLt
  have hc := c.isLt
  rcases h with h | ⟨h, hbc⟩
  · constructor <;> omega
  · have := Fin.lt_def.1 hbc
    constructor <;> omega

/-- In two reduced, live DFAs numbered in breadth-first order that accept the same language,
the states with the same number accept the same words. -/
theorem DFA.sim_diag {D1 D2 : DFA} (h1 : D1.Reduced) (h2 : D2.Reduced) (l1 : D1.Live)
    (l2 : D2.Live) (b1 : D1.Bfs) (b2 : D2.Bfs) (hL : ∀ w, D1.accepts w = D2.accepts w) :
    ∀ j, j < D1.pool.length → ∀ w, D1.acceptsFrom j w = D2.acceptsFrom j w := by
  have hn : D1.pool.length = D2.pool.length := h1.card_eq h2 hL
  have hL' : ∀ w, D2.accepts w = D1.accepts w := fun w => (hL w).symm
  intro j
  induction j using Nat.strong_induction_on with
  | _ j ih =>
    intro hj
    by_cases hj0 : j = 0
    · subst hj0
      intro w
      have := hL w
      unfold DFA.accepts at this
      rw [h1.init0, h2.init0] at this
      exact this
    · obtain ⟨j2, hj2, s2⟩ := DFA.sim_total h1 h2 l1 hL hj
      obtain ⟨k, hk, sk⟩ := DFA.sim_total h2 h1 l2 hL' (show j < D2.pool.length by omega)
      by_cases hjj : j2 = j
      · rw [hjj] at s2; exact s2
      by_cases hkj : k = j
      · rw [hkj] at sk; exact fun w => (sk w).symm
      exfalso
      have hlt2 : j < j2 := by
        by_contra hc
        have hlt : j2 < j := by omega
        have hd := ih j2 hlt (by omega)
        exact hjj (h1.distinct j2 j (by omega) hj (fun w => by rw [hd, s2]))
      have hltk : j < k := by
        by_contra hc
        have hlt : k < j := by omega
        have hd := ih k hlt hk
        exact hkj (h2.distinct k j (by omega) (by omega) (fun w => by rw [← hd, sk]))
      have desc : ∀ m, ∀ (i : Nat) (c : Byte), i * 256 + c.val = m → i < j →
          D1.step i c = some j → False := by
        intro m
        induction m using Nat.strong_induction_on with
        | _ m ihm =>
          intro i c hm hij hs
          have si := ih i hij (DFA.step_lt hs)
          obtain ⟨j', hj', sj'⟩ := DFA.sim_step h1.valid l1 si hs
          have e1 : j' = j2 :=
            h2.distinct j' j2 (DFA.step_target_lt h2.valid hj') hj2
              (fun w => by rw [← sj', s2])
          rw [e1] at hj'
          obtain ⟨a, b, hab, hlex⟩ := b2.order j j2 i c (by omega) hlt2 hj'
          obtain ⟨hm1, hai⟩ := lex_measure hlex
          have sa := ih a (by omega) (by omega)
          obtain ⟨k', hk', sk'⟩ := DFA.sim_step h2.valid l2 (fun w => (sa w).symm) hab
          have e2 : k' = k :=
            h1.distinct k' k (DFA.step_target_lt h1.valid hk') hk
              (fun w => by rw [← sk', sk])
          rw [e2] at hk'
          obtain ⟨a', b', hab', hlex'⟩ := b1.order j k a b (by omega) hltk hk'
          obtain ⟨hm2, hai'⟩ := lex_measure hlex'
          exact ihm (a' * 256 + b'.val) (by omega) a' b' rfl (by omega) hab'
      obtain ⟨i, c, hij, hs⟩ := b1.pred j (by omega) hj
      exact desc _ i c rfl hij hs

/-- Two maps with ascending keys and the same lookups are the same list. -/
theorem sorted_map_ext {m1 m2 : List (Byte × Nat)} (s1 : keysSorted m1) (s2 : keysSorted m2)
    (h : ∀ c, mapFind c m1 = mapFind c m2) : m1 = m2 := by
  rw [sorted_entries_eq s1, sorted_entries_eq s2]
  have : (fun c => (mapFind c m1).map (fun t => (c, t))) =
      (fun c => (mapFind c m2).map (fun t => (c, t))) := by
    funext c; rw [h]
  rw [this]

/-- Two reduced, live DFAs numbered in breadth-first order that accept the same language are
the same value. -/
theorem DFA.Reduced.eq_of_bfs {D1 D2 : DFA} (h1 : D1.Reduced) (h2 : D2.Reduced) (l1 : D1.Live)
    (l2 : D2.Live) (b1 : D1.Bfs) (b2 : D2.Bfs) (hL : ∀ w, D1.accepts w = D2.accepts w) :
    D1 = D2 := by
  have hn : D1.pool.length = D2.pool.length := h1.card_eq h2 hL
  have hd := DFA.sim_diag h1 h2 l1 l2 b1 b2 hL
  have hd' := DFA.sim_diag h2 h1 l2 l1 b2 b1 (fun w => (hL w).symm)
  have hstep : ∀ i c, i < D1.pool.length → D1.step i c = D2.step i c := by
    intro i c hi
    cases hs : D1.step i c with
    | some i1 =>
      obtain ⟨j1, hj1, sj⟩ := DFA.sim_step h1.valid l1 (hd i hi) hs
      have hi1 := DFA.step_target_lt h1.valid hs
      have : i1 = j1 := h2.distinct i1 j1 (by omega) (DFA.step_target_lt h2.valid hj1)
        (fun w => by rw [← hd i1 hi1, sj])
      rw [hj1, this]
    | none =>
      cases hs2 : D2.step i c with
      | none => rfl
      | some j1 =>
        obtain ⟨i1, hi1, _⟩ := DFA.sim_step h2.valid l2 (hd' i (by omega)) hs2
        rw [hs] at hi1
        cases hi1
  have hpool : D1.pool = D2.pool := by
    apply List.ext_getElem hn
    intro i hi1 hi2
    have e1 : D1.pool[i]? = some D1.pool[i] := List.getElem?_eq_getElem hi1
    have e2 : D2.pool[i]? = some D2.pool[i] := List.getElem?_eq_getElem hi2
    have hfin : D1.pool[i].final = D2.pool[i].final := by
      have := hd i hi1 []
      simpa [DFA.acceptsFrom, DFA.run, DFA.isFinal, e1, e2] using this
    have htr : D1.pool[i].trans = D2.pool[i].trans := by
      apply sorted_map_ext (h1.wf _ (List.getElem_mem hi1)) (h2.wf _ (List.getElem_mem hi2))
      intro c
      have := hstep i c hi1
      simpa [DFA.step, e1, e2] using this
    cases ha : D1.pool[i] with
    | mk f1 t1 =>
      cases hb : D2.pool[i] with
      | mk f2 t2 =>
        rw [ha, hb] at hfin htr
        simp only at hfin htr
        rw [hfin, htr]
  cases D1 with
  | mk i1 p1 =>
    cases D2 with
    | mk i2 p2 =>
      have e0 : i1 = i2 := by
        have a := h1.init0
        have b := h2.init0
        simp only at a b
        rw [a, b]
      simp only at hpool
      rw [e0, hpool]

end Dank

namespace Dank

/-! ## Statements about the encoder -/

theorem abStarEncoder_valid : abStarEncoder.Valid :=
  { states_ne := by decide
    sigma_ne := by decide
    functional := by decide
    reachable := by
      intro f hf
      have : f = 1 := by simpa [abStarEncoder] using hf
      subst this
      exact ⟨[97], rfl⟩
    nonempty := by decide }

/-- C1: for every well-formed pattern of the grammar, given as the print of a parse tree that
respects the precedences (postfix operators over concatenation over alternation, atoms plain
or escaped bytes in 1..255), `DFA::from_regex` returns once the fuel is large enough, no
assertion failing, and the DFA it returns accepts exactly the language of the pattern. -/
theorem from_regex_correct (r : Regex) (hwf : r.WellFormed) :
    ∃ F, ∀ fuel, F ≤ fuel → ∃ D, DFA.from_regex fuel r.print = .ok D ∧
      ∀ w, D.accepts w = true ↔ w ∈ r.lang :=
  DFA.from_regex_language r hwf

/-- C1 at the pattern `ab*`. -/
theorem from_regex_correct_witness :
    (Regex.cat (.atom 97) (.star (.atom 98))).WellFormed ∧
      (Regex.cat (.atom 97) (.star (.atom 98))).print = [97, 98, 42] ∧
      ∃ F, ∀ fuel, F ≤ fuel →
        ∃ D, DFA.from_regex fuel (Regex.cat (.atom 97) (.star (.atom 98))).print = .ok D ∧
          ∀ w, D.accepts w = true ↔ w ∈ (Regex.cat (.atom 97) (.star (.atom 98))).lang :=
  ⟨by decide, by decide, from_regex_correct _ (by decide)⟩

/-- C5: two patterns on which `DFA::from_regex` succeeds and whose DFAs accept the same
strings give DFAs with the same number of states. -/
theorem from_regex_state_count (r1 r2 : List Byte) (fuel1 fuel2 : Nat) (D1 D2 : DFA)
    (h1 : DFA.from_regex fuel1 r1 = .ok D1) (h2 : DFA.from_regex fuel2 r2 = .ok D2)
    (hL : ∀ w, D1.accepts w = D2.accepts w) : D1.pool.length = D2.pool.length :=
  (DFA.from_regex_reduced h1).card_eq (DFA.from_regex_reduced h2) hL

/-- C5 at the patterns `aa*` and `a+`. -/
theorem from_regex_state_count_witness :
    DFA.from_regex 20 [97, 97, 42] = .ok ⟨0, [⟨false, [(97, 1)]⟩, ⟨true, [(97, 1)]⟩]⟩ ∧
    DFA.from_regex 12 [97, 43] = .ok ⟨0, [⟨false, [(97, 1)]⟩, ⟨true, [(97, 1)]⟩]⟩ ∧
    (⟨0, [⟨false, [(97, 1)]⟩, ⟨true, [(97, 1)]⟩]⟩ : DFA).pool.length =
      (⟨0, [⟨false, [(97, 1)]⟩, ⟨true, [(97, 1)]⟩]⟩ : DFA).pool.length :=
  ⟨rfl, rfl, from_regex_state_count [97, 97, 42] [97, 43] 20 12 _ _ rfl rfl (fun _ => rfl)⟩

/-- C2: for every validated encoder and every index `i` below `|L_n|`, `unrank` returns a word
and `rank` of that word is `i` again. -/
theorem rank_unrank_id (e : Encoder) (_hv : e.Valid) (i : Nat) (hi : i < e.numWords) :
    ∃ w, e.unrank i = some w ∧ e.rank w = some i :=
  e.unrank_rank_spec i hi

theorem rank_unrank_id_witness :
    abStarEncoder.Valid ∧ 2 < abStarEncoder.numWords ∧
      ∃ w, abStarEncoder.unrank 2 = some w ∧ abStarEncoder.rank w = some 2 :=
  ⟨abStarEncoder_valid, by decide, rank_unrank_id abStarEncoder abStarEncoder_valid 2 (by decide)⟩

/-- C3: for every validated encoder and every accepted word `w` with `|w| ≤ n`, `rank` returns
an index below `|L_n|` and `unrank` of it is `w` again. -/
theorem unrank_rank_id (e : Encoder) (_hv : e.Valid) (w : List Byte)
    (ha : e.accepts w = true) (hl : w.length ≤ e.n) :
    ∃ r, e.rank w = some r ∧ e.unrank r = some w ∧ r < e.numWords :=
  e.rank_unrank_spec w ha hl

theorem unrank_rank_id_witness :
    abStarEncoder.Valid ∧ abStarEncoder.accepts [97, 98, 98] = true ∧
      [97, 98, 98].length ≤ abStarEncoder.n ∧
      ∃ r, abStarEncoder.rank [97, 98, 98] = some r ∧
        abStarEncoder.unrank r = some [97, 98, 98] ∧ r < abStarEncoder.numWords :=
  ⟨abStarEncoder_valid, by decide, by decide,
    unrank_rank_id abStarEncoder abStarEncoder_valid [97, 98, 98] (by decide) (by decide)⟩

/-- C4: for every validated encoder, `rank` is strictly monotone from the canonical order
(shorter first, then lexicographic by byte value) on the accepted words of length at most `n`
to the integers, and `unrank i` is the word with exactly `i` words of `L_n` before it. -/
theorem rank_monotone (e : Encoder) (_hv : e.Valid) :
    (∀ w w' : List Byte, e.accepts w = true → w.length ≤ e.n →
      e.accepts w' = true → w'.length ≤ e.n → Precedes w w' →
      ∃ r r', e.rank w = some r ∧ e.rank w' = some r' ∧ r < r') ∧
    (∀ (i : Nat) (w : List Byte), e.unrank i = some w →
      Set.ncard {v | e.accepts v = true ∧ v.length ≤ e.n ∧ Precedes v w} = i) :=
  ⟨fun w w' ha hl ha' hl' hp => e.rank_lt_spec w w' ha hl ha' hl' hp,
   fun i w hu => e.unrank_position i w hu⟩

theorem rank_monotone_witness :
    abStarEncoder.Valid ∧
    (∀ w w' : List Byte, abStarEncoder.accepts w = true → w.length ≤ abStarEncoder.n →
      abStarEncoder.accepts w' = true → w'.length ≤ abStarEncoder.n → Precedes w w' →
      ∃ r r', abStarEncoder.rank w = some r ∧ abStarEncoder.rank w' = some r' ∧ r < r') ∧
    (∀ (i : Nat) (w : List Byte), abStarEncoder.unrank i = some w →
      Set.ncard {v | abStarEncoder.accepts v = true ∧ v.length ≤ abStarEncoder.n ∧
        Precedes v w} = i) :=
  ⟨abStarEncoder_valid, rank_monotone abStarEncoder abStarEncoder_valid⟩

/-- C9: for every validated encoder and `0 ≤ a ≤ b ≤ n`, `num_words(a, b)` is the number of
distinct accepted words `w` with `a ≤ |w| ≤ b`, and every table entry `T[q][i]` is the number
of distinct words of length exactly `i` leading from `q` to a final state. -/
theorem num_words_counts (e : Encoder) (_hv : e.Valid) (a b : Nat) (hab : a ≤ b)
    (_hbn : b ≤ e.n) :
    e.getNumWordsInLanguage a b
      = Set.ncard {w : List Byte | e.accepts w = true ∧ a ≤ w.length ∧ w.length ≤ b} ∧
    ∀ q i, e.T q i = Set.ncard {w : List Byte | w.length = i ∧ e.acceptsFrom q w = true} :=
  ⟨e.numWords_count a b hab, fun q i => e.T_count q i⟩

theorem num_words_counts_witness :
    abStarEncoder.Valid ∧ 1 ≤ 3 ∧ 3 ≤ abStarEncoder.n ∧
    (abStarEncoder.getNumWordsInLanguage 1 3
      = Set.ncard {w : List Byte | abStarEncoder.accepts w = true ∧ 1 ≤ w.length ∧
          w.length ≤ 3} ∧
    ∀ q i, abStarEncoder.T q i
      = Set.ncard {w : List Byte | w.length = i ∧ abStarEncoder.acceptsFrom q w = true}) :=
  ⟨abStarEncoder_valid, by decide, by decide,
    num_words_counts abStarEncoder abStarEncoder_valid 1 3 (by decide) (by decide)⟩

/-! ## Statements about reversal, determinization and minimization -/

/-- C6 as stated fails: `zeroDFA` has a valid initial state and valid targets and accepts the
string `[0]`, yet `minimize` returns a one-state DFA that accepts nothing. -/
theorem minimize_zero_label :
    zeroDFA.WF ∧ zeroDFA.valid ∧ zeroDFA.accepts [0] = true ∧
      zeroDFA.minimize 10 = .ok ⟨0, [⟨false, []⟩]⟩ ∧
      DFA.accepts ⟨0, [⟨false, []⟩]⟩ [0] = false :=
  ⟨by decide, by decide, by decide, rfl, by decide⟩

/-- C6, amended: for every DFA with valid initial state and targets and without a transition
labelled 0, `minimize` terminates (any fuel from the stated bound on) and its result accepts
exactly the strings the DFA accepts. -/
theorem minimize_language (D : DFA) (hwf : D.WF) (hv : D.valid) (hz : D.noZero)
    (fuel : Nat) (hf : 2 ^ (2 ^ D.pool.length) + 1 + 2 * 2 ^ D.pool.length ≤ fuel) :
    ∃ M, D.minimize fuel = .ok M ∧ ∀ w, M.accepts w = D.accepts w :=
  D.minimize_spec hwf hv hz fuel hf

theorem minimize_language_witness :
    abStarDFA.WF ∧ abStarDFA.valid ∧ abStarDFA.noZero ∧
      2 ^ (2 ^ abStarDFA.pool.length) + 1 + 2 * 2 ^ abStarDFA.pool.length ≤ 25 ∧
      ∃ M, abStarDFA.minimize 25 = .ok M ∧ ∀ w, M.accepts w = abStarDFA.accepts w :=
  ⟨by decide, by decide, by decide, by decide,
    minimize_language abStarDFA (by decide) (by decide) (by decide) 25 (by decide)⟩

/-- C7 as stated fails: `strayInitNFA` has valid transition targets and an ε-closed initial
set, but its initial set names a state outside the pool and `determinize` reads
`pool[0]` out of range, whatever the fuel. -/
theorem determinize_stray_init :
    strayInitNFA.WF ∧ strayInitNFA.targetsValid ∧ strayInitNFA.initClosed ∧
      ∀ fuel, strayInitNFA.determinize fuel = .error .abort :=
  ⟨by decide, by decide, by decide, fun _ => rfl⟩

/-- C7, amended: for every NFA whose transition targets and initial states are valid pool
indices and whose initial set is ε-closed, `determinize` terminates (any fuel from the stated
bound on) and the resulting DFA accepts `w` iff the NFA accepts `w`. -/
theorem determinize_language (N : NFA) (hwf : N.WF) (htv : N.targetsValid)
    (hiv : N.initValid) (hic : N.initClosed) (fuel : Nat)
    (hf : 2 ^ N.pool.length + 1 + 2 * N.pool.length ≤ fuel) :
    ∃ D, N.determinize fuel = .ok D ∧ ∀ w, D.accepts w = true ↔ N.Accepts w := by
  obtain ⟨st, hst, hinv⟩ := N.determinize_spec hwf htv hiv fuel hf
  exact ⟨st.dfa, hst, hinv.accepts_iff hic⟩

theorem determinize_language_witness :
    abStarNFA.WF ∧ abStarNFA.targetsValid ∧ abStarNFA.initValid ∧ abStarNFA.initClosed ∧
      2 ^ abStarNFA.pool.length + 1 + 2 * abStarNFA.pool.length ≤ 15 ∧
      ∃ D, abStarNFA.determinize 15 = .ok D ∧ ∀ w, D.accepts w = true ↔ abStarNFA.Accepts w :=
  ⟨by decide, by decide, by decide, by decide, by decide,
    determinize_language abStarNFA (by decide) (by decide) (by decide) (by decide) 15
      (by decide)⟩

/-- C8 as stated fails: `zeroDFA` has a valid initial state and valid targets, its mirror
image accepts the empty string (the mirrored byte-0 transition is an ε-move), but `zeroDFA`
does not accept the reversal of the empty string. -/
theorem reverse_zero_label :
    zeroDFA.WF ∧ zeroDFA.valid ∧
      ∃ N, zeroDFA.reverse = .ok N ∧ N.Accepts [] ∧ zeroDFA.accepts ([] : List Byte).reverse = false := by
  refine ⟨by decide, by decide,
    ⟨[1], [⟨true, []⟩, ⟨false, [(0, [0])]⟩]⟩, rfl, ?_, by decide⟩
  exact ⟨1, by simp, 0, NFA.Path.eps (v := 0) (by decide) (NFA.Path.nil 0), rfl⟩

/-- C8, amended: for every DFA with valid initial state and targets and without a transition
labelled 0, `reverse` returns an NFA accepting exactly the reversals of the strings the DFA
accepts, and reversing twice with a determinization in between gives back the language. -/
theorem reverse_language (D : DFA) (hwf : D.WF) (hv : D.valid) (hz : D.noZero)
    (fuel : Nat) (hf : 2 ^ D.pool.length + 1 + 2 * D.pool.length ≤ fuel) :
    ∃ N, D.reverse = .ok N ∧ (∀ w, N.Accepts w ↔ D.accepts w.reverse = true) ∧
      ∃ D1 N2, N.determinize fuel = .ok D1 ∧ D1.reverse = .ok N2 ∧
        ∀ w, N2.Accepts w ↔ D.accepts w = true := by
  obtain ⟨N, st, hN, hrev, hst, hinv, hacc⟩ := D.reverse_determinize_spec hwf hv hz fuel hf
  obtain ⟨N2, hN2, hrev2⟩ := st.dfa.reverse_spec hinv.dfa_wf hinv.dfa_valid
  refine ⟨N, hN, hrev.accepts_reverse_iff hz, st.dfa, N2, hst, hN2, ?_⟩
  intro w
  rw [hrev2.accepts_reverse_iff hinv.dfa_noZero, hacc, List.reverse_reverse]

theorem reverse_language_witness :
    abStarDFA.WF ∧ abStarDFA.valid ∧ abStarDFA.noZero ∧
      2 ^ abStarDFA.pool.length + 1 + 2 * abStarDFA.pool.length ≤ 10 ∧
      ∃ N, abStarDFA.reverse = .ok N ∧ (∀ w, N.Accepts w ↔ abStarDFA.accepts w.reverse = true) ∧
        ∃ D1 N2, N.determinize 10 = .ok D1 ∧ D1.reverse = .ok N2 ∧
          ∀ w, N2.Accepts w ↔ abStarDFA.accepts w = true :=
  ⟨by decide, by decide, by decide, by decide,
    reverse_language abStarDFA (by decide) (by decide) (by decide) 10 (by decide)⟩

/-- C10, evaluation at the failing inputs: the one-byte patterns `(` and `)` are not
rejected; `DFA::from_regex` returns automata that accept the parenthesis as a literal. -/
theorem from_regex_single_paren :
    DFA.from_regex 30 [LPAREN] = .ok ⟨0, [⟨false, [(LPAREN, 1)]⟩, ⟨true, []⟩]⟩ ∧
    DFA.from_regex 30 [RPAREN] = .ok ⟨0, [⟨false, [(RPAREN, 1)]⟩, ⟨true, []⟩]⟩ ∧
    DFA.accepts ⟨0, [⟨false, [(LPAREN, 1)]⟩, ⟨true, []⟩]⟩ [LPAREN] = true ∧
    DFA.accepts ⟨0, [⟨false, [(RPAREN, 1)]⟩, ⟨true, []⟩]⟩ [RPAREN] = true :=
  ⟨rfl, rfl, by decide, by decide⟩

/-- C11 as stated fails: the patterns `*`, `*a`, `(*)` and `a|*`, in which `*` has no
operand, are not rejected; `DFA::from_regex` returns automata in which `*` is a literal. -/
theorem stray_operator_accepted :
    DFA.from_regex 30 [STAR] = .ok ⟨0, [⟨false, [(STAR, 1)]⟩, ⟨true, []⟩]⟩ ∧
    DFA.from_regex 30 [STAR, 97] =
      .ok ⟨0, [⟨false, [(STAR, 1)]⟩, ⟨false, [(97, 2)]⟩, ⟨true, []⟩]⟩ ∧
    DFA.from_regex 30 [LPAREN, STAR, RPAREN] =
      .ok ⟨0, [⟨false, [(STAR, 1)]⟩, ⟨true, []⟩]⟩ ∧
    DFA.from_regex 30 [97, PIPE, STAR] =
      .ok ⟨0, [⟨false, [(STAR, 1), (97, 1)]⟩, ⟨true, []⟩]⟩ :=
  ⟨rfl, rfl, rfl, rfl⟩

/-- C11, amended: a pattern in which postfix operators `?`, `*`, `+` stand without operand, at
the head of the pattern, directly after `(` or directly after `|`, and which is otherwise a
pattern of the grammar with bytes in 1..255, is not rejected: with enough fuel
`NFA::from_regex` and `DFA::from_regex` return, and the automaton accepts the language of the
pattern read with each such operator byte as a literal. -/
theorem stray_operator_literal (r : Regex) (hlax : r.Lax true) (h0 : (0 : Byte) ∉ r.print) :
    (∃ F N, (∀ fuel, F ≤ fuel → NFA.from_regex fuel r.print = .ok N) ∧
      ∀ w, N.Accepts w ↔ w ∈ r.lang) ∧
    (∃ F, ∀ fuel, F ≤ fuel → ∃ D, DFA.from_regex fuel r.print = .ok D ∧
      ∀ w, D.accepts w = true ↔ w ∈ r.lang) := by
  rw [← Regex.langNul_eq_of_print h0]
  exact ⟨NFA.from_regex_nfa_lax r hlax, DFA.from_regex_lax r hlax⟩

/-- C11 amended, at the pattern `(*a|+)b`. -/
theorem stray_operator_literal_witness :
    Regex.Lax true (.cat (.group (.alt (.cat (.atom STAR) (.atom 97)) (.atom PLUS))) (.atom 98)) ∧
    (Regex.cat (.group (.alt (.cat (.atom STAR) (.atom 97)) (.atom PLUS))) (.atom 98)).print =
      [LPAREN, STAR, 97, PIPE, PLUS, RPAREN, 98] ∧
    (0 : Byte) ∉
      (Regex.cat (.group (.alt (.cat (.atom STAR) (.atom 97)) (.atom PLUS))) (.atom 98)).print ∧
    ((∃ F N, (∀ fuel, F ≤ fuel → NFA.from_regex fuel
        (Regex.cat (.group (.alt (.cat (.atom STAR) (.atom 97)) (.atom PLUS))) (.atom 98)).print =
          .ok N) ∧
      ∀ w, N.Accepts w ↔
        w ∈ (Regex.cat (.group (.alt (.cat (.atom STAR) (.atom 97)) (.atom PLUS)))
          (.atom 98)).lang) ∧
    (∃ F, ∀ fuel, F ≤ fuel → ∃ D, DFA.from_regex fuel
        (Regex.cat (.group (.alt (.cat (.atom STAR) (.atom 97)) (.atom PLUS))) (.atom 98)).print =
          .ok D ∧
      ∀ w, D.accepts w = true ↔
        w ∈ (Regex.cat (.group (.alt (.cat (.atom STAR) (.atom 97)) (.atom PLUS)))
          (.atom 98)).lang)) :=
  ⟨by decide, by decide, by decide, stray_operator_literal _ (by decide) (by decide)⟩

/-- C12, evaluation at the failing input: the one-byte pattern made of a single backslash
ends in an unescaped backslash and is not rejected; `DFA::from_regex` returns the automaton
of the literal backslash. -/
theorem lone_backslash_accepted :
    endsInEscape [BSLASH] = true ∧
    DFA.from_regex 30 [BSLASH] = .ok ⟨0, [⟨false, [(BSLASH, 1)]⟩, ⟨true, []⟩]⟩ ∧
    DFA.accepts ⟨0, [⟨false, [(BSLASH, 1)]⟩, ⟨true, []⟩]⟩ [BSLASH] = true :=
  ⟨by decide, rfl, by decide⟩

/-- C13: for every DFA (its maps having ascending keys, as every `std::map` has), the text
returned by `to_fst` is the concatenation, over the states in increasing index order, of one
line `i<TAB>t<TAB>c<TAB>c<LF>` for each transition `i --c--> t` in increasing byte order,
followed by the line `i<LF>` when state `i` is final: the lines are exactly the transitions
and the final states, each once. -/
theorem to_fst_format (D : DFA) (hwf : D.WF) :
    D.to_fst = fstText D.fstLines ∧
    (∀ s t c, FstLine.arc s t c ∈ D.fstLines ↔ D.step s c = some t) ∧
    (∀ s, FstLine.final s ∈ D.fstLines ↔ D.isFinal s = true) ∧
    D.fstLines.Nodup :=
  ⟨D.to_fst_lines hwf, fun _ _ _ => DFA.arc_mem_fstLines, fun _ => DFA.final_mem_fstLines,
    D.fstLines_nodup⟩

set_option maxRecDepth 20000 in
/-- C13 at the DFA of `ab*`. -/
theorem to_fst_format_witness :
    abStarDFA.WF ∧
    abStarDFA.to_fst = "0\t1\t97\t97\n1\t1\t98\t98\n1\n" ∧
    abStarDFA.fstLines = [.arc 0 1 97, .arc 1 1 98, .final 1] ∧
    (abStarDFA.to_fst = fstText abStarDFA.fstLines ∧
    (∀ s t c, FstLine.arc s t c ∈ abStarDFA.fstLines ↔ abStarDFA.step s c = some t) ∧
    (∀ s, FstLine.final s ∈ abStarDFA.fstLines ↔ abStarDFA.isFinal s = true) ∧
    abStarDFA.fstLines.Nodup) :=
  ⟨by decide, by decide, rfl, to_fst_format abStarDFA (by decide)⟩

/-- C14: for every well-formed pattern, the DFA returned by `DFA::from_regex` has `init = 0`
and a transition out of state 0, so state 0 is a source in the text of `to_fst`, no source is
smaller, and the start state inferred from the lines of the text (state 0 if present, else
the smallest source) is the initial state of the DFA. -/
theorem from_regex_start_state (r : Regex) (hwf : r.WellFormed) (n : Nat) :
    ∃ F, ∀ fuel, F ≤ fuel → ∃ D, DFA.from_regex fuel r.print = .ok D ∧
      D.init = 0 ∧ (∃ c t, D.step 0 c = some t) ∧
      D.to_fst = fstText D.fstLines ∧
      (∃ t c, FstLine.arc D.init t c ∈ D.fstLines) ∧
      (∀ s t c, FstLine.arc s t c ∈ D.fstLines → D.init ≤ s) ∧
      Encoder.start ⟨Fst.ofLines D.fstLines, n⟩ = D.init := by
  obtain ⟨F, hF⟩ := DFA.from_regex_language r hwf
  refine ⟨F, fun fuel hf => ?_⟩
  obtain ⟨D, hD, hL⟩ := hF fuel hf
  have hred := DFA.from_regex_reduced hD
  obtain ⟨w, hw, hne⟩ := r.exists_nonempty
  obtain ⟨c, t, hs⟩ := DFA.step_of_accepts ((hL w).2 hw) hne
  refine ⟨D, hD, hred.init0, ⟨c, t, by rw [← hred.init0]; exact hs⟩, D.to_fst_lines hred.wf,
    ⟨t, c, DFA.arc_mem_fstLines.2 hs⟩, ?_, Encoder.start_of_lines hred.init0 hs n⟩
  intro s t' c' _
  rw [hred.init0]
  exact Nat.zero_le s

/-- C14 at the pattern `ab*`. -/
theorem from_regex_start_state_witness :
    (Regex.cat (.atom 97) (.star (.atom 98))).WellFormed ∧
    ∃ F, ∀ fuel, F ≤ fuel →
      ∃ D, DFA.from_regex fuel (Regex.cat (.atom 97) (.star (.atom 98))).print = .ok D ∧
        D.init = 0 ∧ (∃ c t, D.step 0 c = some t) ∧
        D.to_fst = fstText D.fstLines ∧
        (∃ t c, FstLine.arc D.init t c ∈ D.fstLines) ∧
        (∀ s t c, FstLine.arc s t c ∈ D.fstLines → D.init ≤ s) ∧
        Encoder.start ⟨Fst.ofLines D.fstLines, 3⟩ = D.init :=
  ⟨by decide, from_regex_start_state _ (by decide) 3⟩

/-- C15: for every NFA with valid transition targets and every set `S` of valid state
indices, `get_closure` returns (any fuel from `2 * pool.size()` on) a set that contains `S`,
and applied to that set it returns it unchanged. -/
theorem closure_idempotent (N : NFA) (htv : N.targetsValid) (S : List Nat) (hss : setSorted S)
    (hS : ∀ u ∈ S, u < N.pool.length) (fuel : Nat) (hf : 2 * N.pool.length ≤ fuel) :
    ∃ r, N.get_closure fuel S = .ok r ∧ (∀ x ∈ S, x ∈ r) ∧ N.get_closure fuel r = .ok r :=
  N.get_closure_idem htv S hss hS fuel hf

/-- C15 at the ε-NFA of `ab*` and the set `{1}`, whose closure is `{1, 2}`. -/
theorem closure_idempotent_witness :
    abStarNFA.targetsValid ∧ setSorted [1] ∧ (∀ u ∈ [1], u < abStarNFA.pool.length) ∧
    2 * abStarNFA.pool.length ≤ 6 ∧ abStarNFA.get_closure 6 [1] = .ok [1, 2] ∧
    ∃ r, abStarNFA.get_closure 6 [1] = .ok r ∧ (∀ x ∈ [1], x ∈ r) ∧
      abStarNFA.get_closure 6 r = .ok r :=
  ⟨by decide, by decide, by decide, by decide, rfl,
    closure_idempotent abStarNFA (by decide) [1] (by decide) (by decide) 6 (by decide)⟩

/-- C16: for every NFA with valid transition targets and every set `S` of valid state
indices, `get_closure` terminates (any fuel from `|S| + pool.size()` on) and the set it
leaves in `S` holds exactly the states reachable from a member of `S` by zero or more
byte-0 transitions. -/
theorem closure_reachable (N : NFA) (htv : N.targetsValid) (S : List Nat)
    (hS : ∀ u ∈ S, u < N.pool.length) (fuel : Nat) (hf : S.length + N.pool.length ≤ fuel) :
    ∃ r, N.get_closure fuel S = .ok r ∧ ∀ y, y ∈ r ↔ ∃ u ∈ S, N.EpsReach u y :=
  N.get_closure_reach htv S hS fuel hf

/-- C16 at the ε-NFA of `ab*` and the set `{1}`. -/
theorem closure_reachable_witness :
    abStarNFA.targetsValid ∧ (∀ u ∈ [1], u < abStarNFA.pool.length) ∧
    [1].length + abStarNFA.pool.length ≤ 4 ∧ abStarNFA.get_closure 4 [1] = .ok [1, 2] ∧
    ∃ r, abStarNFA.get_closure 4 [1] = .ok r ∧ ∀ y, y ∈ r ↔ ∃ u ∈ [1], abStarNFA.EpsReach u y :=
  ⟨by decide, by decide, by decide, rfl,
    closure_reachable abStarNFA (by decide) [1] (by decide) 4 (by decide)⟩

/-- C17 as stated fails: `emptyPoolNFA` has valid transition targets (it has no state), but
its initial set names states outside the pool, and `determinize` reads `pool[0]` of the empty
vector before any call of `DFA::insert`: it returns no result, whatever the fuel. -/
theorem determinize_dangling_init :
    emptyPoolNFA.WF ∧ emptyPoolNFA.targetsValid ∧
      ∀ fuel, emptyPoolNFA.determinize fuel = .error .abort :=
  ⟨by decide, by decide, fun _ => rfl⟩

/-- C17, amended: for every NFA whose transition targets and initial states are valid pool
indices, `determinize` returns (any fuel from the stated bound on): no assertion of
`DFA::insert` fails, and the result has at most one transition per state and byte, every
target being a valid pool index. -/
theorem determinize_safe (N : NFA) (hwf : N.WF) (htv : N.targetsValid) (hiv : N.initValid)
    (fuel : Nat) (hf : 2 ^ N.pool.length + 1 + 2 * N.pool.length ≤ fuel) :
    ∃ D, N.determinize fuel = .ok D ∧
      (∀ st ∈ D.pool, (st.trans.map Prod.fst).Nodup) ∧
      (∀ st ∈ D.pool, ∀ e ∈ st.trans, e.2 < D.pool.length) := by
  obtain ⟨st, hst, hinv⟩ := N.determinize_spec hwf htv hiv fuel hf
  refine ⟨st.dfa, hst, ?_, hinv.dfa_valid.2⟩
  intro ds hds
  exact (hinv.dfa_wf ds hds).imp (fun h => ne_of_lt h)

/-- C17 amended, at the ε-NFA of `ab*`. -/
theorem determinize_safe_witness :
    abStarNFA.WF ∧ abStarNFA.targetsValid ∧ abStarNFA.initValid ∧
      2 ^ abStarNFA.pool.length + 1 + 2 * abStarNFA.pool.length ≤ 15 ∧
      ∃ D, abStarNFA.determinize 15 = .ok D ∧
        (∀ st ∈ D.pool, (st.trans.map Prod.fst).Nodup) ∧
        (∀ st ∈ D.pool, ∀ e ∈ st.trans, e.2 < D.pool.length) :=
  ⟨by decide, by decide, by decide, by decide,
    determinize_safe abStarNFA (by decide) (by decide) (by decide) 15 (by decide)⟩

/-- C18: whatever the NFA, a DFA returned by `determinize` has no transition labelled with
byte 0 and accepts no string that contains a 0 byte; the same holds for every DFA returned by
`DFA::from_regex`; and for every pattern of the grammar in which the byte 0 stands as an atom
`DFA::from_regex` returns, with enough fuel, the DFA of the language in which each such atom
denotes the empty string, not the string `[0]`. -/
theorem determinize_no_zero (N : NFA) (fuel : Nat) (D : DFA)
    (h : N.determinize fuel = .ok D) :
    D.noZero ∧ (∀ w, (0 : Byte) ∈ w → D.accepts w = false) ∧
    (∀ (p : List Byte) (fuel1 : Nat) (D1 : DFA), DFA.from_regex fuel1 p = .ok D1 →
      D1.noZero ∧ ∀ w, (0 : Byte) ∈ w → D1.accepts w = false) ∧
    (∀ r : Regex, r.Shaped → ∃ F, ∀ fuel1, F ≤ fuel1 →
      ∃ D0, DFA.from_regex fuel1 r.print = .ok D0 ∧
        ∀ w, D0.accepts w = true ↔ w ∈ r.langNul) :=
  ⟨N.determinize_noZero h, fun w hw => DFA.noZero_rejects (N.determinize_noZero h) w _ hw,
    fun _ _ _ h1 => ⟨DFA.from_regex_noZero h1,
      fun w hw => DFA.noZero_rejects (DFA.from_regex_noZero h1) w _ hw⟩,
    DFA.from_regex_langNul⟩

/-- C18 at the ε-NFA of `ab*`; the patterns made of the byte 0 alone and of the bytes
`a`, 0, `b` give the DFAs of the empty string and of `ab`. -/
theorem determinize_no_zero_witness :
    abStarNFA.determinize 15 = .ok abStarDFA ∧
    (Regex.cat (.cat (.atom 97) (.atom 0)) (.atom 98)).Shaped ∧
    (Regex.cat (.cat (.atom 97) (.atom 0)) (.atom 98)).print = [97, 0, 98] ∧
    (∀ w, w ∈ (Regex.atom 0).langNul ↔ w = []) ∧
    DFA.from_regex 30 [0] = .ok ⟨0, [⟨true, []⟩]⟩ ∧
    DFA.from_regex 30 [97, 0, 98] =
      .ok ⟨0, [⟨false, [(97, 1)]⟩, ⟨false, [(98, 2)]⟩, ⟨true, []⟩]⟩ ∧
    (abStarDFA.noZero ∧ (∀ w, (0 : Byte) ∈ w → abStarDFA.accepts w = false) ∧
    (∀ (p : List Byte) (fuel1 : Nat) (D1 : DFA), DFA.from_regex fuel1 p = .ok D1 →
      D1.noZero ∧ ∀ w, (0 : Byte) ∈ w → D1.accepts w = false) ∧
    (∀ r : Regex, r.Shaped → ∃ F, ∀ fuel1, F ≤ fuel1 →
      ∃ D0, DFA.from_regex fuel1 r.print = .ok D0 ∧
        ∀ w, D0.accepts w = true ↔ w ∈ r.langNul)) :=
  ⟨rfl, by decide, rfl, Regex.langNul_atom_zero, rfl, rfl,
    determinize_no_zero abStarNFA 15 abStarDFA rfl⟩

/-- C19: for every pattern on which `DFA::from_regex` succeeds, the returned DFA is trim:
every state is reached from state 0, the initial state, by following transitions, and from
every state some final state is reached; so every final state is reached from the start and
no state is dead. -/
theorem from_regex_trim (p : List Byte) (fuel : Nat) (D : DFA)
    (h : DFA.from_regex fuel p = .ok D) :
    D.init = 0 ∧
    (∀ i, i < D.pool.length → ∃ x, D.run 0 x = some i) ∧
    (∀ i, i < D.pool.length → ∃ y f, D.run i y = some f ∧ D.isFinal f = true) ∧
    (∀ f, D.isFinal f = true → ∃ x, D.run 0 x = some f) := by
  have hred := DFA.from_regex_reduced h
  have hacc : ∀ i, i < D.pool.length → ∃ x, D.run 0 x = some i := by
    intro i hi
    obtain ⟨x, hx⟩ := hred.accessible i hi
    exact ⟨x, by rw [← hred.init0]; exact hx⟩
  refine ⟨hred.init0, hacc, ?_, fun f hf => hacc f (DFA.isFinal_lt_length hf)⟩
  intro i hi
  obtain ⟨y, hy⟩ := DFA.from_regex_live h i hi
  unfold DFA.acceptsFrom at hy
  cases hr : D.run i y with
  | none => rw [hr] at hy; cases hy
  | some f => rw [hr] at hy; exact ⟨y, f, hr, hy⟩

/-- C19 at the pattern `aa*`. -/
theorem from_regex_trim_witness :
    DFA.from_regex 20 [97, 97, 42] = .ok ⟨0, [⟨false, [(97, 1)]⟩, ⟨true, [(97, 1)]⟩]⟩ ∧
    ((⟨0, [⟨false, [(97, 1)]⟩, ⟨true, [(97, 1)]⟩]⟩ : DFA).init = 0 ∧
    (∀ i, i < (⟨0, [⟨false, [(97, 1)]⟩, ⟨true, [(97, 1)]⟩]⟩ : DFA).pool.length →
      ∃ x, DFA.run ⟨0, [⟨false, [(97, 1)]⟩, ⟨true, [(97, 1)]⟩]⟩ 0 x = some i) ∧
    (∀ i, i < (⟨0, [⟨false, [(97, 1)]⟩, ⟨true, [(97, 1)]⟩]⟩ : DFA).pool.length →
      ∃ y f, DFA.run ⟨0, [⟨false, [(97, 1)]⟩, ⟨true, [(97, 1)]⟩]⟩ i y = some f ∧
        DFA.isFinal ⟨0, [⟨false, [(97, 1)]⟩, ⟨true, [(97, 1)]⟩]⟩ f = true) ∧
    (∀ f, DFA.isFinal ⟨0, [⟨false, [(97, 1)]⟩, ⟨true, [(97, 1)]⟩]⟩ f = true →
      ∃ x, DFA.run ⟨0, [⟨false, [(97, 1)]⟩, ⟨true, [(97, 1)]⟩]⟩ 0 x = some f)) :=
  ⟨rfl, from_regex_trim [97, 97, 42] 20 _ rfl⟩

/-- C20: for any two patterns on which `DFA::from_regex` succeeds, if the returned DFAs accept
the same language then they are the same value (same `init`, same pool with the same final
flags and transition maps), both numbered in breadth-first discovery order with bytes
ascending, and `to_fst` returns the same text for both. -/
theorem from_regex_canonical (r1 r2 : List Byte) (fuel1 fuel2 : Nat) (D1 D2 : DFA)
    (h1 : DFA.from_regex fuel1 r1 = .ok D1) (h2 : DFA.from_regex fuel2 r2 = .ok D2)
    (hL : ∀ w, D1.accepts w = D2.accepts w) :
    D1 = D2 ∧ D1.Bfs ∧ D2.Bfs ∧ D1.to_fst = D2.to_fst := by
  have e : D1 = D2 :=
    (DFA.from_regex_reduced h1).eq_of_bfs (DFA.from_regex_reduced h2) (DFA.from_regex_live h1)
      (DFA.from_regex_live h2) (DFA.from_regex_bfs h1) (DFA.from_regex_bfs h2) hL
  exact ⟨e, DFA.from_regex_bfs h1, DFA.from_regex_bfs h2, by rw [e]⟩

/-- C20 at the patterns `a|b` and `b|a`. -/
theorem from_regex_canonical_witness :
    DFA.from_regex 20 [97, PIPE, 98] = .ok ⟨0, [⟨false, [(97, 1), (98, 1)]⟩, ⟨true, []⟩]⟩ ∧
    DFA.from_regex 20 [98, PIPE, 97] = .ok ⟨0, [⟨false, [(97, 1), (98, 1)]⟩, ⟨true, []⟩]⟩ ∧
    ((⟨0, [⟨false, [(97, 1), (98, 1)]⟩, ⟨true, []⟩]⟩ : DFA) =
        ⟨0, [⟨false, [(97, 1), (98, 1)]⟩, ⟨true, []⟩]⟩ ∧
      DFA.Bfs ⟨0, [⟨false, [(97, 1), (98, 1)]⟩, ⟨true, []⟩]⟩ ∧
      DFA.Bfs ⟨0, [⟨false, [(97, 1), (98, 1)]⟩, ⟨true, []⟩]⟩ ∧
      DFA.to_fst ⟨0, [⟨false, [(97, 1), (98, 1)]⟩, ⟨true, []⟩]⟩ =
        DFA.to_fst ⟨0, [⟨false, [(97, 1), (98, 1)]⟩, ⟨true, []⟩]⟩) :=
  ⟨rfl, rfl, from_regex_canonical [97, PIPE, 98] [98, PIPE, 97] 20 20 _ _ rfl rfl (fun _ => rfl)⟩

end Dank
